import Mathlib

/-!
# Campaign service: a shallow embedding of `internal/campaigns/service.go`

The Go code is translated function by function.  Conventions:

* `*graphql.Repository` is an address (`RepoRef`); the struct it points to is read
  from a `Heap`.  A possibly-nil pointer is an `Option RepoRef`.
* A Go `map[K]V` is an association list with pairwise different keys (`GoMap`);
  `get?` is `m[k]`, `set` is `m[k] = v`.
* `for k, v := range m` visits the entries in an unspecified order.  Every such
  loop takes its order from a `MapOrder`, and every theorem holds for all of them.
* A Go result `(value, error)` is a structure or a pair with an `Option` error.
* The libraries (`glob`, `path`, `strings`, `fmt`) and the API client are fields of `Env`, and
  every theorem holds for all of them; the answer of the API is a function of the request.
* An ordered map (`orderedmap`) is a `GoMap` read in the order of its list.
* A panic (the dereference of a nil pointer) is the result `none` of a function that returns
  an `Option`, or an outcome of its own.
* A `float64` is the rational that it stands for; a conversion or a division rounds to the
  nearest `float64` (`float64`).

Two functions of other packages are embedded as well: `toQueryConditions` of the
enterprise portal (`subscriptions.go`) and `preferUploadsWithLongestRoots` of codenav
(`root_resolver.go`).
-/

namespace Campaigns

/-! ## Go maps -/

/-- A Go map as an association list. -/
abbrev GoMap (κ : Type) (ν : Type) := List (κ × ν)

namespace GoMap

variable {κ ν : Type}

/-- The read `m[k]`, with `none` for a missing key. -/
def get? [DecidableEq κ] : GoMap κ ν → κ → Option ν
  | [], _ => none
  | (k, v) :: m, x => if k = x then some v else get? m x

/-- The write `m[k] = v`: replaces the value of an existing key, adds a new key otherwise. -/
def set [DecidableEq κ] : GoMap κ ν → κ → ν → GoMap κ ν
  | [], x, v => [(x, v)]
  | (k, w) :: m, x, v => if k = x then (k, v) :: m else (k, w) :: set m x v

/-- The keys of a map. -/
def keys (m : GoMap κ ν) : List κ := m.map Prod.fst

/-- The read `m[k][j]` in a map of maps. -/
def get2? {ι : Type} [DecidableEq κ] [DecidableEq ι] (m : GoMap κ (GoMap ι ν)) (k : κ) (j : ι) :
    Option ν :=
  (get? m k).bind (fun inner => get? inner j)

end GoMap

/-- The order in which `range` visits the entries of a map: any rearrangement of them. -/
structure MapOrder where
  /-- The visiting order for a list of entries. -/
  range : (α : Type) → List α → List α
  /-- Every entry is visited exactly once. -/
  perm : ∀ (α : Type) (l : List α), List.Perm (range α l) l

/-- Entries visited in the order in which the keys were first written. -/
def MapOrder.insertion : MapOrder where
  range := fun _ l => l
  perm := fun _ l => List.Perm.refl l

/-- Entries visited against the order in which the keys were first written. -/
def MapOrder.reversed : MapOrder where
  range := fun _ l => l.reverse
  perm := fun _ l => List.reverse_perm l

/-! ## Data model -/

/-- The address of a `graphql.Repository`. -/
abbrev RepoRef := Nat

/-- The struct `graphql.Target`. -/
structure Target where
  OID : String
  deriving DecidableEq, Repr

/-- The struct `graphql.Branch`. -/
structure Branch where
  Name : String
  Target : Target
  deriving DecidableEq, Repr

/-- Modelled from the spec: the struct `graphql.Repository`, whose declaration is in
`internal/campaigns/graphql`: "external identifier, name, default branch/commit, code-host
service type, set of matched file paths".  `ServiceType` is
`ExternalRepository.ServiceType`. -/
structure Repository where
  ID : String
  Name : String
  ServiceType : String
  DefaultBranch : Option Branch
  Commit : Target
  Branch : Branch
  FileMatches : GoMap String Bool
  deriving DecidableEq, Repr

/-- The memory holding the repositories. -/
abbrev Heap := RepoRef → Repository

/-- The struct `ExternalChangeset`. -/
structure ExternalChangeset where
  ExternalID : String
  deriving DecidableEq, Repr

/-- The fields of `ChangesetSpec` that the service reads and writes. -/
structure ChangesetSpec where
  BaseRepository : String
  HeadRepository : String
  HeadRef : String
  ExternalChangeset : Option ExternalChangeset
  deriving DecidableEq, Repr

/-! ## `ValidateChangesetSpecs` -/

/-- The struct `duplicateBranchesErr`. -/
structure duplicateBranchesErr where
  duplicates : GoMap (Option RepoRef) (GoMap String Nat)
  deriving DecidableEq, Repr

/-- The first loop of `ValidateChangesetSpecs`: `repoByID[repo.ID] = repo`. -/
def repoByID (heap : Heap) (repos : List RepoRef) : GoMap String RepoRef :=
  repos.foldl (fun m repo => GoMap.set m (heap repo).ID repo) []

/-- One iteration of the grouping loop of `ValidateChangesetSpecs`. -/
def groupSpec (m : GoMap String (GoMap String (List ChangesetSpec))) (spec : ChangesetSpec) :
    GoMap String (GoMap String (List ChangesetSpec)) :=
  if spec.ExternalChangeset.isSome then m
  else
    let m1 := if (GoMap.get? m spec.HeadRepository).isNone then GoMap.set m spec.HeadRepository [] else m
    let inner := (GoMap.get? m1 spec.HeadRepository).getD []
    GoMap.set m1 spec.HeadRepository
      (GoMap.set inner spec.HeadRef ((GoMap.get? inner spec.HeadRef).getD [] ++ [spec]))

/-- The map `byRepoAndBranch` after the grouping loop. -/
def byRepoAndBranch (specs : List ChangesetSpec) : GoMap String (GoMap String (List ChangesetSpec)) :=
  specs.foldl groupSpec []

/-- The body of the inner loop over `specsByBranch`. -/
def recordDuplicate (byID : GoMap String RepoRef) (repoID : String)
    (duplicates : GoMap (Option RepoRef) (GoMap String Nat)) (e : String × List ChangesetSpec) :
    GoMap (Option RepoRef) (GoMap String Nat) :=
  if e.2.length < 2 then duplicates
  else
    let r := GoMap.get? byID repoID
    let d1 := if (GoMap.get? duplicates r).isNone then GoMap.set duplicates r [] else duplicates
    GoMap.set d1 r (GoMap.set ((GoMap.get? d1 r).getD []) e.1 e.2.length)

/-- The two nested loops that fill `duplicates`. -/
def collectDuplicates (σ : MapOrder) (byID : GoMap String RepoRef)
    (grouped : GoMap String (GoMap String (List ChangesetSpec))) :
    GoMap (Option RepoRef) (GoMap String Nat) :=
  (σ.range _ grouped).foldl
    (fun duplicates entry => (σ.range _ entry.2).foldl (recordDuplicate byID entry.1) duplicates) []

/-- The method `Service.ValidateChangesetSpecs`; `none` is the `nil` error. -/
def ValidateChangesetSpecs (σ : MapOrder) (heap : Heap) (repos : List RepoRef)
    (specs : List ChangesetSpec) : Option duplicateBranchesErr :=
  let duplicates := collectDuplicates σ (repoByID heap repos) (byRepoAndBranch specs)
  if duplicates.length > 0 then some ⟨duplicates⟩ else none

/-- A branch spec is one whose `ExternalChangeset` is nil. -/
def isBranchSpec (repo ref : String) (s : ChangesetSpec) : Bool :=
  s.ExternalChangeset.isNone && (decide (s.HeadRepository = repo) && decide (s.HeadRef = ref))

/-- The number of branch specs with the given `(HeadRepository, HeadRef)`. -/
def branchCount (specs : List ChangesetSpec) (repo ref : String) : Nat :=
  specs.countP (isBranchSpec repo ref)

/-! ## Errors -/

/-- A Go `error` value: one made from a message (`errors.New`, `fmt.Errorf`, `errors.Errorf`,
or handed over by a collaborator), or the result of `errors.Wrapf(cause, message)`. -/
inductive Error where
  | mk (message : String)
  | wrapf (cause : Error) (message : String)
  deriving DecidableEq, Repr

/-! ## The collaborators of the service -/

/-- One aliased sub-query of the combined search request built by `findInBatch`:
`<queryID>: search(query: "file:(^|/)<fileName>$ repo:^<repoName>$ type:path count:99999")`.
The request text is a function of these three strings. -/
structure SubQuery where
  queryID : String
  fileName : String
  repoName : String
  deriving DecidableEq, Repr

/-- The combined search request of one batch. -/
abbrev Request := List SubQuery

/-- The struct `searchResult`, which embeds a `graphql.Repository`. -/
structure searchResult where
  Repository : Repository
  deriving DecidableEq, Repr

/-- The type `findDirectoriesResult`: query name to its result rows. -/
abbrev findDirectoriesResult := GoMap String (List searchResult)

/-- What `svc.client.NewQuery(q).Do(ctx, &result)` hands back: a non-nil error, or
`ok = false` with a nil error, or the decoded result. -/
inductive Response where
  | failed (err : Error)
  | notOk
  | ok (result : findDirectoriesResult)

/-- What `svc.client.NewRequest(repositoryNameQuery, vars).Do(ctx, &result)` hands back: a
non-nil error, or `ok = false` with a nil error, or the decoded `result.Repository`. -/
inductive RepositoryResponse where
  | failed (err : Error)
  | notOk
  | ok (repository : Option RepoRef)

/-- The struct `OnQueryOrRepository`. -/
structure OnQueryOrRepository where
  RepositoriesMatchingQuery : String
  Repository : String
  Branch : String
  deriving DecidableEq, Repr

/-- One element of `search.results.results` in the answer of the API to
`repositorySearchQuery`, by its `__typename`: a `FileMatch` with its `repository` and its
`file.path`, a `Repository` with its fields, or an element of another type. -/
inductive SearchRow where
  | fileMatch (repository : Repository) (path : String)
  | repository (repository : Repository)
  | other (typename : String)
  deriving DecidableEq, Repr

/-- What `svc.client.NewRequest(repositorySearchQuery, vars).Do(ctx, &result)` receives: a
non-nil error, or `ok = false` with a nil error, or the rows to decode into
`result.Search.Results.Results`. -/
inductive SearchResponse where
  | failed (err : Error)
  | notOk
  | ok (rows : List SearchRow)

/-- The surroundings of a call: the memory, the libraries and the API client. -/
structure Env where
  /-- The repositories behind the pointers. -/
  heap : Heap
  /-- The function `glob.Compile`, giving the compiled glob's `Match`. -/
  compile : String → Except Error (String → Bool)
  /-- The rendering of a string by the verb `%q`. -/
  quote : String → String
  /-- The function `path.Dir`. -/
  pathDir : String → String
  /-- The function `strings.ToLower`. -/
  toLower : String → String
  /-- The method `Repository.HasBranch`. -/
  hasBranch : Repository → Bool
  /-- The method `OnQueryOrRepository.String`. -/
  onString : OnQueryOrRepository → String
  /-- The function `strconv.FormatFloat(f, 'f', -1, bitSize)` on the bits of `f`. -/
  formatFloat : Nat → Nat → String
  /-- The answer of the API to a combined search request. -/
  search : Request → Response
  /-- The answer of the API to `repositoryNameQuery` with `name`, `queryCommit` and `rev`. -/
  repository : String → Bool → String → RepositoryResponse
  /-- The answer of the API to `repositorySearchQuery` with `query`, `queryCommit` false and
  an empty `rev`. -/
  searchRepositories : String → SearchResponse
  /-- The method `defaultQueryCountRegex.MatchString`. -/
  countRegexMatch : String → Bool
  /-- The value of `ctx.Err()` at the loop test with the given `start`. -/
  ctxErr : Nat → Option Error

/-! ## `FindDirectoriesInRepos` -/

/-- The value of `fmt.Sprintf("repo_%d", i)`. -/
def queryIDOf (i : Nat) : String := "repo_" ++ toString i

/-- The loop that fills `reposByQueryID`. -/
def reposByQueryID : List RepoRef → Nat → GoMap String RepoRef → GoMap String RepoRef
  | [], _, m => m
  | repo :: rest, i, m => reposByQueryID rest (i + 1) (GoMap.set m (queryIDOf i) repo)

/-- The loop that fills `queryIDByRepo`. -/
def queryIDByRepo : List RepoRef → Nat → GoMap RepoRef String → GoMap RepoRef String
  | [], _, m => m
  | repo :: rest, i, m => queryIDByRepo rest (i + 1) (GoMap.set m repo (queryIDOf i))

/-- The set `files` of one query result: the keys of every row's `FileMatches`. -/
def collectFiles (σ : MapOrder) (rows : List searchResult) : GoMap String Unit :=
  rows.foldl
    (fun files r => (σ.range _ r.Repository.FileMatches).foldl (fun fs e => GoMap.set fs e.1 ()) files)
    []

/-- The list `dirs` of one query result: `path.Dir` of every file. -/
def dirsOf (σ : MapOrder) (env : Env) (rows : List searchResult) : List String :=
  (σ.range _ (collectFiles σ rows)).map (fun e => env.pathDir e.1)

/-- The result of `FindDirectoriesInRepos`, with the requests it issued. -/
structure FindResult where
  results : GoMap RepoRef (List String)
  err : Option Error
  requests : List Request

/-- The loop of `findInBatch` over the decoded result. -/
def storeResults (σ : MapOrder) (env : Env) (byQueryID : GoMap String RepoRef) :
    List (String × List searchResult) → GoMap RepoRef (List String) →
    GoMap RepoRef (List String) × Option Error
  | [], results => (results, none)
  | (queryID, rows) :: rest, results =>
    match GoMap.get? byQueryID queryID with
    | none =>
      (results, some (Error.mk ("result for query " ++ env.quote queryID ++ " did not match any repository")))
    | some repo => storeResults σ env byQueryID rest (GoMap.set results repo (dirsOf σ env rows))

/-- The request that `findInBatch` builds for a batch. -/
def batchRequest (env : Env) (byRepo : GoMap RepoRef String) (fileName : String)
    (batch : List RepoRef) : Request :=
  batch.map (fun repo => ⟨(GoMap.get? byRepo repo).getD "", fileName, (env.heap repo).Name⟩)

/-- The closure `findInBatch`. -/
def findInBatch (σ : MapOrder) (env : Env) (byQueryID : GoMap String RepoRef)
    (byRepo : GoMap RepoRef String) (fileName : String) (batch : List RepoRef)
    (results : GoMap RepoRef (List String)) : GoMap RepoRef (List String) × Option Error :=
  match env.search (batchRequest env byRepo fileName batch) with
  | Response.failed err => (results, some err)
  | Response.notOk => (results, none)
  | Response.ok result => storeResults σ env byQueryID (σ.range _ result) results

/-- The constant `batchSize`. -/
def batchSize : Nat := 50

/-- The loop `for start := 0; start < len(repos); start += batchSize`.  The first argument
bounds the number of iterations; `repos.length` of them always reach the end of the loop. -/
def findBatches (σ : MapOrder) (env : Env) (byQueryID : GoMap String RepoRef)
    (byRepo : GoMap RepoRef String) (fileName : String) (repos : List RepoRef) :
    Nat → Nat → GoMap RepoRef (List String) → List Request → FindResult
  | 0, _, results, requests => ⟨results, none, requests⟩
  | fuel + 1, start, results, requests =>
    if start < repos.length then
      match env.ctxErr start with
      | some err => ⟨[], some err, requests⟩
      | none =>
        let batch := (repos.drop start).take batchSize
        let out := findInBatch σ env byQueryID byRepo fileName batch results
        let requests1 := requests ++ [batchRequest env byRepo fileName batch]
        match out.2 with
        | some err => ⟨out.1, some err, requests1⟩
        | none => findBatches σ env byQueryID byRepo fileName repos fuel (start + batchSize) out.1 requests1
    else ⟨results, none, requests⟩

/-- The method `Service.FindDirectoriesInRepos`. -/
def FindDirectoriesInRepos (σ : MapOrder) (env : Env) (fileName : String) (repos : List RepoRef) :
    FindResult :=
  findBatches σ env (reposByQueryID repos 0 []) (queryIDByRepo repos 0 []) fileName repos
    repos.length 0 [] []

/-! ## `BuildTasks` -/

/-- The struct `Step`, by the container image it names. -/
structure Step where
  Container : String
  deriving DecidableEq, Repr

/-- The struct `WorkspaceConfiguration`; `glob` is the `Match` of the compiled glob. -/
structure WorkspaceConfiguration where
  RootAtLocationOf : String
  In : String
  OnlyFetchWorkspace : Bool
  glob : String → Bool

/-- The struct `Task`.  `TransformChanges` and `Template` are pointers that are passed on. -/
structure Task where
  Repository : RepoRef
  Path : String
  Steps : List Step
  TransformChanges : Option Nat
  Template : Option Nat
  OnlyFetchWorkspace : Bool
  deriving DecidableEq, Repr

/-- The result of `BuildTasks`, with the search requests it issued. -/
structure BuildResult where
  tasks : List Task
  err : Option Error
  requests : List Request

/-- The first loop of `BuildTasks`: compile every `workspaces.in`. -/
def compileWorkspaces (env : Env) :
    List WorkspaceConfiguration → Except Error (List WorkspaceConfiguration)
  | [] => Except.ok []
  | conf :: rest =>
    match env.compile conf.In with
    | Except.error err => Except.error err
    | Except.ok g =>
      match compileWorkspaces env rest with
      | Except.error err => Except.error err
      | Except.ok confs => Except.ok ({ conf with glob := g } :: confs)

/-- The error of a repository that matches a second glob. -/
def multipleGlobsErr (env : Env) (name : String) (pattern : String) : Error :=
  Error.mk ("repository " ++ name ++
    " matches multiple workspaces.in globs in campaign spec. glob: " ++ env.quote pattern)

/-- The inner loop `for i, conf := range workspaceConfigs` for one repository, from index `i`,
on the flag `matched` and the map `reposByWorkspaceConfig`. -/
def matchConfigs (env : Env) (repo : RepoRef) :
    List WorkspaceConfiguration → Nat → Bool → GoMap Nat (List RepoRef) →
    Except Error (Bool × GoMap Nat (List RepoRef))
  | [], _, matched, byConfig => Except.ok (matched, byConfig)
  | conf :: rest, i, matched, byConfig =>
    if !conf.glob (env.heap repo).Name then matchConfigs env repo rest (i + 1) matched byConfig
    else if matched then Except.error (multipleGlobsErr env (env.heap repo).Name conf.In)
    else
      matchConfigs env repo rest (i + 1) true
        (match GoMap.get? byConfig i with
         | some rs => GoMap.set byConfig i (rs ++ [repo])
         | none => GoMap.set byConfig i [repo])

/-- The outer loop `for _, repo := range repos`, on `rootWorkspace` and
`reposByWorkspaceConfig`. -/
def assignRepos (env : Env) (confs : List WorkspaceConfiguration) :
    List RepoRef → GoMap RepoRef Unit → GoMap Nat (List RepoRef) →
    Except Error (GoMap RepoRef Unit × GoMap Nat (List RepoRef))
  | [], root, byConfig => Except.ok (root, byConfig)
  | repo :: rest, root, byConfig =>
    match matchConfigs env repo confs 0 false byConfig with
    | Except.error err => Except.error err
    | Except.ok (matched, byConfig1) =>
      assignRepos env confs rest (if !matched then GoMap.set root repo () else root) byConfig1

/-- An element of `ExternalIDs`, a value of type `interface{}`, by the cases of the type
switch: a string, a signed integer, an unsigned integer, a float (by its bits), or a value
of another type (by the name `%T` prints). -/
inductive ExternalIDValue where
  | str (s : String)
  | int (i : Int)
  | uint (n : Nat)
  | float32 (bits : Nat)
  | float64 (bits : Nat)
  | other (typeName : String)
  deriving DecidableEq, Repr

/-- The struct `ImportChangeset`. -/
structure ImportChangeset where
  Repository : String
  ExternalIDs : List ExternalIDValue
  deriving DecidableEq, Repr

/-- The struct `CampaignSpec`, by the fields the service reads. -/
structure CampaignSpec where
  On : List OnQueryOrRepository
  Workspaces : List WorkspaceConfiguration
  Steps : List Step
  TransformChanges : Option Nat
  ChangesetTemplate : Option Nat
  ImportChangesets : List ImportChangeset

/-- The loop `for _, d := range dirs` for one repository of a workspace configuration. -/
def dirTasks (spec : CampaignSpec) (conf : WorkspaceConfiguration) (root : GoMap RepoRef Unit)
    (repo : RepoRef) (dirs : List String) : List Task :=
  dirs.filterMap (fun d =>
    if d = "." then
      if (GoMap.get? root repo).isSome then none
      else some ⟨repo, "", spec.Steps, spec.TransformChanges, spec.ChangesetTemplate, conf.OnlyFetchWorkspace⟩
    else some ⟨repo, d, spec.Steps, spec.TransformChanges, spec.ChangesetTemplate, conf.OnlyFetchWorkspace⟩)

/-- The loop `for repo, dirs := range repoDirs`. -/
def repoDirsTasks (σ : MapOrder) (spec : CampaignSpec) (conf : WorkspaceConfiguration)
    (root : GoMap RepoRef Unit) (repoDirs : GoMap RepoRef (List String)) : List Task :=
  (σ.range _ repoDirs).flatMap (fun e => dirTasks spec conf root e.1 e.2)

/-- The loop `for configIndex, repos := range reposByWorkspaceConfig`.  An index outside
`workspaceConfigs` would be a run-time panic; it is reported as an error. -/
def workspaceTasks (σ : MapOrder) (env : Env) (spec : CampaignSpec)
    (confs : List WorkspaceConfiguration) (root : GoMap RepoRef Unit) :
    List (Nat × List RepoRef) → List Task → List Request → BuildResult
  | [], tasks, requests => ⟨tasks, none, requests⟩
  | (configIndex, repos) :: rest, tasks, requests =>
    match confs.get? configIndex with
    | none => ⟨[], some (Error.mk "index out of range"), requests⟩
    | some workspaceConfig =>
      let found := FindDirectoriesInRepos σ env workspaceConfig.RootAtLocationOf repos
      match found.err with
      | some err => ⟨[], some err, requests ++ found.requests⟩
      | none =>
        workspaceTasks σ env spec confs root rest
          (tasks ++ repoDirsTasks σ spec workspaceConfig root found.results)
          (requests ++ found.requests)

/-- The loop `for r := range rootWorkspace`. -/
def rootTasks (σ : MapOrder) (spec : CampaignSpec) (root : GoMap RepoRef Unit) : List Task :=
  (σ.range _ root).map (fun e =>
    ⟨e.1, "", spec.Steps, spec.TransformChanges, spec.ChangesetTemplate, false⟩)

/-- The method `Service.BuildTasks`. -/
def BuildTasks (σ : MapOrder) (env : Env) (repos : List RepoRef) (spec : CampaignSpec) :
    BuildResult :=
  match compileWorkspaces env spec.Workspaces with
  | Except.error err => ⟨[], some err, []⟩
  | Except.ok workspaceConfigs =>
    match assignRepos env workspaceConfigs repos [] [] with
    | Except.error err => ⟨[], some err, []⟩
    | Except.ok (rootWorkspace, byConfig) =>
      let built := workspaceTasks σ env spec workspaceConfigs rootWorkspace
        (σ.range _ byConfig) [] []
      match built.err with
      | some err => ⟨[], some err, built.requests⟩
      | none => ⟨built.tasks ++ rootTasks σ spec rootWorkspace, none, built.requests⟩

/-! ## `ExecuteCampaignSpec` -/

/-- The method `Service.resolveRepositoryName`. -/
def resolveRepositoryName (env : Env) (name : String) : Option RepoRef × Option Error :=
  match env.repository name false "" with
  | RepositoryResponse.failed err => (none, some err)
  | RepositoryResponse.notOk => (none, none)
  | RepositoryResponse.ok none => (none, some (Error.mk "no repository found"))
  | RepositoryResponse.ok (some repo) => (some repo, none)

/-- The struct `multierror.Error`. -/
structure MultiError where
  Errors : List Error
  deriving DecidableEq, Repr

/-- The function `multierror.Append` on a possibly-nil `*multierror.Error` and an error
that is not itself a `*multierror.Error`. -/
def multierrorAppend (errs : Option MultiError) (err : Error) : Option MultiError :=
  match errs with
  | none => some ⟨[err]⟩
  | some m => some ⟨m.Errors ++ [err]⟩

/-- The method `ErrorOrNil`. -/
def ErrorOrNil : Option MultiError → Option MultiError
  | none => none
  | some m => if m.Errors.length = 0 then none else some m

/-- The `error` that `ExecuteCampaignSpec` returns: a single error or the aggregate. -/
inductive ExecError where
  | single (err : Error)
  | aggregate (errs : MultiError)
  deriving DecidableEq, Repr

/-- What a call of `ExecuteCampaignSpec` ends in: the three results, or a run-time panic. -/
inductive ExecOutcome where
  | returned (specs : List ChangesetSpec) (logFiles : List String) (err : Option ExecError)
  | panicked
  deriving DecidableEq, Repr

/-- How a loop iteration ends: go on with a new state, return an error, or panic. -/
inductive Flow (α : Type) where
  | next (state : α)
  | abort (err : Error)
  | panic

/-- The type switch on an external ID. -/
def externalIDString (env : Env) : ExternalIDValue → Except Error String
  | ExternalIDValue.str tid => Except.ok tid
  | ExternalIDValue.int i => Except.ok (toString i)
  | ExternalIDValue.uint n => Except.ok (toString n)
  | ExternalIDValue.float32 bits => Except.ok (env.formatFloat 32 bits)
  | ExternalIDValue.float64 bits => Except.ok (env.formatFloat 64 bits)
  | ExternalIDValue.other typeName =>
    Except.error (Error.mk ("cannot convert value of type " ++ typeName ++
      " into a valid external ID: expected string or int"))

/-- The external changeset spec built for an ID. -/
def externalSpec (env : Env) (repo : RepoRef) (sid : String) : ChangesetSpec :=
  ⟨(env.heap repo).ID, "", "", some ⟨sid⟩⟩

/-- The loop `for _, id := range ic.ExternalIDs`; `repo` is nil when it is `none`, and is
dereferenced when a spec is built. -/
def appendExternalIDs (env : Env) (repo : Option RepoRef) :
    List ExternalIDValue → List ChangesetSpec → Flow (List ChangesetSpec)
  | [], specs => Flow.next specs
  | id :: rest, specs =>
    match externalIDString env id with
    | Except.error err => Flow.abort err
    | Except.ok sid =>
      match repo with
      | none => Flow.panic
      | some r => appendExternalIDs env repo rest (specs ++ [externalSpec env r sid])

/-- The body of the loop `for _, ic := range spec.ImportChangesets`, on `specs` and `errs`. -/
def importChangeset (env : Env) (skipErrors : Bool) (ic : ImportChangeset)
    (state : List ChangesetSpec × Option MultiError) :
    Flow (List ChangesetSpec × Option MultiError) :=
  match resolveRepositoryName env ic.Repository with
  | (_, some err) =>
    let wrapped := Error.wrapf err ("resolving repository name " ++ env.quote ic.Repository)
    if skipErrors then Flow.next (state.1, multierrorAppend state.2 wrapped)
    else Flow.abort wrapped
  | (repo, none) =>
    match appendExternalIDs env repo ic.ExternalIDs state.1 with
    | Flow.next specs => Flow.next (specs, state.2)
    | Flow.abort err => Flow.abort err
    | Flow.panic => Flow.panic

/-- The loop `for _, ic := range spec.ImportChangesets`. -/
def importChangesets (env : Env) (skipErrors : Bool) :
    List ImportChangeset → List ChangesetSpec × Option MultiError →
    Flow (List ChangesetSpec × Option MultiError)
  | [], state => Flow.next state
  | ic :: rest, state =>
    match importChangeset env skipErrors ic state with
    | Flow.next state1 => importChangesets env skipErrors rest state1
    | Flow.abort err => Flow.abort err
    | Flow.panic => Flow.panic

/-- The executor after `Start`: what `x.Wait(ctx)` and `x.LogFiles()` return. -/
structure Executor where
  waitSpecs : List ChangesetSpec
  waitErr : Option Error
  logFiles : List String

/-- The method `Service.ExecuteCampaignSpec`, from `x.Wait(ctx)` on. -/
def ExecuteCampaignSpec (env : Env) (x : Executor) (spec : CampaignSpec) (skipErrors : Bool) :
    ExecOutcome :=
  let afterWait : Except Error (Option MultiError) :=
    match x.waitErr with
    | some err => if skipErrors then Except.ok (multierrorAppend none err) else Except.error err
    | none => Except.ok none
  match afterWait with
  | Except.error err => ExecOutcome.returned [] [] (some (ExecError.single err))
  | Except.ok errs =>
    match importChangesets env skipErrors spec.ImportChangesets (x.waitSpecs, errs) with
    | Flow.abort err => ExecOutcome.returned [] [] (some (ExecError.single err))
    | Flow.panic => ExecOutcome.panicked
    | Flow.next (specs, errs1) =>
      ExecOutcome.returned specs x.logFiles ((ErrorOrNil errs1).map ExecError.aggregate)

/-! ## `ResolveRepositories` -/

/-- Modelled from the spec: the type `UnsupportedRepoSet`, declared outside this file: the
'aggregate (non-fatal) "unsupported repositories" result', a set of repositories with
`appendRepo`, `includes` and `hasUnsupported`. -/
abbrev UnsupportedRepoSet := GoMap RepoRef Unit

/-- The method `appendRepo`. -/
def UnsupportedRepoSet.appendRepo (e : UnsupportedRepoSet) (repo : RepoRef) : UnsupportedRepoSet :=
  GoMap.set e repo ()

/-- The method `includes`. -/
def UnsupportedRepoSet.includes (e : UnsupportedRepoSet) (repo : RepoRef) : Bool :=
  (GoMap.get? e repo).isSome

/-- The method `hasUnsupported`. -/
def UnsupportedRepoSet.hasUnsupported (e : UnsupportedRepoSet) : Bool :=
  decide (e.length > 0)

/-- The `error` that `ResolveRepositories` returns. -/
inductive ResolveError where
  | resolving (err : Error)
  | unsupported (set : UnsupportedRepoSet)
  deriving DecidableEq, Repr

/-- The variables of `ResolveRepositories`, and the memory. -/
structure ResolveState where
  seen : GoMap String RepoRef
  unsupported : UnsupportedRepoSet
  heap : Heap

/-- The cases `"github", "gitlab", "bitbucketserver"` of the switch on the service type. -/
def supportedServiceType (env : Env) (serviceType : String) : Bool :=
  let st := env.toLower serviceType
  decide (st = "github") || (decide (st = "gitlab") || decide (st = "bitbucketserver"))

/-- The body of the loop `for _, repo := range repos` of `ResolveRepositories`. -/
def seeRepo (env : Env) (allowUnsupported : Bool) (st : ResolveState) (repo : RepoRef) :
    ResolveState :=
  if !env.hasBranch (st.heap repo) then st
  else
    match GoMap.get? st.seen (st.heap repo).ID with
    | none =>
      { seen := GoMap.set st.seen (st.heap repo).ID repo
        unsupported :=
          if supportedServiceType env (st.heap repo).ServiceType then st.unsupported
          else if !allowUnsupported then st.unsupported.appendRepo repo
          else st.unsupported
        heap := st.heap }
    | some other =>
      { st with
        heap := Function.update st.heap other
          { st.heap other with Commit := (st.heap repo).Commit, Branch := (st.heap repo).Branch } }

/-- The result of `ResolveRepositories`, with the memory it leaves. -/
structure ResolveResult where
  repos : List RepoRef
  err : Option ResolveError
  heap : Heap

/-! ## Concrete surroundings, for evaluating the definitions -/

/-- The match relation of a glob made of literal characters and `*`, where `*` stands for
any run of characters. -/
def starMatch : List Char → List Char → Bool
  | [], s => s.isEmpty
  | c :: p, s =>
    if c = '*' then s.tails.any (fun t => starMatch p t)
    else
      match s with
      | [] => false
      | d :: t => decide (c = d) && starMatch p t

/-- The directory of a clean relative path: what precedes its last `/`, and `.` when it has
none (on such paths this is `path.Dir`). -/
def simpleDir (f : String) : String :=
  match (f.toList.reverse.dropWhile (fun c => !decide (c = '/'))) with
  | [] => "."
  | _ :: rest => String.mk rest.reverse

/-- A repository with the given ID, name and service type, on the branch `main`. -/
def mkRepository (id name serviceType : String) : Repository :=
  ⟨id, name, serviceType, none, ⟨"c0ffee"⟩, ⟨"main", ⟨"c0ffee"⟩⟩, []⟩

/-- A word character of a regular expression: an ASCII letter, a digit or `_`. -/
def isWordChar (c : Char) : Bool := c.isAlphanum || decide (c = '_')

/-- Whether the text begins with `count:`, one or more digits and then a word boundary. -/
def countAtStart (s : List Char) : Bool :=
  "count:".toList.isPrefixOf s &&
    (!((s.drop 6).takeWhile Char.isDigit).isEmpty &&
      match (s.drop 6).dropWhile Char.isDigit with
      | [] => true
      | c :: _ => !isWordChar c)

/-- Whether the regular expression `\bcount:\d+\b` matches somewhere in the text; `prev`
tells whether the character before the text is a word character. -/
def countMatch : Bool → List Char → Bool
  | _, [] => false
  | prev, c :: s => (!prev && countAtStart (c :: s)) || countMatch (isWordChar c) s

/-- Surroundings in which the memory is given, globs are made of literal characters and `*`,
`%q` puts its argument between double quotes (as Go does for text without quotes,
backslashes and unprintable characters), paths are clean and relative, letters are lowered
as in ASCII, a repository has a branch when its commit is known, the count of a query is
found by `countMatch`, and the API answers with empty results. -/
def Env.basic (heap : Heap) : Env where
  heap := heap
  compile := fun pattern => Except.ok (fun name => starMatch pattern.toList name.toList)
  quote := fun s => "\"" ++ s ++ "\""
  pathDir := simpleDir
  toLower := fun s => String.mk (s.toList.map Char.toLower)
  hasBranch := fun r => !decide (r.Commit.OID = "")
  onString := fun decl => decl.Repository
  formatFloat := fun _ _ => ""
  search := fun _ => Response.ok []
  repository := fun _ _ _ => RepositoryResponse.ok none
  searchRepositories := fun _ => SearchResponse.ok []
  countRegexMatch := fun query => countMatch false query.toList
  ctxErr := fun _ => none

/-! ## Predicates used in the statements -/

/-- Both levels of a map of maps have pairwise different keys. -/
def NodupKeys2 {κ ι ν : Type} (m : GoMap κ (GoMap ι ν)) : Prop :=
  (GoMap.keys m).Nodup ∧ ∀ e ∈ m, (GoMap.keys e.2).Nodup

/-- The groups in the order in which the two nested loops visit them. -/
def visitedGroups (σ : MapOrder) (grouped : GoMap String (GoMap String (List ChangesetSpec))) :
    List (String × String × List ChangesetSpec) :=
  (σ.range _ grouped).flatMap (fun entry => (σ.range _ entry.2).map (fun e => (entry.1, e)))

/-- Whether the glob of the configuration with index `q` matches `name`, the list `confs`
holding the configurations from index `i` on. -/
def matchesAt (name : String) (confs : List WorkspaceConfiguration) (i q : Nat) : Bool :=
  decide (i ≤ q) && ((confs.get? (q - i)).map (fun c => c.glob name)).getD false

/-- The number of configurations whose glob matches `name`. -/
def matchCount (confs : List WorkspaceConfiguration) (name : String) : Nat :=
  confs.countP (fun c => c.glob name)

/-- The repositories of `repos` that the glob of configuration `q` matches. -/
def matchedRepos (env : Env) (confs : List WorkspaceConfiguration) (repos : List RepoRef)
    (q : Nat) : List RepoRef :=
  repos.filter (fun p => matchesAt (env.heap p).Name confs 0 q)

/-- The workspace configurations with their compiled globs, as the first loop of `BuildTasks`
leaves them in `workspaceConfigs`; a pattern that does not compile matches nothing. -/
def compiledWorkspaces (env : Env) (ws : List WorkspaceConfiguration) :
    List WorkspaceConfiguration :=
  ws.map (fun w =>
    { w with
      glob :=
        match env.compile w.In with
        | Except.ok g => g
        | Except.error _ => fun _ => false })

/-- Whether `part` occurs in `text` as a run of consecutive characters. -/
def containsText (text part : String) : Bool :=
  text.toList.tails.any (fun t => part.toList.isPrefixOf t)

/-- A memory with the repositories `ab` (at 1), `cd` (at 2), and `zz` everywhere else. -/
def heapAbCd : Heap := fun r =>
  if r = 1 then mkRepository "X" "ab" "github"
  else if r = 2 then mkRepository "Y" "cd" "gitlab"
  else mkRepository "Z" "zz" "github"

/-- A campaign spec with the workspace globs `a*`, `*b`, `c*` and `*d`. -/
def specFourGlobs : CampaignSpec :=
  ⟨[], [⟨"f", "a*", false, fun _ => false⟩, ⟨"f", "*b", false, fun _ => false⟩,
      ⟨"f", "c*", false, fun _ => false⟩, ⟨"g", "*d", true, fun _ => false⟩], [], none, none, []⟩

/-- The keys of `results` stay pairwise different and come from `byQueryID`. -/
def ResultsWithin (known : List RepoRef) (results : GoMap RepoRef (List String)) : Prop :=
  (GoMap.keys results).Nodup ∧ ∀ p ∈ GoMap.keys results, p ∈ known

/-- The tasks that the loop over `reposByWorkspaceConfig` appends for one entry. -/
def entryTasks (σ : MapOrder) (env : Env) (spec : CampaignSpec)
    (confs : List WorkspaceConfiguration) (root : GoMap RepoRef Unit)
    (e : Nat × List RepoRef) : List Task :=
  match confs.get? e.1 with
  | none => []
  | some conf =>
    repoDirsTasks σ spec conf root (FindDirectoriesInRepos σ env conf.RootAtLocationOf e.2).results

/-- A campaign spec with the single workspace glob `a*`, rooted at the location of `f`. -/
def specOneGlob : CampaignSpec :=
  ⟨[], [⟨"f", "a*", false, fun _ => false⟩], [], none, none, []⟩

/-- Surroundings over `heapAbCd` in which the search for the first repository of a request
finds the file `f` in the directories `x` and `y`. -/
def envTwoDirs : Env :=
  { Env.basic heapAbCd with
    search := fun _ =>
      Response.ok
        [("repo_0",
          [⟨{ mkRepository "X" "ab" "github" with FileMatches := [("x/f", true)] }⟩,
            ⟨{ mkRepository "X" "ab" "github" with FileMatches := [("y/f", true)] }⟩])] }

/-- The number of directories that the search of configuration `q` returned, over all
repositories. -/
def discoveredCount (σ : MapOrder) (env : Env) (confs : List WorkspaceConfiguration)
    (repos : List RepoRef) (q : Nat) : Nat :=
  match confs.get? q with
  | none => 0
  | some conf =>
    ((FindDirectoriesInRepos σ env conf.RootAtLocationOf
      (matchedRepos env confs repos q)).results.map (fun e => e.2.length)).sum

/-- The external changeset spec that the import loop builds for an ID, when the repository
is not nil and the type switch converts the ID. -/
def externalSpecFor (env : Env) (repo : Option RepoRef) (id : ExternalIDValue) :
    Option ChangesetSpec :=
  match repo, externalIDString env id with
  | some r, Except.ok sid => some (externalSpec env r sid)
  | _, _ => none

/-- The external changeset specs that the import loop appends for one entry: none when the
repository does not resolve, else one for every ID that the type switch converts. -/
def importedSpecs (env : Env) (ic : ImportChangeset) : List ChangesetSpec :=
  match (resolveRepositoryName env ic.Repository).2 with
  | some _ => []
  | none =>
    ic.ExternalIDs.filterMap (externalSpecFor env (resolveRepositoryName env ic.Repository).1)

/-- An import entry that does not end the call when errors are skipped: its repository
fails to resolve with an error, or every ID is of a type that the type switch converts and
the repository is not nil when there is an ID. -/
def importable (env : Env) (ic : ImportChangeset) : Bool :=
  (resolveRepositoryName env ic.Repository).2.isSome ||
    (ic.ExternalIDs.all (fun id => (externalIDString env id).toBool) &&
      ((resolveRepositoryName env ic.Repository).1.isSome || ic.ExternalIDs.isEmpty))

/-- The text of an external ID that is a string or an integer: the string itself, or the
integer in base 10. -/
def plainExternalID : ExternalIDValue → Option String
  | ExternalIDValue.str s => some s
  | ExternalIDValue.int i => some (toString i)
  | ExternalIDValue.uint n => some (toString n)
  | _ => none

/-- Surroundings over `heapAbCd` in which every repository name resolves to the repository
at address 2. -/
def envResolving : Env :=
  { Env.basic heapAbCd with repository := fun _ _ _ => RepositoryResponse.ok (some 2) }

/-- The errors collected so far. -/
def collected (errs : Option MultiError) : List Error :=
  match errs with
  | none => []
  | some m => m.Errors

/-- The first repository of `repos` that has a branch and the given ID. -/
def firstSeen (env : Env) (repos : List RepoRef) (id : String) : Option RepoRef :=
  repos.find? (fun p => env.hasBranch (env.heap p) && decide ((env.heap p).ID = id))

/-- What holds of the variables of `ResolveRepositories` once the loop has processed the
repositories `done`: `seen` maps an ID to the first repository with a branch and that ID,
`unsupported` holds the seen repositories of an unsupported type when these are not
allowed, only repositories in `seen` have been written to, and no ID or service type has
changed. -/
def ResolveInv (env : Env) (allowUnsupported : Bool) (done : List RepoRef)
    (st : ResolveState) : Prop :=
  (∀ id, GoMap.get? st.seen id = firstSeen env done id) ∧
    (∀ p, p ∈ GoMap.keys st.unsupported ↔
      (allowUnsupported = false ∧ supportedServiceType env (env.heap p).ServiceType = false ∧
        GoMap.get? st.seen (env.heap p).ID = some p)) ∧
    (∀ p, (p ∉ done ∨ env.hasBranch (env.heap p) = false) → st.heap p = env.heap p) ∧
    (∀ p, (st.heap p).ID = (env.heap p).ID ∧ (st.heap p).ServiceType = (env.heap p).ServiceType) ∧
    (GoMap.keys st.seen).Nodup ∧ (GoMap.keys st.unsupported).Nodup

/-- A memory with a repository on `GitHub` (at 1, ID X), one on `svn` (at 2, ID Y), a second
object for the repository X (at 3) and repositories on `gitlab` at the other addresses. -/
def heapHosts : Heap := fun r =>
  if r = 1 then mkRepository "X" "ab" "GitHub"
  else if r = 2 then mkRepository "Y" "cd" "svn"
  else if r = 3 then mkRepository "X" "ab" "GitHub"
  else mkRepository "Z" "zz" "gitlab"

/-- The last repository of `repos` that has a branch and the given ID. -/
def lastSeen (env : Env) (repos : List RepoRef) (id : String) : Option RepoRef :=
  firstSeen env repos.reverse id

/-- How the objects stand once the loop has processed the pairwise different repositories
`done`: the first repository with a branch and a given ID carries the `Commit` and `Branch`
of the last such repository, and every other object is as it was resolved. -/
def ResolveHeapInv (env : Env) (done : List RepoRef) (st : ResolveState) : Prop :=
  ∀ p, st.heap p =
    if firstSeen env done (env.heap p).ID = some p then
      match lastSeen env done (env.heap p).ID with
      | some q => { env.heap p with Commit := (env.heap q).Commit, Branch := (env.heap q).Branch }
      | none => env.heap p
    else env.heap p

/-- No default branch has changed, and every repository in `seen` has a branch. -/
def BranchInv (env : Env) (st : ResolveState) : Prop :=
  (∀ p, (st.heap p).DefaultBranch = (env.heap p).DefaultBranch) ∧
    ∀ id a, GoMap.get? st.seen id = some a → env.hasBranch (st.heap a) = true

/-- A memory in which the repository X is resolved three times: with the commit `c0ffee` on
`main` (at 1), without a branch (at 2) and with the commit `beef` on `dev` (at 3); the
repository Z is at the other addresses. -/
def heapBranches : Heap := fun r =>
  if r = 1 then mkRepository "X" "ab" "github"
  else if r = 2 then { mkRepository "X" "ab" "github" with Commit := ⟨""⟩, Branch := ⟨"", ⟨""⟩⟩ }
  else if r = 3 then
    { mkRepository "X" "ab" "github" with Commit := ⟨"beef"⟩, Branch := ⟨"dev", ⟨"beef"⟩⟩ }
  else mkRepository "Z" "zz" "gitlab"

/-- A campaign spec with the workspace globs `a*` and `*b`. -/
def specTwoGlobs : CampaignSpec :=
  ⟨[], [⟨"f", "a*", false, fun _ => false⟩, ⟨"f", "*b", false, fun _ => false⟩], [], none,
    none, []⟩

/-! ## `duplicateBranchesErr.Error` -/

/-- The characters that follow `pre` in `s`, when `s` begins with `pre`. -/
def stripChars : List Char → List Char → Option (List Char)
  | [], s => some s
  | _ :: _, [] => none
  | c :: pre, d :: s => if c = d then stripChars pre s else none

/-- The function `strings.TrimPrefix`. -/
def TrimPrefix (s pre : String) : String :=
  match stripChars pre.toList s.toList with
  | some rest => String.mk rest
  | none => s

/-- The text that `fmt.Fprintf(&out, "\t* %s: %d changeset specs have the branch %q\n",
repo.Name, duplicates, branch)` writes, `branch` being already trimmed. -/
def duplicateLine (env : Env) (name : String) (duplicates : Nat) (branch : String) : String :=
  "\t* " ++ name ++ ": " ++ toString duplicates ++ " changeset specs have the branch " ++
    env.quote branch ++ "\n"

/-- The loop `for branch, duplicates := range branches` of `Error`, appending to `out`;
`none` stands for the panic of `repo.Name` when `repo` is nil. -/
def writeBranches (env : Env) (repo : Option RepoRef) :
    List (String × Nat) → String → Option String
  | [], out => some out
  | (branch, duplicates) :: rest, out =>
    match repo with
    | none => none
    | some r =>
      writeBranches env repo rest
        (out ++ duplicateLine env (env.heap r).Name duplicates (TrimPrefix branch "refs/heads/"))

/-- The loop `for repo, branches := range e.duplicates` of `Error`, appending to `out`. -/
def writeDuplicates (σ : MapOrder) (env : Env) :
    List (Option RepoRef × GoMap String Nat) → String → Option String
  | [], out => some out
  | (repo, branches) :: rest, out =>
    match writeBranches env repo (σ.range _ branches) out with
    | none => none
    | some out1 => writeDuplicates σ env rest out1

/-- The method `duplicateBranchesErr.Error`; `none` stands for a panic. -/
def duplicateBranchesErr.Error (σ : MapOrder) (env : Env) (e : duplicateBranchesErr) :
    Option String :=
  match writeDuplicates σ env (σ.range _ e.duplicates)
      "Multiple changeset specs have the same branch:\n\n" with
  | none => none
  | some out =>
    some (out ++ "\nMake sure that the changesetTemplate.branch field in the campaign spec produces unique values for each changeset in a single repository and rerun this command.")

/-! ## `ResolveRepositoriesOn` and the functions it calls -/

/-- The method `Service.resolveRepositoryNameAndBranch`: the repository and the error that it
returns, and the memory that it leaves. -/
def resolveRepositoryNameAndBranch (env : Env) (name branch : String) :
    Option RepoRef × Option Error × Heap :=
  match env.repository name true branch with
  | RepositoryResponse.failed err => (none, some err, env.heap)
  | RepositoryResponse.notOk => (none, none, env.heap)
  | RepositoryResponse.ok none => (none, some (Error.mk "no repository found"), env.heap)
  | RepositoryResponse.ok (some repo) =>
    if (env.heap repo).Commit.OID = "" then
      (none,
        some (Error.mk
          ("no branch matching " ++ env.quote branch ++ " found for repository " ++ name)),
        env.heap)
    else
      (some repo, none,
        Function.update env.heap repo
          { env.heap repo with Branch := ⟨branch, (env.heap repo).Commit⟩ })

/-- The constant `hardCodedCount`. -/
def hardCodedCount : String := " count:999999"

/-- The function `setDefaultQueryCount`. -/
def setDefaultQueryCount (env : Env) (query : String) : String :=
  if env.countRegexMatch query then query else query ++ hardCodedCount

/-- The method `searchResult.UnmarshalJSON`, on the well-formed JSON of a row. -/
def searchResult.UnmarshalJSON (env : Env) : SearchRow → Except Error searchResult
  | SearchRow.fileMatch repository path =>
    Except.ok ⟨{ repository with FileMatches := [(path, true)] }⟩
  | SearchRow.repository repository => Except.ok ⟨{ repository with FileMatches := [] }⟩
  | SearchRow.other typename =>
    Except.error (Error.mk ("unknown GraphQL type " ++ env.quote typename))

/-- The decoding of the rows into `result.Search.Results.Results`, every row by
`UnmarshalJSON`; the first error ends it. -/
def decodeRows (env : Env) : List SearchRow → Except Error (List searchResult)
  | [] => Except.ok []
  | row :: rest =>
    match searchResult.UnmarshalJSON env row with
    | Except.error err => Except.error err
    | Except.ok r =>
      match decodeRows env rest with
      | Except.error err => Except.error err
      | Except.ok rs => Except.ok (r :: rs)

/-- The variables of `resolveRepositorySearch`: `repos` by the objects that its pointers
point to, and `ids`, in which the pointer to an object is the index of the object in
`repos`. -/
structure SearchState where
  ids : GoMap String Nat
  repos : List Repository

/-- The loop `for file := range r.FileMatches` with the body
`existing.FileMatches[file] = true`. -/
def addFiles (σ : MapOrder) (files existing : GoMap String Bool) : GoMap String Bool :=
  (σ.range _ files).foldl (fun m e => GoMap.set m e.1 true) existing

/-- The body of the loop `for _, r := range result.Search.Results.Results`. -/
def addRow (σ : MapOrder) (st : SearchState) (r : searchResult) : SearchState :=
  match GoMap.get? st.ids r.Repository.ID with
  | none => ⟨GoMap.set st.ids r.Repository.ID st.repos.length, st.repos ++ [r.Repository]⟩
  | some existing =>
    ⟨st.ids,
      List.modify
        (fun repo =>
          { repo with FileMatches := addFiles σ r.Repository.FileMatches repo.FileMatches })
        existing st.repos⟩

/-- The method `Service.resolveRepositorySearch`: the objects that the returned pointers
point to, and the error.  A row that `UnmarshalJSON` rejects makes `Do` return the error. -/
def resolveRepositorySearch (σ : MapOrder) (env : Env) (query : String) :
    List Repository × Option Error :=
  match env.searchRepositories (setDefaultQueryCount env query) with
  | SearchResponse.failed err => ([], some err)
  | SearchResponse.notOk => ([], none)
  | SearchResponse.ok rows =>
    match decodeRows env rows with
    | Except.error err => ([], some err)
    | Except.ok results => ((results.foldl (addRow σ) ⟨[], []⟩).repos, none)

/-- A request to the API: `repositoryNameQuery` or `repositorySearchQuery` with its
variables. -/
inductive ApiRequest where
  | repositoryName (name : String) (queryCommit : Bool) (rev : String)
  | repositorySearch (query : String) (queryCommit : Bool) (rev : String)
  deriving DecidableEq, Repr

/-- The variable `ErrMalformedOnQueryOrRepository`. -/
def ErrMalformedOnQueryOrRepository : Error :=
  Error.mk "malformed 'on' field; missing either a repository name or a query"

/-- What `ResolveRepositoriesOn` returns: the repositories by the objects that the returned
pointers point to (`none` for a nil pointer) and the error; with the memory that the call
leaves and the requests that it issued. -/
structure ResolveOnResult where
  repos : List (Option Repository)
  err : Option Error
  heap : Heap
  requests : List ApiRequest

/-- The method `Service.ResolveRepositoriesOn`.  Each of the three functions that it calls
issues one request, `svc.client.NewRequest(query, vars).Do(ctx, &result)`. -/
def ResolveRepositoriesOn (σ : MapOrder) (env : Env) (decl : OnQueryOrRepository) :
    ResolveOnResult :=
  if decl.RepositoriesMatchingQuery ≠ "" then
    ⟨(resolveRepositorySearch σ env decl.RepositoriesMatchingQuery).1.map some,
      (resolveRepositorySearch σ env decl.RepositoriesMatchingQuery).2, env.heap,
      [ApiRequest.repositorySearch (setDefaultQueryCount env decl.RepositoriesMatchingQuery)
        false ""]⟩
  else if decl.Repository ≠ "" ∧ decl.Branch ≠ "" then
    match resolveRepositoryNameAndBranch env decl.Repository decl.Branch with
    | (_, some err, heap) =>
      ⟨[], some err, heap, [ApiRequest.repositoryName decl.Repository true decl.Branch]⟩
    | (repo, none, heap) =>
      ⟨[repo.map heap], none, heap, [ApiRequest.repositoryName decl.Repository true decl.Branch]⟩
  else if decl.Repository ≠ "" then
    match resolveRepositoryName env decl.Repository with
    | (_, some err) =>
      ⟨[], some err, env.heap, [ApiRequest.repositoryName decl.Repository false ""]⟩
    | (repo, none) =>
      ⟨[repo.map env.heap], none, env.heap, [ApiRequest.repositoryName decl.Repository false ""]⟩
  else ⟨[], some ErrMalformedOnQueryOrRepository, env.heap, []⟩

/-- Surroundings over `heapBranches` in which every repository name resolves to the
repository at address 2, which has no commit. -/
def envNoCommit : Env :=
  { Env.basic heapBranches with repository := fun _ _ _ => RepositoryResponse.ok (some 2) }

/-- Surroundings over `heapAbCd` in which every search finds the repository `ab`, first by
a file match on `x/f`, then as a repository, then by a file match on `y/f`, and the
repository `cd` once. -/
def envSearching : Env :=
  { Env.basic heapAbCd with
    searchRepositories := fun _ =>
      SearchResponse.ok
        [SearchRow.fileMatch (mkRepository "X" "ab" "github") "x/f",
          SearchRow.repository (mkRepository "Y" "cd" "gitlab"),
          SearchRow.repository (mkRepository "X" "ab" "github"),
          SearchRow.fileMatch (mkRepository "X" "ab" "github") "y/f"] }

/-- The elements of a list without repetitions, in the order of their first occurrence. -/
def firstOccurrences : List String → List String
  | [] => []
  | x :: xs => x :: (firstOccurrences xs).filter (fun y => !decide (y = x))

/-- The ID of the repository of a row. -/
def SearchRow.ID : SearchRow → String
  | SearchRow.fileMatch r _ => r.ID
  | SearchRow.repository r => r.ID
  | SearchRow.other _ => ""

/-- What holds of the variables of `resolveRepositorySearch` once the loop has processed the
rows `done`: the objects are one for every ID, in the order in which the IDs first occur,
`ids` maps an ID to the object with that ID, and the `FileMatches` of an object holds,
with the value true, the files of the rows with its ID. -/
def SearchInv (done : List searchResult) (st : SearchState) : Prop :=
  st.repos.map (fun repo => repo.ID) =
      firstOccurrences (done.map (fun r => r.Repository.ID)) ∧
    (∀ id i, GoMap.get? st.ids id = some i →
      ∃ repo, st.repos.get? i = some repo ∧ repo.ID = id) ∧
    (∀ id, GoMap.get? st.ids id = none → id ∉ done.map (fun r => r.Repository.ID)) ∧
    (∀ repo ∈ st.repos, ∀ f, f ∈ GoMap.keys repo.FileMatches ↔
      ∃ r ∈ done, r.Repository.ID = repo.ID ∧ f ∈ GoMap.keys r.Repository.FileMatches) ∧
    (∀ repo ∈ st.repos, ∀ e ∈ repo.FileMatches, e.2 = true)

/-- Two result maps hold the same repositories, each with the same directories up to their
order. -/
def SameDirs (r1 r2 : GoMap RepoRef (List String)) : Prop :=
  ∀ p, (GoMap.get? r1 p = none ∧ GoMap.get? r2 p = none) ∨
    ∃ d1 d2, GoMap.get? r1 p = some d1 ∧ GoMap.get? r2 p = some d2 ∧ d1.Perm d2

/-- A campaign spec with the workspace glob `a*`, rooted at the location of `f`, and the
workspace glob `c*`, rooted at the location of `g`. -/
def specTwoRoots : CampaignSpec :=
  ⟨[], [⟨"f", "a*", false, fun _ => false⟩, ⟨"g", "c*", false, fun _ => false⟩], [], none,
    none, []⟩

/-- Surroundings over `heapAbCd` in which the API fails every search with an error that
names the file searched for. -/
def envSearchFails : Env :=
  { Env.basic heapAbCd with
    search := fun request =>
      Response.failed
        (Error.mk ("search failed: " ++ ((request.head?).map (fun q => q.fileName)).getD "")) }

/-- Surroundings over `heapAbCd` in which the search for the first repository of a request
finds the file `f` in the root of the repository. -/
def envRootFile : Env :=
  { Env.basic heapAbCd with
    search := fun _ =>
      Response.ok
        [("repo_0", [⟨{ mkRepository "X" "ab" "github" with FileMatches := [("f", true)] }⟩])] }

/-! ## `toQueryConditions` (enterprise portal, `subscriptions.go`) -/

/-- A value stored in `pgx.NamedArgs`: a list of strings or an integer. -/
inductive NamedArg where
  | strings (values : List String)
  | int (value : Int)
  deriving DecidableEq, Repr

/-- The struct `ListEnterpriseSubscriptionsOptions`. -/
structure ListEnterpriseSubscriptionsOptions where
  IDs : List String
  InstanceDomains : List String
  IsArchived : Bool
  PageSize : Int
  deriving DecidableEq, Repr

/-- The method `ListEnterpriseSubscriptionsOptions.toQueryConditions`: the results `where`,
`limit` and the named arguments. -/
def ListEnterpriseSubscriptionsOptions.toQueryConditions
    (opts : ListEnterpriseSubscriptionsOptions) : String × String × GoMap String NamedArg :=
  let whereConds := ["TRUE"]
  let namedArgs : GoMap String NamedArg := []
  let (whereConds, namedArgs) :=
    if opts.IDs.length > 0 then
      (whereConds ++ ["id = ANY(@ids)"], GoMap.set namedArgs "ids" (NamedArg.strings opts.IDs))
    else (whereConds, namedArgs)
  let (whereConds, namedArgs) :=
    if opts.InstanceDomains.length > 0 then
      (whereConds ++ ["instance_domain = ANY(@instanceDomains)"],
        GoMap.set namedArgs "instanceDomains" (NamedArg.strings opts.InstanceDomains))
    else (whereConds, namedArgs)
  let whereClause := " AND ".intercalate whereConds
  let (limit, namedArgs) :=
    if opts.PageSize > 0 then
      ("LIMIT @pageSize", GoMap.set namedArgs "pageSize" (NamedArg.int opts.PageSize))
    else ("", namedArgs)
  (whereClause, limit, namedArgs)

/-! ## `preferUploadsWithLongestRoots` (codenav, `root_resolver.go`) -/

/-- The struct `shared.CompletedUpload`, declared outside this file, by its ID and the
fields that `preferUploadsWithLongestRoots` reads. -/
structure CompletedUpload where
  ID : Int
  Commit : String
  Root : String
  Indexer : String
  deriving DecidableEq, Repr

/-- The key `fmt.Sprintf("%s:%s", upload.Indexer, upload.Commit)`. -/
def uploadKey (upload : CompletedUpload) : String :=
  upload.Indexer ++ ":" ++ upload.Commit

/-- The body of the loop `for _, upload := range uploads`; the ordered map keeps its pairs
in the order in which their keys were first set, and `len` counts the bytes of a string. -/
def preferStep (sortedMap : GoMap String CompletedUpload) (upload : CompletedUpload) :
    GoMap String CompletedUpload :=
  let key := uploadKey upload
  match GoMap.get? sortedMap key with
  | some val =>
    if val.Root.utf8ByteSize < upload.Root.utf8ByteSize then GoMap.set sortedMap key upload
    else sortedMap
  | none => GoMap.set sortedMap key upload

/-- The function `preferUploadsWithLongestRoots`. -/
def preferUploadsWithLongestRoots (uploads : List CompletedUpload) : List CompletedUpload :=
  (uploads.foldl preferStep []).map Prod.snd

/-- The upload at position `l1.length` of the uploads `l1 ++ v :: l2` is the first one with
the longest root among those with its key. -/
def FirstLongest (uploads : List CompletedUpload) (v : CompletedUpload) : Prop :=
  ∃ l1 l2, uploads = l1 ++ v :: l2 ∧
    (∀ u ∈ l1, uploadKey u = uploadKey v → u.Root.utf8ByteSize < v.Root.utf8ByteSize) ∧
    (∀ u ∈ l2, uploadKey u = uploadKey v → u.Root.utf8ByteSize ≤ v.Root.utf8ByteSize)

/-- The invariant of the loop of `preferUploadsWithLongestRoots` after the uploads `done`. -/
def PreferInv (done : List CompletedUpload) (m : GoMap String CompletedUpload) : Prop :=
  GoMap.keys m = firstOccurrences (done.map uploadKey) ∧
    ∀ k v, GoMap.get? m k = some v → uploadKey v = k ∧ FirstLongest done v

/-- Four uploads of two indexers at one commit. -/
def uploadsFour : List CompletedUpload :=
  [⟨1, "c1", "a/", "scip-go"⟩, ⟨2, "c1", "", "scip-java"⟩, ⟨3, "c1", "a/b/", "scip-go"⟩,
    ⟨4, "c1", "a/c/", "scip-go"⟩]

/-! ## `ResolveRepositories`, the loop over the declarations -/

/-- The zero value of `graphql.Repository`. -/
def zeroRepository : Repository := ⟨"", "", "", none, ⟨""⟩, ⟨"", ⟨""⟩⟩, []⟩

/-- The pointers of the slice that a call of `ResolveRepositoriesOn` returns.  `Do` decodes
the answer of the API into new objects, so every pointer that is not nil is new: the objects
are stored at the free addresses, from `next` on.  The result is the slice of pointers, the
next free address and the memory. -/
def storeObjects :
    List (Option Repository) → Nat → Heap → List (Option RepoRef) × Nat × Heap
  | [], next, heap => ([], next, heap)
  | none :: rest, next, heap =>
    let stored := storeObjects rest next heap
    (none :: stored.1, stored.2)
  | some object :: rest, next, heap =>
    let stored := storeObjects rest (next + 1) (Function.update heap next object)
    (some next :: stored.1, stored.2)

/-- The loop `for _, repo := range repos` of `ResolveRepositories`; `none` stands for the
panic of `repo.HasBranch()`, which reads the fields of its receiver, on a nil pointer. -/
def seeRepos (env : Env) (allowUnsupported : Bool) :
    List (Option RepoRef) → ResolveState → Option ResolveState
  | [], st => some st
  | none :: _, _ => none
  | some repo :: rest, st => seeRepos env allowUnsupported rest (seeRepo env allowUnsupported st repo)

/-- The loop `for _, on := range spec.On` of `ResolveRepositories`, with the next free
address: the error of the `return` inside the loop, if it is reached, and the variables;
`none` stands for a panic. -/
def resolveDeclarations (σ : MapOrder) (env : Env) (allowUnsupported : Bool) :
    List OnQueryOrRepository → Nat → ResolveState → Option (Option Error × ResolveState)
  | [], _, st => some (none, st)
  | decl :: rest, next, st =>
    match (ResolveRepositoriesOn σ env decl).err with
    | some err =>
      some (some (Error.wrapf err ("resolving " ++ env.quote (env.onString decl))), st)
    | none =>
      let stored := storeObjects (ResolveRepositoriesOn σ env decl).repos next st.heap
      match seeRepos env allowUnsupported stored.1 { st with heap := stored.2.2 } with
      | none => none
      | some st1 => resolveDeclarations σ env allowUnsupported rest stored.2.1 st1

/-- The method `Service.ResolveRepositories`; `none` stands for a panic.  The memory of the
call holds the objects that the declarations resolve to, the first one at address 0. -/
def ResolveRepositories (σ : MapOrder) (env : Env) (allowUnsupported : Bool)
    (spec : CampaignSpec) : Option ResolveResult :=
  match resolveDeclarations σ env allowUnsupported spec.On 0 ⟨[], [], fun _ => zeroRepository⟩ with
  | none => none
  | some (some err, st) => some ⟨[], some (ResolveError.resolving err), st.heap⟩
  | some (none, st) =>
    let final := ((σ.range _ st.seen).map Prod.snd).filter (fun repo => !st.unsupported.includes repo)
    if st.unsupported.hasUnsupported then
      some ⟨final, some (ResolveError.unsupported st.unsupported), st.heap⟩
    else some ⟨final, none, st.heap⟩

/-- The objects that the declarations resolve to, in the order of the declarations, nil
pointers left out. -/
def resolvedObjects (σ : MapOrder) (env : Env) (decls : List OnQueryOrRepository) :
    List Repository :=
  decls.flatMap (fun decl => (ResolveRepositoriesOn σ env decl).repos.filterMap id)

/-- Every declaration resolves to repositories: `ResolveRepositoriesOn` returns a nil error
and no nil pointer. -/
def AllResolve (σ : MapOrder) (env : Env) (decls : List OnQueryOrRepository) : Prop :=
  ∀ decl ∈ decls, (ResolveRepositoriesOn σ env decl).err = none ∧
    none ∉ (ResolveRepositoriesOn σ env decl).repos

/-- The memory that holds the objects `objects` as they are resolved, the first one at
address 0. -/
def heapOf (objects : List Repository) : Heap := fun k => objects.getD k zeroRepository

/-- The surroundings in which the memory holds the objects that the declarations of `spec`
resolve to, as they are resolved: the object at address `k` is the one that
`ResolveRepositories` stores at `k`. -/
def resolvedEnv (σ : MapOrder) (env : Env) (spec : CampaignSpec) : Env :=
  { env with heap := heapOf (resolvedObjects σ env spec.On) }

/-- The states `a` and `b` hold the same maps, and the same objects at the addresses below
`n`. -/
def AgreeBelow (n : Nat) (a b : ResolveState) : Prop :=
  a.seen = b.seen ∧ a.unsupported = b.unsupported ∧ ∀ k, k < n → a.heap k = b.heap k

/-- Every pointer in `seen` is below `n`. -/
def SeenBelow (n : Nat) (st : ResolveState) : Prop :=
  ∀ id a, GoMap.get? st.seen id = some a → a < n

/-- Surroundings over `heapHosts` in which the name `ab` resolves to the repository at 1 and
every other name to the repository at 2. -/
def envHosts : Env :=
  { Env.basic heapHosts with
    repository := fun name _ _ => RepositoryResponse.ok (some (if name = "ab" then 1 else 2)) }

/-- A campaign spec with the declarations of the names `ab`, `cd` and `ab`. -/
def specThreeNames : CampaignSpec :=
  ⟨[⟨"", "ab", ""⟩, ⟨"", "cd", ""⟩, ⟨"", "ab", ""⟩], [], [], none, none, []⟩

/-- Surroundings over `heapHosts` in which the name `ab` resolves to the repository at 1, and
the client answers the request for any other name with `ok = false` and no error. -/
def envNotOk : Env :=
  { Env.basic heapHosts with
    repository := fun name _ _ =>
      if name = "ab" then RepositoryResponse.ok (some 1) else RepositoryResponse.notOk }

/-- A campaign spec with the declarations of the names `ab` and `cd`. -/
def specTwoNames : CampaignSpec :=
  ⟨[⟨"", "ab", ""⟩, ⟨"", "cd", ""⟩], [], [], none, none, []⟩

/-- A campaign spec with the declaration of the name `cd`. -/
def specOneName : CampaignSpec :=
  ⟨[⟨"", "cd", ""⟩], [], [], none, none, []⟩

/-- Surroundings over `heapBranches` in which a name resolves to the repository at 1, and
with the revision `dev` to the repository at 3, and every search finds the repository at 2,
which has no commit. -/
def envBranches : Env :=
  { Env.basic heapBranches with
    repository := fun _ _ rev => RepositoryResponse.ok (some (if rev = "dev" then 3 else 1))
    searchRepositories := fun _ => SearchResponse.ok [SearchRow.repository (heapBranches 2)] }

/-- A campaign spec with a declaration of the name `ab`, one of a search query and one of
the name `ab` with the branch `dev`. -/
def specNameQueryBranch : CampaignSpec :=
  ⟨[⟨"", "ab", ""⟩, ⟨"repo:ab", "", ""⟩, ⟨"", "ab", "dev"⟩], [], [], none, none, []⟩

/-- A memory with two objects of the repository X: one without a default branch, with the
commit `beef` (at 1), and one with the default branch `main` and without a commit (at 2);
the repository Z is at the other addresses. -/
def heapDefaultBranch : Heap := fun r =>
  if r = 1 then
    { mkRepository "X" "ab" "github" with Commit := ⟨"beef"⟩, Branch := ⟨"", ⟨""⟩⟩ }
  else if r = 2 then
    { mkRepository "X" "ab" "github" with
      DefaultBranch := some ⟨"main", ⟨"c0ffee"⟩⟩, Commit := ⟨""⟩, Branch := ⟨"", ⟨""⟩⟩ }
  else mkRepository "Z" "zz" "gitlab"

/-- Surroundings over `heapDefaultBranch` in which a repository has a branch when it has a
default branch, or a commit and a branch name; a request with `queryCommit` is answered
with the object at 1, a request without it with the object at 2. -/
def envDefaultBranch : Env :=
  { Env.basic heapDefaultBranch with
    hasBranch := fun r =>
      r.DefaultBranch.isSome || (!decide (r.Commit.OID = "") && !decide (r.Branch.Name = ""))
    repository := fun _ queryCommit _ =>
      RepositoryResponse.ok (some (if queryCommit then 1 else 2)) }

/-- A campaign spec with a declaration of the name `ab` with the branch `dev` and one of the
name `ab`. -/
def specBranchThenName : CampaignSpec :=
  ⟨[⟨"", "ab", "dev"⟩, ⟨"", "ab", ""⟩], [], [], none, none, []⟩

/-! ## The verb `%q` on ASCII text -/

/-- A printable ASCII character other than the double quote and the backslash. -/
def plainChar (c : Char) : Bool :=
  decide (32 ≤ c.toNat) && decide (c.toNat ≤ 126) && !decide (c.toNat = 34) &&
    !decide (c.toNat = 92)

/-- The lower-case hexadecimal digit of a number below 16. -/
def lowerhex (n : Nat) : Char :=
  if n < 10 then Char.ofNat (48 + n) else Char.ofNat (87 + n)

/-- What `strconv.Quote` writes for one ASCII character: the double quote and the backslash
after a backslash, the control characters by their escapes, every other one as it is. -/
def escapeChar (c : Char) : List Char :=
  if c.toNat = 34 ∨ c.toNat = 92 then [Char.ofNat 92, c]
  else if c.toNat = 7 then [Char.ofNat 92, 'a']
  else if c.toNat = 8 then [Char.ofNat 92, 'b']
  else if c.toNat = 12 then [Char.ofNat 92, 'f']
  else if c.toNat = 10 then [Char.ofNat 92, 'n']
  else if c.toNat = 13 then [Char.ofNat 92, 'r']
  else if c.toNat = 9 then [Char.ofNat 92, 't']
  else if c.toNat = 11 then [Char.ofNat 92, 'v']
  else if c.toNat < 32 ∨ c.toNat = 127 then
    [Char.ofNat 92, 'x', lowerhex (c.toNat / 16), lowerhex (c.toNat % 16)]
  else [c]

/-- The rendering of an ASCII string by the verb `%q`, which is `strconv.Quote`: the escaped
characters between double quotes.  A character outside ASCII is copied, as `strconv.Quote`
does with the printable ones. -/
def quoteASCII (s : String) : String :=
  String.mk (Char.ofNat 34 :: (s.toList.flatMap escapeChar ++ [Char.ofNat 34]))

/-- Surroundings over `heapBranches` in which `%q` is `quoteASCII` and every repository name
resolves to the repository at address 2, which has no commit. -/
def envQuoting : Env :=
  { envNoCommit with quote := quoteASCII }

/-! ## `SetDockerImages` -/

/-- The type `workspaceCreatorType`, declared outside this file, by the two values that the
service names. -/
inductive workspaceCreatorType where
  | workspaceCreatorBind
  | workspaceCreatorVolume
  deriving DecidableEq, Repr

/-- The fields of `Service` that `SetDockerImages` reads, with the two declarations outside
this file that it uses: `imageCache name` is what `svc.imageCache.Get(name).Ensure(ctx)`
returns (`none` is the nil error). -/
structure Service where
  workspace : String
  imageCache : String → Option Error
  bestWorkspaceCreator : List Step → workspaceCreatorType
  dockerVolumeWorkspaceImage : String

/-- The method `Service.workspaceCreatorType`. -/
def Service.workspaceCreatorType (svc : Service) (steps : List Step) : workspaceCreatorType :=
  if svc.workspace = "volume" then workspaceCreatorType.workspaceCreatorVolume
  else if svc.workspace = "bind" then workspaceCreatorType.workspaceCreatorBind
  else svc.bestWorkspaceCreator steps

/-- An argument of a call of `progress`: the constant `0`, the quotient
`float64(i) / float64(total)`, given by the two integers, or the constant `1`. -/
inductive ProgressArg where
  | zero
  | quotient (i total : Nat)
  | one
  deriving DecidableEq, Repr

/-- The integer nearest to a rational, the even one of the two when both are as near. -/
def roundHalfEven (x : ℚ) : ℤ :=
  if 2 * (x - ⌊x⌋) < 1 then ⌊x⌋
  else if 1 < 2 * (x - ⌊x⌋) then ⌊x⌋ + 1
  else if ⌊x⌋ % 2 = 0 then ⌊x⌋ else ⌊x⌋ + 1

/-- The `float64` nearest to a rational that is not negative, the one with the even
significand of the two when both are as near: the rational is scaled to a significand of 53
bits and rounded.  The range of the exponent is not limited; it is not exceeded by the
integers of 64 bits and their quotients. -/
def float64 (x : ℚ) : ℚ :=
  if x ≤ 0 then 0
  else (roundHalfEven (x * (2 : ℚ) ^ (52 - Int.log 2 x)) : ℚ) / (2 : ℚ) ^ (52 - Int.log 2 x)

/-- The `float64` that a call of `progress` receives: the conversions of the two integers and
the division round to the nearest `float64`. -/
def ProgressArg.value : ProgressArg → ℚ
  | ProgressArg.zero => 0
  | ProgressArg.quotient i total => float64 (float64 (i : ℚ) / float64 (total : ℚ))
  | ProgressArg.one => 1

/-- What a call of `SetDockerImages` does: the error that it returns, the arguments that it
passes to `progress`, in order, and the images on which it calls `Ensure`, in order. -/
structure ImagesResult where
  err : Option Error
  progress : List ProgressArg
  ensured : List String

/-- The loop `for i := range spec.Steps` of `SetDockerImages`, from the step with index
`i`. -/
def ensureSteps (env : Env) (svc : Service) (total : Nat) :
    List Step → Nat → List ProgressArg → List String → ImagesResult
  | [], _, progress, ensured => ⟨none, progress, ensured⟩
  | step :: rest, i, progress, ensured =>
    match svc.imageCache step.Container with
    | some err =>
      ⟨some (Error.wrapf err ("pulling image " ++ env.quote step.Container)), progress,
        ensured ++ [step.Container]⟩
    | none =>
      ensureSteps env svc total rest (i + 1) (progress ++ [ProgressArg.quotient i total])
        (ensured ++ [step.Container])

/-- The method `Service.SetDockerImages`. -/
def SetDockerImages (env : Env) (svc : Service) (spec : CampaignSpec) : ImagesResult :=
  let total := spec.Steps.length + 1
  let looped := ensureSteps env svc total spec.Steps 0 [ProgressArg.zero] []
  match looped.err with
  | some err => ⟨some err, looped.progress, looped.ensured⟩
  | none =>
    if svc.workspaceCreatorType spec.Steps = workspaceCreatorType.workspaceCreatorVolume then
      match svc.imageCache svc.dockerVolumeWorkspaceImage with
      | some err =>
        ⟨some (Error.wrapf err ("pulling image " ++ env.quote svc.dockerVolumeWorkspaceImage)),
          looped.progress, looped.ensured ++ [svc.dockerVolumeWorkspaceImage]⟩
      | none =>
        ⟨none, looped.progress ++ [ProgressArg.one], looped.ensured ++ [svc.dockerVolumeWorkspaceImage]⟩
    else ⟨none, looped.progress ++ [ProgressArg.one], looped.ensured⟩

/-- A service with the volume workspace, for which the image `broken` cannot be ensured. -/
def serviceVolume : Service :=
  ⟨"volume", fun name => if name = "broken" then some (Error.mk "pull failed") else none,
    fun _ => workspaceCreatorType.workspaceCreatorBind, "utility"⟩

/-- A campaign spec with the steps `alpine` and `golang`. -/
def specTwoSteps : CampaignSpec :=
  ⟨[], [], [⟨"alpine"⟩, ⟨"golang"⟩], none, none, []⟩

/-- A campaign spec with the steps `alpine`, `broken` and `golang`. -/
def specBrokenStep : CampaignSpec :=
  ⟨[], [], [⟨"alpine"⟩, ⟨"broken"⟩, ⟨"golang"⟩], none, none, []⟩

/-! # Theorems -/

/-! ## Facts about Go maps -/

namespace GoMap

variable {κ ν : Type}

theorem get?_set [DecidableEq κ] (m : GoMap κ ν) (k x : κ) (v : ν) :
    get? (set m k v) x = if k = x then some v else get? m x := by
  induction m with
  | nil => simp [set, get?]
  | cons e m ih =>
    obtain ⟨k1, w⟩ := e
    by_cases h1 : k1 = k
    · subst h1
      by_cases h2 : k1 = x <;> simp [set, get?, h2]
    · by_cases h2 : k1 = x
      · subst h2
        have h3 : ¬ k = k1 := fun h => h1 h.symm
        simp [set, get?, h1, h3]
      · simp [set, get?, h1, h2, ih]

theorem get?_set_self [DecidableEq κ] (m : GoMap κ ν) (k : κ) (v : ν) : get? (set m k v) k = some v := by
  simp [get?_set]

theorem get?_set_of_ne [DecidableEq κ] (m : GoMap κ ν) {k x : κ} (v : ν) (h : k ≠ x) :
    get? (set m k v) x = get? m x := by
  simp [get?_set, h]

theorem set_ne_nil [DecidableEq κ] (m : GoMap κ ν) (k : κ) (v : ν) : set m k v ≠ [] := by
  cases m with
  | nil => simp [set]
  | cons e m =>
    obtain ⟨k1, w⟩ := e
    by_cases h : k1 = k <;> simp [set, h]

theorem mem_of_get? [DecidableEq κ] {m : GoMap κ ν} {k : κ} {v : ν} (h : get? m k = some v) : (k, v) ∈ m := by
  induction m with
  | nil => simp [get?] at h
  | cons e m ih =>
    obtain ⟨k1, w⟩ := e
    by_cases h1 : k1 = k
    · subst h1
      simp [get?] at h
      subst h
      exact List.mem_cons_self _ _
    · simp [get?, h1] at h
      exact List.mem_cons_of_mem _ (ih h)

theorem get?_eq_none_iff [DecidableEq κ] {m : GoMap κ ν} {k : κ} : get? m k = none ↔ k ∉ keys m := by
  induction m with
  | nil => simp [get?, keys]
  | cons e m ih =>
    obtain ⟨k1, w⟩ := e
    by_cases h1 : k1 = k
    · subst h1
      simp [get?, keys]
    · have h2 : ¬ k = k1 := fun h => h1 h.symm
      simp only [keys] at ih
      simp [get?, keys, h1, h2, ih]

theorem mem_keys_of_mem {m : GoMap κ ν} {k : κ} {v : ν} (h : (k, v) ∈ m) : k ∈ keys m :=
  List.mem_map.mpr ⟨(k, v), h, rfl⟩

theorem get?_of_mem [DecidableEq κ] {m : GoMap κ ν} {k : κ} {v : ν} (hn : (keys m).Nodup) (h : (k, v) ∈ m) :
    get? m k = some v := by
  induction m with
  | nil => simp at h
  | cons e m ih =>
    obtain ⟨k1, w⟩ := e
    simp only [keys, List.map_cons, List.nodup_cons] at hn
    rcases List.mem_cons.mp h with h1 | h1
    · cases h1
      simp [get?]
    · have h2 : k1 ≠ k := by
        intro h3
        subst h3
        exact hn.1 (mem_keys_of_mem h1)
      simp only [get?, h2, if_false]
      exact ih hn.2 h1

theorem get?_isSome_of_mem [DecidableEq κ] {m : GoMap κ ν} {k : κ} {v : ν} (h : (k, v) ∈ m) :
    ∃ w, get? m k = some w := by
  cases hg : get? m k with
  | none => exact absurd (mem_keys_of_mem h) (get?_eq_none_iff.mp hg)
  | some w => exact ⟨w, rfl⟩

theorem mem_set [DecidableEq κ] {m : GoMap κ ν} {k : κ} {v : ν} {e : κ × ν} (h : e ∈ set m k v) :
    e = (k, v) ∨ e ∈ m := by
  induction m with
  | nil =>
    simp [set] at h
    exact Or.inl h
  | cons e1 m ih =>
    obtain ⟨k1, w⟩ := e1
    by_cases h1 : k1 = k
    · subst h1
      simp only [set, if_true, List.mem_cons] at h
      rcases h with h | h
      · exact Or.inl h
      · exact Or.inr (List.mem_cons_of_mem _ h)
    · simp only [set, h1, if_false, List.mem_cons] at h
      rcases h with h | h
      · subst h
        exact Or.inr (List.mem_cons_self _ _)
      · rcases ih h with h2 | h2
        · exact Or.inl h2
        · exact Or.inr (List.mem_cons_of_mem _ h2)

theorem keys_set [DecidableEq κ] (m : GoMap κ ν) (k : κ) (v : ν) :
    keys (set m k v) = if k ∈ keys m then keys m else keys m ++ [k] := by
  induction m with
  | nil => simp [set, keys]
  | cons e1 m ih =>
    obtain ⟨k1, w⟩ := e1
    simp only [keys] at ih
    by_cases h1 : k1 = k
    · subst h1
      simp [set, keys]
    · have h2 : ¬ k = k1 := fun h => h1 h.symm
      by_cases h3 : k ∈ List.map Prod.fst m
      · simp [set, keys, h1, h2, h3, ih]
      · simp [set, keys, h1, h2, h3, ih]

theorem nodup_keys_set [DecidableEq κ] {m : GoMap κ ν} (k : κ) (v : ν) (h : (keys m).Nodup) :
    (keys (set m k v)).Nodup := by
  rw [keys_set]
  by_cases h1 : k ∈ keys m
  · simp [h1, h]
  · simp only [h1, if_false]
    exact List.Nodup.append h (List.nodup_singleton k) (by simpa using h1)

theorem mem_keys_set [DecidableEq κ] {m : GoMap κ ν} {k x : κ} {v : ν} :
    x ∈ keys (set m k v) ↔ x = k ∨ x ∈ keys m := by
  rw [keys_set]
  by_cases h1 : k ∈ keys m
  · simp only [h1, if_true]
    constructor
    · exact Or.inr
    · rintro (h | h)
      · exact h ▸ h1
      · exact h
  · simp only [h1, if_false, List.mem_append, List.mem_singleton]
    tauto

end GoMap

/-! ## The grouping loop of `ValidateChangesetSpecs` -/

theorem get2?_groupSpec (m : GoMap String (GoMap String (List ChangesetSpec)))
    (s : ChangesetSpec) (a b : String) :
    GoMap.get2? (groupSpec m s) a b =
      if isBranchSpec a b s then some ((GoMap.get2? m a b).getD [] ++ [s])
      else GoMap.get2? m a b := by
  unfold groupSpec isBranchSpec
  cases hx : s.ExternalChangeset with
  | some x => simp
  | none =>
    simp only [Option.isSome_none, Bool.false_eq_true, if_false, Option.isNone_none, Bool.true_and]
    by_cases ha : s.HeadRepository = a
    · subst ha
      cases hg : GoMap.get? m s.HeadRepository with
      | none =>
        by_cases hb : s.HeadRef = b <;>
          simp [GoMap.get2?, GoMap.get?_set, hg, hb, GoMap.get?]
      | some inner =>
        by_cases hb : s.HeadRef = b <;>
          simp [GoMap.get2?, GoMap.get?_set, hg, hb]
    · cases hg : GoMap.get? m s.HeadRepository with
      | none => simp [GoMap.get2?, GoMap.get?_set, ha]
      | some inner => simp [GoMap.get2?, GoMap.get?_set, ha]

theorem get2?_foldl_groupSpec (specs : List ChangesetSpec)
    (m : GoMap String (GoMap String (List ChangesetSpec))) (a b : String) :
    GoMap.get2? (specs.foldl groupSpec m) a b =
      if specs.filter (isBranchSpec a b) = [] then GoMap.get2? m a b
      else some ((GoMap.get2? m a b).getD [] ++ specs.filter (isBranchSpec a b)) := by
  induction specs generalizing m with
  | nil => simp
  | cons s specs ih =>
    rw [List.foldl_cons, ih, get2?_groupSpec]
    by_cases hs : isBranchSpec a b s = true
    · simp [hs, List.filter_cons]
    · simp [hs, List.filter_cons]

theorem get2?_byRepoAndBranch (specs : List ChangesetSpec) (a b : String) :
    GoMap.get2? (byRepoAndBranch specs) a b =
      if specs.filter (isBranchSpec a b) = [] then none
      else some (specs.filter (isBranchSpec a b)) := by
  unfold byRepoAndBranch
  rw [get2?_foldl_groupSpec]
  simp [GoMap.get2?, GoMap.get?]

theorem nodupKeys2_groupSpec {m : GoMap String (GoMap String (List ChangesetSpec))}
    (s : ChangesetSpec) (h : NodupKeys2 m) : NodupKeys2 (groupSpec m s) := by
  unfold groupSpec
  cases hx : s.ExternalChangeset with
  | some x => simpa using h
  | none =>
    simp only [Option.isSome_none, Bool.false_eq_true, if_false]
    cases hg : GoMap.get? m s.HeadRepository with
    | none =>
      simp only [Option.isNone_none, if_true, GoMap.get?_set_self, Option.getD_some]
      refine ⟨GoMap.nodup_keys_set _ _ (GoMap.nodup_keys_set _ _ h.1), ?_⟩
      intro e he
      rcases GoMap.mem_set he with h1 | h1
      · subst h1
        exact GoMap.nodup_keys_set _ _ (by simp [GoMap.keys])
      · rcases GoMap.mem_set h1 with h2 | h2
        · subst h2
          simp [GoMap.keys]
        · exact h.2 e h2
    | some inner =>
      simp only [Option.isNone_some, Bool.false_eq_true, if_false, hg, Option.getD_some]
      refine ⟨GoMap.nodup_keys_set _ _ h.1, ?_⟩
      intro e he
      rcases GoMap.mem_set he with h1 | h1
      · subst h1
        exact GoMap.nodup_keys_set _ _ (h.2 _ (GoMap.mem_of_get? hg))
      · exact h.2 e h1

theorem nodupKeys2_foldl_groupSpec (specs : List ChangesetSpec)
    {m : GoMap String (GoMap String (List ChangesetSpec))} (h : NodupKeys2 m) :
    NodupKeys2 (specs.foldl groupSpec m) := by
  induction specs generalizing m with
  | nil => simpa using h
  | cons s specs ih => exact ih (nodupKeys2_groupSpec s h)

theorem nodupKeys2_byRepoAndBranch (specs : List ChangesetSpec) :
    NodupKeys2 (byRepoAndBranch specs) :=
  nodupKeys2_foldl_groupSpec specs ⟨by simp [GoMap.keys], by simp⟩

/-- An entry of a map of maps is what the two-level read gives. -/
theorem mem_iff_get2? {κ ι ν : Type} [DecidableEq κ] [DecidableEq ι]
    {m : GoMap κ (GoMap ι ν)} (h : NodupKeys2 m) (k : κ) (j : ι) (v : ν) :
    (∃ inner, (k, inner) ∈ m ∧ (j, v) ∈ inner) ↔ GoMap.get2? m k j = some v := by
  constructor
  · rintro ⟨inner, h1, h2⟩
    have h3 := GoMap.get?_of_mem h.1 h1
    have h4 := GoMap.get?_of_mem (h.2 _ h1) h2
    simp [GoMap.get2?, h3, h4]
  · intro hg
    unfold GoMap.get2? at hg
    cases h1 : GoMap.get? m k with
    | none => simp [h1] at hg
    | some inner =>
      simp [h1] at hg
      exact ⟨inner, GoMap.mem_of_get? h1, GoMap.mem_of_get? hg⟩

/-! ## The loops that fill `duplicates` -/

theorem recordDuplicate_eq_nil_iff (byID : GoMap String RepoRef) (repoID : String)
    (d : GoMap (Option RepoRef) (GoMap String Nat)) (e : String × List ChangesetSpec) :
    recordDuplicate byID repoID d e = [] ↔ d = [] ∧ e.2.length < 2 := by
  unfold recordDuplicate
  by_cases h : e.2.length < 2
  · simp [h]
  · simp only [h, if_false, and_false, iff_false]
    exact GoMap.set_ne_nil _ _ _

theorem foldl_recordDuplicate_eq_nil_iff (byID : GoMap String RepoRef) (repoID : String)
    (l : List (String × List ChangesetSpec)) (d : GoMap (Option RepoRef) (GoMap String Nat)) :
    l.foldl (recordDuplicate byID repoID) d = [] ↔ d = [] ∧ ∀ e ∈ l, e.2.length < 2 := by
  induction l generalizing d with
  | nil => simp
  | cons e l ih =>
    rw [List.foldl_cons, ih, recordDuplicate_eq_nil_iff]
    simp only [List.mem_cons, forall_eq_or_imp]
    tauto

theorem foldl_foldl_recordDuplicate_eq_nil_iff (σ : MapOrder) (byID : GoMap String RepoRef)
    (entries : List (String × GoMap String (List ChangesetSpec)))
    (d : GoMap (Option RepoRef) (GoMap String Nat)) :
    entries.foldl
        (fun duplicates entry =>
          (σ.range _ entry.2).foldl (recordDuplicate byID entry.1) duplicates) d = [] ↔
      d = [] ∧ ∀ entry ∈ entries, ∀ e ∈ entry.2, e.2.length < 2 := by
  induction entries generalizing d with
  | nil => simp
  | cons entry entries ih =>
    rw [List.foldl_cons, ih, foldl_recordDuplicate_eq_nil_iff]
    simp only [List.mem_cons, forall_eq_or_imp, (σ.perm _ entry.2).mem_iff]
    tauto

theorem collectDuplicates_eq_nil_iff (σ : MapOrder) (byID : GoMap String RepoRef)
    (grouped : GoMap String (GoMap String (List ChangesetSpec))) :
    collectDuplicates σ byID grouped = [] ↔ ∀ entry ∈ grouped, ∀ e ∈ entry.2, e.2.length < 2 := by
  unfold collectDuplicates
  rw [foldl_foldl_recordDuplicate_eq_nil_iff]
  simp only [true_and, (σ.perm _ grouped).mem_iff]

theorem branchCount_eq_length (specs : List ChangesetSpec) (a b : String) :
    branchCount specs a b = (specs.filter (isBranchSpec a b)).length := by
  unfold branchCount
  exact List.countP_eq_length_filter _ _

/-- The groups of `byRepoAndBranch` are the lists of branch specs with a given pair. -/
theorem mem_byRepoAndBranch_iff (specs : List ChangesetSpec) (a b : String)
    (l : List ChangesetSpec) :
    (∃ inner, (a, inner) ∈ byRepoAndBranch specs ∧ (b, l) ∈ inner) ↔
      l = specs.filter (isBranchSpec a b) ∧ l ≠ [] := by
  rw [mem_iff_get2? (nodupKeys2_byRepoAndBranch specs), get2?_byRepoAndBranch]
  by_cases h : specs.filter (isBranchSpec a b) = []
  · simp only [h, if_true]
    constructor
    · intro h1
      cases h1
    · rintro ⟨h1, h2⟩
      exact absurd h1 h2
  · simp only [h, if_false, Option.some.injEq]
    constructor
    · intro h1
      exact ⟨h1.symm, h1 ▸ h⟩
    · rintro ⟨h1, _⟩
      exact h1.symm

theorem validate_isSome_iff (σ : MapOrder) (heap : Heap) (repos : List RepoRef)
    (specs : List ChangesetSpec) :
    (ValidateChangesetSpecs σ heap repos specs).isSome = true ↔
      ∃ a b, 2 ≤ branchCount specs a b := by
  have key : collectDuplicates σ (repoByID heap repos) (byRepoAndBranch specs) = [] ↔
      ∀ a b, branchCount specs a b < 2 := by
    rw [collectDuplicates_eq_nil_iff]
    constructor
    · intro h a b
      rw [branchCount_eq_length]
      by_cases hl : specs.filter (isBranchSpec a b) = []
      · simp [hl]
      · obtain ⟨inner, h1, h2⟩ := (mem_byRepoAndBranch_iff specs a b _).mpr ⟨rfl, hl⟩
        exact h _ h1 _ h2
    · rintro h ⟨a, inner⟩ h1 ⟨b, l⟩ h2
      have h3 := (mem_byRepoAndBranch_iff specs a b l).mp ⟨inner, h1, h2⟩
      have h4 := h a b
      rw [branchCount_eq_length, ← h3.1] at h4
      exact h4
  unfold ValidateChangesetSpecs
  by_cases hnil : collectDuplicates σ (repoByID heap repos) (byRepoAndBranch specs) = []
  · have h1 := key.mp hnil
    simp only [hnil, List.length_nil, gt_iff_lt, lt_self_iff_false, if_false, Option.isSome_none,
      Bool.false_eq_true, false_iff, not_exists, not_le]
    exact h1
  · have h1 : 0 < (collectDuplicates σ (repoByID heap repos) (byRepoAndBranch specs)).length :=
      List.length_pos.mpr hnil
    simp only [gt_iff_lt, h1, if_true, Option.isSome_some, true_iff]
    by_contra h2
    apply hnil
    apply key.mpr
    intro a b
    by_contra h3
    exact h2 ⟨a, b, by omega⟩

/-! ## The contents of `duplicates` -/

theorem get2?_recordDuplicate (byID : GoMap String RepoRef) (repoID : String)
    (d : GoMap (Option RepoRef) (GoMap String Nat)) (e : String × List ChangesetSpec)
    (r : Option RepoRef) (b : String) :
    GoMap.get2? (recordDuplicate byID repoID d e) r b =
      if 2 ≤ e.2.length ∧ GoMap.get? byID repoID = r ∧ e.1 = b then some e.2.length
      else GoMap.get2? d r b := by
  unfold recordDuplicate
  by_cases hl : e.2.length < 2
  · have h2 : ¬ 2 ≤ e.2.length := by omega
    simp [hl, h2]
  · have h2 : 2 ≤ e.2.length := by omega
    simp only [hl, if_false, h2, true_and]
    by_cases hr : GoMap.get? byID repoID = r
    · subst hr
      cases hg : GoMap.get? d (GoMap.get? byID repoID) with
      | none =>
        by_cases hb : e.1 = b <;>
          simp [GoMap.get2?, GoMap.get?_set, hg, hb, GoMap.get?]
      | some inner =>
        by_cases hb : e.1 = b <;>
          simp [GoMap.get2?, GoMap.get?_set, hg, hb]
    · cases hg : GoMap.get? d (GoMap.get? byID repoID) with
      | none => simp [GoMap.get2?, GoMap.get?_set, hr]
      | some inner => simp [GoMap.get2?, GoMap.get?_set, hr]

theorem nodupKeys2_recordDuplicate (byID : GoMap String RepoRef) (repoID : String)
    {d : GoMap (Option RepoRef) (GoMap String Nat)} (e : String × List ChangesetSpec)
    (h : NodupKeys2 d) : NodupKeys2 (recordDuplicate byID repoID d e) := by
  unfold recordDuplicate
  by_cases hl : e.2.length < 2
  · simpa [hl] using h
  · simp only [hl, if_false]
    cases hg : GoMap.get? d (GoMap.get? byID repoID) with
    | none =>
      simp only [Option.isNone_none, if_true, GoMap.get?_set_self, Option.getD_some]
      refine ⟨GoMap.nodup_keys_set _ _ (GoMap.nodup_keys_set _ _ h.1), ?_⟩
      intro x hx
      rcases GoMap.mem_set hx with h1 | h1
      · subst h1
        exact GoMap.nodup_keys_set _ _ (by simp [GoMap.keys])
      · rcases GoMap.mem_set h1 with h2 | h2
        · subst h2
          simp [GoMap.keys]
        · exact h.2 x h2
    | some inner =>
      simp only [Option.isNone_some, Bool.false_eq_true, if_false, hg, Option.getD_some]
      refine ⟨GoMap.nodup_keys_set _ _ h.1, ?_⟩
      intro x hx
      rcases GoMap.mem_set hx with h1 | h1
      · subst h1
        exact GoMap.nodup_keys_set _ _ (h.2 _ (GoMap.mem_of_get? hg))
      · exact h.2 x h1

theorem collectDuplicates_eq_foldl (σ : MapOrder) (byID : GoMap String RepoRef)
    (grouped : GoMap String (GoMap String (List ChangesetSpec))) :
    collectDuplicates σ byID grouped =
      (visitedGroups σ grouped).foldl (fun d t => recordDuplicate byID t.1 d t.2) [] := by
  unfold collectDuplicates visitedGroups
  generalize σ.range _ grouped = entries
  generalize ([] : GoMap (Option RepoRef) (GoMap String Nat)) = d
  induction entries generalizing d with
  | nil => rfl
  | cons entry entries ih =>
    rw [List.foldl_cons, List.flatMap_cons, List.foldl_append, List.foldl_map, ih]

theorem mem_visitedGroups (σ : MapOrder)
    (grouped : GoMap String (GoMap String (List ChangesetSpec))) (a b : String)
    (l : List ChangesetSpec) :
    (a, b, l) ∈ visitedGroups σ grouped ↔ ∃ inner, (a, inner) ∈ grouped ∧ (b, l) ∈ inner := by
  unfold visitedGroups
  simp only [List.mem_flatMap, List.mem_map, (σ.perm _ grouped).mem_iff]
  constructor
  · rintro ⟨⟨a1, inner⟩, h1, ⟨e, h2, h3⟩⟩
    simp only [Prod.mk.injEq] at h3
    obtain ⟨h4, h5⟩ := h3
    subst h4 h5
    exact ⟨inner, h1, ((σ.perm _ inner).mem_iff).mp h2⟩
  · rintro ⟨inner, h1, h2⟩
    exact ⟨(a, inner), h1, (b, l), ((σ.perm _ inner).mem_iff).mpr h2, rfl⟩

theorem get2?_foldl_recordDuplicate_some (byID : GoMap String RepoRef)
    (groups : List (String × String × List ChangesetSpec))
    (d : GoMap (Option RepoRef) (GoMap String Nat)) (r : Option RepoRef) (b : String) (n : Nat)
    (h : GoMap.get2? (groups.foldl (fun d t => recordDuplicate byID t.1 d t.2) d) r b = some n) :
    GoMap.get2? d r b = some n ∨
      ∃ t ∈ groups, 2 ≤ t.2.2.length ∧ GoMap.get? byID t.1 = r ∧ t.2.1 = b ∧ t.2.2.length = n := by
  induction groups generalizing d with
  | nil => exact Or.inl h
  | cons t groups ih =>
    rw [List.foldl_cons] at h
    rcases ih _ h with h1 | ⟨t1, h1, h2⟩
    · rw [get2?_recordDuplicate] at h1
      by_cases hq : 2 ≤ t.2.2.length ∧ GoMap.get? byID t.1 = r ∧ t.2.1 = b
      · simp only [hq, and_self, if_true, Option.some.injEq] at h1
        exact Or.inr ⟨t, List.mem_cons_self _ _, hq.1, hq.2.1, hq.2.2, h1⟩
      · rw [if_neg hq] at h1
        exact Or.inl h1
    · exact Or.inr ⟨t1, List.mem_cons_of_mem _ h1, h2⟩

theorem get2?_foldl_recordDuplicate_of_mem (byID : GoMap String RepoRef)
    (groups : List (String × String × List ChangesetSpec))
    (d : GoMap (Option RepoRef) (GoMap String Nat)) (r : Option RepoRef) (b : String) (n : Nat)
    (hn : ∀ t ∈ groups, 2 ≤ t.2.2.length → GoMap.get? byID t.1 = r → t.2.1 = b →
      t.2.2.length = n)
    (h : ∃ t ∈ groups, 2 ≤ t.2.2.length ∧ GoMap.get? byID t.1 = r ∧ t.2.1 = b) :
    GoMap.get2? (groups.foldl (fun d t => recordDuplicate byID t.1 d t.2) d) r b = some n := by
  induction groups using List.reverseRecOn with
  | nil =>
    obtain ⟨t, h1, _⟩ := h
    cases h1
  | append_singleton groups t ih =>
    rw [List.foldl_append, List.foldl_cons, List.foldl_nil, get2?_recordDuplicate]
    by_cases hq : 2 ≤ t.2.2.length ∧ GoMap.get? byID t.1 = r ∧ t.2.1 = b
    · rw [if_pos hq, hn t (by simp) hq.1 hq.2.1 hq.2.2]
    · rw [if_neg hq]
      apply ih
      · intro t1 h1
        exact hn t1 (List.mem_append_left _ h1)
      · obtain ⟨t1, h1, h2⟩ := h
        rcases List.mem_append.mp h1 with h3 | h3
        · exact ⟨t1, h3, h2⟩
        · simp only [List.mem_singleton] at h3
          subst h3
          exact absurd h2 hq

theorem nodupKeys2_foldl_recordDuplicate (byID : GoMap String RepoRef)
    (groups : List (String × String × List ChangesetSpec))
    {d : GoMap (Option RepoRef) (GoMap String Nat)} (h : NodupKeys2 d) :
    NodupKeys2 (groups.foldl (fun d t => recordDuplicate byID t.1 d t.2) d) := by
  induction groups generalizing d with
  | nil => simpa using h
  | cons t groups ih => exact ih (nodupKeys2_recordDuplicate byID t.1 t.2 h)

/-! ## The map `repoByID` -/

theorem get?_foldl_repoByID (heap : Heap) (repos : List RepoRef) (m : GoMap String RepoRef)
    (id : String) (p : RepoRef)
    (h : GoMap.get? (repos.foldl (fun m repo => GoMap.set m (heap repo).ID repo) m) id = some p) :
    GoMap.get? m id = some p ∨ (p ∈ repos ∧ (heap p).ID = id) := by
  induction repos generalizing m with
  | nil => exact Or.inl h
  | cons repo repos ih =>
    rw [List.foldl_cons] at h
    rcases ih _ h with h1 | h1
    · rw [GoMap.get?_set] at h1
      by_cases hid : (heap repo).ID = id
      · simp only [hid, if_true, Option.some.injEq] at h1
        subst h1
        exact Or.inr ⟨List.mem_cons_self _ _, hid⟩
      · rw [if_neg hid] at h1
        exact Or.inl h1
    · exact Or.inr ⟨List.mem_cons_of_mem _ h1.1, h1.2⟩

theorem get?_foldl_repoByID_isSome (heap : Heap) (repos : List RepoRef)
    (m : GoMap String RepoRef) (id : String)
    (h : (∃ p ∈ repos, (heap p).ID = id) ∨ (GoMap.get? m id).isSome = true) :
    (GoMap.get? (repos.foldl (fun m repo => GoMap.set m (heap repo).ID repo) m) id).isSome = true := by
  induction repos generalizing m with
  | nil =>
    rcases h with ⟨p, h1, _⟩ | h
    · cases h1
    · exact h
  | cons repo repos ih =>
    rw [List.foldl_cons]
    apply ih
    rcases h with ⟨p, h1, h2⟩ | h
    · rcases List.mem_cons.mp h1 with h3 | h3
      · subst h3
        right
        simp [GoMap.get?_set, h2]
      · exact Or.inl ⟨p, h3, h2⟩
    · right
      rw [GoMap.get?_set]
      by_cases hid : (heap repo).ID = id
      · simp [hid]
      · simpa [hid] using h

/-- With pairwise different IDs, `repoByID[id]` is the repository of `repos` with that ID. -/
theorem get?_repoByID_iff (heap : Heap) (repos : List RepoRef)
    (hd : (repos.map (fun p => (heap p).ID)).Nodup) (id : String) (p : RepoRef) :
    GoMap.get? (repoByID heap repos) id = some p ↔ p ∈ repos ∧ (heap p).ID = id := by
  constructor
  · intro h
    rcases get?_foldl_repoByID heap repos [] id p h with h1 | h1
    · simp [GoMap.get?] at h1
    · exact h1
  · rintro ⟨h1, h2⟩
    have h3 := get?_foldl_repoByID_isSome heap repos [] id (Or.inl ⟨p, h1, h2⟩)
    cases hg : GoMap.get? (repoByID heap repos) id with
    | none =>
      unfold repoByID at hg
      simp [hg] at h3
    | some q =>
      rcases get?_foldl_repoByID heap repos [] id q hg with h4 | h4
      · simp [GoMap.get?] at h4
      · have h5 : (heap q).ID = (heap p).ID := h4.2.trans h2.symm
        rw [List.inj_on_of_nodup_map hd h4.1 h1 h5]

/-! ## The assignment loop of `BuildTasks` -/

theorem matchesAt_nil (name : String) (i q : Nat) : matchesAt name [] i q = false := by
  simp [matchesAt]

theorem matchesAt_cons (name : String) (c : WorkspaceConfiguration)
    (rest : List WorkspaceConfiguration) (i q : Nat) :
    matchesAt name (c :: rest) i q = if q = i then c.glob name else matchesAt name rest (i + 1) q := by
  unfold matchesAt
  by_cases h : q = i
  · subst h
    simp
  · by_cases h1 : i ≤ q
    · have h2 : i + 1 ≤ q := by omega
      obtain ⟨k, hk⟩ : ∃ k, q - i = k + 1 := ⟨q - i - 1, by omega⟩
      have h3 : q - (i + 1) = k := by omega
      simp [h, h1, h2, hk, h3]
    · have h2 : ¬ i + 1 ≤ q := by omega
      simp [h, h1, h2]

theorem matchConfigs_ok (env : Env) (repo : RepoRef) (confs : List WorkspaceConfiguration)
    (i : Nat) (matched : Bool) (m : GoMap Nat (List RepoRef)) (matched1 : Bool)
    (m1 : GoMap Nat (List RepoRef))
    (h : matchConfigs env repo confs i matched m = Except.ok (matched1, m1)) :
    (matched = true → m1 = m ∧ matched1 = true ∧ matchCount confs (env.heap repo).Name = 0) ∧
      (matched = false →
        (∀ q, GoMap.get? m1 q =
          if matchesAt (env.heap repo).Name confs i q then some ((GoMap.get? m q).getD [] ++ [repo])
          else GoMap.get? m q) ∧
        matched1 = decide (matchCount confs (env.heap repo).Name = 1) ∧
        matchCount confs (env.heap repo).Name ≤ 1 ∧
        ((GoMap.keys m).Nodup → (GoMap.keys m1).Nodup)) := by
  induction confs generalizing i matched m with
  | nil =>
    simp only [matchConfigs, Except.ok.injEq, Prod.mk.injEq] at h
    obtain ⟨h1, h2⟩ := h
    subst h1 h2
    simp [matchCount, matchesAt_nil]
  | cons c rest ih =>
    unfold matchConfigs at h
    by_cases hg : c.glob (env.heap repo).Name = true
    · simp only [hg, Bool.not_true, Bool.false_eq_true, if_false] at h
      cases matched with
      | true => simp at h
      | false =>
        simp only [Bool.false_eq_true, if_false] at h
        have h1 := (ih _ _ _ h).1 rfl
        obtain ⟨h2, h3, h4⟩ := h1
        subst h2 h3
        refine ⟨by simp, fun _ => ⟨?_, ?_, ?_, ?_⟩⟩
        · intro q
          rw [matchesAt_cons]
          by_cases hq : q = i
          · subst hq
            cases hm : GoMap.get? m q <;> simp [hg, GoMap.get?_set_self]
          · have hq1 : ¬ i = q := fun h => hq h.symm
            have h6 : matchesAt (env.heap repo).Name rest (i + 1) q = false := by
              unfold matchesAt
              cases h7 : rest.get? (q - (i + 1)) with
              | none => simp
              | some c1 =>
                have h8 : c1 ∈ rest := List.get?_mem h7
                have h9 : c1.glob (env.heap repo).Name = false := by
                  unfold matchCount at h4
                  rw [List.countP_eq_zero] at h4
                  simpa using h4 c1 h8
                simp [h9]
            cases hm : GoMap.get? m i <;> simp [hq, h6, GoMap.get?_set, hq1]
        · unfold matchCount at h4 ⊢
          simp [List.countP_cons, hg, h4]
        · unfold matchCount at h4 ⊢
          simp [List.countP_cons, hg, h4]
        · intro hn
          cases hm : GoMap.get? m i <;> exact GoMap.nodup_keys_set _ _ hn
    · simp only [hg, Bool.not_false, if_true] at h
      have h1 := ih _ _ _ h
      have hc : matchCount (c :: rest) (env.heap repo).Name =
          matchCount rest (env.heap repo).Name := by
        unfold matchCount
        simp [List.countP_cons, hg]
      rw [hc]
      refine ⟨h1.1, fun hm => ?_⟩
      obtain ⟨h2, h3, h4, h5⟩ := h1.2 hm
      refine ⟨?_, h3, h4, h5⟩
      intro q
      rw [matchesAt_cons, h2 q]
      by_cases hq : q = i
      · subst hq
        have h6 : matchesAt (env.heap repo).Name rest (q + 1) q = false := by
          simp [matchesAt]
        simp [h6, hg]
      · simp [hq]

theorem matchConfigs_error (env : Env) (repo : RepoRef) (confs : List WorkspaceConfiguration)
    (i : Nat) (matched : Bool) (m : GoMap Nat (List RepoRef)) (e : Error)
    (h : matchConfigs env repo confs i matched m = Except.error e) :
    ∃ c, (confs.filter (fun c => c.glob (env.heap repo).Name)).get? (if matched then 0 else 1) =
        some c ∧ e = multipleGlobsErr env (env.heap repo).Name c.In := by
  induction confs generalizing i matched m with
  | nil => simp [matchConfigs] at h
  | cons c rest ih =>
    unfold matchConfigs at h
    by_cases hg : c.glob (env.heap repo).Name = true
    · simp only [hg, Bool.not_true, Bool.false_eq_true, if_false] at h
      cases matched with
      | true =>
        simp only [if_true, Except.error.injEq] at h
        exact ⟨c, by simp [List.filter_cons, hg], h.symm⟩
      | false =>
        simp only [Bool.false_eq_true, if_false] at h
        obtain ⟨c1, h1, h2⟩ := ih _ _ _ h
        exact ⟨c1, by simpa [List.filter_cons, hg] using h1, h2⟩
    · simp only [hg, Bool.not_false, if_true] at h
      obtain ⟨c1, h1, h2⟩ := ih _ _ _ h
      exact ⟨c1, by simpa [List.filter_cons, hg] using h1, h2⟩

theorem matchCount_eq_length (confs : List WorkspaceConfiguration) (name : String) :
    matchCount confs name = (confs.filter (fun c => c.glob name)).length := by
  unfold matchCount
  exact List.countP_eq_length_filter _ _

theorem assignRepos_ok (env : Env) (confs : List WorkspaceConfiguration) (repos : List RepoRef)
    (root : GoMap RepoRef Unit) (m : GoMap Nat (List RepoRef)) (root1 : GoMap RepoRef Unit)
    (m1 : GoMap Nat (List RepoRef))
    (h : assignRepos env confs repos root m = Except.ok (root1, m1)) :
    (∀ p ∈ repos, matchCount confs (env.heap p).Name ≤ 1) ∧
      (∀ q, GoMap.get? m1 q =
        if matchedRepos env confs repos q = [] then GoMap.get? m q
        else some ((GoMap.get? m q).getD [] ++ matchedRepos env confs repos q)) ∧
      ((GoMap.keys m).Nodup → (GoMap.keys m1).Nodup) ∧
      ((GoMap.keys root).Nodup → (GoMap.keys root1).Nodup) ∧
      (∀ p, p ∈ GoMap.keys root1 ↔
        p ∈ GoMap.keys root ∨ (p ∈ repos ∧ matchCount confs (env.heap p).Name = 0)) := by
  induction repos generalizing root m with
  | nil =>
    simp only [assignRepos, Except.ok.injEq, Prod.mk.injEq] at h
    obtain ⟨h1, h2⟩ := h
    subst h1 h2
    simp [matchedRepos]
  | cons repo repos ih =>
    unfold assignRepos at h
    cases hm : matchConfigs env repo confs 0 false m with
    | error e => simp [hm] at h
    | ok res =>
      obtain ⟨matched, m2⟩ := res
      simp only [hm] at h
      obtain ⟨h1, h2, h3, h4⟩ := (matchConfigs_ok env repo confs 0 false m matched m2 hm).2 rfl
      obtain ⟨i1, i2, i3, i4, i5⟩ := ih _ _ h
      refine ⟨?_, ?_, ?_, ?_, ?_⟩
      · intro p hp
        rcases List.mem_cons.mp hp with hp | hp
        · subst hp
          exact h3
        · exact i1 p hp
      · intro q
        rw [i2 q, h1 q]
        unfold matchedRepos
        by_cases hq : matchesAt (env.heap repo).Name confs 0 q = true
        · by_cases hr : List.filter (fun p => matchesAt (env.heap p).Name confs 0 q) repos = []
          · simp [List.filter_cons, hq, hr]
          · simp [List.filter_cons, hq, hr]
        · by_cases hr : List.filter (fun p => matchesAt (env.heap p).Name confs 0 q) repos = []
          · simp [List.filter_cons, hq, hr]
          · simp [List.filter_cons, hq, hr]
      · exact fun hn => i3 (h4 hn)
      · intro hn
        apply i4
        by_cases hmm : matched = true
        · simpa [hmm] using hn
        · simp only [hmm, Bool.not_eq_true] at *
          simp only [Bool.not_false, if_true]
          exact GoMap.nodup_keys_set _ _ hn
      · intro p
        rw [i5 p]
        by_cases hmm : matched = true
        · have hc : matchCount confs (env.heap repo).Name = 1 := by
            rw [hmm] at h2
            exact of_decide_eq_true h2.symm
          simp only [hmm, Bool.not_true, Bool.false_eq_true, if_false, List.mem_cons]
          constructor
          · rintro (h5 | ⟨h5, h6⟩)
            · exact Or.inl h5
            · exact Or.inr ⟨Or.inr h5, h6⟩
          · rintro (h5 | ⟨h5 | h5, h6⟩)
            · exact Or.inl h5
            · subst h5
              omega
            · exact Or.inr ⟨h5, h6⟩
        · have hmf : matched = false := by simpa using hmm
          have hc : matchCount confs (env.heap repo).Name = 0 := by
            rw [hmf] at h2
            have := of_decide_eq_false h2.symm
            omega
          simp only [hmf, Bool.not_false, if_true, GoMap.mem_keys_set, List.mem_cons]
          constructor
          · rintro ((h5 | h5) | ⟨h5, h6⟩)
            · subst h5
              exact Or.inr ⟨Or.inl rfl, hc⟩
            · exact Or.inl h5
            · exact Or.inr ⟨Or.inr h5, h6⟩
          · rintro (h5 | ⟨h5 | h5, h6⟩)
            · exact Or.inl (Or.inr h5)
            · exact Or.inl (Or.inl h5)
            · exact Or.inr ⟨h5, h6⟩

theorem assignRepos_error (env : Env) (confs : List WorkspaceConfiguration)
    (repos : List RepoRef) (root : GoMap RepoRef Unit) (m : GoMap Nat (List RepoRef)) (e : Error)
    (h : assignRepos env confs repos root m = Except.error e) :
    ∃ p c, repos.find? (fun p => decide (2 ≤ matchCount confs (env.heap p).Name)) = some p ∧
      (confs.filter (fun c => c.glob (env.heap p).Name)).get? 1 = some c ∧
      e = multipleGlobsErr env (env.heap p).Name c.In := by
  induction repos generalizing root m with
  | nil => simp [assignRepos] at h
  | cons repo repos ih =>
    unfold assignRepos at h
    cases hm : matchConfigs env repo confs 0 false m with
    | error e1 =>
      simp only [hm, Except.error.injEq] at h
      subst h
      obtain ⟨c, h1, h2⟩ := matchConfigs_error env repo confs 0 false m e1 hm
      simp only [Bool.false_eq_true, if_false] at h1
      refine ⟨repo, c, ?_, h1, h2⟩
      have h3 : 2 ≤ matchCount confs (env.heap repo).Name := by
        rw [matchCount_eq_length]
        have := List.get?_eq_some.mp h1
        obtain ⟨h4, _⟩ := this
        omega
      simp [List.find?_cons, h3]
    | ok res =>
      obtain ⟨matched, m2⟩ := res
      simp only [hm] at h
      obtain ⟨_, _, h3, _⟩ := (matchConfigs_ok env repo confs 0 false m matched m2 hm).2 rfl
      obtain ⟨p, c, h4, h5, h6⟩ := ih _ _ h
      refine ⟨p, c, ?_, h5, h6⟩
      have h7 : ¬ 2 ≤ matchCount confs (env.heap repo).Name := by omega
      simp [List.find?_cons, h7, h4]

theorem compileWorkspaces_ok (env : Env) (ws confs : List WorkspaceConfiguration)
    (h : compileWorkspaces env ws = Except.ok confs) : confs = compiledWorkspaces env ws := by
  induction ws generalizing confs with
  | nil =>
    simp only [compileWorkspaces, Except.ok.injEq] at h
    subst h
    rfl
  | cons w ws ih =>
    unfold compileWorkspaces at h
    cases hc : env.compile w.In with
    | error e => simp [hc] at h
    | ok g =>
      cases hr : compileWorkspaces env ws with
      | error e => simp [hc, hr] at h
      | ok confs1 =>
        simp only [hc, hr, Except.ok.injEq] at h
        subst h
        rw [ih confs1 hr]
        simp [compiledWorkspaces, hc]

theorem compileWorkspaces_of_all (env : Env) (ws : List WorkspaceConfiguration)
    (h : ∀ w ∈ ws, ∃ g, env.compile w.In = Except.ok g) :
    compileWorkspaces env ws = Except.ok (compiledWorkspaces env ws) := by
  induction ws with
  | nil => rfl
  | cons w ws ih =>
    obtain ⟨g, hg⟩ := h w (List.mem_cons_self _ _)
    have h1 := ih (fun w1 h1 => h w1 (List.mem_cons_of_mem _ h1))
    unfold compileWorkspaces
    simp [hg, h1, compiledWorkspaces]

theorem buildTasks_of_compile_error (σ : MapOrder) (env : Env) (repos : List RepoRef)
    (spec : CampaignSpec) (e : Error) (hc : compileWorkspaces env spec.Workspaces = Except.error e) :
    BuildTasks σ env repos spec = ⟨[], some e, []⟩ := by
  unfold BuildTasks
  simp only [hc]

theorem buildTasks_of_assign_error (σ : MapOrder) (env : Env) (repos : List RepoRef)
    (spec : CampaignSpec) (confs : List WorkspaceConfiguration) (e : Error)
    (hc : compileWorkspaces env spec.Workspaces = Except.ok confs)
    (ha : assignRepos env confs repos [] [] = Except.error e) :
    BuildTasks σ env repos spec = ⟨[], some e, []⟩ := by
  unfold BuildTasks
  simp only [hc, ha]

theorem buildTasks_of_search_error (σ : MapOrder) (env : Env) (repos : List RepoRef)
    (spec : CampaignSpec) (confs : List WorkspaceConfiguration) (root : GoMap RepoRef Unit)
    (m : GoMap Nat (List RepoRef)) (e : Error)
    (hc : compileWorkspaces env spec.Workspaces = Except.ok confs)
    (ha : assignRepos env confs repos [] [] = Except.ok (root, m))
    (hb : (workspaceTasks σ env spec confs root (σ.range _ m) [] []).err = some e) :
    BuildTasks σ env repos spec =
      ⟨[], some e, (workspaceTasks σ env spec confs root (σ.range _ m) [] []).requests⟩ := by
  unfold BuildTasks
  simp only [hc, ha, hb]

theorem buildTasks_of_search_ok (σ : MapOrder) (env : Env) (repos : List RepoRef)
    (spec : CampaignSpec) (confs : List WorkspaceConfiguration) (root : GoMap RepoRef Unit)
    (m : GoMap Nat (List RepoRef))
    (hc : compileWorkspaces env spec.Workspaces = Except.ok confs)
    (ha : assignRepos env confs repos [] [] = Except.ok (root, m))
    (hb : (workspaceTasks σ env spec confs root (σ.range _ m) [] []).err = none) :
    BuildTasks σ env repos spec =
      ⟨(workspaceTasks σ env spec confs root (σ.range _ m) [] []).tasks ++ rootTasks σ spec root,
        none, (workspaceTasks σ env spec confs root (σ.range _ m) [] []).requests⟩ := by
  unfold BuildTasks
  simp only [hc, ha, hb]

/-! ## What `FindDirectoriesInRepos` returns -/

theorem get?_reposByQueryID (repos : List RepoRef) (i : Nat) (m : GoMap String RepoRef)
    (k : String) (p : RepoRef) (h : GoMap.get? (reposByQueryID repos i m) k = some p) :
    GoMap.get? m k = some p ∨ p ∈ repos := by
  induction repos generalizing i m with
  | nil => exact Or.inl h
  | cons repo repos ih =>
    unfold reposByQueryID at h
    rcases ih _ _ h with h1 | h1
    · rw [GoMap.get?_set] at h1
      by_cases hk : queryIDOf i = k
      · simp only [hk, if_true, Option.some.injEq] at h1
        subst h1
        exact Or.inr (List.mem_cons_self _ _)
      · rw [if_neg hk] at h1
        exact Or.inl h1
    · exact Or.inr (List.mem_cons_of_mem _ h1)

theorem storeResults_within (σ : MapOrder) (env : Env) (byQueryID : GoMap String RepoRef)
    (known : List RepoRef) (hk : ∀ k p, GoMap.get? byQueryID k = some p → p ∈ known)
    (entries : List (String × List searchResult)) (results : GoMap RepoRef (List String))
    (h : ResultsWithin known results) :
    ResultsWithin known (storeResults σ env byQueryID entries results).1 := by
  induction entries generalizing results with
  | nil => simpa [storeResults] using h
  | cons e entries ih =>
    obtain ⟨queryID, rows⟩ := e
    unfold storeResults
    cases hg : GoMap.get? byQueryID queryID with
    | none => simpa using h
    | some repo =>
      simp only
      apply ih
      refine ⟨GoMap.nodup_keys_set _ _ h.1, ?_⟩
      intro p hp
      rcases GoMap.mem_keys_set.mp hp with h1 | h1
      · subst h1
        exact hk _ _ hg
      · exact h.2 p h1

theorem findInBatch_within (σ : MapOrder) (env : Env) (byQueryID : GoMap String RepoRef)
    (byRepo : GoMap RepoRef String) (fileName : String) (batch : List RepoRef)
    (known : List RepoRef) (hk : ∀ k p, GoMap.get? byQueryID k = some p → p ∈ known)
    (results : GoMap RepoRef (List String)) (h : ResultsWithin known results) :
    ResultsWithin known (findInBatch σ env byQueryID byRepo fileName batch results).1 := by
  unfold findInBatch
  cases env.search (batchRequest env byRepo fileName batch) with
  | failed err => simpa using h
  | notOk => simpa using h
  | ok result => exact storeResults_within σ env byQueryID known hk _ results h

theorem findBatches_within (σ : MapOrder) (env : Env) (byQueryID : GoMap String RepoRef)
    (byRepo : GoMap RepoRef String) (fileName : String) (repos : List RepoRef)
    (known : List RepoRef) (hk : ∀ k p, GoMap.get? byQueryID k = some p → p ∈ known)
    (fuel start : Nat) (results : GoMap RepoRef (List String)) (requests : List Request)
    (h : ResultsWithin known results) :
    ResultsWithin known
      (findBatches σ env byQueryID byRepo fileName repos fuel start results requests).results := by
  induction fuel generalizing start results requests with
  | zero => simpa [findBatches] using h
  | succ fuel ih =>
    unfold findBatches
    by_cases hs : start < repos.length
    · simp only [hs, if_true]
      cases env.ctxErr start with
      | some err => exact ⟨by simp [GoMap.keys], by simp [GoMap.keys]⟩
      | none =>
        simp only
        have h1 := findInBatch_within σ env byQueryID byRepo fileName
          ((repos.drop start).take batchSize) known hk results h
        cases ho : (findInBatch σ env byQueryID byRepo fileName
            ((repos.drop start).take batchSize) results).2 with
        | some err => simpa [ho] using h1
        | none =>
          simp only [ho]
          exact ih _ _ _ h1
    · simpa [hs] using h

theorem findDirectoriesInRepos_within (σ : MapOrder) (env : Env) (fileName : String)
    (repos : List RepoRef) :
    ResultsWithin repos (FindDirectoriesInRepos σ env fileName repos).results := by
  unfold FindDirectoriesInRepos
  apply findBatches_within
  · intro k p h
    rcases get?_reposByQueryID repos 0 [] k p h with h1 | h1
    · simp [GoMap.get?] at h1
    · exact h1
  · exact ⟨by simp [GoMap.keys], by simp [GoMap.keys]⟩

theorem findDirectoriesInRepos_nil (σ : MapOrder) (env : Env) (fileName : String) :
    (FindDirectoriesInRepos σ env fileName []).results = [] := by
  simp [FindDirectoriesInRepos, findBatches]

/-! ## The tasks of `BuildTasks` -/

theorem workspaceTasks_tasks (σ : MapOrder) (env : Env) (spec : CampaignSpec)
    (confs : List WorkspaceConfiguration) (root : GoMap RepoRef Unit)
    (entries : List (Nat × List RepoRef)) (tasks : List Task) (requests : List Request)
    (h : (workspaceTasks σ env spec confs root entries tasks requests).err = none) :
    (workspaceTasks σ env spec confs root entries tasks requests).tasks =
      tasks ++ entries.flatMap (entryTasks σ env spec confs root) := by
  induction entries generalizing tasks requests with
  | nil => simp [workspaceTasks]
  | cons e entries ih =>
    obtain ⟨configIndex, group⟩ := e
    unfold workspaceTasks at h ⊢
    cases hc : confs.get? configIndex with
    | none =>
      simp only [hc] at h
      cases h
    | some conf =>
      simp only [hc] at h ⊢
      cases hf : (FindDirectoriesInRepos σ env conf.RootAtLocationOf group).err with
      | some err => simp [hf] at h
      | none =>
        simp only [hf] at h ⊢
        rw [ih _ _ h, List.flatMap_cons, ← List.append_assoc]
        simp only [entryTasks, hc]

theorem buildTasks_ok (σ : MapOrder) (env : Env) (repos : List RepoRef) (spec : CampaignSpec)
    (h : (BuildTasks σ env repos spec).err = none) :
    ∃ root m,
      assignRepos env (compiledWorkspaces env spec.Workspaces) repos [] [] = Except.ok (root, m) ∧
      (BuildTasks σ env repos spec).tasks =
        (σ.range _ m).flatMap (entryTasks σ env spec (compiledWorkspaces env spec.Workspaces) root) ++
          rootTasks σ spec root := by
  cases hc : compileWorkspaces env spec.Workspaces with
  | error e =>
    rw [buildTasks_of_compile_error σ env repos spec e hc] at h
    cases h
  | ok confs =>
    have hconfs := compileWorkspaces_ok env _ _ hc
    subst hconfs
    cases ha : assignRepos env (compiledWorkspaces env spec.Workspaces) repos [] [] with
    | error e =>
      rw [buildTasks_of_assign_error σ env repos spec _ e hc ha] at h
      cases h
    | ok res =>
      obtain ⟨root, m⟩ := res
      refine ⟨root, m, rfl, ?_⟩
      cases hb : (workspaceTasks σ env spec (compiledWorkspaces env spec.Workspaces) root
          (σ.range _ m) [] []).err with
      | some e =>
        rw [buildTasks_of_search_error σ env repos spec _ root m e hc ha hb] at h
        cases h
      | none =>
        rw [buildTasks_of_search_ok σ env repos spec _ root m hc ha hb]
        simp only
        rw [workspaceTasks_tasks σ env spec _ root _ [] [] hb, List.nil_append]

theorem matchesAt_iff (name : String) (confs : List WorkspaceConfiguration) (q : Nat) :
    matchesAt name confs 0 q = true ↔ ∃ conf, confs.get? q = some conf ∧ conf.glob name = true := by
  unfold matchesAt
  simp only [Nat.sub_zero, Nat.zero_le, decide_True, Bool.true_and]
  cases hc : confs.get? q with
  | none => simp
  | some c => simp

theorem matchCount_pos_of_matchesAt (name : String) (confs : List WorkspaceConfiguration)
    (q : Nat) (h : matchesAt name confs 0 q = true) : 1 ≤ matchCount confs name := by
  obtain ⟨c, hc, hg⟩ := (matchesAt_iff name confs q).mp h
  unfold matchCount
  exact List.countP_pos_iff.mpr ⟨c, List.get?_mem hc, hg⟩

/-- The entries of `reposByWorkspaceConfig` after a successful assignment. -/
theorem mem_assigned (env : Env) (confs : List WorkspaceConfiguration) (repos : List RepoRef)
    (root : GoMap RepoRef Unit) (m : GoMap Nat (List RepoRef))
    (h : assignRepos env confs repos [] [] = Except.ok (root, m)) (q : Nat)
    (group : List RepoRef) :
    (q, group) ∈ m ↔ group = matchedRepos env confs repos q ∧ group ≠ [] := by
  obtain ⟨_, h2, h3, _, _⟩ := assignRepos_ok env confs repos [] [] root m h
  have hn : (GoMap.keys m).Nodup := h3 (by simp [GoMap.keys])
  have hq := h2 q
  constructor
  · intro hm
    have h4 := GoMap.get?_of_mem hn hm
    rw [h4] at hq
    by_cases he : matchedRepos env confs repos q = []
    · simp [he, GoMap.get?] at hq
    · simp only [he, if_false, GoMap.get?, Option.getD_none, List.nil_append,
        Option.some.injEq] at hq
      exact ⟨hq, hq ▸ he⟩
  · rintro ⟨h4, h5⟩
    subst h4
    simp only [h5, if_false, GoMap.get?, Option.getD_none, List.nil_append] at hq
    exact GoMap.mem_of_get? hq

theorem mem_dirTasks (spec : CampaignSpec) (conf : WorkspaceConfiguration)
    (root : GoMap RepoRef Unit) (repo : RepoRef) (dirs : List String) (t : Task)
    (h : t ∈ dirTasks spec conf root repo dirs) :
    t.Repository = repo ∧ t.Path ≠ "." ∧ ∃ d ∈ dirs, t.Path = if d = "." then "" else d := by
  unfold dirTasks at h
  rw [List.mem_filterMap] at h
  obtain ⟨d, hd, h1⟩ := h
  by_cases hdot : d = "."
  · simp only [hdot, if_true] at h1
    by_cases hr : (GoMap.get? root repo).isSome = true
    · simp [hr] at h1
    · have hr1 : (GoMap.get? root repo).isSome = false := by simpa using hr
      simp only [hr1, Bool.false_eq_true, if_false, Option.some.injEq] at h1
      subst h1
      exact ⟨rfl, by simp, d, hd, by simp [hdot]⟩
  · simp only [hdot, if_false, Option.some.injEq] at h1
    subst h1
    exact ⟨rfl, hdot, d, hd, by simp [hdot]⟩

theorem mem_entryTasks (σ : MapOrder) (env : Env) (spec : CampaignSpec)
    (confs : List WorkspaceConfiguration) (root : GoMap RepoRef Unit) (e : Nat × List RepoRef)
    (t : Task) (h : t ∈ entryTasks σ env spec confs root e) :
    ∃ conf dirs, confs.get? e.1 = some conf ∧
      (t.Repository, dirs) ∈ (FindDirectoriesInRepos σ env conf.RootAtLocationOf e.2).results ∧
      t.Repository ∈ e.2 ∧ t.Path ≠ "." ∧ ∃ d ∈ dirs, t.Path = if d = "." then "" else d := by
  unfold entryTasks at h
  cases hc : confs.get? e.1 with
  | none =>
    simp only [hc] at h
    cases h
  | some conf =>
    simp only [hc] at h
    unfold repoDirsTasks at h
    rw [List.mem_flatMap] at h
    obtain ⟨⟨p, dirs⟩, h1, h2⟩ := h
    have h3 := ((σ.perm _ _).mem_iff).mp h1
    obtain ⟨h4, h5, h6⟩ := mem_dirTasks spec conf root p dirs t h2
    subst h4
    exact ⟨conf, dirs, rfl, h3,
      (findDirectoriesInRepos_within σ env conf.RootAtLocationOf e.2).2 _
        (GoMap.mem_keys_of_mem h3), h5, h6⟩

theorem countP_key_eq_one {κ ν : Type} [DecidableEq κ] (m : GoMap κ ν) (k : κ)
    (hn : (GoMap.keys m).Nodup) (hk : k ∈ GoMap.keys m) :
    m.countP (fun e => decide (e.1 = k)) = 1 := by
  have h1 : List.count k (GoMap.keys m) = 1 := List.count_eq_one_of_mem hn hk
  unfold GoMap.keys at h1
  rw [List.count, List.countP_map] at h1
  rw [← h1]
  apply List.countP_congr
  intro e _
  simp only [Function.comp, beq_iff_eq, decide_eq_true_eq]

theorem matchesAt_unique (name : String) (confs : List WorkspaceConfiguration) (i q1 q2 : Nat)
    (h1 : matchesAt name confs i q1 = true) (h2 : matchesAt name confs i q2 = true)
    (hne : q1 ≠ q2) : 2 ≤ matchCount confs name := by
  induction confs generalizing i with
  | nil => simp [matchesAt_nil] at h1
  | cons c rest ih =>
    rw [matchesAt_cons] at h1 h2
    have hpos : ∀ q, q ≠ i → matchesAt name rest (i + 1) q = true → 1 ≤ matchCount rest name := by
      intro q _ hq
      unfold matchesAt at hq
      cases hc : rest.get? (q - (i + 1)) with
      | none =>
        rw [hc] at hq
        simp at hq
      | some c1 =>
        rw [hc] at hq
        simp only [Option.map_some', Option.getD_some, Bool.and_eq_true] at hq
        unfold matchCount
        exact List.countP_pos_iff.mpr ⟨c1, List.get?_mem hc, hq.2⟩
    have hcons : matchCount (c :: rest) name =
        matchCount rest name + if c.glob name = true then 1 else 0 := by
      unfold matchCount
      rw [List.countP_cons]
    by_cases e1 : q1 = i
    · have e2 : q2 ≠ i := fun h => hne (e1.trans h.symm)
      simp only [e1, if_true] at h1
      simp only [e2, if_false] at h2
      have := hpos q2 e2 h2
      rw [hcons, if_pos h1]
      omega
    · simp only [e1, if_false] at h1
      by_cases e2 : q2 = i
      · simp only [e2, if_true] at h2
        have := hpos q1 e1 h1
        rw [hcons, if_pos h2]
        omega
      · simp only [e2, if_false] at h2
        have := ih (i + 1) h1 h2
        rw [hcons]
        omega

/-! ## Counting tasks -/

theorem sum_map_of_key {κ ν : Type} [DecidableEq κ] (m : GoMap κ ν) (k : κ) (F : κ × ν → Nat)
    (hn : (GoMap.keys m).Nodup) (hF : ∀ e ∈ m, e.1 ≠ k → F e = 0) :
    (m.map F).sum = match GoMap.get? m k with
      | some v => F (k, v)
      | none => 0 := by
  induction m with
  | nil => simp [GoMap.get?]
  | cons e m ih =>
    obtain ⟨k1, v⟩ := e
    simp only [GoMap.keys, List.map_cons, List.nodup_cons] at hn
    have ih1 := ih hn.2 (fun e he => hF e (List.mem_cons_of_mem _ he))
    by_cases hk : k1 = k
    · subst hk
      have hz : (m.map F).sum = 0 := by
        apply List.sum_eq_zero
        intro x hx
        obtain ⟨e, he, rfl⟩ := List.mem_map.mp hx
        apply hF e (List.mem_cons_of_mem _ he)
        intro h1
        exact hn.1 (List.mem_map.mpr ⟨e, he, h1⟩)
      simp [GoMap.get?, hz]
    · have h0 : F (k1, v) = 0 := hF _ (List.mem_cons_self _ _) hk
      simp only [List.map_cons, List.sum_cons, h0, Nat.zero_add, GoMap.get?, hk, if_false]
      exact ih1

theorem length_dirTasks (spec : CampaignSpec) (conf : WorkspaceConfiguration)
    (root : GoMap RepoRef Unit) (repo : RepoRef) (dirs : List String)
    (h : repo ∉ GoMap.keys root) : (dirTasks spec conf root repo dirs).length = dirs.length := by
  have hg : GoMap.get? root repo = none := GoMap.get?_eq_none_iff.mpr h
  unfold dirTasks
  rw [hg]
  simp only [Option.isSome_none, Bool.false_eq_true, if_false]
  induction dirs with
  | nil => rfl
  | cons d dirs ih =>
    by_cases hd : d = "."
    · rw [List.filterMap_cons]
      simp only [hd, if_true, List.length_cons]
      rw [ih]
    · rw [List.filterMap_cons]
      simp only [hd, if_false, List.length_cons]
      rw [ih]

theorem countP_dirTasks (spec : CampaignSpec) (conf : WorkspaceConfiguration)
    (root : GoMap RepoRef Unit) (repo : RepoRef) (dirs : List String) (r : RepoRef) :
    (dirTasks spec conf root repo dirs).countP (fun t => decide (t.Repository = r)) =
      if repo = r then (dirTasks spec conf root repo dirs).length else 0 := by
  by_cases h : repo = r
  · simp only [h, if_true]
    rw [List.countP_eq_length]
    intro t ht
    have := (mem_dirTasks spec conf root r dirs t (h ▸ ht)).1
    simpa using this
  · simp only [h, if_false]
    rw [List.countP_eq_zero]
    intro t ht
    have := (mem_dirTasks spec conf root repo dirs t ht).1
    simp only [decide_eq_true_eq]
    intro h1
    exact h (this.symm.trans h1)

/-- Tasks of `r` among those of one result map whose repositories are outside `root`. -/
theorem countP_repoDirsTasks (σ : MapOrder) (spec : CampaignSpec) (conf : WorkspaceConfiguration)
    (root : GoMap RepoRef Unit) (results : GoMap RepoRef (List String)) (r : RepoRef)
    (hn : (GoMap.keys results).Nodup) (hr : r ∉ GoMap.keys root) :
    (repoDirsTasks σ spec conf root results).countP (fun t => decide (t.Repository = r)) =
      ((GoMap.get? results r).getD []).length := by
  unfold repoDirsTasks
  rw [List.countP_flatMap]
  have hperm : (List.map ((List.countP fun t => decide (t.Repository = r)) ∘
      fun e => dirTasks spec conf root e.1 e.2) (σ.range _ results)).sum =
      (results.map (fun e => (dirTasks spec conf root e.1 e.2).countP
        (fun t => decide (t.Repository = r)))).sum :=
    List.Perm.sum_eq (List.Perm.map _ (σ.perm _ results))
  rw [hperm, sum_map_of_key results r _ hn]
  · cases hg : GoMap.get? results r with
    | none => simp
    | some dirs =>
      simp only [Option.getD_some]
      rw [countP_dirTasks, if_pos rfl, length_dirTasks spec conf root r dirs hr]
  · intro e _ hne
    rw [countP_dirTasks, if_neg hne]

theorem length_repoDirsTasks (σ : MapOrder) (spec : CampaignSpec) (conf : WorkspaceConfiguration)
    (root : GoMap RepoRef Unit) (results : GoMap RepoRef (List String))
    (hr : ∀ p ∈ GoMap.keys results, p ∉ GoMap.keys root) :
    (repoDirsTasks σ spec conf root results).length = (results.map (fun e => e.2.length)).sum := by
  unfold repoDirsTasks
  rw [List.length_flatMap]
  have hperm : (List.map (List.length ∘ fun e => dirTasks spec conf root e.1 e.2)
      (σ.range _ results)).sum =
      (results.map (fun e => (dirTasks spec conf root e.1 e.2).length)).sum :=
    List.Perm.sum_eq (List.Perm.map _ (σ.perm _ results))
  rw [hperm]
  congr 1
  apply List.map_congr_left
  intro e he
  exact length_dirTasks spec conf root e.1 e.2 (hr _ (GoMap.mem_keys_of_mem he))

theorem get?_assigned (env : Env) (confs : List WorkspaceConfiguration) (repos : List RepoRef)
    (root : GoMap RepoRef Unit) (m : GoMap Nat (List RepoRef))
    (h : assignRepos env confs repos [] [] = Except.ok (root, m)) (q : Nat) :
    GoMap.get? m q =
      if matchedRepos env confs repos q = [] then none
      else some (matchedRepos env confs repos q) := by
  obtain ⟨_, h2, _, _, _⟩ := assignRepos_ok env confs repos [] [] root m h
  rw [h2 q]
  simp [GoMap.get?]

theorem discoveredCount_of_nil (σ : MapOrder) (env : Env) (confs : List WorkspaceConfiguration)
    (repos : List RepoRef) (q : Nat) (h : matchedRepos env confs repos q = []) :
    discoveredCount σ env confs repos q = 0 := by
  unfold discoveredCount
  cases confs.get? q with
  | none => rfl
  | some conf =>
    simp only [h, findDirectoriesInRepos_nil, List.map_nil, List.sum_nil]

theorem not_mem_root_of_matched (env : Env) (confs : List WorkspaceConfiguration)
    (repos : List RepoRef) (root : GoMap RepoRef Unit) (m : GoMap Nat (List RepoRef))
    (h : assignRepos env confs repos [] [] = Except.ok (root, m)) (p : RepoRef)
    (hp : 1 ≤ matchCount confs (env.heap p).Name) : p ∉ GoMap.keys root := by
  obtain ⟨_, _, _, _, h5⟩ := assignRepos_ok env confs repos [] [] root m h
  intro hm
  rcases (h5 p).mp hm with h1 | ⟨_, h1⟩
  · simp [GoMap.keys] at h1
  · omega

theorem length_entryTasks (σ : MapOrder) (env : Env) (spec : CampaignSpec)
    (confs : List WorkspaceConfiguration) (repos : List RepoRef) (root : GoMap RepoRef Unit)
    (m : GoMap Nat (List RepoRef))
    (h : assignRepos env confs repos [] [] = Except.ok (root, m)) (e : Nat × List RepoRef)
    (he : e ∈ m) :
    (entryTasks σ env spec confs root e).length = discoveredCount σ env confs repos e.1 := by
  have h1 := ((mem_assigned env confs repos root m h e.1 e.2).mp he).1
  unfold entryTasks discoveredCount
  cases hc : confs.get? e.1 with
  | none => rfl
  | some conf =>
    simp only
    rw [h1]
    apply length_repoDirsTasks
    intro p hp
    have h2 := (findDirectoriesInRepos_within σ env conf.RootAtLocationOf
      (matchedRepos env confs repos e.1)).2 p hp
    unfold matchedRepos at h2
    exact not_mem_root_of_matched env confs repos root m h p
      (matchCount_pos_of_matchesAt _ _ _ (List.mem_filter.mp h2).2)

theorem sum_discoveredCount_keys (σ : MapOrder) (env : Env)
    (confs : List WorkspaceConfiguration) (repos : List RepoRef) (root : GoMap RepoRef Unit)
    (m : GoMap Nat (List RepoRef))
    (h : assignRepos env confs repos [] [] = Except.ok (root, m)) :
    ((GoMap.keys m).map (discoveredCount σ env confs repos)).sum =
      ((List.range confs.length).map (discoveredCount σ env confs repos)).sum := by
  obtain ⟨_, _, h3, _, _⟩ := assignRepos_ok env confs repos [] [] root m h
  have hn : (GoMap.keys m).Nodup := h3 (by simp [GoMap.keys])
  rw [← List.sum_toFinset _ hn, ← List.sum_toFinset _ (List.nodup_range confs.length)]
  apply Finset.sum_subset
  · intro q hq
    rw [List.mem_toFinset] at hq ⊢
    obtain ⟨e, he, rfl⟩ := List.mem_map.mp hq
    obtain ⟨h4, h5⟩ := (mem_assigned env confs repos root m h e.1 e.2).mp he
    obtain ⟨p, hp⟩ := List.exists_mem_of_ne_nil _ h5
    rw [h4] at hp
    unfold matchedRepos at hp
    obtain ⟨conf, h6, _⟩ := (matchesAt_iff _ _ _).mp (List.mem_filter.mp hp).2
    rw [List.mem_range]
    exact (List.get?_eq_some.mp h6).1
  · intro q _ hq
    rw [List.mem_toFinset] at hq
    apply discoveredCount_of_nil
    by_contra hne
    have h4 := get?_assigned env confs repos root m h q
    rw [if_neg hne] at h4
    exact hq (GoMap.mem_keys_of_mem (GoMap.mem_of_get? h4))

theorem length_root (env : Env) (confs : List WorkspaceConfiguration) (repos : List RepoRef)
    (root : GoMap RepoRef Unit) (m : GoMap Nat (List RepoRef))
    (h : assignRepos env confs repos [] [] = Except.ok (root, m)) (hnodup : repos.Nodup) :
    root.length =
      (repos.filter (fun p => decide (matchCount confs (env.heap p).Name = 0))).length := by
  obtain ⟨_, _, _, h4, h5⟩ := assignRepos_ok env confs repos [] [] root m h
  have hn : (GoMap.keys root).Nodup := h4 (by simp [GoMap.keys])
  have hperm : List.Perm (GoMap.keys root)
      (repos.filter (fun p => decide (matchCount confs (env.heap p).Name = 0))) := by
    rw [List.perm_ext_iff_of_nodup hn (hnodup.filter _)]
    intro p
    rw [h5 p, List.mem_filter]
    simp [GoMap.keys]
  rw [← hperm.length_eq]
  simp [GoMap.keys]

/-! ## The import loop of `ExecuteCampaignSpec` -/

theorem appendExternalIDs_next (env : Env) (repo : Option RepoRef) (ids : List ExternalIDValue)
    (specs specs1 : List ChangesetSpec)
    (h : appendExternalIDs env repo ids specs = Flow.next specs1) :
    specs1 = specs ++ ids.filterMap (externalSpecFor env repo) := by
  induction ids generalizing specs with
  | nil =>
    simp only [appendExternalIDs, Flow.next.injEq] at h
    simp [h]
  | cons id ids ih =>
    unfold appendExternalIDs at h
    cases hs : externalIDString env id with
    | error err =>
      simp only [hs] at h
      cases h
    | ok sid =>
      simp only [hs] at h
      cases repo with
      | none => cases h
      | some r =>
        simp only at h
        rw [ih _ h, List.filterMap_cons]
        simp [externalSpecFor, hs]

theorem appendExternalIDs_of_convertible (env : Env) (repo : Option RepoRef)
    (ids : List ExternalIDValue) (specs : List ChangesetSpec)
    (hc : ids.all (fun id => (externalIDString env id).toBool) = true)
    (hr : repo.isSome = true ∨ ids = []) :
    ∃ specs1, appendExternalIDs env repo ids specs = Flow.next specs1 := by
  induction ids generalizing specs with
  | nil => exact ⟨specs, rfl⟩
  | cons id ids ih =>
    rcases hr with hr | hr
    · obtain ⟨r, rfl⟩ := Option.isSome_iff_exists.mp hr
      simp only [List.all_cons, Bool.and_eq_true] at hc
      unfold appendExternalIDs
      cases hs : externalIDString env id with
      | error err => simp [hs, Except.toBool] at hc
      | ok sid =>
        simp only
        exact ih _ hc.2 (Or.inl rfl)
    · cases hr

theorem collected_multierrorAppend (errs : Option MultiError) (err : Error) :
    collected (multierrorAppend errs err) = collected errs ++ [err] := by
  cases errs <;> rfl

theorem importChangeset_next (env : Env) (skipErrors : Bool) (ic : ImportChangeset)
    (specs specs1 : List ChangesetSpec) (errs errs1 : Option MultiError)
    (h : importChangeset env skipErrors ic (specs, errs) = Flow.next (specs1, errs1)) :
    specs1 = specs ++ importedSpecs env ic ∧ ∃ more, collected errs1 = collected errs ++ more := by
  unfold importChangeset at h
  unfold importedSpecs
  cases hr : resolveRepositoryName env ic.Repository with
  | mk repo err =>
    cases err with
    | some err =>
      simp only [hr] at h
      by_cases hs : skipErrors = true
      · simp only [hs, if_true, Flow.next.injEq, Prod.mk.injEq] at h
        obtain ⟨h1, h2⟩ := h
        subst h1 h2
        exact ⟨by simp, [_], collected_multierrorAppend _ _⟩
      · simp only [hs, if_false] at h
        cases h
    | none =>
      simp only [hr] at h
      cases ha : appendExternalIDs env repo ic.ExternalIDs specs with
      | next specs2 =>
        simp only [ha, Flow.next.injEq, Prod.mk.injEq] at h
        obtain ⟨h1, h2⟩ := h
        subst h1 h2
        exact ⟨appendExternalIDs_next env repo _ _ _ ha, [], by simp⟩
      | abort err =>
        simp only [ha] at h
        cases h
      | panic =>
        simp only [ha] at h
        cases h

theorem importChangesets_next (env : Env) (skipErrors : Bool) (ics : List ImportChangeset)
    (specs specs1 : List ChangesetSpec) (errs errs1 : Option MultiError)
    (h : importChangesets env skipErrors ics (specs, errs) = Flow.next (specs1, errs1)) :
    specs1 = specs ++ ics.flatMap (importedSpecs env) ∧
      ∃ more, collected errs1 = collected errs ++ more := by
  induction ics generalizing specs errs with
  | nil =>
    simp only [importChangesets, Flow.next.injEq, Prod.mk.injEq] at h
    obtain ⟨h1, h2⟩ := h
    subst h1 h2
    exact ⟨by simp, [], by simp⟩
  | cons ic ics ih =>
    unfold importChangesets at h
    cases hi : importChangeset env skipErrors ic (specs, errs) with
    | next st =>
      obtain ⟨specs2, errs2⟩ := st
      simp only [hi] at h
      obtain ⟨h1, more1, h2⟩ := importChangeset_next env skipErrors ic _ _ _ _ hi
      obtain ⟨h3, more2, h4⟩ := ih _ _ h
      refine ⟨?_, more1 ++ more2, ?_⟩
      · rw [h3, h1, List.flatMap_cons, List.append_assoc]
      · rw [h4, h2, List.append_assoc]
    | abort err =>
      simp only [hi] at h
      cases h
    | panic =>
      simp only [hi] at h
      cases h

theorem importChangesets_of_importable (env : Env) (ics : List ImportChangeset)
    (st : List ChangesetSpec × Option MultiError)
    (h : ∀ ic ∈ ics, importable env ic = true) :
    ∃ st1, importChangesets env true ics st = Flow.next st1 := by
  induction ics generalizing st with
  | nil => exact ⟨st, rfl⟩
  | cons ic ics ih =>
    have h1 := h ic (List.mem_cons_self _ _)
    have h2 : ∃ st1, importChangeset env true ic st = Flow.next st1 := by
      unfold importable at h1
      unfold importChangeset
      cases hr : resolveRepositoryName env ic.Repository with
      | mk repo err =>
        cases err with
        | some err => exact ⟨_, rfl⟩
        | none =>
          simp only [hr, Option.isSome_none, Bool.false_or, Bool.and_eq_true, Bool.or_eq_true,
            List.isEmpty_iff] at h1
          obtain ⟨specs1, h3⟩ := appendExternalIDs_of_convertible env repo ic.ExternalIDs st.1
            h1.1 h1.2
          exact ⟨(specs1, st.2), by simp only [h3]⟩
    obtain ⟨st1, h3⟩ := h2
    obtain ⟨st2, h4⟩ := ih st1 (fun ic1 h5 => h ic1 (List.mem_cons_of_mem _ h5))
    exact ⟨st2, by unfold importChangesets; simp only [h3, h4]⟩

theorem filterMap_plain (env : Env) (repo : RepoRef) (ids : List ExternalIDValue)
    (h : ∀ id ∈ ids, (plainExternalID id).isSome = true) :
    ids.filterMap (externalSpecFor env (some repo)) =
      ids.map (fun id => ⟨(env.heap repo).ID, "", "", some ⟨(plainExternalID id).getD ""⟩⟩) := by
  induction ids with
  | nil => rfl
  | cons id ids ih =>
    have h1 := h id (List.mem_cons_self _ _)
    rw [List.filterMap_cons, List.map_cons, ih (fun i hi => h i (List.mem_cons_of_mem _ hi))]
    cases id with
    | str s => rfl
    | int i => rfl
    | uint n => rfl
    | float32 b => simp [plainExternalID] at h1
    | float64 b => simp [plainExternalID] at h1
    | other t => simp [plainExternalID] at h1

theorem importedSpecs_plain (env : Env) (ic : ImportChangeset) (repo : RepoRef)
    (hr : resolveRepositoryName env ic.Repository = (some repo, none))
    (h : ∀ id ∈ ic.ExternalIDs, (plainExternalID id).isSome = true) :
    (importedSpecs env ic) =
      ic.ExternalIDs.map (fun id =>
        ⟨(env.heap repo).ID, "", "", some ⟨(plainExternalID id).getD ""⟩⟩) := by
  unfold importedSpecs
  simp only [hr]
  exact filterMap_plain env repo _ h

theorem executeCampaignSpec_final (env : Env) (x : Executor) (spec : CampaignSpec)
    (skipErrors : Bool) (specs : List ChangesetSpec) (logFiles : List String)
    (err : Option ExecError)
    (h : ExecuteCampaignSpec env x spec skipErrors = ExecOutcome.returned specs logFiles err)
    (hfinal : ∀ e, err ≠ some (ExecError.single e)) :
    specs = x.waitSpecs ++ spec.ImportChangesets.flatMap (importedSpecs env) ∧
      logFiles = x.logFiles := by
  unfold ExecuteCampaignSpec at h
  have key : ∀ errs : Option MultiError,
      (match importChangesets env skipErrors spec.ImportChangesets (x.waitSpecs, errs) with
        | Flow.abort err => ExecOutcome.returned [] [] (some (ExecError.single err))
        | Flow.panic => ExecOutcome.panicked
        | Flow.next (specs, errs1) =>
          ExecOutcome.returned specs x.logFiles ((ErrorOrNil errs1).map ExecError.aggregate)) =
        ExecOutcome.returned specs logFiles err →
      specs = x.waitSpecs ++ spec.ImportChangesets.flatMap (importedSpecs env) ∧
        logFiles = x.logFiles := by
    intro errs hk
    cases hi : importChangesets env skipErrors spec.ImportChangesets (x.waitSpecs, errs) with
    | next st =>
      obtain ⟨specs1, errs1⟩ := st
      simp only [hi, ExecOutcome.returned.injEq] at hk
      obtain ⟨h1, h2, _⟩ := hk
      subst h1 h2
      exact ⟨(importChangesets_next env skipErrors _ _ _ _ _ hi).1, rfl⟩
    | abort e =>
      simp only [hi, ExecOutcome.returned.injEq] at hk
      exact absurd hk.2.2.symm (hfinal e)
    | panic =>
      simp only [hi] at hk
      cases hk
  cases hw : x.waitErr with
  | none =>
    simp only [hw] at h
    exact key none h
  | some e =>
    simp only [hw] at h
    cases skipErrors with
    | true =>
      simp only [if_true] at h
      exact key _ h
    | false =>
      simp only [Bool.false_eq_true, if_false, ExecOutcome.returned.injEq] at h
      exact absurd h.2.2.symm (hfinal e)

/-! ## The loop of `ResolveRepositories` -/

theorem firstSeen_append_singleton (env : Env) (done : List RepoRef) (p : RepoRef) (id : String) :
    firstSeen env (done ++ [p]) id =
      (firstSeen env done id).or
        (if env.hasBranch (env.heap p) = true ∧ (env.heap p).ID = id then some p else none) := by
  unfold firstSeen
  rw [List.find?_append]
  congr 1
  by_cases h1 : env.hasBranch (env.heap p) = true
  · by_cases h2 : (env.heap p).ID = id
    · simp [List.find?_cons, h1, h2]
    · simp [List.find?_cons, h1, h2]
  · simp [List.find?_cons, h1]

theorem firstSeen_some (env : Env) (done : List RepoRef) (id : String) (p : RepoRef)
    (h : firstSeen env done id = some p) :
    p ∈ done ∧ env.hasBranch (env.heap p) = true ∧ (env.heap p).ID = id := by
  unfold firstSeen at h
  have h1 := List.find?_some h
  simp only [Bool.and_eq_true, decide_eq_true_eq] at h1
  exact ⟨List.mem_of_find?_eq_some h, h1.1, h1.2⟩

theorem firstSeen_ne_none (env : Env) (done : List RepoRef) (p : RepoRef) (hp : p ∈ done)
    (hb : env.hasBranch (env.heap p) = true) : firstSeen env done (env.heap p).ID ≠ none := by
  unfold firstSeen
  intro h
  rw [List.find?_eq_none] at h
  exact h p hp (by simp [hb])

theorem resolveInv_nil (env : Env) (allowUnsupported : Bool) :
    ResolveInv env allowUnsupported [] ⟨[], [], env.heap⟩ := by
  refine ⟨?_, ?_, ?_, ?_, ?_, ?_⟩
  · intro id
    simp [GoMap.get?, firstSeen]
  · intro p
    simp [GoMap.keys, GoMap.get?]
  · intro p _
    rfl
  · intro p
    exact ⟨rfl, rfl⟩
  · simp [GoMap.keys]
  · simp [GoMap.keys]

theorem resolveInv_seeRepo (env : Env) (allowUnsupported : Bool) (done : List RepoRef)
    (st : ResolveState) (p : RepoRef) (h : ResolveInv env allowUnsupported done st) :
    ResolveInv env allowUnsupported (done ++ [p]) (seeRepo env allowUnsupported st p) := by
  obtain ⟨h1, h2, h3, h4, h5, h6⟩ := h
  have hid : (st.heap p).ID = (env.heap p).ID := (h4 p).1
  have hst : (st.heap p).ServiceType = (env.heap p).ServiceType := (h4 p).2
  unfold seeRepo
  by_cases hb : env.hasBranch (st.heap p) = true
  · simp only [hb, Bool.not_true, Bool.false_eq_true, if_false]
    have hb0 : env.hasBranch (env.heap p) = true := by
      by_contra hc
      have hc1 : env.hasBranch (env.heap p) = false := by simpa using hc
      rw [h3 p (Or.inr hc1)] at hb
      exact hc hb
    rw [hid]
    cases hg : GoMap.get? st.seen (env.heap p).ID with
    | none =>
      have hfs : firstSeen env done (env.heap p).ID = none := by rw [← h1, hg]
      simp only
      refine ⟨?_, ?_, ?_, h4, GoMap.nodup_keys_set _ _ h5, ?_⟩
      · intro id
        rw [GoMap.get?_set, firstSeen_append_singleton, ← h1 id]
        by_cases hi : (env.heap p).ID = id
        · subst hi
          simp [hg, hb0]
        · simp [hi]
      · intro q
        have hkeys : q ∈ GoMap.keys
            (if supportedServiceType env (st.heap p).ServiceType = true then st.unsupported
              else if (!allowUnsupported) = true then st.unsupported.appendRepo p
              else st.unsupported) ↔
            ((allowUnsupported = false ∧
                supportedServiceType env (env.heap p).ServiceType = false) ∧ q = p) ∨
              q ∈ GoMap.keys st.unsupported := by
          rw [hst]
          by_cases hs : supportedServiceType env (env.heap p).ServiceType = true
          · simp [hs]
          · cases allowUnsupported with
            | true => simp [hs]
            | false =>
              simp only [hs, Bool.false_eq_true, if_false, Bool.not_false, if_true,
                UnsupportedRepoSet.appendRepo, GoMap.mem_keys_set]
              have hs1 : supportedServiceType env (env.heap p).ServiceType = false := by
                simpa using hs
              simp [hs1]
        rw [hkeys, h2 q, GoMap.get?_set]
        by_cases hq : q = p
        · subst hq
          simp [hg]
        · by_cases hi : (env.heap p).ID = (env.heap q).ID
          · have hne : ¬ (p = q) := fun h => hq h.symm
            have hg1 : GoMap.get? st.seen (env.heap q).ID = none := hi ▸ hg
            rw [if_pos hi, hg1]
            simp [hq, hne]
          · simp [hq, hi]
      · intro q hq
        apply h3 q
        rcases hq with hq | hq
        · left
          intro hm
          exact hq (List.mem_append_left _ hm)
        · exact Or.inr hq
      · by_cases hs : supportedServiceType env (st.heap p).ServiceType = true
        · simpa [hs] using h6
        · cases allowUnsupported with
          | true => simpa [hs] using h6
          | false =>
            simp only [hs, Bool.false_eq_true, if_false, Bool.not_false, if_true]
            exact GoMap.nodup_keys_set _ _ h6
    | some other =>
      have hfs : firstSeen env done (env.heap p).ID = some other := by rw [← h1, hg]
      obtain ⟨ho1, ho2, _⟩ := firstSeen_some env done _ other hfs
      simp only
      refine ⟨?_, h2, ?_, ?_, h5, h6⟩
      · intro id
        rw [firstSeen_append_singleton, h1 id]
        by_cases hi : (env.heap p).ID = id
        · subst hi
          simp [hfs]
        · simp [hi]
      · intro q hq
        have hne : q ≠ other := by
          rintro rfl
          rcases hq with hq | hq
          · exact hq (List.mem_append_left _ ho1)
          · rw [ho2] at hq
            cases hq
        dsimp only
        rw [Function.update_noteq hne]
        apply h3 q
        rcases hq with hq | hq
        · left
          intro hm
          exact hq (List.mem_append_left _ hm)
        · exact Or.inr hq
      · intro q
        by_cases hq : q = other
        · subst hq
          dsimp only
          rw [Function.update_same]
          exact h4 q
        · dsimp only
          rw [Function.update_noteq hq]
          exact h4 q
  · have hbf : env.hasBranch (st.heap p) = false := by simpa using hb
    simp only [hbf, Bool.not_false, if_true]
    refine ⟨?_, h2, ?_, h4, h5, h6⟩
    · intro id
      rw [firstSeen_append_singleton, h1 id]
      by_cases hb0 : env.hasBranch (env.heap p) = true
      · have hp : p ∈ done := by
          by_contra hc
          rw [h3 p (Or.inl hc)] at hbf
          rw [hbf] at hb0
          cases hb0
        by_cases hi : (env.heap p).ID = id
        · subst hi
          cases hf : firstSeen env done (env.heap p).ID with
          | none => exact absurd hf (firstSeen_ne_none env done p hp hb0)
          | some q => simp
        · simp [hi]
      · simp [hb0]
    · intro q hq
      apply h3 q
      rcases hq with hq | hq
      · left
        intro hm
        exact hq (List.mem_append_left _ hm)
      · exact Or.inr hq

theorem resolveInv_foldl (env : Env) (allowUnsupported : Bool) (done repos : List RepoRef)
    (st : ResolveState) (h : ResolveInv env allowUnsupported done st) :
    ResolveInv env allowUnsupported (done ++ repos)
      (repos.foldl (seeRepo env allowUnsupported) st) := by
  induction repos generalizing done st with
  | nil => simpa using h
  | cons p repos ih =>
    rw [List.foldl_cons]
    have h1 := ih (done ++ [p]) _ (resolveInv_seeRepo env allowUnsupported done st p h)
    simpa using h1

theorem firstSeen_exists (env : Env) (repos : List RepoRef) (p : RepoRef) (hp : p ∈ repos)
    (hb : env.hasBranch (env.heap p) = true) :
    ∃ a, firstSeen env repos (env.heap p).ID = some a ∧ a ∈ repos ∧
      env.hasBranch (env.heap a) = true ∧ (env.heap a).ID = (env.heap p).ID := by
  cases hf : firstSeen env repos (env.heap p).ID with
  | none => exact absurd hf (firstSeen_ne_none env repos p hp hb)
  | some a => exact ⟨a, rfl, firstSeen_some env repos _ a hf⟩

theorem supportedServiceType_iff (env : Env) (serviceType : String) :
    supportedServiceType env serviceType = true ↔
      (env.toLower serviceType = "github" ∨ env.toLower serviceType = "gitlab" ∨
        env.toLower serviceType = "bitbucketserver") := by
  simp [supportedServiceType]

/-! ## C1 -/

theorem branchCount_le_one_of_pairwise (specs : List ChangesetSpec)
    (h : (specs.filter (fun s => s.ExternalChangeset.isNone)).Pairwise
      (fun s t => ¬ (s.HeadRepository = t.HeadRepository ∧ s.HeadRef = t.HeadRef)))
    (a b : String) : branchCount specs a b ≤ 1 := by
  unfold branchCount
  induction specs with
  | nil => simp
  | cons s specs ih =>
    by_cases hx : s.ExternalChangeset.isNone = true
    · simp only [List.filter_cons, hx, if_true, List.pairwise_cons] at h
      by_cases hs : isBranchSpec a b s = true
      · have h0 : List.countP (isBranchSpec a b) specs = 0 := by
          rw [List.countP_eq_zero]
          intro t ht hbt
          simp only [isBranchSpec, Bool.and_eq_true, decide_eq_true_eq] at hs hbt
          exact h.1 t (List.mem_filter.mpr ⟨ht, hbt.1⟩)
            ⟨hs.2.1.trans hbt.2.1.symm, hs.2.2.trans hbt.2.2.symm⟩
        rw [List.countP_cons_of_pos _ _ hs, h0]
      · rw [List.countP_cons_of_neg _ _ hs]
        exact ih h.2
    · simp only [List.filter_cons, hx, if_false] at h
      have hs : ¬ isBranchSpec a b s = true := by
        simp only [isBranchSpec, Bool.and_eq_true, not_and]
        intro h1
        exact absurd h1 hx
      rw [List.countP_cons_of_neg _ _ hs]
      exact ih h

/-- C1: `ValidateChangesetSpecs` returns a non-nil error exactly when some pair
`(HeadRepository, HeadRef)` is shared by at least two specs with a nil `ExternalChangeset`;
when the branch specs have pairwise different pairs, it returns nil. -/
theorem validateChangesetSpecs_error_iff_shared_pair (σ : MapOrder) (heap : Heap)
    (repos : List RepoRef) (specs : List ChangesetSpec) :
    ((ValidateChangesetSpecs σ heap repos specs).isSome = true ↔
        ∃ headRepository headRef, 2 ≤ branchCount specs headRepository headRef) ∧
      ((specs.filter (fun s => s.ExternalChangeset.isNone)).Pairwise
          (fun s t => ¬ (s.HeadRepository = t.HeadRepository ∧ s.HeadRef = t.HeadRef)) →
        ValidateChangesetSpecs σ heap repos specs = none) := by
  refine ⟨validate_isSome_iff σ heap repos specs, ?_⟩
  intro h
  cases hv : ValidateChangesetSpecs σ heap repos specs with
  | none => rfl
  | some e =>
    have h1 : (ValidateChangesetSpecs σ heap repos specs).isSome = true := by simp [hv]
    obtain ⟨a, b, h2⟩ := (validate_isSome_iff σ heap repos specs).mp h1
    have h3 := branchCount_le_one_of_pairwise specs h a b
    omega

/-- C1 at a concrete input: two branch specs on the same branch of one repository and
an imported changeset. -/
theorem validateChangesetSpecs_error_iff_shared_pair_witness :
    (ValidateChangesetSpecs MapOrder.reversed (fun _ => mkRepository "X" "x" "github") [1]
        [⟨"X", "X", "refs/heads/main", none⟩, ⟨"X", "", "", some ⟨"7"⟩⟩,
          ⟨"X", "X", "refs/heads/main", none⟩]).isSome = true ∧
      2 ≤ branchCount [⟨"X", "X", "refs/heads/main", none⟩, ⟨"X", "", "", some ⟨"7"⟩⟩,
          ⟨"X", "X", "refs/heads/main", none⟩] "X" "refs/heads/main" :=
  ⟨((validateChangesetSpecs_error_iff_shared_pair MapOrder.reversed
      (fun _ => mkRepository "X" "x" "github") [1] _).1).mpr ⟨"X", "refs/heads/main", by decide⟩,
    by decide⟩

/-! ## C6 -/

/-- C6: when `ValidateChangesetSpecs` fails, every branch spec's `HeadRepository` being the
ID of a repository of `repos` and these IDs being pairwise different, the entries of the
error's `duplicates` table are exactly the `(repository, HeadRef)` pairs that two or more
branch specs have, each stored once (no key is repeated at either level) with the number of
branch specs that have the pair. -/
theorem validateChangesetSpecs_duplicates_entries (σ : MapOrder) (heap : Heap)
    (repos : List RepoRef) (specs : List ChangesetSpec) (e : duplicateBranchesErr)
    (hres : ValidateChangesetSpecs σ heap repos specs = some e)
    (hids : ∀ s ∈ specs, s.ExternalChangeset = none →
      ∃ p ∈ repos, (heap p).ID = s.HeadRepository)
    (hd : (repos.map (fun p => (heap p).ID)).Nodup) :
    (∀ (r : Option RepoRef) (headRef : String) (n : Nat),
        (∃ branches, (r, branches) ∈ e.duplicates ∧ (headRef, n) ∈ branches) ↔
          ∃ p ∈ repos, r = some p ∧ n = branchCount specs (heap p).ID headRef ∧ 2 ≤ n) ∧
      NodupKeys2 e.duplicates := by
  have hD : e.duplicates = collectDuplicates σ (repoByID heap repos) (byRepoAndBranch specs) := by
    unfold ValidateChangesetSpecs at hres
    by_cases hl : (collectDuplicates σ (repoByID heap repos) (byRepoAndBranch specs)).length > 0
    · simp only [hl, if_true, Option.some.injEq] at hres
      rw [← hres]
    · simp [hl] at hres
  have hN : NodupKeys2 e.duplicates := by
    rw [hD, collectDuplicates_eq_foldl]
    exact nodupKeys2_foldl_recordDuplicate _ _ ⟨by simp [GoMap.keys], by simp⟩
  have hgroup : ∀ a b l, (a, b, l) ∈ visitedGroups σ (byRepoAndBranch specs) →
      l = specs.filter (isBranchSpec a b) ∧ l ≠ [] := by
    intro a b l h
    exact (mem_byRepoAndBranch_iff specs a b l).mp ((mem_visitedGroups σ _ a b l).mp h)
  have hbyID : ∀ a b, specs.filter (isBranchSpec a b) ≠ [] →
      ∃ p, p ∈ repos ∧ (heap p).ID = a := by
    intro a b hne
    obtain ⟨s, hs⟩ := List.exists_mem_of_ne_nil _ hne
    rw [List.mem_filter] at hs
    simp only [isBranchSpec, Bool.and_eq_true, decide_eq_true_eq, Option.isNone_iff_eq_none] at hs
    obtain ⟨p, h1, h2⟩ := hids s hs.1 hs.2.1
    exact ⟨p, h1, h2.trans hs.2.2.1⟩
  refine ⟨?_, hN⟩
  intro r b n
  rw [mem_iff_get2? hN, hD, collectDuplicates_eq_foldl]
  constructor
  · intro h
    rcases get2?_foldl_recordDuplicate_some _ _ _ r b n h with h1 | ⟨⟨a, b1, l⟩, h1, h2, h3, h4, h5⟩
    · simp [GoMap.get2?, GoMap.get?] at h1
    · simp only at h2 h3 h4 h5
      subst h4
      obtain ⟨h6, h7⟩ := hgroup a b1 l h1
      obtain ⟨p, h8, h9⟩ := hbyID a b1 (h6 ▸ h7)
      have h10 := (get?_repoByID_iff heap repos hd a p).mpr ⟨h8, h9⟩
      refine ⟨p, h8, ?_, ?_, ?_⟩
      · rw [← h3, h10]
      · rw [h9, branchCount_eq_length, ← h6, h5]
      · omega
  · rintro ⟨p, h1, h2, h3, h4⟩
    subst h2
    have hlen : (specs.filter (isBranchSpec (heap p).ID b)).length = n := by
      rw [← branchCount_eq_length, ← h3]
    have hne : specs.filter (isBranchSpec (heap p).ID b) ≠ [] := by
      intro h5
      rw [h5] at hlen
      simp at hlen
      omega
    have hmem : ((heap p).ID, b, specs.filter (isBranchSpec (heap p).ID b)) ∈
        visitedGroups σ (byRepoAndBranch specs) :=
      (mem_visitedGroups σ _ _ _ _).mpr ((mem_byRepoAndBranch_iff specs _ _ _).mpr ⟨rfl, hne⟩)
    apply get2?_foldl_recordDuplicate_of_mem
    · rintro ⟨a, b1, l⟩ h5 _ h7 h8
      simp only at h7 h8
      subst h8
      have h9 := ((get?_repoByID_iff heap repos hd a p).mp h7).2
      obtain ⟨h10, _⟩ := hgroup a b1 l h5
      simp only
      rw [h10, ← h9, hlen]
    · exact ⟨_, hmem, by simp only; omega, (get?_repoByID_iff heap repos hd _ p).mpr ⟨h1, rfl⟩, rfl⟩

/-- C6 at the scenario of the specification: two branch specs with `HeadRepository` X and
`HeadRef` `refs/heads/main` give the single entry for X and `refs/heads/main`, with count 2. -/
theorem validateChangesetSpecs_duplicates_entries_witness :
    ValidateChangesetSpecs MapOrder.insertion (fun _ => mkRepository "X" "x" "github") [1]
        [⟨"X", "X", "refs/heads/main", none⟩, ⟨"X", "X", "refs/heads/main", none⟩] =
      some ⟨[(some 1, [("refs/heads/main", 2)])]⟩ ∧
    NodupKeys2 ([(some 1, [("refs/heads/main", 2)])] : GoMap (Option RepoRef) (GoMap String Nat)) :=
  ⟨by decide,
    (validateChangesetSpecs_duplicates_entries MapOrder.insertion
      (fun _ => mkRepository "X" "x" "github") [1]
      [⟨"X", "X", "refs/heads/main", none⟩, ⟨"X", "X", "refs/heads/main", none⟩]
      ⟨[(some 1, [("refs/heads/main", 2)])]⟩ (by decide) (by decide) (by decide)).2⟩

/-! ## C2 -/

/-- C2, as the code has it: if some repository of the input has a name that matches two or
more `workspaces.in` globs, `BuildTasks` returns an error, no task and issues no search; when
every pattern compiles, the error is the one for the first such repository of the input
and the second glob, in the order of `workspaces`, that matches its name: its message holds
that repository's name and the `%q` rendering of that glob. -/
theorem buildTasks_multiple_globs (σ : MapOrder) (env : Env) (repos : List RepoRef)
    (spec : CampaignSpec)
    (h : ∃ r ∈ repos, 2 ≤ matchCount (compiledWorkspaces env spec.Workspaces) (env.heap r).Name) :
    (BuildTasks σ env repos spec).err ≠ none ∧
      (BuildTasks σ env repos spec).tasks = [] ∧
      (BuildTasks σ env repos spec).requests = [] ∧
      ((∀ w ∈ spec.Workspaces, ∃ g, env.compile w.In = Except.ok g) →
        ∃ p c,
          repos.find? (fun p =>
            decide (2 ≤ matchCount (compiledWorkspaces env spec.Workspaces) (env.heap p).Name)) =
              some p ∧
          ((compiledWorkspaces env spec.Workspaces).filter
            (fun c => c.glob (env.heap p).Name)).get? 1 = some c ∧
          (BuildTasks σ env repos spec).err =
            some (Error.mk ("repository " ++ (env.heap p).Name ++
              " matches multiple workspaces.in globs in campaign spec. glob: " ++
              env.quote c.In))) := by
  obtain ⟨r, hr, hr2⟩ := h
  cases hc : compileWorkspaces env spec.Workspaces with
  | error e =>
    rw [buildTasks_of_compile_error σ env repos spec e hc]
    refine ⟨by simp, rfl, rfl, ?_⟩
    intro hall
    rw [compileWorkspaces_of_all env _ hall] at hc
    cases hc
  | ok confs =>
    have hconfs := compileWorkspaces_ok env _ _ hc
    subst hconfs
    cases ha : assignRepos env (compiledWorkspaces env spec.Workspaces) repos [] [] with
    | ok res =>
      obtain ⟨root, m⟩ := res
      have h1 := (assignRepos_ok env _ repos [] [] root m ha).1 r hr
      omega
    | error e =>
      rw [buildTasks_of_assign_error σ env repos spec _ e hc ha]
      refine ⟨by simp, rfl, rfl, ?_⟩
      intro _
      obtain ⟨p, c, h1, h2, h3⟩ := assignRepos_error env _ repos [] [] e ha
      exact ⟨p, c, h1, h2, by rw [h3]; rfl⟩

/-- C2 at a concrete input: `zz` matches no glob, `ab` matches `a*` and `*b`, and the message
names `ab` and `*b`. -/
theorem buildTasks_multiple_globs_witness :
    (BuildTasks MapOrder.insertion (Env.basic heapAbCd) [3, 1] specFourGlobs).err ≠ none ∧
      (BuildTasks MapOrder.insertion (Env.basic heapAbCd) [3, 1] specFourGlobs).tasks = [] ∧
      (BuildTasks MapOrder.insertion (Env.basic heapAbCd) [3, 1] specFourGlobs).requests = [] ∧
      (BuildTasks MapOrder.insertion (Env.basic heapAbCd) [3, 1] specFourGlobs).err =
        some (Error.mk
          "repository ab matches multiple workspaces.in globs in campaign spec. glob: \"*b\"") :=
  have h := buildTasks_multiple_globs MapOrder.insertion (Env.basic heapAbCd) [3, 1]
    specFourGlobs ⟨1, by decide, by decide⟩
  ⟨h.1, h.2.1, h.2.2.1, by decide⟩

/-- C2 fails as stated: `ab` and `cd` both match two globs, and the error message names `ab`
and the glob `*b` only; it does not contain the name `cd`. -/
theorem buildTasks_error_names_first_repository_only :
    2 ≤ matchCount (compiledWorkspaces (Env.basic heapAbCd) specFourGlobs.Workspaces)
        ((Env.basic heapAbCd).heap 2).Name ∧
      (BuildTasks MapOrder.insertion (Env.basic heapAbCd) [1, 2] specFourGlobs).err =
        some (Error.mk
          "repository ab matches multiple workspaces.in globs in campaign spec. glob: \"*b\"") ∧
      containsText
          "repository ab matches multiple workspaces.in globs in campaign spec. glob: \"*b\""
          ((Env.basic heapAbCd).heap 2).Name = false := by
  decide

/-! ## C3 -/

/-- C3: in a successful call of `BuildTasks`, a repository of the input whose name matches
none of the `workspaces.in` globs receives exactly one task, and that task has `Path` `""`. -/
theorem buildTasks_unmatched_repository (σ : MapOrder) (env : Env) (repos : List RepoRef)
    (spec : CampaignSpec) (r : RepoRef)
    (hok : (BuildTasks σ env repos spec).err = none) (hr : r ∈ repos)
    (hnone : matchCount (compiledWorkspaces env spec.Workspaces) (env.heap r).Name = 0) :
    ((BuildTasks σ env repos spec).tasks.filter (fun t => decide (t.Repository = r))).length = 1 ∧
      ∀ t ∈ (BuildTasks σ env repos spec).tasks, t.Repository = r → t.Path = "" := by
  obtain ⟨root, m, ha, ht⟩ := buildTasks_ok σ env repos spec hok
  obtain ⟨_, _, _, h4, h5⟩ := assignRepos_ok env _ repos [] [] root m ha
  have hroot : r ∈ GoMap.keys root := (h5 r).mpr (Or.inr ⟨hr, hnone⟩)
  have hnodup : (GoMap.keys root).Nodup := h4 (by simp [GoMap.keys])
  have hnot : ∀ e ∈ σ.range _ m,
      ∀ t ∈ entryTasks σ env spec (compiledWorkspaces env spec.Workspaces) root e,
        t.Repository ≠ r := by
    intro e he t hte hrt
    obtain ⟨conf, dirs, _, _, h8, _⟩ := mem_entryTasks σ env spec _ root e t hte
    have h9 := (mem_assigned env _ repos root m ha e.1 e.2).mp (((σ.perm _ m).mem_iff).mp he)
    rw [h9.1, hrt] at h8
    unfold matchedRepos at h8
    have h10 := (List.mem_filter.mp h8).2
    have := matchCount_pos_of_matchesAt _ _ _ h10
    omega
  rw [ht]
  constructor
  · rw [List.filter_append, List.length_append]
    have h1 : List.filter (fun t => decide (t.Repository = r))
        ((σ.range _ m).flatMap (entryTasks σ env spec (compiledWorkspaces env spec.Workspaces) root))
          = [] := by
      rw [List.filter_eq_nil_iff]
      intro t htm
      obtain ⟨e, he, hte⟩ := List.mem_flatMap.mp htm
      simpa using hnot e he t hte
    rw [h1, List.length_nil, Nat.zero_add]
    unfold rootTasks
    rw [← List.countP_eq_length_filter, List.countP_map,
      (σ.perm _ root).countP_eq, ← countP_key_eq_one root r hnodup hroot]
    rfl
  · intro t htm hrt
    rcases List.mem_append.mp htm with h1 | h1
    · obtain ⟨e, he, hte⟩ := List.mem_flatMap.mp h1
      exact absurd hrt (hnot e he t hte)
    · unfold rootTasks at h1
      obtain ⟨e, _, h2⟩ := List.mem_map.mp h1
      rw [← h2]

/-- C3 at a concrete input: of the repositories `ab`, `cd` and `zz`, only `ab` matches the glob
`a*`; `cd` receives one task, at the root. -/
theorem buildTasks_unmatched_repository_witness :
    ((BuildTasks MapOrder.insertion envTwoDirs [1, 2, 3] specOneGlob).tasks.filter
        (fun t => decide (t.Repository = 2))).length = 1 ∧
      ∀ t ∈ (BuildTasks MapOrder.insertion envTwoDirs [1, 2, 3] specOneGlob).tasks,
        t.Repository = 2 → t.Path = "" :=
  buildTasks_unmatched_repository MapOrder.insertion envTwoDirs [1, 2, 3] specOneGlob 2
    (by decide) (by decide) (by decide)

/-! ## C4 -/

/-- C4: in a successful call of `BuildTasks`, every task of a repository `r` whose name
matches exactly one `workspaces.in` glob has as `Path` a directory that the directory search
of the matching configuration returned for `r`, with `"."` replaced by `""`; and no task at
all has `Path` `"."`. -/
theorem buildTasks_matched_repository_paths (σ : MapOrder) (env : Env) (repos : List RepoRef)
    (spec : CampaignSpec) (r : RepoRef)
    (hok : (BuildTasks σ env repos spec).err = none)
    (hone : matchCount (compiledWorkspaces env spec.Workspaces) (env.heap r).Name = 1) :
    (∀ t ∈ (BuildTasks σ env repos spec).tasks, t.Repository = r →
        ∃ q conf dirs,
          (compiledWorkspaces env spec.Workspaces).get? q = some conf ∧
          conf.glob (env.heap r).Name = true ∧
          (r, dirs) ∈ (FindDirectoriesInRepos σ env conf.RootAtLocationOf
            (matchedRepos env (compiledWorkspaces env spec.Workspaces) repos q)).results ∧
          ∃ d ∈ dirs, t.Path = if d = "." then "" else d) ∧
      ∀ t ∈ (BuildTasks σ env repos spec).tasks, t.Path ≠ "." := by
  obtain ⟨root, m, ha, ht⟩ := buildTasks_ok σ env repos spec hok
  obtain ⟨_, _, _, _, h5⟩ := assignRepos_ok env _ repos [] [] root m ha
  rw [ht]
  constructor
  · intro t htm hrt
    rcases List.mem_append.mp htm with h1 | h1
    · obtain ⟨e, he, hte⟩ := List.mem_flatMap.mp h1
      obtain ⟨conf, dirs, h6, h7, h8, _, h10⟩ := mem_entryTasks σ env spec _ root e t hte
      have h11 := (mem_assigned env _ repos root m ha e.1 e.2).mp (((σ.perm _ m).mem_iff).mp he)
      rw [h11.1] at h7 h8
      rw [hrt] at h7 h8
      unfold matchedRepos at h8
      have h12 := (List.mem_filter.mp h8).2
      obtain ⟨conf1, h13, h14⟩ := (matchesAt_iff _ _ _).mp h12
      rw [h6] at h13
      cases h13
      exact ⟨e.1, conf, dirs, h6, h14, h7, h10⟩
    · unfold rootTasks at h1
      obtain ⟨e, he, h2⟩ := List.mem_map.mp h1
      have h3 : e.1 ∈ GoMap.keys root :=
        List.mem_map.mpr ⟨e, ((σ.perm _ root).mem_iff).mp he, rfl⟩
      rw [← h2] at hrt
      simp only at hrt
      rw [hrt] at h3
      rcases (h5 r).mp h3 with h4 | ⟨_, h4⟩
      · simp [GoMap.keys] at h4
      · omega
  · intro t htm
    rcases List.mem_append.mp htm with h1 | h1
    · obtain ⟨e, _, hte⟩ := List.mem_flatMap.mp h1
      obtain ⟨_, _, _, _, _, h9, _⟩ := mem_entryTasks σ env spec _ root e t hte
      exact h9
    · unfold rootTasks at h1
      obtain ⟨e, _, h2⟩ := List.mem_map.mp h1
      rw [← h2]
      simp

/-- C4 at a concrete input: `ab` matches the glob `a*` only, and the search finds `f` in the
directories `x` and `y`. -/
theorem buildTasks_matched_repository_paths_witness :
    (∀ t ∈ (BuildTasks MapOrder.reversed envTwoDirs [1, 2, 3] specOneGlob).tasks,
        t.Repository = 1 →
        ∃ q conf dirs,
          (compiledWorkspaces envTwoDirs specOneGlob.Workspaces).get? q = some conf ∧
          conf.glob (envTwoDirs.heap 1).Name = true ∧
          (1, dirs) ∈ (FindDirectoriesInRepos MapOrder.reversed envTwoDirs conf.RootAtLocationOf
            (matchedRepos envTwoDirs (compiledWorkspaces envTwoDirs specOneGlob.Workspaces)
              [1, 2, 3] q)).results ∧
          ∃ d ∈ dirs, t.Path = if d = "." then "" else d) ∧
      ∀ t ∈ (BuildTasks MapOrder.reversed envTwoDirs [1, 2, 3] specOneGlob).tasks, t.Path ≠ "." :=
  buildTasks_matched_repository_paths MapOrder.reversed envTwoDirs [1, 2, 3] specOneGlob 1
    (by decide) (by decide)

/-! ## C5 -/

/-- C5: in a successful call of `BuildTasks`, a repository whose name matches exactly one
glob receives as many tasks as the search of that glob's configuration returned directories
for it (none when the search has no entry for it); and, the repositories being pairwise
distinct, the number of tasks is the number of repositories matching no glob plus the
number of directories returned by the searches of all configurations. -/
theorem buildTasks_task_count (σ : MapOrder) (env : Env) (repos : List RepoRef)
    (spec : CampaignSpec) (hok : (BuildTasks σ env repos spec).err = none) :
    (∀ r q conf,
        (compiledWorkspaces env spec.Workspaces).get? q = some conf →
        conf.glob (env.heap r).Name = true →
        matchCount (compiledWorkspaces env spec.Workspaces) (env.heap r).Name = 1 →
        ((BuildTasks σ env repos spec).tasks.filter (fun t => decide (t.Repository = r))).length =
          ((GoMap.get? (FindDirectoriesInRepos σ env conf.RootAtLocationOf
            (matchedRepos env (compiledWorkspaces env spec.Workspaces) repos q)).results r).getD
              []).length) ∧
      (repos.Nodup →
        (BuildTasks σ env repos spec).tasks.length =
          (repos.filter (fun p =>
            decide (matchCount (compiledWorkspaces env spec.Workspaces) (env.heap p).Name = 0))).length +
          ((List.range (compiledWorkspaces env spec.Workspaces).length).map
            (discoveredCount σ env (compiledWorkspaces env spec.Workspaces) repos)).sum) := by
  obtain ⟨root, m, ha, ht⟩ := buildTasks_ok σ env repos spec hok
  obtain ⟨_, _, h3, _, _⟩ := assignRepos_ok env _ repos [] [] root m ha
  have hn : (GoMap.keys m).Nodup := h3 (by simp [GoMap.keys])
  rw [ht]
  constructor
  · intro r q conf hq hg hone
    have hroot : r ∉ GoMap.keys root :=
      not_mem_root_of_matched env _ repos root m ha r (by omega)
    have hmq : matchesAt (env.heap r).Name (compiledWorkspaces env spec.Workspaces) 0 q = true :=
      (matchesAt_iff _ _ _).mpr ⟨conf, hq, hg⟩
    rw [← List.countP_eq_length_filter, List.countP_append]
    have hz : (rootTasks σ spec root).countP (fun t => decide (t.Repository = r)) = 0 := by
      rw [List.countP_eq_zero]
      intro t htm
      unfold rootTasks at htm
      obtain ⟨e, he, h2⟩ := List.mem_map.mp htm
      rw [← h2]
      simp only [decide_eq_true_eq]
      intro h6
      exact hroot (h6 ▸ List.mem_map.mpr ⟨e, ((σ.perm _ root).mem_iff).mp he, rfl⟩)
    rw [hz, Nat.add_zero, List.countP_flatMap]
    have hperm : (List.map ((List.countP fun t => decide (t.Repository = r)) ∘
        entryTasks σ env spec (compiledWorkspaces env spec.Workspaces) root) (σ.range _ m)).sum =
        (m.map (fun e => (entryTasks σ env spec (compiledWorkspaces env spec.Workspaces) root
          e).countP (fun t => decide (t.Repository = r)))).sum :=
      List.Perm.sum_eq (List.Perm.map _ (σ.perm _ m))
    rw [hperm, sum_map_of_key m q _ hn]
    · have hget := get?_assigned env _ repos root m ha q
      by_cases hnil : matchedRepos env (compiledWorkspaces env spec.Workspaces) repos q = []
      · rw [if_pos hnil] at hget
        rw [hget, hnil, findDirectoriesInRepos_nil]
        rfl
      · rw [if_neg hnil] at hget
        rw [hget]
        simp only [entryTasks, hq]
        exact countP_repoDirsTasks σ spec conf root _ r
          (findDirectoriesInRepos_within σ env conf.RootAtLocationOf _).1 hroot
    · intro e he hne
      rw [List.countP_eq_zero]
      intro t hte
      simp only [decide_eq_true_eq]
      intro hrt
      obtain ⟨_, _, _, _, h8, _⟩ := mem_entryTasks σ env spec _ root e t hte
      have h9 := ((mem_assigned env _ repos root m ha e.1 e.2).mp he).1
      rw [h9, hrt] at h8
      unfold matchedRepos at h8
      have h10 := matchesAt_unique _ _ 0 e.1 q (List.mem_filter.mp h8).2 hmq hne
      omega
  · intro hnodup
    rw [List.length_append, List.length_flatMap]
    have hperm : (List.map (List.length ∘
        entryTasks σ env spec (compiledWorkspaces env spec.Workspaces) root) (σ.range _ m)).sum =
        (m.map (fun e => (entryTasks σ env spec (compiledWorkspaces env spec.Workspaces) root
          e).length)).sum :=
      List.Perm.sum_eq (List.Perm.map _ (σ.perm _ m))
    have hmap : m.map (fun e =>
        (entryTasks σ env spec (compiledWorkspaces env spec.Workspaces) root e).length) =
        (GoMap.keys m).map (discoveredCount σ env (compiledWorkspaces env spec.Workspaces) repos) := by
      unfold GoMap.keys
      rw [List.map_map]
      apply List.map_congr_left
      intro e he
      exact length_entryTasks σ env spec _ repos root m ha e he
    have hroot : (rootTasks σ spec root).length = root.length := by
      unfold rootTasks
      rw [List.length_map, (σ.perm _ root).length_eq]
    rw [hperm, hmap, sum_discoveredCount_keys σ env _ repos root m ha, hroot,
      length_root env _ repos root m ha hnodup]
    omega

/-- C5 at the scenario of the specification: three repositories, the glob matching `ab`
only, and the root marker found in two directories of `ab`: two tasks for `ab`, one for
each of the other two, four in all. -/
theorem buildTasks_task_count_witness :
    ((BuildTasks MapOrder.insertion envTwoDirs [1, 2, 3] specOneGlob).tasks.map
        (fun t => (t.Repository, t.Path)) = [(1, "x"), (1, "y"), (2, ""), (3, "")]) ∧
      (BuildTasks MapOrder.insertion envTwoDirs [1, 2, 3] specOneGlob).tasks.length =
        ([1, 2, 3].filter (fun p =>
          decide (matchCount (compiledWorkspaces envTwoDirs specOneGlob.Workspaces)
            (envTwoDirs.heap p).Name = 0))).length +
        ((List.range (compiledWorkspaces envTwoDirs specOneGlob.Workspaces).length).map
          (discoveredCount MapOrder.insertion envTwoDirs
            (compiledWorkspaces envTwoDirs specOneGlob.Workspaces) [1, 2, 3])).sum :=
  ⟨by decide,
    (buildTasks_task_count MapOrder.insertion envTwoDirs [1, 2, 3] specOneGlob (by decide)).2
      (by decide)⟩

/-! ## C7 -/

/-- C7: for an import entry whose repository resolves to `repo` and whose external IDs are
all strings or integers, the import loop of `ExecuteCampaignSpec` appends to the specs so
far one external `ChangesetSpec` per declared ID, in declaration order, each with
`BaseRepository = repo.ID` and as `ExternalID` the string itself or the integer in base 10;
and whenever the call returns through its last `return`, the specs returned are those of
the executor followed by the external specs of the entries, in declaration order. -/
theorem executeCampaignSpec_appends_external_specs (env : Env) :
    (∀ (skipErrors : Bool) (ic : ImportChangeset) (specs : List ChangesetSpec)
        (errs : Option MultiError) (repo : RepoRef),
        resolveRepositoryName env ic.Repository = (some repo, none) →
        (∀ id ∈ ic.ExternalIDs, (plainExternalID id).isSome = true) →
        (importChangeset env skipErrors ic (specs, errs)) =
            Flow.next (specs ++ ic.ExternalIDs.map (fun id =>
              ⟨(env.heap repo).ID, "", "", some ⟨(plainExternalID id).getD ""⟩⟩), errs) ∧
          (importedSpecs env ic) = ic.ExternalIDs.map (fun id =>
            ⟨(env.heap repo).ID, "", "", some ⟨(plainExternalID id).getD ""⟩⟩)) ∧
      (∀ (x : Executor) (spec : CampaignSpec) (skipErrors : Bool) (specs : List ChangesetSpec)
        (logFiles : List String) (err : Option ExecError),
        ExecuteCampaignSpec env x spec skipErrors = ExecOutcome.returned specs logFiles err →
        (∀ e, err ≠ some (ExecError.single e)) →
        specs = x.waitSpecs ++ spec.ImportChangesets.flatMap (importedSpecs env)) := by
  constructor
  · intro skipErrors ic specs errs repo hr hids
    refine ⟨?_, importedSpecs_plain env ic repo hr hids⟩
    have hc : ic.ExternalIDs.all (fun id => (externalIDString env id).toBool) = true := by
      rw [List.all_eq_true]
      intro id hid
      have h1 := hids id hid
      cases id with
      | str s => rfl
      | int i => rfl
      | uint n => rfl
      | float32 b => rfl
      | float64 b => rfl
      | other t => simp [plainExternalID] at h1
    obtain ⟨specs1, h1⟩ := appendExternalIDs_of_convertible env (some repo) ic.ExternalIDs specs
      hc (Or.inl rfl)
    have h2 := appendExternalIDs_next env (some repo) _ _ _ h1
    rw [filterMap_plain env repo _ hids] at h2
    unfold importChangeset
    simp only [hr, h1, h2]
  · intro x spec skipErrors specs logFiles err h hfinal
    exact (executeCampaignSpec_final env x spec skipErrors specs logFiles err h hfinal).1

/-- C7 at the scenario of the specification: the IDs `[123, "456"]` for repository Y give the
two external specs with the external IDs `"123"` and `"456"`, after the executor's spec. -/
theorem executeCampaignSpec_appends_external_specs_witness :
    ExecuteCampaignSpec envResolving ⟨[⟨"X", "X", "refs/heads/a", none⟩], none, ["log"]⟩
        ⟨[], [], [], none, none, [⟨"Y", [ExternalIDValue.int 123, ExternalIDValue.str "456"]⟩]⟩
        false =
      ExecOutcome.returned
        [⟨"X", "X", "refs/heads/a", none⟩, ⟨"Y", "", "", some ⟨"123"⟩⟩,
          ⟨"Y", "", "", some ⟨"456"⟩⟩] ["log"] none ∧
    (importChangeset envResolving false
        ⟨"Y", [ExternalIDValue.int 123, ExternalIDValue.str "456"]⟩ ([], none)) =
      Flow.next ([⟨"Y", "", "", some ⟨"123"⟩⟩, ⟨"Y", "", "", some ⟨"456"⟩⟩], none) :=
  ⟨by decide,
    ((executeCampaignSpec_appends_external_specs envResolving).1 false
      ⟨"Y", [ExternalIDValue.int 123, ExternalIDValue.str "456"]⟩ [] none 2 (by decide)
      (by decide)).1⟩

/-! ## C8 -/

/-- C8, as the code has it: when the executor's `Wait` reports an error `e`, with
`skipErrors = false` the call returns no specs, no log files and `e` itself, whatever
the import entries are; with `skipErrors = true`, and no import entry ending the call (an
ID of a type that the type switch does not convert, or a nil repository with an ID), it
returns the specs of `Wait` followed by the external specs, the log files, and an aggregate
error whose first element is `e`. -/
theorem executeCampaignSpec_wait_error (env : Env) (x : Executor) (spec : CampaignSpec)
    (e : Error) (hw : x.waitErr = some e) :
    ExecuteCampaignSpec env x spec false =
        ExecOutcome.returned [] [] (some (ExecError.single e)) ∧
      ((∀ ic ∈ spec.ImportChangesets, importable env ic = true) →
        ∃ rest,
          ExecuteCampaignSpec env x spec true =
            ExecOutcome.returned
              (x.waitSpecs ++ spec.ImportChangesets.flatMap (importedSpecs env)) x.logFiles
              (some (ExecError.aggregate ⟨e :: rest⟩))) := by
  constructor
  · unfold ExecuteCampaignSpec
    simp [hw]
  · intro himp
    obtain ⟨⟨specs1, errs1⟩, h1⟩ := importChangesets_of_importable env spec.ImportChangesets
      (x.waitSpecs, multierrorAppend none e) himp
    obtain ⟨h2, more, h3⟩ := importChangesets_next env true _ _ _ _ _ h1
    have h4 : collected errs1 = e :: more := by
      rw [h3]
      rfl
    cases errs1 with
    | none => simp [collected] at h4
    | some m =>
      obtain ⟨errors⟩ := m
      simp only [collected] at h4
      subst h4
      refine ⟨more, ?_⟩
      unfold ExecuteCampaignSpec
      simp only [hw, if_true, h1, h2]
      simp [ErrorOrNil]

/-- C8 at a concrete input: one spec from `Wait`, its error, and an import entry with the
IDs `[123, "456"]`. -/
theorem executeCampaignSpec_wait_error_witness :
    ExecuteCampaignSpec envResolving
        ⟨[⟨"X", "X", "refs/heads/a", none⟩], some (Error.mk "task failed"), ["log"]⟩
        ⟨[], [], [], none, none, [⟨"Y", [ExternalIDValue.int 123, ExternalIDValue.str "456"]⟩]⟩
        false =
      ExecOutcome.returned [] [] (some (ExecError.single (Error.mk "task failed"))) ∧
    ExecuteCampaignSpec envResolving
        ⟨[⟨"X", "X", "refs/heads/a", none⟩], some (Error.mk "task failed"), ["log"]⟩
        ⟨[], [], [], none, none, [⟨"Y", [ExternalIDValue.int 123, ExternalIDValue.str "456"]⟩]⟩
        true =
      ExecOutcome.returned
        [⟨"X", "X", "refs/heads/a", none⟩, ⟨"Y", "", "", some ⟨"123"⟩⟩,
          ⟨"Y", "", "", some ⟨"456"⟩⟩] ["log"]
        (some (ExecError.aggregate ⟨[Error.mk "task failed"]⟩)) :=
  ⟨(executeCampaignSpec_wait_error envResolving
      ⟨[⟨"X", "X", "refs/heads/a", none⟩], some (Error.mk "task failed"), ["log"]⟩
      ⟨[], [], [], none, none, [⟨"Y", [ExternalIDValue.int 123, ExternalIDValue.str "456"]⟩]⟩
      (Error.mk "task failed") rfl).1,
    by decide⟩

/-- C8 fails as stated: `Wait` reports an error and a spec, `skipErrors` is true, and
an import entry holds an ID of type `bool`; the call returns neither the spec of `Wait` nor an
aggregate error, but the conversion error alone. -/
theorem executeCampaignSpec_skipErrors_unconvertible_id :
    ExecuteCampaignSpec envResolving
        ⟨[⟨"X", "X", "refs/heads/a", none⟩], some (Error.mk "task failed"), ["log"]⟩
        ⟨[], [], [], none, none, [⟨"Y", [ExternalIDValue.other "bool"]⟩]⟩ true =
      ExecOutcome.returned [] []
        (some (ExecError.single (Error.mk
          "cannot convert value of type bool into a valid external ID: expected string or int"))) := by
  decide

/-! ## More on the loop of `ResolveRepositories` -/

theorem seen_entry (env : Env) (allowUnsupported : Bool) (done : List RepoRef)
    (st : ResolveState) (h : ResolveInv env allowUnsupported done st) (e : String × RepoRef)
    (he : e ∈ st.seen) :
    firstSeen env done e.1 = some e.2 ∧ (env.heap e.2).ID = e.1 ∧
      env.hasBranch (env.heap e.2) = true ∧ e.2 ∈ done := by
  obtain ⟨h1, _, _, _, h5, _⟩ := h
  have h9 := GoMap.get?_of_mem h5 he
  rw [h1] at h9
  obtain ⟨h10, h11, h12⟩ := firstSeen_some env _ _ _ h9
  exact ⟨h9, h12, h11, h10⟩

theorem nodup_ids_of_inv (σ : MapOrder) (env : Env) (allowUnsupported : Bool)
    (done : List RepoRef) (st : ResolveState) (h : ResolveInv env allowUnsupported done st) :
    ((((σ.range _ st.seen).map Prod.snd).filter
      (fun repo => !st.unsupported.includes repo)).map (fun a => (st.heap a).ID)).Nodup := by
  have h5 := h.2.2.2.2.1
  have h4 := h.2.2.2.1
  rw [List.filter_map, List.map_map]
  have hcongr : ((σ.range _ st.seen).filter
        ((fun repo => !st.unsupported.includes repo) ∘ Prod.snd)).map
        ((fun a => (st.heap a).ID) ∘ Prod.snd) =
      ((σ.range _ st.seen).filter
        ((fun repo => !st.unsupported.includes repo) ∘ Prod.snd)).map Prod.fst := by
    apply List.map_congr_left
    intro e he
    have hm : e ∈ st.seen := ((σ.perm _ st.seen).mem_iff).mp (List.mem_of_mem_filter he)
    have := (seen_entry env allowUnsupported done st h e hm).2.1
    simp only [Function.comp]
    rw [(h4 e.2).1, this]
  rw [hcongr]
  have hperm : ((σ.range _ st.seen).map Prod.fst).Nodup :=
    ((σ.perm _ st.seen).map Prod.fst).nodup_iff.mpr h5
  exact List.Nodup.sublist (List.Sublist.map _ (List.filter_sublist _)) hperm

/-! ## External specs in `ValidateChangesetSpecs` -/

theorem foldl_groupSpec_filter (specs : List ChangesetSpec)
    (m : GoMap String (GoMap String (List ChangesetSpec))) :
    specs.foldl groupSpec m =
      (specs.filter (fun s => s.ExternalChangeset.isNone)).foldl groupSpec m := by
  induction specs generalizing m with
  | nil => rfl
  | cons s specs ih =>
    cases hx : s.ExternalChangeset with
    | none =>
      simp only [List.foldl_cons, List.filter_cons, hx, Option.isNone_none, if_true]
      exact ih _
    | some x =>
      have hg : groupSpec m s = m := by simp [groupSpec, hx]
      simp only [List.foldl_cons, List.filter_cons, hx, Option.isNone_some, Bool.false_eq_true,
        if_false, hg]
      exact ih _

theorem range_nil (σ : MapOrder) (α : Type) : σ.range α [] = [] :=
  List.Perm.eq_nil (σ.perm α [])

/-! ## C15 -/

/-- C15: `ValidateChangesetSpecs` gives the same result on `specs` as on `specs` without its
external specs (those with a non-nil `ExternalChangeset`), and whether it fails does not
depend on the iteration order either; a list of external specs only validates, whatever
`HeadRepository` and `HeadRef` they have. -/
theorem validateChangesetSpecs_skips_external (σ : MapOrder) (heap : Heap)
    (repos : List RepoRef) (specs : List ChangesetSpec) :
    ValidateChangesetSpecs σ heap repos specs =
        ValidateChangesetSpecs σ heap repos (specs.filter (fun s => s.ExternalChangeset.isNone)) ∧
      (∀ σ1 : MapOrder, (ValidateChangesetSpecs σ heap repos specs).isSome =
        (ValidateChangesetSpecs σ1 heap repos
          (specs.filter (fun s => s.ExternalChangeset.isNone))).isSome) ∧
      ((∀ s ∈ specs, s.ExternalChangeset.isSome = true) →
        ValidateChangesetSpecs σ heap repos specs = none) := by
  have hb : byRepoAndBranch specs =
      byRepoAndBranch (specs.filter (fun s => s.ExternalChangeset.isNone)) :=
    foldl_groupSpec_filter specs []
  have h1 : ValidateChangesetSpecs σ heap repos specs =
      ValidateChangesetSpecs σ heap repos (specs.filter (fun s => s.ExternalChangeset.isNone)) := by
    unfold ValidateChangesetSpecs
    rw [hb]
  refine ⟨h1, ?_, ?_⟩
  · intro σ1
    rw [h1]
    rw [Bool.eq_iff_iff, validate_isSome_iff, validate_isSome_iff]
  · intro hall
    have hnil : specs.filter (fun s => s.ExternalChangeset.isNone) = [] := by
      rw [List.filter_eq_nil_iff]
      intro s hs
      have := hall s hs
      cases hx : s.ExternalChangeset with
      | none => simp [hx] at this
      | some x => simp
    rw [h1, hnil]
    simp [ValidateChangesetSpecs, collectDuplicates, byRepoAndBranch, range_nil]

/-- C15 at a concrete input: two imported changesets with the same `HeadRepository` and
`HeadRef`. -/
theorem validateChangesetSpecs_skips_external_witness :
    ValidateChangesetSpecs MapOrder.insertion heapAbCd [1]
        [⟨"X", "X", "refs/heads/a", some ⟨"1"⟩⟩, ⟨"X", "X", "refs/heads/a", some ⟨"2"⟩⟩] = none :=
  (validateChangesetSpecs_skips_external MapOrder.insertion heapAbCd [1]
    [⟨"X", "X", "refs/heads/a", some ⟨"1"⟩⟩, ⟨"X", "X", "refs/heads/a", some ⟨"2"⟩⟩]).2.2
    (by decide)

/-! ## Text inside a message -/

theorem any_isPrefixOf_tails_append (pre part post : List Char) :
    (pre ++ part ++ post).tails.any (fun t => part.isPrefixOf t) = true := by
  induction pre with
  | nil =>
    have hp : part.isPrefixOf (part ++ post) = true := by
      rw [List.isPrefixOf_iff_prefix]
      exact List.prefix_append _ _
    rw [List.nil_append, List.any_eq_true]
    exact ⟨part ++ post, by simp, hp⟩
  | cons c pre ih =>
    rw [List.cons_append, List.cons_append, List.tails, List.any_cons, ih]
    simp

theorem containsText_append (pre part post : String) :
    containsText (pre ++ part ++ post) part = true := by
  unfold containsText
  have h : (pre ++ part ++ post).toList = pre.toList ++ part.toList ++ post.toList := by
    simp [String.toList]
  rw [h]
  exact any_isPrefixOf_tails_append _ _ _

/-! ## The objects after the loop of `ResolveRepositories` -/

theorem lastSeen_append_singleton (env : Env) (done : List RepoRef) (p : RepoRef) (id : String) :
    lastSeen env (done ++ [p]) id =
      if env.hasBranch (env.heap p) = true ∧ (env.heap p).ID = id then some p
      else lastSeen env done id := by
  unfold lastSeen firstSeen
  rw [List.reverse_append, List.reverse_singleton, List.singleton_append, List.find?_cons]
  by_cases h1 : env.hasBranch (env.heap p) = true
  · by_cases h2 : (env.heap p).ID = id
    · simp [h1, h2]
    · simp [h1, h2]
  · simp [h1]

theorem resolveHeapInv_nil (env : Env) : ResolveHeapInv env [] ⟨[], [], env.heap⟩ := by
  intro p
  simp [firstSeen]

theorem resolveHeapInv_seeRepo (env : Env) (allowUnsupported : Bool) (done : List RepoRef)
    (st : ResolveState) (p : RepoRef) (h : ResolveInv env allowUnsupported done st)
    (hh : ResolveHeapInv env done st) (hp : p ∉ done) :
    ResolveHeapInv env (done ++ [p]) (seeRepo env allowUnsupported st p) := by
  obtain ⟨h1, _, h3, _, _, _⟩ := h
  have hpe : st.heap p = env.heap p := h3 p (Or.inl hp)
  unfold seeRepo
  rw [hpe]
  by_cases hb : env.hasBranch (env.heap p) = true
  · simp only [hb, Bool.not_true, Bool.false_eq_true, if_false]
    cases hg : GoMap.get? st.seen (env.heap p).ID with
    | none =>
      have hfs : firstSeen env done (env.heap p).ID = none := by rw [← h1, hg]
      intro x
      simp only
      rw [hh x, firstSeen_append_singleton, lastSeen_append_singleton]
      by_cases hi : (env.heap p).ID = (env.heap x).ID
      · rw [← hi, hfs]
        by_cases hx : p = x
        · subst hx
          simp [hb]
        · have hx1 : ¬ (some p = some x) := by simpa using hx
          simp [hb, hx]
      · simp [hi]
    | some other =>
      have hfs : firstSeen env done (env.heap p).ID = some other := by rw [← h1, hg]
      obtain ⟨ho1, _, ho3⟩ := firstSeen_some env done _ other hfs
      intro x
      simp only
      rw [firstSeen_append_singleton, lastSeen_append_singleton]
      by_cases hx : x = other
      · subst hx
        rw [Function.update_same, hh x, ho3, hfs]
        simp only [Option.or_some, if_true, hb, ho3.symm, and_self]
        cases lastSeen env done (env.heap x).ID <;> rfl
      · rw [Function.update_noteq hx, hh x]
        by_cases hi : (env.heap p).ID = (env.heap x).ID
        · rw [← hi, hfs]
          have hx1 : ¬ (other = x) := fun e => hx e.symm
          simp [hx1]
        · simp [hi]
  · have hbf : env.hasBranch (env.heap p) = false := by simpa using hb
    simp only [hbf, Bool.not_false, if_true]
    intro x
    rw [hh x, firstSeen_append_singleton, lastSeen_append_singleton]
    simp [hbf]

theorem resolveHeapInv_foldl (env : Env) (allowUnsupported : Bool) (done repos : List RepoRef)
    (st : ResolveState) (h : ResolveInv env allowUnsupported done st)
    (hh : ResolveHeapInv env done st) (hn : (done ++ repos).Nodup) :
    ResolveHeapInv env (done ++ repos) (repos.foldl (seeRepo env allowUnsupported) st) := by
  induction repos generalizing done st with
  | nil => simpa using hh
  | cons p repos ih =>
    rw [List.foldl_cons]
    have hp : p ∉ done := by
      intro hm
      have := List.nodup_append.mp hn
      exact this.2.2 hm (List.mem_cons_self _ _)
    have hn1 : (done ++ [p] ++ repos).Nodup := by simpa using hn
    have h1 := ih (done ++ [p]) _ (resolveInv_seeRepo env allowUnsupported done st p h)
      (resolveHeapInv_seeRepo env allowUnsupported done st p h hh hp) hn1
    simpa using h1

theorem lastSeen_of_firstSeen (env : Env) (repos : List RepoRef) (id : String) (a : RepoRef)
    (h : firstSeen env repos id = some a) :
    ∃ last, lastSeen env repos id = some last ∧ last ∈ repos ∧
      env.hasBranch (env.heap last) = true ∧ (env.heap last).ID = id := by
  obtain ⟨h1, h2, h3⟩ := firstSeen_some env repos id a h
  cases hl : lastSeen env repos id with
  | none =>
    unfold lastSeen at hl
    have := firstSeen_ne_none env repos.reverse a (List.mem_reverse.mpr h1) h2
    rw [h3] at this
    exact absurd hl this
  | some last =>
    unfold lastSeen at hl
    obtain ⟨h4, h5, h6⟩ := firstSeen_some env _ id last hl
    exact ⟨last, rfl, List.mem_reverse.mp h4, h5, h6⟩

/-! ## Repositories without a branch in `ResolveRepositories` -/

theorem seeRepo_of_branchless (env : Env) (allowUnsupported : Bool) (done : List RepoRef)
    (st : ResolveState) (p : RepoRef) (h : ResolveInv env allowUnsupported done st)
    (hb : env.hasBranch (env.heap p) = false) : seeRepo env allowUnsupported st p = st := by
  have hpe : st.heap p = env.heap p := h.2.2.1 p (Or.inr hb)
  unfold seeRepo
  rw [hpe, hb]
  rfl

theorem foldl_seeRepo_filter (env : Env) (allowUnsupported : Bool) (done repos : List RepoRef)
    (st : ResolveState) (h : ResolveInv env allowUnsupported done st) :
    (repos.filter (fun p => env.hasBranch (env.heap p))).foldl (seeRepo env allowUnsupported) st =
      repos.foldl (seeRepo env allowUnsupported) st := by
  induction repos generalizing done st with
  | nil => rfl
  | cons p repos ih =>
    cases hb : env.hasBranch (env.heap p) with
    | false =>
      rw [List.filter_cons, List.foldl_cons,
        seeRepo_of_branchless env allowUnsupported done st p h hb]
      simp only [hb, Bool.false_eq_true, if_false]
      exact ih done st h
    | true =>
      rw [List.filter_cons]
      simp only [hb, if_true, List.foldl_cons]
      exact ih (done ++ [p]) _ (resolveInv_seeRepo env allowUnsupported done st p h)

theorem branchInv_seeRepo (env : Env) (allowUnsupported : Bool) (done : List RepoRef)
    (st : ResolveState) (p : RepoRef) (h : ResolveInv env allowUnsupported done st)
    (hbi : BranchInv env st)
    (hdep : ∀ r q : Repository, r.DefaultBranch = q.DefaultBranch → r.Commit = q.Commit →
      r.Branch = q.Branch → env.hasBranch r = env.hasBranch q)
    (hdef : ∀ q ∈ done, (env.heap q).ID = (env.heap p).ID →
      (env.heap q).DefaultBranch = (env.heap p).DefaultBranch) :
    BranchInv env (seeRepo env allowUnsupported st p) := by
  obtain ⟨h1, _, _, h4, _, _⟩ := h
  obtain ⟨hb1, hb2⟩ := hbi
  unfold seeRepo
  by_cases hb : env.hasBranch (st.heap p) = true
  · simp only [hb, Bool.not_true, Bool.false_eq_true, if_false]
    cases hg : GoMap.get? st.seen (st.heap p).ID with
    | none =>
      refine ⟨hb1, ?_⟩
      intro id a ha
      simp only at ha
      rw [GoMap.get?_set] at ha
      by_cases hi : (st.heap p).ID = id
      · rw [if_pos hi] at ha
        cases ha
        exact hb
      · rw [if_neg hi] at ha
        exact hb2 id a ha
    | some other =>
      have hfs : firstSeen env done (env.heap p).ID = some other := by
        rw [← h1, ← (h4 p).1, hg]
      obtain ⟨ho1, _, ho3⟩ := firstSeen_some env done _ other hfs
      refine ⟨?_, ?_⟩
      · intro x
        by_cases hx : x = other
        · subst hx
          simp only [Function.update_same]
          exact hb1 x
        · simp only [Function.update_noteq hx]
          exact hb1 x
      · intro id a ha
        simp only at ha
        by_cases hx : a = other
        · subst hx
          simp only [Function.update_same]
          rw [← hb]
          apply hdep
          · rw [hb1 a, hb1 p]
            exact hdef a ho1 ho3
          · rfl
          · rfl
        · simp only [Function.update_noteq hx]
          exact hb2 id a ha
  · have hbf : env.hasBranch (st.heap p) = false := by simpa using hb
    simp only [hbf, Bool.not_false, if_true]
    exact ⟨hb1, hb2⟩

theorem branchInv_foldl (env : Env) (allowUnsupported : Bool) (done repos : List RepoRef)
    (st : ResolveState) (h : ResolveInv env allowUnsupported done st)
    (hbi : BranchInv env st)
    (hdep : ∀ r q : Repository, r.DefaultBranch = q.DefaultBranch → r.Commit = q.Commit →
      r.Branch = q.Branch → env.hasBranch r = env.hasBranch q)
    (hdef : ∀ p ∈ done ++ repos, ∀ q ∈ done ++ repos, (env.heap p).ID = (env.heap q).ID →
      (env.heap p).DefaultBranch = (env.heap q).DefaultBranch) :
    BranchInv env (repos.foldl (seeRepo env allowUnsupported) st) := by
  induction repos generalizing done st with
  | nil => exact hbi
  | cons p repos ih =>
    rw [List.foldl_cons]
    apply ih (done ++ [p]) _ (resolveInv_seeRepo env allowUnsupported done st p h)
    · apply branchInv_seeRepo env allowUnsupported done st p h hbi hdep
      intro q hq hid
      exact hdef q (List.mem_append_left _ hq) p (by simp) hid
    · intro a ha b hb
      exact hdef a (by simpa using ha) b (by simpa using hb)

/-! ## C17: the glob that the message omits -/

/-- C17 fails as stated: the name `ab` matches the globs `a*` and `*b`, and the message of the
error that `BuildTasks` returns contains the glob `*b` but not the glob `a*`. -/
theorem buildTasks_error_omits_first_glob :
    matchCount (compiledWorkspaces (Env.basic heapAbCd) specTwoGlobs.Workspaces)
        ((Env.basic heapAbCd).heap 1).Name = 2 ∧
      ((compiledWorkspaces (Env.basic heapAbCd) specTwoGlobs.Workspaces).filter
        (fun c => c.glob ((Env.basic heapAbCd).heap 1).Name)).map (fun c => c.In) =
          ["a*", "*b"] ∧
      (BuildTasks MapOrder.insertion (Env.basic heapAbCd) [1] specTwoGlobs).err =
        some (Error.mk
          "repository ab matches multiple workspaces.in globs in campaign spec. glob: \"*b\"") ∧
      containsText
          "repository ab matches multiple workspaces.in globs in campaign spec. glob: \"*b\""
          "a*" = false := by
  decide

/-! ## The message of `duplicateBranchesErr` -/

theorem stripChars_append (pre s : List Char) : stripChars pre (pre ++ s) = some s := by
  induction pre with
  | nil => rfl
  | cons c pre ih => simp [stripChars, ih]

theorem stripChars_eq_none (pre s : List Char) (h : ¬ pre <+: s) : stripChars pre s = none := by
  induction pre generalizing s with
  | nil => exact absurd (List.nil_prefix) h
  | cons c pre ih =>
    cases s with
    | nil => rfl
    | cons d s =>
      unfold stripChars
      by_cases hcd : c = d
      · subst hcd
        rw [if_pos rfl]
        apply ih
        intro hp
        exact h ((List.prefix_cons_inj c).mpr hp)
      · rw [if_neg hcd]

theorem writeBranches_some (env : Env) (r : RepoRef) (l : List (String × Nat)) (out : String) :
    ∃ added, writeBranches env (some r) l out = some (out ++ added) ∧
      ∀ e ∈ l, ∃ pre post,
        added = pre ++
          duplicateLine env (env.heap r).Name e.2 (TrimPrefix e.1 "refs/heads/") ++ post := by
  induction l generalizing out with
  | nil => exact ⟨"", by simp [writeBranches], by simp⟩
  | cons x l ih =>
    obtain ⟨branch, n⟩ := x
    obtain ⟨added, h1, h2⟩ := ih
      (out ++ duplicateLine env (env.heap r).Name n (TrimPrefix branch "refs/heads/"))
    refine ⟨duplicateLine env (env.heap r).Name n (TrimPrefix branch "refs/heads/") ++ added,
      ?_, ?_⟩
    · simp only [writeBranches]
      rw [h1, String.append_assoc]
    · intro e he
      rcases List.mem_cons.mp he with he | he
      · subst he
        exact ⟨"", added, by rw [String.empty_append]⟩
      · obtain ⟨pre, post, hp⟩ := h2 e he
        refine ⟨duplicateLine env (env.heap r).Name n (TrimPrefix branch "refs/heads/") ++ pre,
          post, ?_⟩
        rw [hp]
        simp only [String.append_assoc]

theorem writeDuplicates_some (σ : MapOrder) (env : Env)
    (entries : List (Option RepoRef × GoMap String Nat)) (out : String)
    (hkeys : ∀ entry ∈ entries, entry.1 ≠ none) :
    ∃ added, writeDuplicates σ env entries out = some (out ++ added) ∧
      ∀ r branches, (some r, branches) ∈ entries → ∀ e ∈ branches, ∃ pre post,
        added = pre ++
          duplicateLine env (env.heap r).Name e.2 (TrimPrefix e.1 "refs/heads/") ++ post := by
  induction entries generalizing out with
  | nil => exact ⟨"", by simp [writeDuplicates], by simp⟩
  | cons x entries ih =>
    obtain ⟨repo, branches⟩ := x
    cases repo with
    | none => exact absurd rfl (hkeys (none, branches) (List.mem_cons_self _ _))
    | some r0 =>
      obtain ⟨added0, h1, h2⟩ := writeBranches_some env r0 (σ.range _ branches) out
      obtain ⟨added1, h3, h4⟩ := ih (out ++ added0)
        (fun entry he => hkeys entry (List.mem_cons_of_mem _ he))
      refine ⟨added0 ++ added1, ?_, ?_⟩
      · simp only [writeDuplicates, h1]
        rw [h3, String.append_assoc]
      · intro r bs hm e he
        rcases List.mem_cons.mp hm with hm | hm
        · simp only [Prod.mk.injEq, Option.some.injEq] at hm
          obtain ⟨hr, hbs⟩ := hm
          subst hr hbs
          obtain ⟨pre, post, hp⟩ := h2 e (((σ.perm _ bs).mem_iff).mpr he)
          refine ⟨pre, post ++ added1, ?_⟩
          rw [hp]
          simp only [String.append_assoc]
        · obtain ⟨pre, post, hp⟩ := h4 r bs hm e he
          refine ⟨added0 ++ pre, post, ?_⟩
          rw [hp]
          simp only [String.append_assoc]

/-! ## Text inside a text -/

theorem containsText_iff (text part : String) :
    containsText text part = true ↔ part.toList <:+: text.toList := by
  unfold containsText
  rw [List.any_eq_true, List.infix_iff_prefix_suffix]
  constructor
  · rintro ⟨t, ht, hp⟩
    exact ⟨t, List.isPrefixOf_iff_prefix.mp hp, (List.mem_tails _ _).mp ht⟩
  · rintro ⟨t, hp, ht⟩
    exact ⟨t, (List.mem_tails _ _).mpr ht, List.isPrefixOf_iff_prefix.mpr hp⟩

theorem containsText_trans (a b c : String) (h1 : containsText a b = true)
    (h2 : containsText b c = true) : containsText a c = true := by
  rw [containsText_iff] at *
  exact List.IsInfix.trans h2 h1

/-! ## C20 -/

/-- C20: `ResolveRepositoriesOn` returns `ErrMalformedOnQueryOrRepository` with no repository
and without a request to the API exactly when the declaration has an empty query and an
empty repository name, whatever its branch; and when the query is not empty, the call is the
search for that query, whatever the repository name and the branch of the declaration. -/
theorem resolveRepositoriesOn_malformed (σ : MapOrder) (env : Env)
    (decl : OnQueryOrRepository) :
    (((ResolveRepositoriesOn σ env decl).err = some ErrMalformedOnQueryOrRepository ∧
          (ResolveRepositoriesOn σ env decl).repos = [] ∧
          (ResolveRepositoriesOn σ env decl).requests = []) ↔
        (decl.RepositoriesMatchingQuery = "" ∧ decl.Repository = "")) ∧
      (decl.RepositoriesMatchingQuery ≠ "" →
        (ResolveRepositoriesOn σ env decl).repos =
            (resolveRepositorySearch σ env decl.RepositoriesMatchingQuery).1.map some ∧
          (ResolveRepositoriesOn σ env decl).err =
            (resolveRepositorySearch σ env decl.RepositoriesMatchingQuery).2 ∧
          (ResolveRepositoriesOn σ env decl).requests =
            [ApiRequest.repositorySearch
              (setDefaultQueryCount env decl.RepositoriesMatchingQuery) false ""] ∧
          (ResolveRepositoriesOn σ env decl).heap = env.heap) := by
  constructor
  · constructor
    · rintro ⟨_, _, hreq⟩
      unfold ResolveRepositoriesOn at hreq
      by_cases hq : decl.RepositoriesMatchingQuery = ""
      · by_cases hn : decl.Repository = ""
        · exact ⟨hq, hn⟩
        · exfalso
          by_cases hb : decl.Branch = ""
          · simp only [hq, hn, hb, ne_eq, not_true_eq_false, not_false_eq_true, and_false,
              if_false, if_true] at hreq
            split at hreq <;> simp at hreq
          · simp only [hq, hn, hb, ne_eq, not_true_eq_false, not_false_eq_true, and_self,
              if_false, if_true] at hreq
            split at hreq <;> simp at hreq
      · simp [hq] at hreq
    · rintro ⟨hq, hn⟩
      unfold ResolveRepositoriesOn
      simp [hq, hn]
  · intro hq
    unfold ResolveRepositoriesOn
    simp [hq]

/-- C20 at a concrete input: a declaration with the query `repo:a`, the repository name `cd`
and the branch `dev` is resolved as a search. -/
theorem resolveRepositoriesOn_malformed_witness :
    (ResolveRepositoriesOn MapOrder.insertion envSearching ⟨"", "", "dev"⟩).err =
        some ErrMalformedOnQueryOrRepository ∧
      (ResolveRepositoriesOn MapOrder.insertion envSearching ⟨"repo:a", "cd", "dev"⟩).requests =
        [ApiRequest.repositorySearch "repo:a count:999999" false ""] ∧
      ((ResolveRepositoriesOn MapOrder.insertion envSearching ⟨"repo:a", "cd", "dev"⟩).repos =
          (resolveRepositorySearch MapOrder.insertion envSearching "repo:a").1.map some ∧
        (ResolveRepositoriesOn MapOrder.insertion envSearching ⟨"repo:a", "cd", "dev"⟩).err =
          (resolveRepositorySearch MapOrder.insertion envSearching "repo:a").2 ∧
        (ResolveRepositoriesOn MapOrder.insertion envSearching ⟨"repo:a", "cd", "dev"⟩).requests =
          [ApiRequest.repositorySearch
            (setDefaultQueryCount envSearching "repo:a") false ""] ∧
        (ResolveRepositoriesOn MapOrder.insertion envSearching ⟨"repo:a", "cd", "dev"⟩).heap =
          envSearching.heap) :=
  ⟨by decide, by decide,
    (resolveRepositoriesOn_malformed MapOrder.insertion envSearching ⟨"repo:a", "cd", "dev"⟩).2
      (by decide)⟩

/-! ## The loop of `resolveRepositorySearch` -/

theorem mem_firstOccurrences (l : List String) (x : String) :
    x ∈ firstOccurrences l ↔ x ∈ l := by
  induction l with
  | nil => simp [firstOccurrences]
  | cons y l ih =>
    simp only [firstOccurrences, List.mem_cons, List.mem_filter, ih, Bool.not_eq_true',
      decide_eq_false_iff_not]
    by_cases h : x = y
    · simp [h]
    · simp [h]

theorem nodup_firstOccurrences (l : List String) : (firstOccurrences l).Nodup := by
  induction l with
  | nil => simp [firstOccurrences]
  | cons y l ih =>
    simp only [firstOccurrences, List.nodup_cons, List.mem_filter, decide_True, Bool.not_true,
      Bool.false_eq_true, and_false, not_false_eq_true, true_and]
    exact ih.filter _

theorem firstOccurrences_append_singleton (l : List String) (x : String) :
    firstOccurrences (l ++ [x]) =
      if x ∈ l then firstOccurrences l else firstOccurrences l ++ [x] := by
  induction l with
  | nil => simp [firstOccurrences]
  | cons y l ih =>
    rw [List.cons_append]
    simp only [firstOccurrences]
    rw [ih]
    by_cases hxy : x = y
    · subst hxy
      by_cases hx : x ∈ l
      · simp [hx]
      · simp [hx]
    · by_cases hx : x ∈ l
      · simp [hx, hxy]
      · simp [hx, hxy]

theorem mem_keys_addFiles (σ : MapOrder) (files existing : GoMap String Bool) (f : String) :
    f ∈ GoMap.keys (addFiles σ files existing) ↔
      f ∈ GoMap.keys existing ∨ f ∈ GoMap.keys files := by
  have key : ∀ (l : List (String × Bool)) (m : GoMap String Bool),
      f ∈ GoMap.keys (l.foldl (fun m e => GoMap.set m e.1 true) m) ↔
        f ∈ GoMap.keys m ∨ f ∈ l.map Prod.fst := by
    intro l
    induction l with
    | nil => simp
    | cons e l ih =>
      intro m
      rw [List.foldl_cons, ih, GoMap.mem_keys_set]
      simp only [List.map_cons, List.mem_cons]
      tauto
  unfold addFiles
  rw [key]
  have : f ∈ (σ.range _ files).map Prod.fst ↔ f ∈ GoMap.keys files :=
    ((σ.perm _ files).map Prod.fst).mem_iff
  rw [this]

theorem values_addFiles (σ : MapOrder) (files existing : GoMap String Bool)
    (h : ∀ e ∈ existing, e.2 = true) : ∀ e ∈ addFiles σ files existing, e.2 = true := by
  have key : ∀ (l : List (String × Bool)) (m : GoMap String Bool),
      (∀ e ∈ m, e.2 = true) →
        ∀ e ∈ l.foldl (fun m e => GoMap.set m e.1 true) m, e.2 = true := by
    intro l
    induction l with
    | nil => intro m hm; simpa using hm
    | cons x l ih =>
      intro m hm
      rw [List.foldl_cons]
      apply ih
      intro e he
      rcases GoMap.mem_set he with he | he
      · rw [he]
      · exact hm e he
  exact key _ _ h

theorem searchInv_nil : SearchInv [] ⟨[], []⟩ := by
  refine ⟨by simp [firstOccurrences], ?_, ?_, ?_, ?_⟩
  · intro id i h
    simp [GoMap.get?] at h
  · intro id _
    simp
  · intro repo h
    simp at h
  · intro repo h
    simp at h

theorem map_modify_of_key {α κ : Type} (key : α → κ) (F : α → α) (hF : ∀ a, key (F a) = key a)
    (i : Nat) (l : List α) : (List.modify F i l).map key = l.map key := by
  apply List.ext_getElem?
  intro j
  rw [List.getElem?_map, List.getElem?_map, List.getElem?_modify]
  cases l[j]? with
  | none => rfl
  | some a =>
    by_cases hij : i = j
    · simp [hij, hF]
    · simp [hij]

theorem mem_modify_of_nodup {α κ : Type} (key : α → κ) (F : α → α) (l : List α) (i : Nat)
    (a0 : α) (hi : l[i]? = some a0) (hn : (l.map key).Nodup) (x : α) :
    x ∈ List.modify F i l ↔ x = F a0 ∨ (x ∈ l ∧ key x ≠ key a0) := by
  constructor
  · intro hx
    obtain ⟨j, hj⟩ := List.mem_iff_getElem?.mp hx
    rw [List.getElem?_modify] at hj
    by_cases hij : i = j
    · subst hij
      rw [hi] at hj
      simp only [if_true, Option.map_eq_map, Option.map_some', Option.some.injEq] at hj
      exact Or.inl hj.symm
    · cases hlj : l[j]? with
      | none => simp [hlj] at hj
      | some y =>
        rw [hlj] at hj
        simp only [hij, if_false, Option.map_eq_map, Option.map_some', Option.some.injEq] at hj
        subst hj
        refine Or.inr ⟨List.mem_iff_getElem?.mpr ⟨j, hlj⟩, ?_⟩
        intro hk
        have h1 : (l.map key)[i]? = some (key a0) := by rw [List.getElem?_map, hi]; rfl
        have h2 : (l.map key)[j]? = some (key a0) := by rw [List.getElem?_map, hlj, ← hk]; rfl
        have hlt1 : i < (l.map key).length := (List.getElem?_eq_some_iff.mp h1).1
        have hlt2 : j < (l.map key).length := (List.getElem?_eq_some_iff.mp h2).1
        have h3 : (l.map key)[i] = (l.map key)[j] := by
          rw [List.getElem_eq_iff.mpr h1, List.getElem_eq_iff.mpr h2]
        exact hij ((List.Nodup.getElem_inj_iff hn).mp h3)
  · rintro (hx | ⟨hx, hk⟩)
    · apply List.mem_iff_getElem?.mpr
      refine ⟨i, ?_⟩
      rw [List.getElem?_modify, hi, hx]
      simp
    · obtain ⟨j, hj⟩ := List.mem_iff_getElem?.mp hx
      apply List.mem_iff_getElem?.mpr
      refine ⟨j, ?_⟩
      have hij : ¬ i = j := by
        intro hij
        subst hij
        rw [hi] at hj
        simp only [Option.some.injEq] at hj
        subst hj
        exact hk rfl
      rw [List.getElem?_modify, hj]
      simp [hij]

theorem searchInv_addRow (σ : MapOrder) (done : List searchResult) (st : SearchState)
    (r : searchResult) (h : SearchInv done st)
    (hr : ∀ e ∈ r.Repository.FileMatches, e.2 = true) :
    SearchInv (done ++ [r]) (addRow σ st r) := by
  obtain ⟨h1, h2, h3, h4, h5⟩ := h
  have hids : ∀ repo ∈ st.repos, repo.ID ∈ done.map (fun r => r.Repository.ID) := by
    intro repo hrepo
    rw [← mem_firstOccurrences, ← h1]
    exact List.mem_map.mpr ⟨repo, hrepo, rfl⟩
  unfold addRow
  cases hg : GoMap.get? st.ids r.Repository.ID with
  | none =>
    unfold SearchInv
    dsimp only
    have hnot := h3 _ hg
    have hne : ∀ repo ∈ st.repos, repo.ID ≠ r.Repository.ID := by
      intro repo hrepo he
      exact hnot (he ▸ hids repo hrepo)
    refine ⟨?_, ?_, ?_, ?_, ?_⟩
    · simp only [List.map_append, List.map_cons, List.map_nil]
      rw [firstOccurrences_append_singleton, if_neg hnot, h1]
    · intro id i hi
      rw [GoMap.get?_set] at hi
      simp only [List.get?_eq_getElem?]
      by_cases hid : r.Repository.ID = id
      · rw [if_pos hid] at hi
        cases hi
        exact ⟨r.Repository, by simp, hid⟩
      · rw [if_neg hid] at hi
        obtain ⟨repo, hrepo, hrid⟩ := h2 id i hi
        rw [List.get?_eq_getElem?] at hrepo
        refine ⟨repo, ?_, hrid⟩
        rw [List.getElem?_append_left (List.getElem?_eq_some_iff.mp hrepo).1]
        exact hrepo
    · intro id hi
      rw [GoMap.get?_set] at hi
      by_cases hid : r.Repository.ID = id
      · rw [if_pos hid] at hi
        cases hi
      · rw [if_neg hid] at hi
        have := h3 id hi
        simp only [List.map_append, List.map_cons, List.map_nil, List.mem_append,
          List.mem_singleton]
        rintro (hm | hm)
        · exact this hm
        · exact hid hm.symm
    · intro repo hrepo f
      rcases List.mem_append.mp hrepo with hrepo1 | hrepo1
      · rw [h4 repo hrepo1 f]
        constructor
        · rintro ⟨x, hx, hxi, hxf⟩
          exact ⟨x, List.mem_append_left _ hx, hxi, hxf⟩
        · rintro ⟨x, hx, hxi, hxf⟩
          rcases List.mem_append.mp hx with hx1 | hx1
          · exact ⟨x, hx1, hxi, hxf⟩
          · rw [List.mem_singleton] at hx1
            rw [hx1] at hxi
            exact absurd hxi.symm (hne repo hrepo1)
      · rw [List.mem_singleton] at hrepo1
        rw [hrepo1]
        constructor
        · intro hf
          exact ⟨r, by simp, rfl, hf⟩
        · rintro ⟨x, hx, hxi, hxf⟩
          rcases List.mem_append.mp hx with hx1 | hx1
          · exact absurd (hxi ▸ List.mem_map.mpr ⟨x, hx1, rfl⟩) hnot
          · rw [List.mem_singleton] at hx1
            rw [hx1] at hxf
            exact hxf
    · intro repo hrepo
      rcases List.mem_append.mp hrepo with hrepo1 | hrepo1
      · exact h5 repo hrepo1
      · rw [List.mem_singleton] at hrepo1
        rw [hrepo1]
        exact hr
  | some i =>
    unfold SearchInv
    dsimp only
    obtain ⟨repo0, hi, hid⟩ := h2 _ _ hg
    rw [List.get?_eq_getElem?] at hi
    have hrepo0 : repo0 ∈ st.repos := List.mem_iff_getElem?.mpr ⟨i, hi⟩
    have hmem : r.Repository.ID ∈ done.map (fun r => r.Repository.ID) := hid ▸ hids repo0 hrepo0
    have hnodup : (st.repos.map (fun repo => repo.ID)).Nodup := by
      rw [h1]
      exact nodup_firstOccurrences _
    have hmap := map_modify_of_key (fun repo : Repository => repo.ID)
      (fun repo =>
        { repo with FileMatches := addFiles σ r.Repository.FileMatches repo.FileMatches })
      (fun _ => rfl) i st.repos
    have hmm := mem_modify_of_nodup (fun repo : Repository => repo.ID)
      (fun repo =>
        { repo with FileMatches := addFiles σ r.Repository.FileMatches repo.FileMatches })
      st.repos i repo0 hi hnodup
    refine ⟨?_, ?_, ?_, ?_, ?_⟩
    · simp only [List.map_append, List.map_cons, List.map_nil]
      rw [firstOccurrences_append_singleton, if_pos hmem, ← h1]
      exact hmap
    · intro id j hj
      obtain ⟨repo, hrepo, hrid⟩ := h2 id j hj
      rw [List.get?_eq_getElem?] at hrepo
      simp only [List.get?_eq_getElem?, List.getElem?_modify, hrepo]
      by_cases hij : i = j
      · exact ⟨{ repo with
            FileMatches := addFiles σ r.Repository.FileMatches repo.FileMatches },
          by simp [hij], hrid⟩
      · exact ⟨repo, by simp [hij], hrid⟩
    · intro id hn
      have := h3 id hn
      simp only [List.map_append, List.map_cons, List.map_nil, List.mem_append,
        List.mem_singleton]
      rintro (hm | hm)
      · exact this hm
      · rw [hm, hg] at hn
        cases hn
    · intro repo hrepo f
      rcases (hmm repo).mp hrepo with hrepo | ⟨hrepo, hk⟩
      · subst hrepo
        simp only
        rw [mem_keys_addFiles, h4 repo0 hrepo0 f]
        constructor
        · rintro (⟨x, hx, hxi, hxf⟩ | hf)
          · exact ⟨x, List.mem_append_left _ hx, hxi, hxf⟩
          · exact ⟨r, by simp, hid.symm, hf⟩
        · rintro ⟨x, hx, hxi, hxf⟩
          rcases List.mem_append.mp hx with hx | hx
          · exact Or.inl ⟨x, hx, hxi, hxf⟩
          · rw [List.mem_singleton] at hx
            subst hx
            exact Or.inr hxf
      · rw [h4 repo hrepo f]
        simp only at hk
        constructor
        · rintro ⟨x, hx, hxi, hxf⟩
          exact ⟨x, List.mem_append_left _ hx, hxi, hxf⟩
        · rintro ⟨x, hx, hxi, hxf⟩
          rcases List.mem_append.mp hx with hx | hx
          · exact ⟨x, hx, hxi, hxf⟩
          · rw [List.mem_singleton] at hx
            subst hx
            exact absurd (hxi.symm.trans hid.symm) hk
    · intro repo hrepo
      rcases (hmm repo).mp hrepo with hrepo | ⟨hrepo, _⟩
      · subst hrepo
        exact values_addFiles σ _ _ (h5 repo0 hrepo0)
      · exact h5 repo hrepo

theorem searchInv_foldl (σ : MapOrder) (done rest : List searchResult) (st : SearchState)
    (h : SearchInv done st)
    (hr : ∀ r ∈ rest, ∀ e ∈ r.Repository.FileMatches, e.2 = true) :
    SearchInv (done ++ rest) (rest.foldl (addRow σ) st) := by
  induction rest generalizing done st with
  | nil => simpa using h
  | cons r rest ih =>
    rw [List.foldl_cons]
    have h1 := ih (done ++ [r]) _
      (searchInv_addRow σ done st r h (hr r (List.mem_cons_self _ _)))
      (fun x hx => hr x (List.mem_cons_of_mem _ hx))
    simpa using h1

theorem decodeRows_known (env : Env) (rows : List SearchRow)
    (hknown : ∀ row ∈ rows, ∀ t, row ≠ SearchRow.other t) :
    ∃ results, decodeRows env rows = Except.ok results ∧
      results.map (fun r => r.Repository.ID) = rows.map SearchRow.ID ∧
      (∀ id f, (∃ r ∈ results, r.Repository.ID = id ∧
          f ∈ GoMap.keys r.Repository.FileMatches) ↔
        ∃ repo, SearchRow.fileMatch repo f ∈ rows ∧ repo.ID = id) ∧
      (∀ r ∈ results, ∀ e ∈ r.Repository.FileMatches, e.2 = true) := by
  induction rows with
  | nil => exact ⟨[], rfl, rfl, by simp, by simp⟩
  | cons row rows ih =>
    obtain ⟨results, h1, h2, h3, h4⟩ := ih (fun x hx => hknown x (List.mem_cons_of_mem _ hx))
    cases row with
    | other t => exact absurd rfl (hknown _ (List.mem_cons_self _ _) t)
    | fileMatch repo path =>
      refine ⟨⟨{ repo with FileMatches := [(path, true)] }⟩ :: results, ?_, ?_, ?_, ?_⟩
      · simp [decodeRows, searchResult.UnmarshalJSON, h1]
      · simp [h2, SearchRow.ID]
      · intro id f
        simp only [List.mem_cons, exists_eq_or_imp, GoMap.keys, List.map_cons, List.map_nil,
          List.mem_singleton, SearchRow.fileMatch.injEq, List.not_mem_nil, or_false]
        have := h3 id f
        simp only [GoMap.keys] at this
        rw [this]
        constructor
        · rintro (⟨hi, hf⟩ | ⟨x, hx, hxi⟩)
          · exact ⟨repo, Or.inl ⟨rfl, hf⟩, hi⟩
          · exact ⟨x, Or.inr hx, hxi⟩
        · rintro ⟨x, (⟨hx, hf⟩ | hx), hxi⟩
          · subst hx
            exact Or.inl ⟨hxi, hf⟩
          · exact Or.inr ⟨x, hx, hxi⟩
      · intro r hr
        rcases List.mem_cons.mp hr with hr | hr
        · subst hr
          simp
        · exact h4 r hr
    | repository repo =>
      refine ⟨⟨{ repo with FileMatches := [] }⟩ :: results, ?_, ?_, ?_, ?_⟩
      · simp [decodeRows, searchResult.UnmarshalJSON, h1]
      · simp [h2, SearchRow.ID]
      · intro id f
        simp only [List.mem_cons, exists_eq_or_imp, GoMap.keys, List.map_nil, List.not_mem_nil,
          and_false, false_or]
        have := h3 id f
        simp only [GoMap.keys] at this
        rw [this]
        constructor
        · rintro ⟨x, hx, hxi⟩
          exact ⟨x, Or.inr hx, hxi⟩
        · rintro ⟨x, (hx | hx), hxi⟩
          · cases hx
          · exact ⟨x, hx, hxi⟩
      · intro r hr
        rcases List.mem_cons.mp hr with hr | hr
        · subst hr
          simp
        · exact h4 r hr

/-! ## C14 -/

/-- C14: when the API answers the request of `resolveRepositorySearch` with rows that are
file matches or repositories, the call returns, without an error, one repository for every
ID that occurs in the rows, in the order in which the IDs first occur, and the `FileMatches`
of a returned repository holds, with the value true, exactly the paths of the file matches
whose repository has its ID; a row that is a repository adds no path. -/
theorem resolveRepositorySearch_deduplicates (σ : MapOrder) (env : Env) (query : String)
    (rows : List SearchRow)
    (hapi : env.searchRepositories (setDefaultQueryCount env query) = SearchResponse.ok rows)
    (hknown : ∀ row ∈ rows, ∀ t, row ≠ SearchRow.other t) :
    (resolveRepositorySearch σ env query).2 = none ∧
      (resolveRepositorySearch σ env query).1.map (fun repo => repo.ID) =
        firstOccurrences (rows.map SearchRow.ID) ∧
      ∀ repo ∈ (resolveRepositorySearch σ env query).1,
        (∀ f, f ∈ GoMap.keys repo.FileMatches ↔
          ∃ r, SearchRow.fileMatch r f ∈ rows ∧ r.ID = repo.ID) ∧
        ∀ e ∈ repo.FileMatches, e.2 = true := by
  obtain ⟨results, h1, h2, h3, h4⟩ := decodeRows_known env rows hknown
  have hinv := searchInv_foldl σ [] results ⟨[], []⟩ searchInv_nil h4
  rw [List.nil_append] at hinv
  obtain ⟨i1, _, _, i4, i5⟩ := hinv
  have hres : resolveRepositorySearch σ env query =
      ((results.foldl (addRow σ) ⟨[], []⟩).repos, none) := by
    unfold resolveRepositorySearch
    rw [hapi]
    simp only [h1]
  rw [hres]
  refine ⟨rfl, by rw [i1, h2], ?_⟩
  intro repo hrepo
  refine ⟨?_, i5 repo hrepo⟩
  intro f
  rw [i4 repo hrepo f, h3]

/-- C14 at a concrete input: the repository `ab` is found by a file match on `x/f`, as a
repository and by a file match on `y/f`, and the repository `cd` is found in between. -/
theorem resolveRepositorySearch_deduplicates_witness :
    (resolveRepositorySearch MapOrder.insertion envSearching "repo:a").1 =
        [{ mkRepository "X" "ab" "github" with FileMatches := [("x/f", true), ("y/f", true)] },
          mkRepository "Y" "cd" "gitlab"] ∧
      ((resolveRepositorySearch MapOrder.insertion envSearching "repo:a").2 = none ∧
        (resolveRepositorySearch MapOrder.insertion envSearching "repo:a").1.map
            (fun repo => repo.ID) =
          firstOccurrences
            ([SearchRow.fileMatch (mkRepository "X" "ab" "github") "x/f",
              SearchRow.repository (mkRepository "Y" "cd" "gitlab"),
              SearchRow.repository (mkRepository "X" "ab" "github"),
              SearchRow.fileMatch (mkRepository "X" "ab" "github") "y/f"].map SearchRow.ID) ∧
        ∀ repo ∈ (resolveRepositorySearch MapOrder.insertion envSearching "repo:a").1,
          (∀ f, f ∈ GoMap.keys repo.FileMatches ↔
            ∃ r, SearchRow.fileMatch r f ∈
                [SearchRow.fileMatch (mkRepository "X" "ab" "github") "x/f",
                  SearchRow.repository (mkRepository "Y" "cd" "gitlab"),
                  SearchRow.repository (mkRepository "X" "ab" "github"),
                  SearchRow.fileMatch (mkRepository "X" "ab" "github") "y/f"] ∧
              r.ID = repo.ID) ∧
          ∀ e ∈ repo.FileMatches, e.2 = true) :=
  ⟨by decide,
    resolveRepositorySearch_deduplicates MapOrder.insertion envSearching "repo:a" _ rfl
      (fun row hrow t => by
        simp only [List.mem_cons, List.mem_singleton, List.not_mem_nil, or_false] at hrow
        rcases hrow with h | h | h | h <;> rw [h] <;> simp)⟩

/-! ## The directories of a query result, whatever the iteration order -/

theorem keys_foldl_set_unit (l : List (String × Bool)) (m : GoMap String Unit) :
    ((GoMap.keys m).Nodup →
        (GoMap.keys (l.foldl (fun fs e => GoMap.set fs e.1 ()) m)).Nodup) ∧
      ∀ f, f ∈ GoMap.keys (l.foldl (fun fs e => GoMap.set fs e.1 ()) m) ↔
        f ∈ GoMap.keys m ∨ f ∈ l.map Prod.fst := by
  induction l generalizing m with
  | nil => simp
  | cons e l ih =>
    rw [List.foldl_cons]
    obtain ⟨h1, h2⟩ := ih (GoMap.set m e.1 ())
    refine ⟨fun hn => h1 (GoMap.nodup_keys_set _ _ hn), ?_⟩
    intro f
    rw [h2, GoMap.mem_keys_set]
    simp only [List.map_cons, List.mem_cons]
    tauto

theorem keys_collectFiles_aux (σ : MapOrder) (rows : List searchResult)
    (m : GoMap String Unit) :
    ((GoMap.keys m).Nodup →
        (GoMap.keys (rows.foldl
          (fun files r =>
            (σ.range _ r.Repository.FileMatches).foldl (fun fs e => GoMap.set fs e.1 ()) files)
          m)).Nodup) ∧
      ∀ f, f ∈ GoMap.keys (rows.foldl
          (fun files r =>
            (σ.range _ r.Repository.FileMatches).foldl (fun fs e => GoMap.set fs e.1 ()) files)
          m) ↔
        f ∈ GoMap.keys m ∨ ∃ r ∈ rows, f ∈ GoMap.keys r.Repository.FileMatches := by
  induction rows generalizing m with
  | nil => simp
  | cons r rows ih =>
    rw [List.foldl_cons]
    obtain ⟨h1, h2⟩ := ih
      ((σ.range _ r.Repository.FileMatches).foldl (fun fs e => GoMap.set fs e.1 ()) m)
    obtain ⟨h3, h4⟩ := keys_foldl_set_unit (σ.range _ r.Repository.FileMatches) m
    refine ⟨fun hn => h1 (h3 hn), ?_⟩
    intro f
    rw [h2, h4]
    have hperm : f ∈ (σ.range _ r.Repository.FileMatches).map Prod.fst ↔
        f ∈ GoMap.keys r.Repository.FileMatches :=
      ((σ.perm _ r.Repository.FileMatches).map Prod.fst).mem_iff
    rw [hperm]
    simp only [List.mem_cons, exists_eq_or_imp]
    tauto

theorem dirsOf_perm (σ1 σ2 : MapOrder) (env : Env) (rows : List searchResult) :
    (dirsOf σ1 env rows).Perm (dirsOf σ2 env rows) := by
  have hkeys : (GoMap.keys (collectFiles σ1 rows)).Perm (GoMap.keys (collectFiles σ2 rows)) := by
    obtain ⟨h1, h2⟩ := keys_collectFiles_aux σ1 rows []
    obtain ⟨h3, h4⟩ := keys_collectFiles_aux σ2 rows []
    unfold collectFiles
    rw [List.perm_ext_iff_of_nodup (h1 (by simp [GoMap.keys])) (h3 (by simp [GoMap.keys]))]
    intro f
    rw [h2, h4]
  have hmap : ∀ σ : MapOrder, (dirsOf σ env rows).Perm
      ((GoMap.keys (collectFiles σ rows)).map env.pathDir) := by
    intro σ
    unfold dirsOf GoMap.keys
    rw [List.map_map]
    exact (σ.perm _ (collectFiles σ rows)).map _
  exact ((hmap σ1).trans (hkeys.map _)).trans (hmap σ2).symm

/-! ## Query names and repositories -/

theorem get?_reposByQueryID_index (repos : List RepoRef) (i : Nat) (m : GoMap String RepoRef)
    (k : String) (p : RepoRef) (h : GoMap.get? (reposByQueryID repos i m) k = some p) :
    GoMap.get? m k = some p ∨ ∃ j, k = queryIDOf (i + j) ∧ repos.get? j = some p := by
  induction repos generalizing i m with
  | nil => exact Or.inl h
  | cons repo repos ih =>
    unfold reposByQueryID at h
    rcases ih _ _ h with h1 | ⟨j, h1, h2⟩
    · rw [GoMap.get?_set] at h1
      by_cases hk : queryIDOf i = k
      · simp only [hk, if_true, Option.some.injEq] at h1
        subst h1
        exact Or.inr ⟨0, hk.symm, rfl⟩
      · rw [if_neg hk] at h1
        exact Or.inl h1
    · refine Or.inr ⟨j + 1, ?_, by simpa using h2⟩
      rw [h1]
      congr 1
      omega

theorem reposByQueryID_inj (repos : List RepoRef) (hn : repos.Nodup) (k1 k2 : String)
    (p : RepoRef) (h1 : GoMap.get? (reposByQueryID repos 0 []) k1 = some p)
    (h2 : GoMap.get? (reposByQueryID repos 0 []) k2 = some p) : k1 = k2 := by
  rcases get?_reposByQueryID_index repos 0 [] k1 p h1 with h3 | ⟨j1, h3, h4⟩
  · simp [GoMap.get?] at h3
  rcases get?_reposByQueryID_index repos 0 [] k2 p h2 with h5 | ⟨j2, h5, h6⟩
  · simp [GoMap.get?] at h5
  rw [List.get?_eq_getElem?] at h4 h6
  have hl1 : j1 < repos.length := (List.getElem?_eq_some_iff.mp h4).1
  have hl2 : j2 < repos.length := (List.getElem?_eq_some_iff.mp h6).1
  have h7 : repos[j1] = repos[j2] := by
    rw [List.getElem_eq_iff.mpr h4, List.getElem_eq_iff.mpr h6]
  have : j1 = j2 := (List.Nodup.getElem_inj_iff hn).mp h7
  rw [h3, h5, this]

/-! ## The loop of `findInBatch`, whatever the iteration order -/

theorem storeResults_isSome (σ : MapOrder) (env : Env) (byQueryID : GoMap String RepoRef)
    (entries : List (String × List searchResult)) (results : GoMap RepoRef (List String)) :
    (storeResults σ env byQueryID entries results).2.isSome =
      entries.any (fun e => (GoMap.get? byQueryID e.1).isNone) := by
  induction entries generalizing results with
  | nil => rfl
  | cons e entries ih =>
    obtain ⟨queryID, rows⟩ := e
    unfold storeResults
    cases hg : GoMap.get? byQueryID queryID with
    | none => simp [hg]
    | some repo =>
      simp only [List.any_cons, hg, Option.isNone_some, Bool.false_or]
      exact ih _

theorem get?_storeResults_of_none (σ : MapOrder) (env : Env)
    (byQueryID : GoMap String RepoRef) (entries : List (String × List searchResult))
    (results : GoMap RepoRef (List String)) (p : RepoRef)
    (hn : ∀ e ∈ entries, GoMap.get? byQueryID e.1 ≠ some p) :
    GoMap.get? (storeResults σ env byQueryID entries results).1 p = GoMap.get? results p := by
  induction entries generalizing results with
  | nil => rfl
  | cons e entries ih =>
    obtain ⟨queryID, rows⟩ := e
    unfold storeResults
    cases hg : GoMap.get? byQueryID queryID with
    | none => rfl
    | some repo =>
      simp only
      rw [ih _ (fun x hx => hn x (List.mem_cons_of_mem _ hx)), GoMap.get?_set]
      have hne : ¬ repo = p := by
        intro hrp
        exact hn (queryID, rows) (List.mem_cons_self _ _) (by rw [hg, hrp])
      rw [if_neg hne]

theorem get?_storeResults_of_unique (σ : MapOrder) (env : Env)
    (byQueryID : GoMap String RepoRef) (entries : List (String × List searchResult))
    (results : GoMap RepoRef (List String)) (p : RepoRef) (e : String × List searchResult)
    (herr : (storeResults σ env byQueryID entries results).2 = none)
    (he : e ∈ entries) (hp : GoMap.get? byQueryID e.1 = some p)
    (hu : ∀ x ∈ entries, GoMap.get? byQueryID x.1 = some p → x = e) :
    GoMap.get? (storeResults σ env byQueryID entries results).1 p =
      some (dirsOf σ env e.2) := by
  induction entries generalizing results with
  | nil => cases he
  | cons x entries ih =>
    obtain ⟨queryID, rows⟩ := x
    unfold storeResults at herr ⊢
    cases hg : GoMap.get? byQueryID queryID with
    | none => simp [hg] at herr
    | some repo =>
      simp only [hg] at herr ⊢
      by_cases hex : ∃ y ∈ entries, GoMap.get? byQueryID y.1 = some p
      · obtain ⟨y, hy, hyp⟩ := hex
        have hye : y = e := hu y (List.mem_cons_of_mem _ hy) hyp
        exact ih _ herr (hye ▸ hy) (fun z hz hzp => hu z (List.mem_cons_of_mem _ hz) hzp)
      · have hnone : ∀ y ∈ entries, GoMap.get? byQueryID y.1 ≠ some p := by
          intro y hy hyp
          exact hex ⟨y, hy, hyp⟩
        rw [get?_storeResults_of_none σ env byQueryID entries _ p hnone]
        rcases List.mem_cons.mp he with he1 | he1
        · subst he1
          simp only at hp
          rw [hg] at hp
          cases hp
          rw [GoMap.get?_set_self]
        · exact absurd hp (hnone e he1)

theorem findInBatch_isSome_eq (σ1 σ2 : MapOrder) (env : Env)
    (byQueryID : GoMap String RepoRef) (byRepo : GoMap RepoRef String) (fileName : String)
    (batch : List RepoRef) (r1 r2 : GoMap RepoRef (List String)) :
    (findInBatch σ1 env byQueryID byRepo fileName batch r1).2.isSome =
      (findInBatch σ2 env byQueryID byRepo fileName batch r2).2.isSome := by
  unfold findInBatch
  cases env.search (batchRequest env byRepo fileName batch) with
  | failed err => rfl
  | notOk => rfl
  | ok result =>
    simp only
    rw [storeResults_isSome, storeResults_isSome, Bool.eq_iff_iff, List.any_eq_true,
      List.any_eq_true]
    constructor
    · rintro ⟨x, hx, hp⟩
      exact ⟨x, ((σ2.perm _ result).mem_iff).mpr (((σ1.perm _ result).mem_iff).mp hx), hp⟩
    · rintro ⟨x, hx, hp⟩
      exact ⟨x, ((σ1.perm _ result).mem_iff).mpr (((σ2.perm _ result).mem_iff).mp hx), hp⟩

theorem findBatches_isSome_eq (σ1 σ2 : MapOrder) (env : Env)
    (byQueryID : GoMap String RepoRef) (byRepo : GoMap RepoRef String) (fileName : String)
    (repos : List RepoRef) (fuel start : Nat) (r1 r2 : GoMap RepoRef (List String))
    (q1 q2 : List Request) :
    (findBatches σ1 env byQueryID byRepo fileName repos fuel start r1 q1).err.isSome =
      (findBatches σ2 env byQueryID byRepo fileName repos fuel start r2 q2).err.isSome := by
  induction fuel generalizing start r1 r2 q1 q2 with
  | zero => rfl
  | succ fuel ih =>
    unfold findBatches
    by_cases hs : start < repos.length
    · simp only [hs, if_true]
      cases env.ctxErr start with
      | some err => rfl
      | none =>
        simp only
        have h := findInBatch_isSome_eq σ1 σ2 env byQueryID byRepo fileName
          ((repos.drop start).take batchSize) r1 r2
        cases ho1 : (findInBatch σ1 env byQueryID byRepo fileName
            ((repos.drop start).take batchSize) r1).2 with
        | some e1 =>
          cases ho2 : (findInBatch σ2 env byQueryID byRepo fileName
              ((repos.drop start).take batchSize) r2).2 with
          | some e2 => rfl
          | none => rw [ho1, ho2] at h; cases h
        | none =>
          cases ho2 : (findInBatch σ2 env byQueryID byRepo fileName
              ((repos.drop start).take batchSize) r2).2 with
          | some e2 => rw [ho1, ho2] at h; cases h
          | none =>
            simp only
            exact ih _ _ _ _ _
    · simp only [hs, if_false]

theorem findDirectoriesInRepos_isSome_eq (σ1 σ2 : MapOrder) (env : Env) (fileName : String)
    (repos : List RepoRef) :
    (FindDirectoriesInRepos σ1 env fileName repos).err.isSome =
      (FindDirectoriesInRepos σ2 env fileName repos).err.isSome := by
  unfold FindDirectoriesInRepos
  exact findBatches_isSome_eq σ1 σ2 env _ _ fileName repos _ _ _ _ _ _

theorem sameDirs_storeResults (σ1 σ2 : MapOrder) (env : Env)
    (byQueryID : GoMap String RepoRef)
    (hinj : ∀ k1 k2 p, GoMap.get? byQueryID k1 = some p → GoMap.get? byQueryID k2 = some p →
      k1 = k2)
    (result : findDirectoriesResult) (hn : (GoMap.keys result).Nodup)
    (r1 r2 : GoMap RepoRef (List String)) (h : SameDirs r1 r2)
    (h1 : (storeResults σ1 env byQueryID (σ1.range _ result) r1).2 = none)
    (h2 : (storeResults σ2 env byQueryID (σ2.range _ result) r2).2 = none) :
    SameDirs (storeResults σ1 env byQueryID (σ1.range _ result) r1).1
      (storeResults σ2 env byQueryID (σ2.range _ result) r2).1 := by
  intro p
  by_cases hex : ∃ e ∈ result, GoMap.get? byQueryID e.1 = some p
  · obtain ⟨e, he, hp⟩ := hex
    have hu : ∀ x ∈ result, GoMap.get? byQueryID x.1 = some p → x = e := by
      intro x hx hxp
      have hk : x.1 = e.1 := hinj _ _ p hxp hp
      have g1 := GoMap.get?_of_mem hn (show (x.1, x.2) ∈ result from hx)
      have g2 := GoMap.get?_of_mem hn (show (e.1, e.2) ∈ result from he)
      rw [hk, g2] at g1
      cases x
      cases e
      simp only at hk g1
      simp only [Option.some.injEq] at g1
      rw [hk, g1]
    right
    refine ⟨_, _,
      get?_storeResults_of_unique σ1 env byQueryID _ r1 p e h1
        (((σ1.perm _ result).mem_iff).mpr he) hp
        (fun x hx => hu x (((σ1.perm _ result).mem_iff).mp hx)),
      get?_storeResults_of_unique σ2 env byQueryID _ r2 p e h2
        (((σ2.perm _ result).mem_iff).mpr he) hp
        (fun x hx => hu x (((σ2.perm _ result).mem_iff).mp hx)),
      dirsOf_perm σ1 σ2 env e.2⟩
  · have hnone : ∀ σ : MapOrder, ∀ e ∈ σ.range _ result, GoMap.get? byQueryID e.1 ≠ some p := by
      intro σ e he hp
      exact hex ⟨e, ((σ.perm _ result).mem_iff).mp he, hp⟩
    rw [get?_storeResults_of_none σ1 env byQueryID _ r1 p (hnone σ1),
      get?_storeResults_of_none σ2 env byQueryID _ r2 p (hnone σ2)]
    exact h p

theorem sameDirs_findInBatch (σ1 σ2 : MapOrder) (env : Env)
    (hwf : ∀ request result, env.search request = Response.ok result →
      (GoMap.keys result).Nodup)
    (byQueryID : GoMap String RepoRef)
    (hinj : ∀ k1 k2 p, GoMap.get? byQueryID k1 = some p → GoMap.get? byQueryID k2 = some p →
      k1 = k2)
    (byRepo : GoMap RepoRef String) (fileName : String) (batch : List RepoRef)
    (r1 r2 : GoMap RepoRef (List String)) (h : SameDirs r1 r2)
    (h1 : (findInBatch σ1 env byQueryID byRepo fileName batch r1).2 = none) :
    SameDirs (findInBatch σ1 env byQueryID byRepo fileName batch r1).1
      (findInBatch σ2 env byQueryID byRepo fileName batch r2).1 := by
  have h2 : (findInBatch σ2 env byQueryID byRepo fileName batch r2).2 = none := by
    have := findInBatch_isSome_eq σ1 σ2 env byQueryID byRepo fileName batch r1 r2
    rw [h1] at this
    cases hx : (findInBatch σ2 env byQueryID byRepo fileName batch r2).2 with
    | none => rfl
    | some e => rw [hx] at this; cases this
  unfold findInBatch at h1 h2 ⊢
  cases hs : env.search (batchRequest env byRepo fileName batch) with
  | failed err => simp [hs] at h1
  | notOk => simpa using h
  | ok result =>
    simp only [hs] at h1 h2 ⊢
    exact sameDirs_storeResults σ1 σ2 env byQueryID hinj result (hwf _ _ hs) r1 r2 h h1 h2

theorem sameDirs_findBatches (σ1 σ2 : MapOrder) (env : Env)
    (hwf : ∀ request result, env.search request = Response.ok result →
      (GoMap.keys result).Nodup)
    (byQueryID : GoMap String RepoRef)
    (hinj : ∀ k1 k2 p, GoMap.get? byQueryID k1 = some p → GoMap.get? byQueryID k2 = some p →
      k1 = k2)
    (byRepo : GoMap RepoRef String) (fileName : String) (repos : List RepoRef)
    (fuel start : Nat) (r1 r2 : GoMap RepoRef (List String)) (q1 q2 : List Request)
    (h : SameDirs r1 r2)
    (h1 : (findBatches σ1 env byQueryID byRepo fileName repos fuel start r1 q1).err = none) :
    SameDirs (findBatches σ1 env byQueryID byRepo fileName repos fuel start r1 q1).results
      (findBatches σ2 env byQueryID byRepo fileName repos fuel start r2 q2).results := by
  induction fuel generalizing start r1 r2 q1 q2 with
  | zero => simpa [findBatches] using h
  | succ fuel ih =>
    unfold findBatches at h1 ⊢
    by_cases hs : start < repos.length
    · simp only [hs, if_true] at h1 ⊢
      cases hc : env.ctxErr start with
      | some err => simp [hc] at h1
      | none =>
        simp only [hc] at h1 ⊢
        have hi := findInBatch_isSome_eq σ1 σ2 env byQueryID byRepo fileName
          ((repos.drop start).take batchSize) r1 r2
        cases ho1 : (findInBatch σ1 env byQueryID byRepo fileName
            ((repos.drop start).take batchSize) r1).2 with
        | some e1 => simp [ho1] at h1
        | none =>
          have hsd := sameDirs_findInBatch σ1 σ2 env hwf byQueryID hinj byRepo fileName
            ((repos.drop start).take batchSize) r1 r2 h ho1
          cases ho2 : (findInBatch σ2 env byQueryID byRepo fileName
              ((repos.drop start).take batchSize) r2).2 with
          | some e2 => rw [ho1, ho2] at hi; cases hi
          | none =>
            simp only [ho1] at h1 ⊢
            exact ih _ _ _ _ _ hsd h1
    · simpa [hs] using h

theorem sameDirs_findDirectoriesInRepos (σ1 σ2 : MapOrder) (env : Env)
    (hwf : ∀ request result, env.search request = Response.ok result →
      (GoMap.keys result).Nodup)
    (fileName : String) (repos : List RepoRef) (hn : repos.Nodup)
    (h1 : (FindDirectoriesInRepos σ1 env fileName repos).err = none) :
    SameDirs (FindDirectoriesInRepos σ1 env fileName repos).results
      (FindDirectoriesInRepos σ2 env fileName repos).results := by
  unfold FindDirectoriesInRepos at h1 ⊢
  apply sameDirs_findBatches σ1 σ2 env hwf _ (reposByQueryID_inj repos hn)
  · intro p
    exact Or.inl ⟨rfl, rfl⟩
  · exact h1

/-! ## The tasks of `BuildTasks`, whatever the iteration order -/

theorem repoDirsTasks_perm (σ1 σ2 : MapOrder) (spec : CampaignSpec)
    (conf : WorkspaceConfiguration) (root : GoMap RepoRef Unit)
    (r1 r2 : GoMap RepoRef (List String)) (h : SameDirs r1 r2)
    (hn1 : (GoMap.keys r1).Nodup) (hn2 : (GoMap.keys r2).Nodup) :
    (repoDirsTasks σ1 spec conf root r1).Perm (repoDirsTasks σ2 spec conf root r2) := by
  have hcount : ∀ (σ : MapOrder) (r : GoMap RepoRef (List String)), (GoMap.keys r).Nodup →
      ∀ t : Task, List.count t (repoDirsTasks σ spec conf root r) =
        match GoMap.get? r t.Repository with
        | some dirs => List.count t (dirTasks spec conf root t.Repository dirs)
        | none => 0 := by
    intro σ r hn t
    unfold repoDirsTasks
    rw [List.count_flatMap]
    have hperm : (List.map (List.count t ∘ fun e => dirTasks spec conf root e.1 e.2)
        (σ.range _ r)).sum =
        (r.map (fun e => List.count t (dirTasks spec conf root e.1 e.2))).sum :=
      List.Perm.sum_eq (List.Perm.map _ (σ.perm _ r))
    rw [hperm, sum_map_of_key r t.Repository _ hn]
    · cases GoMap.get? r t.Repository <;> rfl
    · intro e _ hne
      rw [List.count_eq_zero]
      intro hm
      exact hne (mem_dirTasks spec conf root e.1 e.2 t hm).1.symm
  rw [List.perm_iff_count]
  intro t
  rw [hcount σ1 r1 hn1 t, hcount σ2 r2 hn2 t]
  rcases h t.Repository with ⟨g1, g2⟩ | ⟨d1, d2, g1, g2, hp⟩
  · rw [g1, g2]
  · rw [g1, g2]
    simp only
    apply List.Perm.count_eq
    unfold dirTasks
    exact hp.filterMap _

theorem workspaceTasks_err_none_iff (σ : MapOrder) (env : Env) (spec : CampaignSpec)
    (confs : List WorkspaceConfiguration) (root : GoMap RepoRef Unit)
    (entries : List (Nat × List RepoRef)) (tasks : List Task) (requests : List Request) :
    (workspaceTasks σ env spec confs root entries tasks requests).err = none ↔
      ∀ e ∈ entries, ∃ conf, confs.get? e.1 = some conf ∧
        (FindDirectoriesInRepos σ env conf.RootAtLocationOf e.2).err = none := by
  induction entries generalizing tasks requests with
  | nil => simp [workspaceTasks]
  | cons e entries ih =>
    obtain ⟨configIndex, group⟩ := e
    unfold workspaceTasks
    cases hc : confs.get? configIndex with
    | none =>
      simp only [List.mem_cons, forall_eq_or_imp, hc]
      simp
    | some conf =>
      simp only [List.mem_cons, forall_eq_or_imp, hc, Option.some.injEq, exists_eq_left']
      cases hf : (FindDirectoriesInRepos σ env conf.RootAtLocationOf group).err with
      | some err => simp
      | none =>
        simp only [true_and]
        exact ih _ _

theorem buildTasks_err_none_iff (σ : MapOrder) (env : Env) (repos : List RepoRef)
    (spec : CampaignSpec) :
    (BuildTasks σ env repos spec).err = none ↔
      ∃ root m,
        assignRepos env (compiledWorkspaces env spec.Workspaces) repos [] [] =
          Except.ok (root, m) ∧
        compileWorkspaces env spec.Workspaces =
          Except.ok (compiledWorkspaces env spec.Workspaces) ∧
        ∀ e ∈ m, ∃ conf, (compiledWorkspaces env spec.Workspaces).get? e.1 = some conf ∧
          (FindDirectoriesInRepos σ env conf.RootAtLocationOf e.2).err = none := by
  cases hc : compileWorkspaces env spec.Workspaces with
  | error e =>
    rw [buildTasks_of_compile_error σ env repos spec e hc]
    simp
  | ok confs =>
    have hconfs := compileWorkspaces_ok env _ _ hc
    subst hconfs
    cases ha : assignRepos env (compiledWorkspaces env spec.Workspaces) repos [] [] with
    | error e =>
      rw [buildTasks_of_assign_error σ env repos spec _ e hc ha]
      simp
    | ok res =>
      obtain ⟨root, m⟩ := res
      have hw := workspaceTasks_err_none_iff σ env spec (compiledWorkspaces env spec.Workspaces)
        root (σ.range _ m) [] []
      have hmem : (∀ e ∈ σ.range _ m, ∃ conf,
            (compiledWorkspaces env spec.Workspaces).get? e.1 = some conf ∧
            (FindDirectoriesInRepos σ env conf.RootAtLocationOf e.2).err = none) ↔
          ∀ e ∈ m, ∃ conf, (compiledWorkspaces env spec.Workspaces).get? e.1 = some conf ∧
            (FindDirectoriesInRepos σ env conf.RootAtLocationOf e.2).err = none := by
        constructor
        · intro h e he
          exact h e (((σ.perm _ m).mem_iff).mpr he)
        · intro h e he
          exact h e (((σ.perm _ m).mem_iff).mp he)
      rw [hmem] at hw
      cases hb : (workspaceTasks σ env spec (compiledWorkspaces env spec.Workspaces) root
          (σ.range _ m) [] []).err with
      | some e =>
        rw [buildTasks_of_search_error σ env repos spec _ root m e hc ha hb]
        constructor
        · intro h
          cases h
        · rintro ⟨root1, m1, h1, _, h3⟩
          cases h1
          rw [hw.mpr h3] at hb
          cases hb
      | none =>
        rw [buildTasks_of_search_ok σ env repos spec _ root m hc ha hb]
        constructor
        · intro _
          exact ⟨root, m, rfl, rfl, hw.mp hb⟩
        · intro _
          rfl

theorem isNone_eq_of_iff {α : Type} (a b : Option α) (h : a = none ↔ b = none) :
    a.isSome = b.isSome := by
  cases a with
  | none =>
    rw [h.mp rfl]
  | some x =>
    cases b with
    | none => exact absurd (h.mpr rfl) (by simp)
    | some y => rfl

/-! ## C18 -/

/-- C18, as the code has it: for the same repositories, campaign spec and answers of the API,
two runs of `BuildTasks` that differ in the iteration order of the maps either both fail or
both succeed; when a glob does not compile or a repository matches several globs they fail
with the same error; and when they succeed, the search answers being maps (no query name
twice) and the repositories being pairwise different, they return the same tasks up to
their order. -/
theorem buildTasks_order_independent (σ1 σ2 : MapOrder) (env : Env) (repos : List RepoRef)
    (spec : CampaignSpec) :
    (BuildTasks σ1 env repos spec).err.isSome = (BuildTasks σ2 env repos spec).err.isSome ∧
      (∀ e, (compileWorkspaces env spec.Workspaces = Except.error e ∨
          ∃ confs, compileWorkspaces env spec.Workspaces = Except.ok confs ∧
            assignRepos env confs repos [] [] = Except.error e) →
        (BuildTasks σ1 env repos spec).err = some e ∧
          (BuildTasks σ2 env repos spec).err = some e) ∧
      ((∀ request result, env.search request = Response.ok result →
          (GoMap.keys result).Nodup) →
        repos.Nodup → (BuildTasks σ1 env repos spec).err = none →
        (BuildTasks σ1 env repos spec).tasks.Perm (BuildTasks σ2 env repos spec).tasks) := by
  have hiff : (BuildTasks σ1 env repos spec).err = none ↔
      (BuildTasks σ2 env repos spec).err = none := by
    rw [buildTasks_err_none_iff, buildTasks_err_none_iff]
    have key : ∀ (σa σb : MapOrder) (m : GoMap Nat (List RepoRef)),
        (∀ e ∈ m, ∃ conf, (compiledWorkspaces env spec.Workspaces).get? e.1 = some conf ∧
          (FindDirectoriesInRepos σa env conf.RootAtLocationOf e.2).err = none) →
        ∀ e ∈ m, ∃ conf, (compiledWorkspaces env spec.Workspaces).get? e.1 = some conf ∧
          (FindDirectoriesInRepos σb env conf.RootAtLocationOf e.2).err = none := by
      intro σa σb m h e he
      obtain ⟨conf, hc, hf⟩ := h e he
      refine ⟨conf, hc, ?_⟩
      have := findDirectoriesInRepos_isSome_eq σa σb env conf.RootAtLocationOf e.2
      rw [hf] at this
      cases hx : (FindDirectoriesInRepos σb env conf.RootAtLocationOf e.2).err with
      | none => rfl
      | some err => rw [hx] at this; cases this
    constructor
    · rintro ⟨root, m, h1, h2, h3⟩
      exact ⟨root, m, h1, h2, key σ1 σ2 m h3⟩
    · rintro ⟨root, m, h1, h2, h3⟩
      exact ⟨root, m, h1, h2, key σ2 σ1 m h3⟩
  refine ⟨isNone_eq_of_iff _ _ hiff, ?_, ?_⟩
  · rintro e (hc | ⟨confs, hc, ha⟩)
    · rw [buildTasks_of_compile_error σ1 env repos spec e hc,
        buildTasks_of_compile_error σ2 env repos spec e hc]
      exact ⟨rfl, rfl⟩
    · rw [buildTasks_of_assign_error σ1 env repos spec confs e hc ha,
        buildTasks_of_assign_error σ2 env repos spec confs e hc ha]
      exact ⟨rfl, rfl⟩
  · intro hwf hn herr1
    have herr2 := hiff.mp herr1
    obtain ⟨root, m, ha, t1⟩ := buildTasks_ok σ1 env repos spec herr1
    obtain ⟨root2, m2, ha2, t2⟩ := buildTasks_ok σ2 env repos spec herr2
    rw [ha] at ha2
    cases ha2
    obtain ⟨root3, m3, ha3, _, hfind⟩ := (buildTasks_err_none_iff σ1 env repos spec).mp herr1
    rw [ha] at ha3
    cases ha3
    rw [t1, t2]
    apply List.Perm.append
    · refine (List.Perm.flatMap_left _ ?_).trans
        (List.Perm.flatMap_right _ ((σ1.perm _ m).trans (σ2.perm _ m).symm))
      intro e he
      have hem : e ∈ m := ((σ1.perm _ m).mem_iff).mp he
      obtain ⟨conf, hc, hf⟩ := hfind e hem
      have hgroup : e.2.Nodup := by
        have := (mem_assigned env _ repos root m ha e.1 e.2).mp hem
        rw [this.1]
        unfold matchedRepos
        exact hn.filter _
      unfold entryTasks
      simp only [hc]
      exact repoDirsTasks_perm σ1 σ2 spec conf root _ _
        (sameDirs_findDirectoriesInRepos σ1 σ2 env hwf conf.RootAtLocationOf e.2 hgroup hf)
        (findDirectoriesInRepos_within σ1 env conf.RootAtLocationOf e.2).1
        (findDirectoriesInRepos_within σ2 env conf.RootAtLocationOf e.2).1
    · unfold rootTasks
      exact ((σ1.perm _ root).trans (σ2.perm _ root).symm).map _

/-- C18 at a concrete input: the search finds the file `f` of `ab` in the directories `x` and
`y`, and the two runs return the two tasks in different orders. -/
theorem buildTasks_order_independent_witness :
    (BuildTasks MapOrder.insertion envTwoDirs [1] specOneGlob).tasks =
        [⟨1, "x", [], none, none, false⟩, ⟨1, "y", [], none, none, false⟩] ∧
      (BuildTasks MapOrder.reversed envTwoDirs [1] specOneGlob).tasks =
        [⟨1, "y", [], none, none, false⟩, ⟨1, "x", [], none, none, false⟩] ∧
      (BuildTasks MapOrder.insertion envTwoDirs [1] specOneGlob).tasks.Perm
        (BuildTasks MapOrder.reversed envTwoDirs [1] specOneGlob).tasks :=
  ⟨by decide, by decide,
    (buildTasks_order_independent MapOrder.insertion MapOrder.reversed envTwoDirs [1]
      specOneGlob).2.2
      (fun _ result h => by
        simp only [envTwoDirs, Response.ok.injEq] at h
        rw [← h]
        decide)
      (by decide) (by decide)⟩

/-- C18 fails as stated: the repository `ab` is searched for the file `f` and the repository
`cd` for the file `g`, the API fails both searches, each with its own error, and the two
runs, which differ only in the iteration order of the maps, return different errors. -/
theorem buildTasks_errors_differ_with_order :
    (BuildTasks MapOrder.insertion envSearchFails [1, 2] specTwoRoots).err =
        some (Error.mk "search failed: f") ∧
      (BuildTasks MapOrder.reversed envSearchFails [1, 2] specTwoRoots).err =
        some (Error.mk "search failed: g") ∧
      (BuildTasks MapOrder.insertion envSearchFails [1, 2] specTwoRoots).err ≠
        (BuildTasks MapOrder.reversed envSearchFails [1, 2] specTwoRoots).err := by
  decide

/-! ## The count of a search query -/

theorem countMatch_append_count (l : List Char) (prev : Bool) :
    countMatch prev (l ++ hardCodedCount.toList) = true := by
  induction l generalizing prev with
  | nil => cases prev <;> decide
  | cons c l ih =>
    rw [List.cons_append, countMatch, ih]
    simp

/-! ## C30 -/

/-- C30: the regular expression being matched as `countMatch` does, `setDefaultQueryCount`
returns the query itself when the pattern matches it and the query followed by
` count:999999` otherwise; its result always matches the pattern, and applying it twice
gives the same as applying it once. -/
theorem setDefaultQueryCount_idempotent (env : Env)
    (hregex : ∀ s, env.countRegexMatch s = countMatch false s.toList) (q : String) :
    env.countRegexMatch (setDefaultQueryCount env q) = true ∧
      setDefaultQueryCount env (setDefaultQueryCount env q) = setDefaultQueryCount env q ∧
      (env.countRegexMatch q = true → setDefaultQueryCount env q = q) ∧
      (env.countRegexMatch q = false → setDefaultQueryCount env q = q ++ " count:999999") := by
  have hmatch : env.countRegexMatch (setDefaultQueryCount env q) = true := by
    unfold setDefaultQueryCount
    by_cases h : env.countRegexMatch q = true
    · rw [if_pos h]
      exact h
    · rw [if_neg h, hregex]
      have : (q ++ hardCodedCount).toList = q.toList ++ hardCodedCount.toList := by
        simp [String.toList]
      rw [this]
      exact countMatch_append_count _ _
  refine ⟨hmatch, ?_, ?_, ?_⟩
  · generalize setDefaultQueryCount env q = q1 at hmatch
    unfold setDefaultQueryCount
    rw [if_pos hmatch]
  · intro h
    unfold setDefaultQueryCount
    rw [if_pos h]
  · intro h
    unfold setDefaultQueryCount
    simp [h, hardCodedCount]

/-- C30 at concrete inputs: a query without a count, a query with a count, and a query in
which `count:` is part of a longer word. -/
theorem setDefaultQueryCount_idempotent_witness :
    setDefaultQueryCount (Env.basic heapAbCd) "repo:a" = "repo:a count:999999" ∧
      setDefaultQueryCount (Env.basic heapAbCd) "repo:a count:10 lang:go" =
        "repo:a count:10 lang:go" ∧
      setDefaultQueryCount (Env.basic heapAbCd) "discount:10" = "discount:10 count:999999" ∧
      ((Env.basic heapAbCd).countRegexMatch (setDefaultQueryCount (Env.basic heapAbCd) "repo:a") =
          true ∧
        setDefaultQueryCount (Env.basic heapAbCd)
            (setDefaultQueryCount (Env.basic heapAbCd) "repo:a") =
          setDefaultQueryCount (Env.basic heapAbCd) "repo:a" ∧
        ((Env.basic heapAbCd).countRegexMatch "repo:a" = true →
          setDefaultQueryCount (Env.basic heapAbCd) "repo:a" = "repo:a") ∧
        ((Env.basic heapAbCd).countRegexMatch "repo:a" = false →
          setDefaultQueryCount (Env.basic heapAbCd) "repo:a" = "repo:a" ++ " count:999999")) :=
  ⟨by decide, by decide, by decide,
    setDefaultQueryCount_idempotent (Env.basic heapAbCd) (fun _ => rfl) "repo:a"⟩

/-! ## An ID that the type switch does not convert -/

theorem appendExternalIDs_abort (env : Env) (r : RepoRef) (ids : List ExternalIDValue)
    (specs : List ChangesetSpec) (h : ∃ t, ExternalIDValue.other t ∈ ids) :
    ∃ e, appendExternalIDs env (some r) ids specs = Flow.abort e := by
  induction ids generalizing specs with
  | nil =>
    obtain ⟨t, ht⟩ := h
    cases ht
  | cons id ids ih =>
    unfold appendExternalIDs
    cases hx : externalIDString env id with
    | error err => exact ⟨err, rfl⟩
    | ok sid =>
      simp only
      apply ih
      obtain ⟨t, ht⟩ := h
      rcases List.mem_cons.mp ht with h1 | h1
      · rw [← h1] at hx
        simp [externalIDString] at hx
      · exact ⟨t, h1⟩

theorem appendExternalIDs_some_ne_panic (env : Env) (r : RepoRef) (ids : List ExternalIDValue)
    (specs : List ChangesetSpec) : appendExternalIDs env (some r) ids specs ≠ Flow.panic := by
  induction ids generalizing specs with
  | nil => simp [appendExternalIDs]
  | cons id ids ih =>
    unfold appendExternalIDs
    cases externalIDString env id with
    | error err => simp
    | ok sid => exact ih _

theorem importChangeset_ne_panic (env : Env) (skipErrors : Bool) (ic : ImportChangeset)
    (state : List ChangesetSpec × Option MultiError)
    (h : resolveRepositoryName env ic.Repository ≠ (none, none)) :
    importChangeset env skipErrors ic state ≠ Flow.panic := by
  unfold importChangeset
  rcases hr : resolveRepositoryName env ic.Repository with ⟨repo, err⟩
  cases err with
  | some e =>
    simp only
    cases skipErrors <;> simp
  | none =>
    simp only
    cases repo with
    | none => exact absurd hr h
    | some r =>
      have := appendExternalIDs_some_ne_panic env r ic.ExternalIDs state.1
      cases hx : appendExternalIDs env (some r) ic.ExternalIDs state.1 with
      | next s => simp
      | abort e => simp
      | panic => exact absurd hx this

theorem importChangeset_abort (env : Env) (skipErrors : Bool) (ic : ImportChangeset)
    (state : List ChangesetSpec × Option MultiError) (r : RepoRef)
    (hr : resolveRepositoryName env ic.Repository = (some r, none))
    (h : ∃ t, ExternalIDValue.other t ∈ ic.ExternalIDs) :
    ∃ e, importChangeset env skipErrors ic state = Flow.abort e := by
  obtain ⟨e, he⟩ := appendExternalIDs_abort env r ic.ExternalIDs state.1 h
  refine ⟨e, ?_⟩
  unfold importChangeset
  rw [hr]
  simp only [he]

theorem importChangesets_abort (env : Env) (skipErrors : Bool)
    (pre post : List ImportChangeset) (ic : ImportChangeset)
    (state : List ChangesetSpec × Option MultiError) (r : RepoRef)
    (hr : resolveRepositoryName env ic.Repository = (some r, none))
    (h : ∃ t, ExternalIDValue.other t ∈ ic.ExternalIDs) :
    (∃ e, importChangesets env skipErrors (pre ++ ic :: post) state = Flow.abort e) ∨
      importChangesets env skipErrors (pre ++ ic :: post) state = Flow.panic := by
  induction pre generalizing state with
  | nil =>
    obtain ⟨e, he⟩ := importChangeset_abort env skipErrors ic state r hr h
    left
    refine ⟨e, ?_⟩
    rw [List.nil_append]
    unfold importChangesets
    simp only [he]
  | cons ic1 pre ih =>
    rw [List.cons_append]
    unfold importChangesets
    cases hx : importChangeset env skipErrors ic1 state with
    | next s => exact ih s
    | abort e => exact Or.inl ⟨e, rfl⟩
    | panic => exact Or.inr rfl

theorem importChangesets_ne_panic (env : Env) (skipErrors : Bool)
    (entries : List ImportChangeset) (state : List ChangesetSpec × Option MultiError)
    (h : ∀ ic ∈ entries, resolveRepositoryName env ic.Repository ≠ (none, none)) :
    importChangesets env skipErrors entries state ≠ Flow.panic := by
  induction entries generalizing state with
  | nil => simp [importChangesets]
  | cons ic entries ih =>
    unfold importChangesets
    have h1 := importChangeset_ne_panic env skipErrors ic state (h ic (List.mem_cons_self _ _))
    cases hx : importChangeset env skipErrors ic state with
    | next s => exact ih s (fun x hx1 => h x (List.mem_cons_of_mem _ hx1))
    | abort e => simp
    | panic => exact absurd hx h1

/-! ## C27 -/

/-- C27, as the code has it: when an import entry holds an ID of a type that the type switch
does not convert and the repository name of the entry resolves to a repository, a call of
`ExecuteCampaignSpec` that returns gives no specs, no log files and an error, whatever
`skipErrors` is and whatever the executor produced; and the call returns when no
repository name of an import entry resolves to a nil repository without an error. -/
theorem executeCampaignSpec_unconvertible_id (env : Env) (x : Executor) (spec : CampaignSpec)
    (skipErrors : Bool) (pre post : List ImportChangeset) (ic : ImportChangeset) (r : RepoRef)
    (hspec : spec.ImportChangesets = pre ++ ic :: post)
    (hr : resolveRepositoryName env ic.Repository = (some r, none))
    (hid : ∃ t, ExternalIDValue.other t ∈ ic.ExternalIDs) :
    (ExecuteCampaignSpec env x spec skipErrors = ExecOutcome.panicked ∨
        ∃ e, ExecuteCampaignSpec env x spec skipErrors =
          ExecOutcome.returned [] [] (some (ExecError.single e))) ∧
      ((∀ ic1 ∈ spec.ImportChangesets,
          resolveRepositoryName env ic1.Repository ≠ (none, none)) →
        ∃ e, ExecuteCampaignSpec env x spec skipErrors =
          ExecOutcome.returned [] [] (some (ExecError.single e))) := by
  have key : (∃ state, ExecuteCampaignSpec env x spec skipErrors = ExecOutcome.panicked ∧
        importChangesets env skipErrors spec.ImportChangesets state = Flow.panic) ∨
      ∃ e, ExecuteCampaignSpec env x spec skipErrors =
        ExecOutcome.returned [] [] (some (ExecError.single e)) := by
    cases hw : x.waitErr with
    | some err =>
      cases skipErrors with
      | false =>
        right
        exact ⟨err, by unfold ExecuteCampaignSpec; simp [hw]⟩
      | true =>
        rcases importChangesets_abort env true pre post ic
          (x.waitSpecs, multierrorAppend none err) r hr hid with ⟨e, he⟩ | hp
        · right
          refine ⟨e, ?_⟩
          unfold ExecuteCampaignSpec
          simp only [hw, if_true, hspec, he]
        · left
          refine ⟨_, ?_, hspec ▸ hp⟩
          unfold ExecuteCampaignSpec
          simp only [hw, if_true, hspec, hp]
    | none =>
      rcases importChangesets_abort env skipErrors pre post ic (x.waitSpecs, none) r hr hid
        with ⟨e, he⟩ | hp
      · right
        refine ⟨e, ?_⟩
        unfold ExecuteCampaignSpec
        simp only [hw, hspec, he]
      · left
        refine ⟨_, ?_, hspec ▸ hp⟩
        unfold ExecuteCampaignSpec
        simp only [hw, hspec, hp]
  constructor
  · rcases key with ⟨_, h1, _⟩ | h2
    · exact Or.inl h1
    · exact Or.inr h2
  · intro hnil
    rcases key with ⟨state, _, h1⟩ | h2
    · exact absurd h1 (importChangesets_ne_panic env skipErrors _ state hnil)
    · exact h2

/-- C27 at a concrete input: the executor produced a spec without an error, `skipErrors` is
true, and an import entry of the repository `cd` holds an ID of type `bool`. -/
theorem executeCampaignSpec_unconvertible_id_witness :
    ExecuteCampaignSpec envResolving ⟨[⟨"X", "X", "refs/heads/a", none⟩], none, ["log"]⟩
        ⟨[], [], [], none, none,
          [⟨"cd", [ExternalIDValue.str "1", ExternalIDValue.other "bool"]⟩]⟩ true =
        ExecOutcome.returned [] []
          (some (ExecError.single (Error.mk
            "cannot convert value of type bool into a valid external ID: expected string or int"))) ∧
      ∃ e, ExecuteCampaignSpec envResolving
          ⟨[⟨"X", "X", "refs/heads/a", none⟩], none, ["log"]⟩
          ⟨[], [], [], none, none,
            [⟨"cd", [ExternalIDValue.str "1", ExternalIDValue.other "bool"]⟩]⟩ true =
        ExecOutcome.returned [] [] (some (ExecError.single e)) :=
  ⟨by decide,
    (executeCampaignSpec_unconvertible_id envResolving
      ⟨[⟨"X", "X", "refs/heads/a", none⟩], none, ["log"]⟩
      ⟨[], [], [], none, none,
        [⟨"cd", [ExternalIDValue.str "1", ExternalIDValue.other "bool"]⟩]⟩ true [] []
      ⟨"cd", [ExternalIDValue.str "1", ExternalIDValue.other "bool"]⟩ 2 rfl rfl
      ⟨"bool", by decide⟩).2
      (by decide)⟩

/-- C27 fails as stated: `skipErrors` is true, the executor produced a spec without an
error, and the import entry with an ID of type `bool` names a repository that does not
resolve; the entry is skipped, and the call returns the spec and the log file with the
aggregate error. -/
theorem executeCampaignSpec_skips_unresolved_entry :
    ExecuteCampaignSpec (Env.basic heapAbCd)
        ⟨[⟨"X", "X", "refs/heads/a", none⟩], none, ["log"]⟩
        ⟨[], [], [], none, none, [⟨"missing", [ExternalIDValue.other "bool"]⟩]⟩ true =
      ExecOutcome.returned [⟨"X", "X", "refs/heads/a", none⟩] ["log"]
        (some (ExecError.aggregate
          ⟨[Error.wrapf (Error.mk "no repository found")
            "resolving repository name \"missing\""]⟩)) := by
  decide

/-! ## The keys of the table `duplicates` -/

theorem mem_keys_recordDuplicate (byID : GoMap String RepoRef) (repoID : String)
    (d : GoMap (Option RepoRef) (GoMap String Nat)) (e : String × List ChangesetSpec)
    (key : Option RepoRef) (h : key ∈ GoMap.keys (recordDuplicate byID repoID d e)) :
    key ∈ GoMap.keys d ∨ (2 ≤ e.2.length ∧ key = GoMap.get? byID repoID) := by
  unfold recordDuplicate at h
  by_cases hl : e.2.length < 2
  · rw [if_pos hl] at h
    exact Or.inl h
  · rw [if_neg hl] at h
    simp only at h
    rcases GoMap.mem_keys_set.mp h with h1 | h1
    · exact Or.inr ⟨by omega, h1⟩
    · by_cases hn : (GoMap.get? d (GoMap.get? byID repoID)).isNone = true
      · rw [if_pos hn] at h1
        rcases GoMap.mem_keys_set.mp h1 with h2 | h2
        · exact Or.inr ⟨by omega, h2⟩
        · exact Or.inl h2
      · rw [if_neg hn] at h1
        exact Or.inl h1

theorem mem_keys_foldl_recordDuplicate (byID : GoMap String RepoRef)
    (groups : List (String × String × List ChangesetSpec))
    (d : GoMap (Option RepoRef) (GoMap String Nat)) (key : Option RepoRef)
    (h : key ∈ GoMap.keys (groups.foldl (fun d t => recordDuplicate byID t.1 d t.2) d)) :
    key ∈ GoMap.keys d ∨ ∃ t ∈ groups, 2 ≤ t.2.2.length ∧ key = GoMap.get? byID t.1 := by
  induction groups generalizing d with
  | nil => exact Or.inl h
  | cons t groups ih =>
    rw [List.foldl_cons] at h
    rcases ih _ h with h1 | ⟨t1, h1, h2⟩
    · rcases mem_keys_recordDuplicate byID t.1 d t.2 key h1 with h3 | h3
      · exact Or.inl h3
      · exact Or.inr ⟨t, List.mem_cons_self _ _, h3⟩
    · exact Or.inr ⟨t1, List.mem_cons_of_mem _ h1, h2⟩

/-! ## C28 -/

/-- C28: when `ValidateChangesetSpecs` fails and every branch spec's `HeadRepository` is the
ID of some repository of `repos`, every key of the error's `duplicates` table is a
repository of `repos` (none is nil), the entries under a key count the branch specs whose
`HeadRepository` is the ID of that key, `Error` returns its message without dereferencing
nil, and every pair `(HeadRepository, HeadRef)` that two or more branch specs have is
stored with its own count under a key with that ID, so that pairs of different repositories
lie under different keys. -/
theorem validateChangesetSpecs_keys_non_nil (σ σ1 : MapOrder) (env : Env)
    (repos : List RepoRef) (specs : List ChangesetSpec) (e : duplicateBranchesErr)
    (hres : ValidateChangesetSpecs σ env.heap repos specs = some e)
    (hids : ∀ s ∈ specs, s.ExternalChangeset = none →
      ∃ p ∈ repos, (env.heap p).ID = s.HeadRepository) :
    (∀ entry ∈ e.duplicates, ∃ p ∈ repos, entry.1 = some p) ∧
      (∀ p headRef n, (∃ branches, (some p, branches) ∈ e.duplicates ∧ (headRef, n) ∈ branches) →
        n = branchCount specs (env.heap p).ID headRef ∧ 2 ≤ n) ∧
      (∃ msg, e.Error σ1 env = some msg) ∧
      (∀ a b, 2 ≤ branchCount specs a b →
        ∃ p ∈ repos, (env.heap p).ID = a ∧
          GoMap.get2? e.duplicates (some p) b = some (branchCount specs a b)) := by
  have hD : e.duplicates =
      collectDuplicates σ (repoByID env.heap repos) (byRepoAndBranch specs) := by
    unfold ValidateChangesetSpecs at hres
    by_cases hl :
        (collectDuplicates σ (repoByID env.heap repos) (byRepoAndBranch specs)).length > 0
    · simp only [hl, if_true, Option.some.injEq] at hres
      rw [← hres]
    · simp [hl] at hres
  have hN : NodupKeys2 e.duplicates := by
    rw [hD, collectDuplicates_eq_foldl]
    exact nodupKeys2_foldl_recordDuplicate _ _ ⟨by simp [GoMap.keys], by simp⟩
  have hgroup : ∀ a b l, (a, b, l) ∈ visitedGroups σ (byRepoAndBranch specs) →
      l = specs.filter (isBranchSpec a b) ∧ l ≠ [] := by
    intro a b l h
    exact (mem_byRepoAndBranch_iff specs a b l).mp ((mem_visitedGroups σ _ a b l).mp h)
  have hbyID : ∀ a b, specs.filter (isBranchSpec a b) ≠ [] →
      ∃ p, GoMap.get? (repoByID env.heap repos) a = some p ∧ p ∈ repos ∧
        (env.heap p).ID = a := by
    intro a b hne
    obtain ⟨s, hs⟩ := List.exists_mem_of_ne_nil _ hne
    rw [List.mem_filter] at hs
    simp only [isBranchSpec, Bool.and_eq_true, decide_eq_true_eq,
      Option.isNone_iff_eq_none] at hs
    obtain ⟨q, h1, h2⟩ := hids s hs.1 hs.2.1
    have h3 := get?_foldl_repoByID_isSome env.heap repos [] a
      (Or.inl ⟨q, h1, h2.trans hs.2.2.1⟩)
    cases hg : GoMap.get? (repoByID env.heap repos) a with
    | none =>
      unfold repoByID at hg
      rw [hg] at h3
      cases h3
    | some p =>
      rcases get?_foldl_repoByID env.heap repos [] a p hg with h4 | h4
      · simp [GoMap.get?] at h4
      · exact ⟨p, rfl, h4.1, h4.2⟩
  have hkeys : ∀ entry ∈ e.duplicates, ∃ p ∈ repos, entry.1 = some p := by
    intro entry hm
    have hk : entry.1 ∈ GoMap.keys e.duplicates := List.mem_map.mpr ⟨entry, hm, rfl⟩
    rw [hD, collectDuplicates_eq_foldl] at hk
    rcases mem_keys_foldl_recordDuplicate _ _ _ _ hk with h1 | ⟨t, h1, _, h3⟩
    · simp [GoMap.keys] at h1
    · obtain ⟨a, b, l⟩ := t
      obtain ⟨h4, h5⟩ := hgroup a b l h1
      obtain ⟨p, h6, h7, _⟩ := hbyID a b (h4 ▸ h5)
      exact ⟨p, h7, by rw [h3, h6]⟩
  refine ⟨hkeys, ?_, ?_, ?_⟩
  · intro p b n hm
    rw [mem_iff_get2? hN, hD, collectDuplicates_eq_foldl] at hm
    rcases get2?_foldl_recordDuplicate_some _ _ _ _ _ _ hm with h1 | ⟨t, h1, h2, h3, h4, h5⟩
    · simp [GoMap.get2?, GoMap.get?] at h1
    · obtain ⟨a, b1, l⟩ := t
      simp only at h2 h3 h4 h5
      subst h4
      obtain ⟨h6, _⟩ := hgroup a b1 l h1
      have h7 : (env.heap p).ID = a := by
        rcases get?_foldl_repoByID env.heap repos [] a p h3 with h8 | h8
        · simp [GoMap.get?] at h8
        · exact h8.2
      rw [h7, branchCount_eq_length, ← h6, h5]
      exact ⟨rfl, h5 ▸ h2⟩
  · obtain ⟨added, h1, _⟩ := writeDuplicates_some σ1 env (σ1.range _ e.duplicates)
      "Multiple changeset specs have the same branch:\n\n"
      (fun entry he => by
        obtain ⟨p, _, hp⟩ := hkeys entry (((σ1.perm _ e.duplicates).mem_iff).mp he)
        rw [hp]
        simp)
    exact ⟨_, by unfold duplicateBranchesErr.Error; rw [h1]⟩
  · intro a b hcount
    have hne : specs.filter (isBranchSpec a b) ≠ [] := by
      intro h0
      rw [branchCount_eq_length, h0] at hcount
      simp at hcount
    obtain ⟨p, h6, h7, h8⟩ := hbyID a b hne
    refine ⟨p, h7, h8, ?_⟩
    rw [hD, collectDuplicates_eq_foldl]
    apply get2?_foldl_recordDuplicate_of_mem
    · intro t ht _ h3 h4
      obtain ⟨a1, b1, l⟩ := t
      simp only at h3 h4 ⊢
      subst h4
      have h9 : a1 = a := by
        rcases get?_foldl_repoByID env.heap repos [] a1 p h3 with h10 | h10
        · simp [GoMap.get?] at h10
        · rw [← h10.2, h8]
      subst h9
      rw [(hgroup a1 b1 l ht).1, branchCount_eq_length]
    · refine ⟨(a, b, specs.filter (isBranchSpec a b)), ?_, ?_, h6, rfl⟩
      · rw [mem_visitedGroups]
        exact (mem_byRepoAndBranch_iff specs a b _).mpr ⟨rfl, hne⟩
      · rw [← branchCount_eq_length]
        exact hcount

/-- C28 at a concrete input: two branch specs of the repository X and two of the repository
Y, all on the branch `refs/heads/a`. -/
theorem validateChangesetSpecs_keys_non_nil_witness :
    ValidateChangesetSpecs MapOrder.insertion (Env.basic heapAbCd).heap [1, 2]
        [⟨"X", "X", "refs/heads/a", none⟩, ⟨"Y", "Y", "refs/heads/a", none⟩,
          ⟨"X", "X", "refs/heads/a", none⟩, ⟨"Y", "Y", "refs/heads/a", none⟩] =
        some ⟨[(some 1, [("refs/heads/a", 2)]), (some 2, [("refs/heads/a", 2)])]⟩ ∧
      (∀ entry ∈ (⟨[(some 1, [("refs/heads/a", 2)]), (some 2, [("refs/heads/a", 2)])]⟩ :
          duplicateBranchesErr).duplicates, ∃ p ∈ [1, 2], entry.1 = some p) ∧
      ∃ msg, duplicateBranchesErr.Error MapOrder.reversed (Env.basic heapAbCd)
        ⟨[(some 1, [("refs/heads/a", 2)]), (some 2, [("refs/heads/a", 2)])]⟩ = some msg :=
  have h := validateChangesetSpecs_keys_non_nil MapOrder.insertion MapOrder.reversed
    (Env.basic heapAbCd) [1, 2]
    [⟨"X", "X", "refs/heads/a", none⟩, ⟨"Y", "Y", "refs/heads/a", none⟩,
      ⟨"X", "X", "refs/heads/a", none⟩, ⟨"Y", "Y", "refs/heads/a", none⟩]
    ⟨[(some 1, [("refs/heads/a", 2)]), (some 2, [("refs/heads/a", 2)])]⟩ (by decide) (by decide)
  ⟨by decide, h.1, h.2.2.1⟩

/-! ## The batches of `FindDirectoriesInRepos` -/

theorem findBatches_requests (σ : MapOrder) (env : Env) (byQueryID : GoMap String RepoRef)
    (byRepo : GoMap RepoRef String) (fileName : String) (repos : List RepoRef)
    (fuel start : Nat) (results : GoMap RepoRef (List String)) (requests : List Request)
    (herr : (findBatches σ env byQueryID byRepo fileName repos fuel start results requests).err =
      none)
    (hfuel : repos.length ≤ start + fuel * batchSize) :
    (findBatches σ env byQueryID byRepo fileName repos fuel start results requests).requests =
      requests ++ (List.range ((repos.length - start + (batchSize - 1)) / batchSize)).map
        (fun k => batchRequest env byRepo fileName
          ((repos.drop (start + batchSize * k)).take batchSize)) := by
  induction fuel generalizing start results requests with
  | zero =>
    have h0 : (repos.length - start + (batchSize - 1)) / batchSize = 0 := by
      simp only [batchSize] at hfuel ⊢
      omega
    simp [findBatches, h0]
  | succ fuel ih =>
    unfold findBatches at herr ⊢
    by_cases hs : start < repos.length
    · simp only [hs, if_true] at herr ⊢
      cases hc : env.ctxErr start with
      | some err => simp [hc] at herr
      | none =>
        simp only [hc] at herr ⊢
        cases ho : (findInBatch σ env byQueryID byRepo fileName
            ((repos.drop start).take batchSize) results).2 with
        | some e => simp [ho] at herr
        | none =>
          simp only [ho] at herr ⊢
          rw [ih _ _ _ herr (by simp only [batchSize] at hfuel ⊢; omega)]
          have hcount : (repos.length - start + (batchSize - 1)) / batchSize =
              (repos.length - (start + batchSize) + (batchSize - 1)) / batchSize + 1 := by
            simp only [batchSize]
            omega
          rw [hcount, List.range_succ_eq_map, List.map_cons, List.map_map, List.append_assoc]
          simp only [List.singleton_append, Nat.mul_zero, Nat.add_zero]
          congr 2
          apply List.map_congr_left
          intro k _
          simp only [Function.comp, batchSize]
          congr 3
          omega
    · have h0 : (repos.length - start + (batchSize - 1)) / batchSize = 0 := by
        simp only [batchSize]
        omega
      simp [hs, h0]

theorem flatMap_batches (n : Nat) (l : List RepoRef) (h : l.length ≤ n * batchSize) :
    (List.range n).flatMap (fun k => (l.drop (batchSize * k)).take batchSize) = l := by
  induction n generalizing l with
  | zero =>
    have : l = [] := List.eq_nil_of_length_eq_zero (by omega)
    simp [this]
  | succ n ih =>
    rw [List.range_succ_eq_map, List.flatMap_cons, List.flatMap_map]
    have h1 : (List.range n).flatMap
        (fun a => (l.drop (batchSize * a.succ)).take batchSize) =
        (List.range n).flatMap
          (fun k => ((l.drop batchSize).drop (batchSize * k)).take batchSize) := by
      congr 1
      funext k
      simp only [List.drop_drop]
      congr 2
      simp only [batchSize]
      omega
    rw [h1, ih (l.drop batchSize) (by
      rw [List.length_drop]
      simp only [batchSize] at h ⊢
      omega)]
    simp

/-! ## C22 -/

/-- C22, on the code: for the file `f` in the root of the repository `ab`,
`FindDirectoriesInRepos` returns the location `.`, which is what `path.Dir` gives for a
path without a slash, and not the empty path. -/
theorem findDirectoriesInRepos_root_file :
    (FindDirectoriesInRepos MapOrder.insertion envRootFile "f" [1]).results = [(1, ["."])] ∧
      (FindDirectoriesInRepos MapOrder.insertion envRootFile "f" [1]).err = none := by
  decide

/-! ## The directory `.` in `BuildTasks` -/

theorem dirTasks_of_not_root (spec : CampaignSpec) (conf : WorkspaceConfiguration)
    (root : GoMap RepoRef Unit) (repo : RepoRef) (dirs : List String)
    (h : GoMap.get? root repo = none) :
    dirTasks spec conf root repo dirs =
      dirs.map (fun d =>
        ⟨repo, if d = "." then "" else d, spec.Steps, spec.TransformChanges,
          spec.ChangesetTemplate, conf.OnlyFetchWorkspace⟩) := by
  unfold dirTasks
  rw [h]
  induction dirs with
  | nil => rfl
  | cons d dirs ih =>
    rw [List.filterMap_cons, List.map_cons, ih]
    by_cases hd : d = "."
    · simp [hd]
    · simp [hd]

/-! ## C26 -/

/-- C26: after the assignment of the repositories, no repository of a group of
`reposByWorkspaceConfig` is in `rootWorkspace`; the search for a group returns only
repositories of the group, so that none of them is in `rootWorkspace` and the test that
drops the directory `.` never succeeds: the tasks of a search result are one for every
directory, with the path `""` for the directory `.`; and in a successful call every
discovered `.` gives a returned task with the path `""`. -/
theorem buildTasks_root_directory_kept (σ : MapOrder) (env : Env) (repos : List RepoRef)
    (spec : CampaignSpec) (root : GoMap RepoRef Unit) (m : GoMap Nat (List RepoRef))
    (ha : assignRepos env (compiledWorkspaces env spec.Workspaces) repos [] [] =
      Except.ok (root, m)) :
    (∀ e ∈ m, ∀ p ∈ e.2, p ∉ GoMap.keys root) ∧
      (∀ e ∈ m, ∀ fileName,
        ∀ entry ∈ (FindDirectoriesInRepos σ env fileName e.2).results,
          entry.1 ∈ e.2 ∧ GoMap.get? root entry.1 = none) ∧
      (∀ e ∈ m, ∀ conf fileName,
        repoDirsTasks σ spec conf root (FindDirectoriesInRepos σ env fileName e.2).results =
          (σ.range _ (FindDirectoriesInRepos σ env fileName e.2).results).flatMap
            (fun entry => entry.2.map (fun d =>
              ⟨entry.1, if d = "." then "" else d, spec.Steps, spec.TransformChanges,
                spec.ChangesetTemplate, conf.OnlyFetchWorkspace⟩))) ∧
      ((BuildTasks σ env repos spec).err = none →
        ∀ e ∈ m, ∀ conf, (compiledWorkspaces env spec.Workspaces).get? e.1 = some conf →
          ∀ entry ∈ (FindDirectoriesInRepos σ env conf.RootAtLocationOf e.2).results,
            "." ∈ entry.2 →
            (⟨entry.1, "", spec.Steps, spec.TransformChanges, spec.ChangesetTemplate,
              conf.OnlyFetchWorkspace⟩ : Task) ∈ (BuildTasks σ env repos spec).tasks) := by
  have hdisj : ∀ e ∈ m, ∀ p ∈ e.2, p ∉ GoMap.keys root := by
    intro e he p hp
    have h1 := ((mem_assigned env _ repos root m ha e.1 e.2).mp he).1
    rw [h1] at hp
    unfold matchedRepos at hp
    have h2 := (List.mem_filter.mp hp).2
    exact not_mem_root_of_matched env _ repos root m ha p
      (matchCount_pos_of_matchesAt _ _ e.1 h2)
  have hwithin : ∀ e ∈ m, ∀ fileName,
      ∀ entry ∈ (FindDirectoriesInRepos σ env fileName e.2).results,
        entry.1 ∈ e.2 ∧ GoMap.get? root entry.1 = none := by
    intro e he fileName entry hentry
    have h1 : entry.1 ∈ e.2 :=
      (findDirectoriesInRepos_within σ env fileName e.2).2 _
        (List.mem_map.mpr ⟨entry, hentry, rfl⟩)
    exact ⟨h1, GoMap.get?_eq_none_iff.mpr (hdisj e he _ h1)⟩
  have htasks : ∀ e ∈ m, ∀ conf fileName,
      repoDirsTasks σ spec conf root (FindDirectoriesInRepos σ env fileName e.2).results =
        (σ.range _ (FindDirectoriesInRepos σ env fileName e.2).results).flatMap
          (fun entry => entry.2.map (fun d =>
            ⟨entry.1, if d = "." then "" else d, spec.Steps, spec.TransformChanges,
              spec.ChangesetTemplate, conf.OnlyFetchWorkspace⟩)) := by
    intro e he conf fileName
    unfold repoDirsTasks
    apply List.flatMap_congr
    intro entry hentry
    exact dirTasks_of_not_root spec conf root entry.1 entry.2
      (hwithin e he fileName entry (((σ.perm _ _).mem_iff).mp hentry)).2
  refine ⟨hdisj, hwithin, htasks, ?_⟩
  intro herr e he conf hc entry hentry hdot
  obtain ⟨root1, m1, ha1, ht⟩ := buildTasks_ok σ env repos spec herr
  rw [ha] at ha1
  cases ha1
  rw [ht, List.mem_append]
  left
  rw [List.mem_flatMap]
  refine ⟨e, ((σ.perm _ m).mem_iff).mpr he, ?_⟩
  unfold entryTasks
  simp only [hc]
  rw [htasks e he conf conf.RootAtLocationOf, List.mem_flatMap]
  refine ⟨entry, ((σ.perm _ _).mem_iff).mpr hentry, ?_⟩
  rw [List.mem_map]
  exact ⟨".", hdot, by simp⟩

/-- C26 at a concrete input: the search finds the file `f` in the root of the repository
`ab`, which the glob `a*` matches, and the task of the root is returned. -/
theorem buildTasks_root_directory_kept_witness :
    (BuildTasks MapOrder.insertion envRootFile [1, 3] specOneGlob).tasks =
        [⟨1, "", [], none, none, false⟩, ⟨3, "", [], none, none, false⟩] ∧
      ∀ e ∈ ([(0, [1])] : GoMap Nat (List RepoRef)), ∀ p ∈ e.2,
        p ∉ GoMap.keys ([(3, ())] : GoMap RepoRef Unit) :=
  ⟨by decide,
    (buildTasks_root_directory_kept MapOrder.insertion envRootFile [1, 3] specOneGlob
      [(3, ())] [(0, [1])] (by rfl)).1⟩

/-! ## C25: `IsArchived` in `toQueryConditions` -/

/-- The results of `toQueryConditions` do not depend on `IsArchived`. -/
theorem toQueryConditions_isArchived (opts : ListEnterpriseSubscriptionsOptions) (b : Bool) :
    ListEnterpriseSubscriptionsOptions.toQueryConditions { opts with IsArchived := b } =
      ListEnterpriseSubscriptionsOptions.toQueryConditions opts := rfl

/-- C25: for the options with no IDs, no instance domains and no page size,
`toQueryConditions` returns the condition `TRUE`, no limit and no named arguments, with
`IsArchived` set and with `IsArchived` unset; with the ID `s1` the condition is
`TRUE AND id = ANY(@ids)` in both cases. -/
theorem toQueryConditions_same_for_archived :
    ListEnterpriseSubscriptionsOptions.toQueryConditions ⟨[], [], true, 0⟩ = ("TRUE", "", []) ∧
      ListEnterpriseSubscriptionsOptions.toQueryConditions ⟨[], [], false, 0⟩ =
        ("TRUE", "", []) ∧
      ListEnterpriseSubscriptionsOptions.toQueryConditions ⟨["s1"], [], true, 0⟩ =
        ("TRUE AND id = ANY(@ids)", "", [("ids", NamedArg.strings ["s1"])]) ∧
      ListEnterpriseSubscriptionsOptions.toQueryConditions ⟨["s1"], [], false, 0⟩ =
        ("TRUE AND id = ANY(@ids)", "", [("ids", NamedArg.strings ["s1"])]) :=
  ⟨by decide, by decide, by decide, by decide⟩

/-! ## The loop of `preferUploadsWithLongestRoots` -/

theorem firstLongest_le (done : List CompletedUpload) (v : CompletedUpload)
    (h : FirstLongest done v) (u : CompletedUpload) (hu : u ∈ done)
    (hk : uploadKey u = uploadKey v) : u.Root.utf8ByteSize ≤ v.Root.utf8ByteSize := by
  obtain ⟨l1, l2, h1, h2, h3⟩ := h
  rw [h1] at hu
  rcases List.mem_append.mp hu with h4 | h4
  · exact (h2 u h4 hk).le
  · rcases List.mem_cons.mp h4 with h5 | h5
    · rw [h5]
    · exact h3 u h5 hk

theorem firstLongest_snoc (done : List CompletedUpload) (v u : CompletedUpload)
    (h : FirstLongest done v)
    (hu : uploadKey u = uploadKey v → u.Root.utf8ByteSize ≤ v.Root.utf8ByteSize) :
    FirstLongest (done ++ [u]) v := by
  obtain ⟨l1, l2, h1, h2, h3⟩ := h
  refine ⟨l1, l2 ++ [u], by rw [h1]; simp, h2, ?_⟩
  intro x hx hk
  rcases List.mem_append.mp hx with h4 | h4
  · exact h3 x h4 hk
  · rw [List.mem_singleton.mp h4] at hk ⊢
    exact hu hk

theorem firstLongest_last (done : List CompletedUpload) (u : CompletedUpload)
    (h : ∀ x ∈ done, uploadKey x = uploadKey u → x.Root.utf8ByteSize < u.Root.utf8ByteSize) :
    FirstLongest (done ++ [u]) u :=
  ⟨done, [], rfl, h, fun _ hx => absurd hx (List.not_mem_nil _)⟩

theorem preferInv_step (done : List CompletedUpload) (m : GoMap String CompletedUpload)
    (u : CompletedUpload) (h : PreferInv done m) : PreferInv (done ++ [u]) (preferStep m u) := by
  obtain ⟨hkeys, hval⟩ := h
  have hmem : uploadKey u ∈ GoMap.keys m ↔ uploadKey u ∈ done.map uploadKey := by
    rw [hkeys, mem_firstOccurrences]
  unfold preferStep
  simp only
  cases hg : GoMap.get? m (uploadKey u) with
  | none =>
    have hnot : uploadKey u ∉ GoMap.keys m := GoMap.get?_eq_none_iff.mp hg
    have hnot1 : uploadKey u ∉ done.map uploadKey := fun h1 => hnot (hmem.mpr h1)
    simp only
    constructor
    · rw [GoMap.keys_set, if_neg hnot, List.map_append, List.map_singleton,
        firstOccurrences_append_singleton, if_neg hnot1, hkeys]
    · intro k v hkv
      rw [GoMap.get?_set] at hkv
      by_cases hk : uploadKey u = k
      · rw [if_pos hk] at hkv
        have hv : u = v := Option.some.inj hkv
        rw [← hv]
        refine ⟨hk, firstLongest_last done u ?_⟩
        intro x hx hxk
        exact absurd (hxk ▸ List.mem_map_of_mem uploadKey hx) hnot1
      · rw [if_neg hk] at hkv
        obtain ⟨h1, h2⟩ := hval k v hkv
        refine ⟨h1, firstLongest_snoc done v u h2 ?_⟩
        intro h3
        exact absurd (h3.trans h1) hk
  | some val =>
    have hin : uploadKey u ∈ GoMap.keys m := by
      by_contra h1
      rw [GoMap.get?_eq_none_iff.mpr h1] at hg
      cases hg
    have hin1 : uploadKey u ∈ done.map uploadKey := hmem.mp hin
    obtain ⟨hvk, hvl⟩ := hval (uploadKey u) val hg
    simp only
    by_cases hlt : val.Root.utf8ByteSize < u.Root.utf8ByteSize
    · rw [if_pos hlt]
      constructor
      · rw [GoMap.keys_set, if_pos hin, List.map_append, List.map_singleton,
          firstOccurrences_append_singleton, if_pos hin1, hkeys]
      · intro k v hkv
        rw [GoMap.get?_set] at hkv
        by_cases hk : uploadKey u = k
        · rw [if_pos hk] at hkv
          have hv : u = v := Option.some.inj hkv
          rw [← hv]
          refine ⟨hk, firstLongest_last done u ?_⟩
          intro x hx hxk
          exact lt_of_le_of_lt (firstLongest_le done val hvl x hx (hxk.trans hvk.symm)) hlt
        · rw [if_neg hk] at hkv
          obtain ⟨h1, h2⟩ := hval k v hkv
          refine ⟨h1, firstLongest_snoc done v u h2 ?_⟩
          intro h3
          exact absurd (h3.trans h1) hk
    · rw [if_neg hlt]
      constructor
      · rw [List.map_append, List.map_singleton, firstOccurrences_append_singleton,
          if_pos hin1, hkeys]
      · intro k v hkv
        obtain ⟨h1, h2⟩ := hval k v hkv
        refine ⟨h1, firstLongest_snoc done v u h2 ?_⟩
        intro h3
        have hk : uploadKey u = k := h3.trans h1
        rw [← hk, hg] at hkv
        rw [← Option.some.inj hkv]
        exact Nat.le_of_not_lt hlt

theorem preferInv_foldl (rest done : List CompletedUpload) (m : GoMap String CompletedUpload)
    (h : PreferInv done m) : PreferInv (done ++ rest) (rest.foldl preferStep m) := by
  induction rest generalizing done m with
  | nil =>
    rw [List.append_nil]
    exact h
  | cons u rest ih =>
    rw [List.foldl_cons]
    have := ih (done ++ [u]) (preferStep m u) (preferInv_step done m u h)
    rw [List.append_assoc, List.singleton_append] at this
    exact this

theorem preferInv_all (uploads : List CompletedUpload) :
    PreferInv uploads (uploads.foldl preferStep []) := by
  have h0 : PreferInv [] ([] : GoMap String CompletedUpload) := by
    refine ⟨rfl, ?_⟩
    intro k v h
    cases h
  have := preferInv_foldl uploads [] [] h0
  rw [List.nil_append] at this
  exact this

/-! ## C29: one upload for each key, the first with the longest root -/

/-- C29: the keys `<Indexer>:<Commit>` of the uploads that `preferUploadsWithLongestRoots`
returns are the distinct keys of its input in the order in which they first appear, each
once; every returned upload is an element of the input, and it is the first upload of the
input with the longest root among those with its key: the uploads with this key before it
have a shorter root and those after it have no longer root. -/
theorem preferUploadsWithLongestRoots_first_longest (uploads : List CompletedUpload) :
    (preferUploadsWithLongestRoots uploads).map uploadKey =
        firstOccurrences (uploads.map uploadKey) ∧
      ((preferUploadsWithLongestRoots uploads).map uploadKey).Nodup ∧
      (∀ k, k ∈ (preferUploadsWithLongestRoots uploads).map uploadKey ↔
        k ∈ uploads.map uploadKey) ∧
      (∀ v ∈ preferUploadsWithLongestRoots uploads, v ∈ uploads ∧
        ∃ l1 l2, uploads = l1 ++ v :: l2 ∧
          (∀ u ∈ l1, uploadKey u = uploadKey v →
            u.Root.utf8ByteSize < v.Root.utf8ByteSize) ∧
          (∀ u ∈ l2, uploadKey u = uploadKey v →
            u.Root.utf8ByteSize ≤ v.Root.utf8ByteSize)) := by
  obtain ⟨hkeys, hval⟩ := preferInv_all uploads
  have hnodup : (GoMap.keys (uploads.foldl preferStep [])).Nodup := by
    rw [hkeys]
    exact nodup_firstOccurrences _
  have hentry : ∀ e ∈ uploads.foldl preferStep [], uploadKey e.2 = e.1 ∧
      FirstLongest uploads e.2 := by
    intro e he
    exact hval e.1 e.2 (GoMap.get?_of_mem hnodup he)
  have hmap : (preferUploadsWithLongestRoots uploads).map uploadKey =
      firstOccurrences (uploads.map uploadKey) := by
    unfold preferUploadsWithLongestRoots
    rw [← hkeys, List.map_map]
    unfold GoMap.keys
    apply List.map_congr_left
    intro e he
    exact (hentry e he).1
  refine ⟨hmap, ?_, ?_, ?_⟩
  · rw [hmap]
    exact nodup_firstOccurrences _
  · intro k
    rw [hmap, mem_firstOccurrences]
  · intro v hv
    unfold preferUploadsWithLongestRoots at hv
    obtain ⟨e, he, hev⟩ := List.mem_map.mp hv
    have h := (hentry e he).2
    rw [hev] at h
    obtain ⟨l1, l2, h1, h2, h3⟩ := h
    refine ⟨?_, l1, l2, h1, h2, h3⟩
    rw [h1]
    simp

/-- Of three uploads of `scip-go` at one commit and one of `scip-java`, the call returns the
first of the two `scip-go` uploads with the longest root, then the `scip-java` upload. -/
theorem preferUploadsWithLongestRoots_first_longest_witness :
    preferUploadsWithLongestRoots uploadsFour =
        [⟨3, "c1", "a/b/", "scip-go"⟩, ⟨2, "c1", "", "scip-java"⟩] ∧
      (preferUploadsWithLongestRoots uploadsFour).map uploadKey =
        firstOccurrences (uploadsFour.map uploadKey) :=
  ⟨by decide, (preferUploadsWithLongestRoots_first_longest uploadsFour).1⟩

/-! ## The objects of `ResolveRepositories` in memory -/

theorem seeRepo_with_heap (env : Env) (heap : Heap) (allowUnsupported : Bool) :
    seeRepo { env with heap := heap } allowUnsupported = seeRepo env allowUnsupported := rfl

theorem seeRepos_some (env : Env) (allowUnsupported : Bool) (ps : List RepoRef)
    (st : ResolveState) :
    seeRepos env allowUnsupported (ps.map some) st =
      some (ps.foldl (seeRepo env allowUnsupported) st) := by
  induction ps generalizing st with
  | nil => rfl
  | cons p ps ih =>
    rw [List.map_cons, List.foldl_cons]
    unfold seeRepos
    exact ih _

theorem seeRepos_nil_pointer (env : Env) (allowUnsupported : Bool)
    (ps : List (Option RepoRef)) (st : ResolveState) (h : none ∈ ps) :
    seeRepos env allowUnsupported ps st = none := by
  induction ps generalizing st with
  | nil => cases h
  | cons p ps ih =>
    cases p with
    | none => rfl
    | some a =>
      unfold seeRepos
      apply ih
      rcases List.mem_cons.mp h with h1 | h1
      · cases h1
      · exact h1

theorem storeObjects_nil_pointer (repos : List (Option Repository)) (next : Nat)
    (heap : Heap) (h : none ∈ repos) : none ∈ (storeObjects repos next heap).1 := by
  induction repos generalizing next heap with
  | nil => cases h
  | cons r repos ih =>
    cases r with
    | none =>
      unfold storeObjects
      exact List.mem_cons_self _ _
    | some object =>
      unfold storeObjects
      apply List.mem_cons_of_mem
      apply ih
      rcases List.mem_cons.mp h with h1 | h1
      · cases h1
      · exact h1

theorem storeObjects_some (objects : List Repository) (next : Nat) (heap : Heap) :
    (storeObjects (objects.map some) next heap).1 = (List.range' next objects.length).map some ∧
      (storeObjects (objects.map some) next heap).2.1 = next + objects.length ∧
      (∀ k, k < next → (storeObjects (objects.map some) next heap).2.2 k = heap k) ∧
      (∀ j (hj : j < objects.length),
        (storeObjects (objects.map some) next heap).2.2 (next + j) = objects.get ⟨j, hj⟩) := by
  induction objects generalizing next heap with
  | nil =>
    refine ⟨rfl, rfl, fun _ _ => rfl, ?_⟩
    intro j hj
    exact absurd hj (Nat.not_lt_zero _)
  | cons object objects ih =>
    obtain ⟨h1, h2, h3, h4⟩ := ih (next + 1) (Function.update heap next object)
    rw [List.map_cons]
    unfold storeObjects
    refine ⟨?_, ?_, ?_, ?_⟩
    · simp only [h1, List.length_cons, List.range'_succ, List.map_cons]
    · show (storeObjects (List.map some objects) (next + 1)
        (Function.update heap next object)).2.1 = next + (object :: objects).length
      rw [h2, List.length_cons]
      omega
    · intro k hk
      show (storeObjects (List.map some objects) (next + 1)
        (Function.update heap next object)).2.2 k = heap k
      rw [h3 k (Nat.lt_succ_of_lt hk), Function.update_noteq (Nat.ne_of_lt hk)]
    · intro j hj
      show (storeObjects (List.map some objects) (next + 1)
        (Function.update heap next object)).2.2 (next + j) = (object :: objects).get ⟨j, hj⟩
      cases j with
      | zero =>
        have e := h3 next (Nat.lt_succ_self next)
        rw [Function.update_same] at e
        exact e
      | succ j =>
        have hj1 : j < objects.length := by simpa using hj
        have := h4 j hj1
        rw [show next + (j + 1) = next + 1 + j by omega, this]
        rfl

theorem map_some_filterMap (repos : List (Option Repository)) (h : none ∉ repos) :
    repos = (repos.filterMap id).map some := by
  induction repos with
  | nil => rfl
  | cons r repos ih =>
    cases r with
    | none => exact absurd (List.mem_cons_self _ _) h
    | some object =>
      rw [List.filterMap_cons_some (by rfl), List.map_cons, ← ih]
      intro hm
      exact h (List.mem_cons_of_mem _ hm)

theorem agreeBelow_seeRepo (env : Env) (allowUnsupported : Bool) (n : Nat)
    (a b : ResolveState) (p : RepoRef) (h : AgreeBelow n a b) (hseen : SeenBelow n a)
    (hp : p < n) :
    AgreeBelow n (seeRepo env allowUnsupported a p) (seeRepo env allowUnsupported b p) ∧
      SeenBelow n (seeRepo env allowUnsupported a p) := by
  obtain ⟨hs, hu, hh⟩ := h
  have hpe : a.heap p = b.heap p := hh p hp
  unfold seeRepo
  rw [hpe, hs, hu]
  by_cases hb : env.hasBranch (b.heap p) = true
  · simp only [hb, Bool.not_true, Bool.false_eq_true, if_false]
    cases hg : GoMap.get? b.seen (b.heap p).ID with
    | none =>
      refine ⟨⟨rfl, rfl, hh⟩, ?_⟩
      intro id x hx
      simp only at hx
      rw [GoMap.get?_set] at hx
      by_cases hi : (b.heap p).ID = id
      · rw [if_pos hi] at hx
        cases hx
        exact hp
      · rw [if_neg hi] at hx
        rw [← hs] at hx
        exact hseen id x hx
    | some other =>
      have ho : other < n := hseen _ other (by rw [hs]; exact hg)
      refine ⟨⟨rfl, rfl, ?_⟩, ?_⟩
      · intro k hk
        simp only
        by_cases hko : k = other
        · rw [hko, Function.update_same, Function.update_same, hh other ho]
        · rw [Function.update_noteq hko, Function.update_noteq hko]
          exact hh k hk
      · intro id x hx
        simp only at hx
        rw [← hs] at hx
        exact hseen id x hx
  · have hbf : env.hasBranch (b.heap p) = false := by simpa using hb
    simp only [hbf, Bool.not_false, if_true]
    exact ⟨⟨hs, hu, hh⟩, hseen⟩

theorem agreeBelow_foldl (env : Env) (allowUnsupported : Bool) (n : Nat) (ps : List RepoRef)
    (a b : ResolveState) (h : AgreeBelow n a b) (hseen : SeenBelow n a)
    (hps : ∀ p ∈ ps, p < n) :
    AgreeBelow n (ps.foldl (seeRepo env allowUnsupported) a)
        (ps.foldl (seeRepo env allowUnsupported) b) ∧
      SeenBelow n (ps.foldl (seeRepo env allowUnsupported) a) := by
  induction ps generalizing a b with
  | nil => exact ⟨h, hseen⟩
  | cons p ps ih =>
    rw [List.foldl_cons, List.foldl_cons]
    obtain ⟨h1, h2⟩ := agreeBelow_seeRepo env allowUnsupported n a b p h hseen
      (hps p (List.mem_cons_self _ _))
    exact ih _ _ h1 h2 (fun q hq => hps q (List.mem_cons_of_mem _ hq))

theorem agreeBelow_mono (n m : Nat) (a b : ResolveState)
    (h : AgreeBelow n a b) (hext : ∀ k, n ≤ k → k < m → a.heap k = b.heap k) :
    AgreeBelow m a b := by
  refine ⟨h.1, h.2.1, ?_⟩
  intro k hk
  by_cases hkn : k < n
  · exact h.2.2 k hkn
  · exact hext k (by omega) hk

theorem heapOf_append_get (front objects back : List Repository) (j : Nat)
    (hj : j < objects.length) :
    heapOf (front ++ objects ++ back) (front.length + j) = objects.get ⟨j, hj⟩ := by
  unfold heapOf
  rw [List.getD_eq_getElem?_getD, List.append_assoc, List.getElem?_append_right (by omega)]
  simp only [Nat.add_sub_cancel_left]
  rw [List.getElem?_append_left hj, List.getElem?_eq_getElem hj]
  rfl

/-- The loop over declarations that all resolve: its state agrees with the one that the loop
body reaches on the pointers `0, 1, ...` from a memory that holds all objects. -/
theorem resolveDeclarations_agree (σ : MapOrder) (env : Env) (allowUnsupported : Bool)
    (decls : List OnQueryOrRepository) (front back : List Repository) (a b : ResolveState)
    (hres : AllResolve σ env decls)
    (h : AgreeBelow front.length a b) (hseen : SeenBelow front.length a)
    (hinv : ResolveInv
      { env with heap := heapOf (front ++ resolvedObjects σ env decls ++ back) }
      allowUnsupported (List.range front.length) b) :
    ∃ a1, resolveDeclarations σ env allowUnsupported decls front.length a = some (none, a1) ∧
      AgreeBelow (front.length + (resolvedObjects σ env decls).length) a1
        ((List.range' front.length (resolvedObjects σ env decls).length).foldl
          (seeRepo env allowUnsupported) b) ∧
      SeenBelow (front.length + (resolvedObjects σ env decls).length) a1 := by
  induction decls generalizing front a b with
  | nil =>
    refine ⟨a, rfl, ?_, ?_⟩
    · simpa [resolvedObjects] using h
    · simpa [resolvedObjects] using hseen
  | cons decl decls ih =>
    obtain ⟨herr, hnil⟩ := hres decl (List.mem_cons_self _ _)
    have hrest : AllResolve σ env decls := fun d hd => hres d (List.mem_cons_of_mem _ hd)
    have hobj : resolvedObjects σ env (decl :: decls) =
        (ResolveRepositoriesOn σ env decl).repos.filterMap id ++ resolvedObjects σ env decls := by
      simp [resolvedObjects]
    generalize hobjs : (ResolveRepositoriesOn σ env decl).repos.filterMap id = objects at hobj
    have hrepos : (ResolveRepositoriesOn σ env decl).repos = objects.map some := by
      rw [← hobjs]
      exact map_some_filterMap _ hnil
    rw [hobj] at hinv ⊢
    obtain ⟨s1, s2, s3, s4⟩ := storeObjects_some objects front.length a.heap
    -- the state after the objects are stored agrees with `b` below the new bound
    have hb : ∀ k, front.length ≤ k → b.heap k =
        heapOf (front ++ (objects ++ resolvedObjects σ env decls) ++ back) k := by
      intro k hk
      exact hinv.2.2.1 k (Or.inl (by simp; omega))
    have hagree : AgreeBelow (front.length + objects.length)
        { a with heap := (storeObjects (objects.map some) front.length a.heap).2.2 } b := by
      refine ⟨h.1, h.2.1, ?_⟩
      intro k hk
      by_cases hkn : k < front.length
      · show (storeObjects (objects.map some) front.length a.heap).2.2 k = b.heap k
        rw [s3 k hkn]
        exact h.2.2 k hkn
      · obtain ⟨j, rfl⟩ : ∃ j, k = front.length + j := ⟨k - front.length, by omega⟩
        have hj : j < objects.length := by omega
        show (storeObjects (objects.map some) front.length a.heap).2.2 (front.length + j) =
          b.heap (front.length + j)
        rw [s4 j hj, hb _ (by omega)]
        have := heapOf_append_get front objects (resolvedObjects σ env decls ++ back) j hj
        simp only [List.append_assoc] at this ⊢
        exact this.symm
    have hseen1 : SeenBelow (front.length + objects.length)
        { a with heap := (storeObjects (objects.map some) front.length a.heap).2.2 } := by
      intro id x hx
      exact Nat.lt_of_lt_of_le (hseen id x hx) (Nat.le_add_right _ _)
    have hps : ∀ p ∈ List.range' front.length objects.length,
        p < front.length + objects.length := by
      intro p hp
      exact (List.mem_range'_1.mp hp).2
    obtain ⟨hag, hsb⟩ := agreeBelow_foldl env allowUnsupported _ _ _ _ hagree hseen1 hps
    have hinv1 := resolveInv_foldl _ allowUnsupported (List.range front.length)
      (List.range' front.length objects.length) b hinv
    rw [seeRepo_with_heap, List.range'_eq_map_range, ← List.range_add,
      ← List.range'_eq_map_range, ← List.length_append] at hinv1
    rw [← List.length_append] at hag hsb
    have hlist : front ++ (objects ++ resolvedObjects σ env decls) ++ back =
        front ++ objects ++ resolvedObjects σ env decls ++ back := by
      simp only [List.append_assoc]
    rw [hlist] at hinv1
    obtain ⟨a1, h1, h2, h3⟩ := ih (front ++ objects) _ _ hrest hag hsb hinv1
    refine ⟨a1, ?_, ?_, ?_⟩
    · unfold resolveDeclarations
      simp only [herr, hrepos, s1, s2, seeRepos_some]
      rw [← List.length_append]
      exact h1
    · have hr : List.range' front.length (objects ++ resolvedObjects σ env decls).length =
          List.range' front.length objects.length ++
            List.range' (front ++ objects).length (resolvedObjects σ env decls).length := by
        have := List.range'_append front.length objects.length
          (resolvedObjects σ env decls).length 1
        rw [Nat.one_mul] at this
        rw [List.length_append, List.length_append, this, Nat.add_comm]
      rw [hr, List.foldl_append]
      have hlen : front.length + (objects ++ resolvedObjects σ env decls).length =
          (front ++ objects).length + (resolvedObjects σ env decls).length := by
        simp only [List.length_append]
        omega
      rw [hlen]
      exact h2
    · have hlen : front.length + (objects ++ resolvedObjects σ env decls).length =
          (front ++ objects).length + (resolvedObjects σ env decls).length := by
        simp only [List.length_append]
        omega
      rw [hlen]
      exact h3

theorem resolveDeclarations_stops (σ : MapOrder) (env : Env) (allowUnsupported : Bool)
    (decls : List OnQueryOrRepository) (next : Nat) (st : ResolveState)
    (h : ¬ AllResolve σ env decls) :
    resolveDeclarations σ env allowUnsupported decls next st = none ∨
      ∃ err st1, resolveDeclarations σ env allowUnsupported decls next st =
        some (some err, st1) := by
  induction decls generalizing next st with
  | nil =>
    exfalso
    apply h
    intro d hd
    cases hd
  | cons decl decls ih =>
    unfold resolveDeclarations
    cases herr : (ResolveRepositoriesOn σ env decl).err with
    | some err => exact Or.inr ⟨_, _, rfl⟩
    | none =>
      simp only
      by_cases hnil : none ∈ (ResolveRepositoriesOn σ env decl).repos
      · left
        rw [seeRepos_nil_pointer env allowUnsupported _ _
          (storeObjects_nil_pointer _ next st.heap hnil)]
      · cases hsee : seeRepos env allowUnsupported
            (storeObjects (ResolveRepositoriesOn σ env decl).repos next st.heap).1
            { st with
              heap := (storeObjects (ResolveRepositoriesOn σ env decl).repos next st.heap).2.2 } with
        | none => exact Or.inl rfl
        | some st1 =>
          simp only
          apply ih
          intro hall
          apply h
          intro d hd
          rcases List.mem_cons.mp hd with h1 | h1
          · rw [h1]
            exact ⟨herr, hnil⟩
          · exact hall d h1

theorem heapOf_lt (objects : List Repository) (k : Nat) (hk : k < objects.length) :
    heapOf objects k ∈ objects := by
  unfold heapOf
  rw [List.getD_eq_getElem?_getD, List.getElem?_eq_getElem hk]
  exact List.getElem_mem hk

theorem exists_heapOf (objects : List Repository) (p : Repository) (hp : p ∈ objects) :
    ∃ k, k < objects.length ∧ heapOf objects k = p := by
  obtain ⟨k, hk, hkp⟩ := List.getElem_of_mem hp
  refine ⟨k, hk, ?_⟩
  unfold heapOf
  rw [List.getD_eq_getElem?_getD, List.getElem?_eq_getElem hk]
  exact hkp

/-- What `ResolveRepositories` returns when every declaration resolves: the maps that the loop
body builds on the pointers `0, 1, ...` to the resolved objects. -/
theorem resolveRepositories_ok (σ : MapOrder) (env : Env) (allowUnsupported : Bool)
    (spec : CampaignSpec) (hres : AllResolve σ env spec.On) :
    ∃ st r, ResolveRepositories σ env allowUnsupported spec = some r ∧
      st = (List.range (resolvedObjects σ env spec.On).length).foldl
        (seeRepo (resolvedEnv σ env spec) allowUnsupported)
        ⟨[], [], (resolvedEnv σ env spec).heap⟩ ∧
      ResolveInv (resolvedEnv σ env spec) allowUnsupported
        (List.range (resolvedObjects σ env spec.On).length) st ∧
      r.repos =
        ((σ.range _ st.seen).map Prod.snd).filter (fun repo => !st.unsupported.includes repo) ∧
      r.err = (if st.unsupported.hasUnsupported = true then
        some (ResolveError.unsupported st.unsupported) else none) ∧
      (∀ k, k < (resolvedObjects σ env spec.On).length → r.heap k = st.heap k) := by
  have hinv0 := resolveInv_nil (resolvedEnv σ env spec) allowUnsupported
  have hlist : resolvedObjects σ env spec.On =
      [] ++ resolvedObjects σ env spec.On ++ [] := by simp
  have hinv1 : ResolveInv
      { env with heap := heapOf ([] ++ resolvedObjects σ env spec.On ++ []) }
      allowUnsupported (List.range ([] : List Repository).length)
      ⟨[], [], heapOf (resolvedObjects σ env spec.On)⟩ := by
    rw [← hlist]
    exact hinv0
  obtain ⟨a1, h1, h2, h3⟩ := resolveDeclarations_agree σ env allowUnsupported spec.On [] []
    ⟨[], [], fun _ => zeroRepository⟩ ⟨[], [], heapOf (resolvedObjects σ env spec.On)⟩ hres
    ⟨rfl, rfl, fun k hk => absurd hk (Nat.not_lt_zero _)⟩
    (fun id x hx => by simp [GoMap.get?] at hx) hinv1
  simp only [List.length_nil, Nat.zero_add, ← List.range_eq_range'] at h1 h2 h3
  have hfold := resolveInv_foldl (resolvedEnv σ env spec) allowUnsupported []
    (List.range (resolvedObjects σ env spec.On).length) _ hinv0
  rw [List.nil_append] at hfold
  obtain ⟨hs, hu, hh⟩ := h2
  have henv : seeRepo env allowUnsupported = seeRepo (resolvedEnv σ env spec) allowUnsupported :=
    rfl
  have hheap : heapOf (resolvedObjects σ env spec.On) = (resolvedEnv σ env spec).heap := rfl
  rw [henv, hheap] at hs hu hh
  have hRR : ResolveRepositories σ env allowUnsupported spec =
      some ⟨((σ.range _ a1.seen).map Prod.snd).filter
          (fun repo => !a1.unsupported.includes repo),
        (if a1.unsupported.hasUnsupported = true then
          some (ResolveError.unsupported a1.unsupported) else none), a1.heap⟩ := by
    unfold ResolveRepositories
    rw [h1]
    simp only
    by_cases hun : a1.unsupported.hasUnsupported = true
    · rw [if_pos hun, if_pos hun]
    · rw [if_neg hun, if_neg hun]
  refine ⟨_, _, hRR, rfl, hfold, ?_, ?_, hh⟩
  · simp only [hs, hu]
  · simp only [hu]

/-! ## What `ResolveRepositories` returns -/

/-- The three ways in which `ResolveRepositories` ends: a panic, the error of a declaration,
or, when every declaration resolves, the list and the set of the unsupported repositories. -/
theorem resolveRepositories_cases (σ : MapOrder) (env : Env) (allowUnsupported : Bool)
    (spec : CampaignSpec) :
    ResolveRepositories σ env allowUnsupported spec = none ∨
      (¬ AllResolve σ env spec.On ∧ ∃ err heap,
        ResolveRepositories σ env allowUnsupported spec =
          some ⟨[], some (ResolveError.resolving err), heap⟩) ∨
      (AllResolve σ env spec.On ∧ ∃ st r,
        ResolveRepositories σ env allowUnsupported spec = some r ∧
        st = (List.range (resolvedObjects σ env spec.On).length).foldl
          (seeRepo (resolvedEnv σ env spec) allowUnsupported)
          ⟨[], [], (resolvedEnv σ env spec).heap⟩ ∧
        ResolveInv (resolvedEnv σ env spec) allowUnsupported
          (List.range (resolvedObjects σ env spec.On).length) st ∧
        r.repos =
          ((σ.range _ st.seen).map Prod.snd).filter (fun repo => !st.unsupported.includes repo) ∧
        r.err = (if st.unsupported.hasUnsupported = true then
          some (ResolveError.unsupported st.unsupported) else none) ∧
        (∀ k, k < (resolvedObjects σ env spec.On).length → r.heap k = st.heap k)) := by
  by_cases hres : AllResolve σ env spec.On
  · exact Or.inr (Or.inr ⟨hres, resolveRepositories_ok σ env allowUnsupported spec hres⟩)
  · rcases resolveDeclarations_stops σ env allowUnsupported spec.On 0
      ⟨[], [], fun _ => zeroRepository⟩ hres with h | ⟨err, st1, h⟩
    · left
      unfold ResolveRepositories
      rw [h]
    · right
      left
      refine ⟨hres, err, st1.heap, ?_⟩
      unfold ResolveRepositories
      rw [h]

theorem includes_iff (set : UnsupportedRepoSet) (a : RepoRef) :
    set.includes a = true ↔ a ∈ GoMap.keys set := by
  unfold UnsupportedRepoSet.includes
  cases hg : GoMap.get? set a with
  | none => simpa using GoMap.get?_eq_none_iff.mp hg
  | some u => simpa using GoMap.mem_keys_of_mem (GoMap.mem_of_get? hg)

/-- The repositories that the loop returns: the first pointer of every ID, when the service
type is supported or unsupported repositories are allowed. -/
theorem mem_final_iff (σ : MapOrder) (env : Env) (allowUnsupported : Bool)
    (done : List RepoRef) (st : ResolveState) (h : ResolveInv env allowUnsupported done st)
    (a : RepoRef) :
    a ∈ ((σ.range _ st.seen).map Prod.snd).filter
        (fun repo => !st.unsupported.includes repo) ↔
      firstSeen env done (env.heap a).ID = some a ∧
        (supportedServiceType env (env.heap a).ServiceType = true ∨ allowUnsupported = true) := by
  obtain ⟨h1, h2, _, _, h5, _⟩ := h
  rw [List.mem_filter, List.mem_map]
  constructor
  · rintro ⟨⟨⟨id, b⟩, h6, h7⟩, h8⟩
    simp only at h7
    subst h7
    have h9 := GoMap.get?_of_mem h5 (((σ.perm _ st.seen).mem_iff).mp h6)
    rw [h1 id] at h9
    have h10 := (firstSeen_some env _ id b h9).2.2
    subst h10
    refine ⟨h9, ?_⟩
    have h11 : ¬ b ∈ GoMap.keys st.unsupported := by
      intro hm
      rw [(includes_iff _ _).mpr hm] at h8
      cases h8
    rw [h2 b, h1, h9] at h11
    by_contra hc
    push_neg at hc
    apply h11
    refine ⟨by simpa using hc.2, by simpa using hc.1, rfl⟩
  · rintro ⟨h6, h7⟩
    refine ⟨⟨((env.heap a).ID, a), ?_, rfl⟩, ?_⟩
    · rw [(σ.perm _ st.seen).mem_iff]
      apply GoMap.mem_of_get?
      rw [h1, h6]
    · have h11 : ¬ a ∈ GoMap.keys st.unsupported := by
        rw [h2 a]
        rintro ⟨h8, h9, _⟩
        rcases h7 with h7 | h7
        · rw [h9] at h7
          cases h7
        · rw [h8] at h7
          cases h7
      cases hi : st.unsupported.includes a with
      | false => rfl
      | true => exact absurd ((includes_iff _ _).mp hi) h11

theorem firstSeen_range_lt (env : Env) (n : Nat) (id : String) (a : RepoRef)
    (h : firstSeen env (List.range n) id = some a) : a < n :=
  List.mem_range.mp (firstSeen_some env _ id a h).1

/-! ## C9: the supported repositories are returned -/

/-- C9, with the condition that the code needs: when every declaration resolves without an
error and without a nil repository, `ResolveRepositories` returns, and a resolved repository
that has a branch appears (by its ID) in the returned list exactly when its service type,
lowered, is one of `github`, `gitlab`, `bitbucketserver`, or `AllowUnsupported` is true.  A
repository is identified by its ID: the objects resolved for one ID report one service
type. -/
theorem resolveRepositories_returns_supported (σ : MapOrder) (env : Env)
    (allowUnsupported : Bool) (spec : CampaignSpec)
    (hres : ∀ decl ∈ spec.On, (ResolveRepositoriesOn σ env decl).err = none ∧
      none ∉ (ResolveRepositoriesOn σ env decl).repos)
    (hsame : ∀ p ∈ resolvedObjects σ env spec.On, ∀ q ∈ resolvedObjects σ env spec.On,
      p.ID = q.ID → p.ServiceType = q.ServiceType)
    (p : Repository) (hp : p ∈ resolvedObjects σ env spec.On)
    (hb : env.hasBranch p = true) :
    ∃ r, ResolveRepositories σ env allowUnsupported spec = some r ∧
      ((∃ a ∈ r.repos, (r.heap a).ID = p.ID) ↔
        ((env.toLower p.ServiceType = "github" ∨ env.toLower p.ServiceType = "gitlab" ∨
            env.toLower p.ServiceType = "bitbucketserver") ∨
          allowUnsupported = true)) := by
  obtain ⟨st, r, hr, _, hinv, hrepos, _, hh⟩ :=
    resolveRepositories_ok σ env allowUnsupported spec hres
  obtain ⟨k, hk, hkp⟩ := exists_heapOf _ p hp
  have h4 := hinv.2.2.2.1
  refine ⟨r, hr, ?_⟩
  rw [← supportedServiceType_iff, hrepos]
  constructor
  · rintro ⟨a, ha, hid⟩
    obtain ⟨h6, h7⟩ := (mem_final_iff σ _ allowUnsupported _ st hinv a).mp ha
    have han := firstSeen_range_lt _ _ _ a h6
    rw [hh a han, (h4 a).1] at hid
    have hmem := heapOf_lt (resolvedObjects σ env spec.On) a han
    have hst := hsame _ hmem p hp hid
    rcases h7 with h7 | h7
    · left
      rw [← hst]
      exact h7
    · exact Or.inr h7
  · intro hs
    have hbk : (resolvedEnv σ env spec).hasBranch ((resolvedEnv σ env spec).heap k) = true := by
      show env.hasBranch (heapOf (resolvedObjects σ env spec.On) k) = true
      rw [hkp]
      exact hb
    obtain ⟨a, h6, h7, _, h9⟩ := firstSeen_exists (resolvedEnv σ env spec)
      (List.range (resolvedObjects σ env spec.On).length) k (List.mem_range.mpr hk) hbk
    have han : a < (resolvedObjects σ env spec.On).length := List.mem_range.mp h7
    have hidk : ((resolvedEnv σ env spec).heap k).ID = p.ID := by
      show (heapOf (resolvedObjects σ env spec.On) k).ID = p.ID
      rw [hkp]
    refine ⟨a, ?_, by rw [hh a han, (h4 a).1, h9, hidk]⟩
    rw [mem_final_iff σ _ allowUnsupported _ st hinv a, h9]
    refine ⟨h6, ?_⟩
    have hst := hsame _ (heapOf_lt (resolvedObjects σ env spec.On) a han) p hp
      (h9.trans hidk)
    rcases hs with hs | hs
    · left
      show supportedServiceType env (heapOf (resolvedObjects σ env spec.On) a).ServiceType = true
      rw [hst]
      exact hs
    · exact Or.inr hs

/-- C9 at a concrete input: the names `ab`, `cd` and `ab` resolve to the repository X on
`GitHub`, the repository Y on `svn` and the repository X again; X is returned once, at the
address 0 of the first object. -/
theorem resolveRepositories_returns_supported_witness :
    (ResolveRepositories MapOrder.insertion envHosts false specThreeNames).map
        (fun r => r.repos) = some [0] ∧
      ∃ r, ResolveRepositories MapOrder.insertion envHosts false specThreeNames = some r ∧
        ((∃ a ∈ r.repos, (r.heap a).ID = (mkRepository "X" "ab" "GitHub").ID) ↔
          ((envHosts.toLower (mkRepository "X" "ab" "GitHub").ServiceType = "github" ∨
              envHosts.toLower (mkRepository "X" "ab" "GitHub").ServiceType = "gitlab" ∨
              envHosts.toLower (mkRepository "X" "ab" "GitHub").ServiceType =
                "bitbucketserver") ∨
            false = true)) :=
  ⟨by decide,
    resolveRepositories_returns_supported MapOrder.insertion envHosts false specThreeNames
      (by decide) (by decide) (mkRepository "X" "ab" "GitHub") (by decide) (by decide)⟩

/-- C9 fails as stated: the name `ab` resolves to the repository X on `GitHub`, which has a
branch, and the client answers the request for `cd` with `ok = false` and no error, so that
every declaration resolves without an error; `ResolveRepositories` panics on the nil pointer
and returns no list. -/
theorem resolveRepositories_panics_after_supported :
    (∀ decl ∈ specTwoNames.On,
        (ResolveRepositoriesOn MapOrder.insertion envNotOk decl).err = none) ∧
      (ResolveRepositoriesOn MapOrder.insertion envNotOk ⟨"", "cd", ""⟩).repos = [none] ∧
      (∃ p ∈ resolvedObjects MapOrder.insertion envNotOk specTwoNames.On,
        envNotOk.hasBranch p = true ∧ envNotOk.toLower p.ServiceType = "github") ∧
      (ResolveRepositories MapOrder.insertion envNotOk false specTwoNames).isNone = true := by
  decide

/-! ## C10: the error for unsupported repositories -/

theorem hasUnsupported_iff (set : UnsupportedRepoSet) :
    set.hasUnsupported = true ↔ ∃ a, a ∈ GoMap.keys set := by
  unfold UnsupportedRepoSet.hasUnsupported
  rw [decide_eq_true_eq]
  constructor
  · intro hl
    obtain ⟨x, hx⟩ := List.exists_mem_of_length_pos hl
    exact ⟨x.1, GoMap.mem_keys_of_mem (v := x.2) hx⟩
  · rintro ⟨a, ha⟩
    obtain ⟨x, hx, _⟩ := List.mem_map.mp ha
    exact List.length_pos_of_mem hx

/-- C10, with the condition that the code needs: when every declaration resolves without an
error and without a nil repository, `ResolveRepositories` returns, and its error is non-nil
exactly when `AllowUnsupported` is false and some resolved repository with a branch has a
service type outside the allow-list; the error is then the `UnsupportedRepoSet` that holds,
once each, the repositories with a branch and such a service type (each by the first object
resolved for its ID), and the list returned alongside holds the other seen repositories.  A
repository is identified by its ID: the objects resolved for one ID report one service
type.  The object at address `k` of `resolvedEnv` is the `k`-th resolved object. -/
theorem resolveRepositories_unsupported_error (σ : MapOrder) (env : Env)
    (allowUnsupported : Bool) (spec : CampaignSpec)
    (hres : ∀ decl ∈ spec.On, (ResolveRepositoriesOn σ env decl).err = none ∧
      none ∉ (ResolveRepositoriesOn σ env decl).repos)
    (hsame : ∀ p ∈ resolvedObjects σ env spec.On, ∀ q ∈ resolvedObjects σ env spec.On,
      p.ID = q.ID → p.ServiceType = q.ServiceType) :
    ∃ r, ResolveRepositories σ env allowUnsupported spec = some r ∧
      (r.err ≠ none ↔
        (allowUnsupported = false ∧
          ∃ p ∈ resolvedObjects σ env spec.On, env.hasBranch p = true ∧
            supportedServiceType env p.ServiceType = false)) ∧
      (∀ e, r.err = some e →
        ∃ set, e = ResolveError.unsupported set ∧ (GoMap.keys set).Nodup ∧
          (∀ a, a ∈ GoMap.keys set ↔
            (firstSeen (resolvedEnv σ env spec)
                (List.range (resolvedObjects σ env spec.On).length)
                ((resolvedEnv σ env spec).heap a).ID = some a ∧
              supportedServiceType env ((resolvedEnv σ env spec).heap a).ServiceType = false)) ∧
          (∀ p ∈ resolvedObjects σ env spec.On, env.hasBranch p = true →
            supportedServiceType env p.ServiceType = false →
            ∃ a ∈ GoMap.keys set, (r.heap a).ID = p.ID)) ∧
      (∀ a, a ∈ r.repos ↔
        (firstSeen (resolvedEnv σ env spec)
            (List.range (resolvedObjects σ env spec.On).length)
            ((resolvedEnv σ env spec).heap a).ID = some a ∧
          (supportedServiceType env ((resolvedEnv σ env spec).heap a).ServiceType = true ∨
            allowUnsupported = true))) := by
  obtain ⟨st, r, hr, _, hinv, hrepos, he, hh⟩ :=
    resolveRepositories_ok σ env allowUnsupported spec hres
  obtain ⟨h1, h2, _, h4, _, h6⟩ := hinv
  have hkey : ∀ a, a ∈ GoMap.keys st.unsupported ↔
      (allowUnsupported = false ∧
        supportedServiceType env ((resolvedEnv σ env spec).heap a).ServiceType = false ∧
        firstSeen (resolvedEnv σ env spec) (List.range (resolvedObjects σ env spec.On).length)
          ((resolvedEnv σ env spec).heap a).ID = some a) := by
    intro a
    rw [h2 a, h1]
    rfl
  have hcover : allowUnsupported = false →
      ∀ p ∈ resolvedObjects σ env spec.On, env.hasBranch p = true →
        supportedServiceType env p.ServiceType = false →
        ∃ a ∈ GoMap.keys st.unsupported, (r.heap a).ID = p.ID := by
    intro hallow p hp hb hs
    obtain ⟨k, hk, hkp⟩ := exists_heapOf _ p hp
    have hbk : (resolvedEnv σ env spec).hasBranch ((resolvedEnv σ env spec).heap k) = true := by
      show env.hasBranch (heapOf (resolvedObjects σ env spec.On) k) = true
      rw [hkp]
      exact hb
    have hidk : ((resolvedEnv σ env spec).heap k).ID = p.ID := by
      show (heapOf (resolvedObjects σ env spec.On) k).ID = p.ID
      rw [hkp]
    obtain ⟨a, h7, h8, _, h10⟩ := firstSeen_exists (resolvedEnv σ env spec) _ k
      (List.mem_range.mpr hk) hbk
    have han : a < (resolvedObjects σ env spec.On).length := List.mem_range.mp h8
    refine ⟨a, ?_, by rw [hh a han, (h4 a).1, h10, hidk]⟩
    rw [hkey a, h10]
    refine ⟨hallow, ?_, h7⟩
    show supportedServiceType env (heapOf (resolvedObjects σ env spec.On) a).ServiceType = false
    rw [hsame _ (heapOf_lt _ a han) p hp (h10.trans hidk)]
    exact hs
  refine ⟨r, hr, ?_, ?_, ?_⟩
  · rw [he]
    constructor
    · intro hne
      have hu : st.unsupported.hasUnsupported = true := by
        by_contra hc
        simp [hc] at hne
      obtain ⟨a, ha⟩ := (hasUnsupported_iff _).mp hu
      obtain ⟨h7, h8, h9⟩ := (hkey a).mp ha
      obtain ⟨h10, h11, _⟩ := firstSeen_some _ _ _ a h9
      exact ⟨h7, _, heapOf_lt _ a (List.mem_range.mp h10), h11, h8⟩
    · rintro ⟨hallow, p, hp, hb, hs⟩
      obtain ⟨a, ha, _⟩ := hcover hallow p hp hb hs
      have hu : st.unsupported.hasUnsupported = true := (hasUnsupported_iff _).mpr ⟨a, ha⟩
      simp [hu]
  · intro e hsome
    rw [he] at hsome
    by_cases hu : st.unsupported.hasUnsupported = true
    · simp only [hu, if_true, Option.some.injEq] at hsome
      obtain ⟨b, hb⟩ := (hasUnsupported_iff _).mp hu
      have hallow : allowUnsupported = false := ((hkey b).mp hb).1
      refine ⟨st.unsupported, hsome.symm, h6, ?_, hcover hallow⟩
      intro a
      rw [hkey a]
      constructor
      · rintro ⟨_, h8, h9⟩
        exact ⟨h9, h8⟩
      · rintro ⟨h9, h8⟩
        exact ⟨hallow, h8, h9⟩
    · simp [hu] at hsome
  · intro a
    rw [hrepos]
    exact mem_final_iff σ _ allowUnsupported _ st ⟨h1, h2, ‹_›, h4, ‹_›, h6⟩ a

/-- C10 at a concrete input: the repository Y on `svn` is resolved with a branch, and
unsupported repositories are not allowed: the error holds the object of Y, at address 1, the
list holds the first object of X, at address 0; with unsupported repositories allowed the
error is nil. -/
theorem resolveRepositories_unsupported_error_witness :
    (ResolveRepositories MapOrder.insertion envHosts false specThreeNames).map
        (fun r => (r.repos, r.err)) =
          some ([0], some (ResolveError.unsupported [(1, ())])) ∧
      (ResolveRepositories MapOrder.insertion envHosts true specThreeNames).map
        (fun r => (r.repos, r.err)) = some ([0, 1], none) ∧
      ∃ r, ResolveRepositories MapOrder.insertion envHosts false specThreeNames = some r ∧
        (r.err ≠ none ↔
          (false = false ∧
            ∃ p ∈ resolvedObjects MapOrder.insertion envHosts specThreeNames.On,
              envHosts.hasBranch p = true ∧
                supportedServiceType envHosts p.ServiceType = false)) := by
  refine ⟨by decide, by decide, ?_⟩
  obtain ⟨r, hr, h, _⟩ := resolveRepositories_unsupported_error MapOrder.insertion envHosts
    false specThreeNames (by decide) (by decide)
  exact ⟨r, hr, h⟩

/-- C10 fails as stated: the client answers the request for the name `cd` with `ok = false`
and no error, so that the one declaration resolves without an error, to a nil pointer;
`ResolveRepositories` panics on it and returns neither an error nor a nil error. -/
theorem resolveRepositories_panics_on_nil :
    (∀ decl ∈ specOneName.On,
        (ResolveRepositoriesOn MapOrder.insertion envNotOk decl).err = none) ∧
      (ResolveRepositoriesOn MapOrder.insertion envNotOk ⟨"", "cd", ""⟩).repos = [none] ∧
      (ResolveRepositories MapOrder.insertion envNotOk false specOneName).isNone = true ∧
      (ResolveRepositories MapOrder.insertion envNotOk true specOneName).isNone = true := by
  decide

/-! ## C11: one returned repository for every ID -/

theorem map_heap_final (σ : MapOrder) (env : Env) (allowUnsupported : Bool) (n : Nat)
    (st : ResolveState) (heap : Heap) (f : Repository → String)
    (hinv : ResolveInv env allowUnsupported (List.range n) st)
    (hh : ∀ k, k < n → heap k = st.heap k) :
    (((σ.range _ st.seen).map Prod.snd).filter
        (fun repo => !st.unsupported.includes repo)).map (fun a => f (heap a)) =
      (((σ.range _ st.seen).map Prod.snd).filter
        (fun repo => !st.unsupported.includes repo)).map (fun a => f (st.heap a)) := by
  apply List.map_congr_left
  intro a ha
  have h6 := ((mem_final_iff σ env allowUnsupported _ st hinv a).mp ha).1
  show f (heap a) = f (st.heap a)
  rw [hh a (firstSeen_range_lt env n _ a h6)]

/-- C11: no two repositories in a list that `ResolveRepositories` returns have the same ID;
and when every declaration resolves to repositories, it returns a list in which the ID of a
resolved repository that has a branch and a supported service type occurs exactly once; a
call that returns without the error of a declaration is one in which every declaration
resolves to repositories.  A repository is identified by its ID: the objects resolved for
one ID report one service type. -/
theorem resolveRepositories_deduplicated (σ : MapOrder) (env : Env) (allowUnsupported : Bool)
    (spec : CampaignSpec) :
    (∀ r, ResolveRepositories σ env allowUnsupported spec = some r →
        (r.repos.map (fun a => (r.heap a).ID)).Nodup) ∧
      ((∀ decl ∈ spec.On, (ResolveRepositoriesOn σ env decl).err = none ∧
          none ∉ (ResolveRepositoriesOn σ env decl).repos) →
        (∀ p ∈ resolvedObjects σ env spec.On, ∀ q ∈ resolvedObjects σ env spec.On,
          p.ID = q.ID → p.ServiceType = q.ServiceType) →
        ∃ r, ResolveRepositories σ env allowUnsupported spec = some r ∧
          ∀ p ∈ resolvedObjects σ env spec.On, env.hasBranch p = true →
            supportedServiceType env p.ServiceType = true →
            (r.repos.map (fun a => (r.heap a).ID)).count p.ID = 1) ∧
      (∀ r, ResolveRepositories σ env allowUnsupported spec = some r →
        (∀ e, r.err ≠ some (ResolveError.resolving e)) →
        ∀ decl ∈ spec.On, (ResolveRepositoriesOn σ env decl).err = none ∧
          none ∉ (ResolveRepositoriesOn σ env decl).repos) := by
  have hnodup : ∀ r, ResolveRepositories σ env allowUnsupported spec = some r →
      (r.repos.map (fun a => (r.heap a).ID)).Nodup := by
    intro r hr
    rcases resolveRepositories_cases σ env allowUnsupported spec with
      h | ⟨_, err, heap, h⟩ | ⟨_, st, r1, h, _, hinv, hrepos, _, hh⟩
    · rw [h] at hr
      cases hr
    · rw [h] at hr
      cases hr
      exact List.nodup_nil
    · rw [h] at hr
      cases hr
      rw [hrepos, map_heap_final σ _ allowUnsupported _ st _ (fun x => x.ID) hinv hh]
      exact nodup_ids_of_inv σ _ allowUnsupported _ st hinv
  have hreturned : ∀ r, ResolveRepositories σ env allowUnsupported spec = some r →
      (∀ e, r.err ≠ some (ResolveError.resolving e)) →
      ∀ decl ∈ spec.On, (ResolveRepositoriesOn σ env decl).err = none ∧
        none ∉ (ResolveRepositoriesOn σ env decl).repos := by
    intro r hr hne
    rcases resolveRepositories_cases σ env allowUnsupported spec with
      h | ⟨_, err, heap, h⟩ | ⟨hres, _⟩
    · rw [h] at hr
      cases hr
    · rw [h] at hr
      cases hr
      exact absurd rfl (hne err)
    · exact hres
  refine ⟨hnodup, ?_, hreturned⟩
  intro hres hsame
  obtain ⟨st, r, hr, _, hinv, hrepos, _, hh⟩ :=
    resolveRepositories_ok σ env allowUnsupported spec hres
  refine ⟨r, hr, ?_⟩
  intro p hp hb hs
  apply List.count_eq_one_of_mem (hnodup r hr)
  obtain ⟨k, hk, hkp⟩ := exists_heapOf _ p hp
  have hbk : (resolvedEnv σ env spec).hasBranch ((resolvedEnv σ env spec).heap k) = true := by
    show env.hasBranch (heapOf (resolvedObjects σ env spec.On) k) = true
    rw [hkp]
    exact hb
  have hidk : ((resolvedEnv σ env spec).heap k).ID = p.ID := by
    show (heapOf (resolvedObjects σ env spec.On) k).ID = p.ID
    rw [hkp]
  obtain ⟨a, h6, h7, _, h9⟩ := firstSeen_exists (resolvedEnv σ env spec) _ k
    (List.mem_range.mpr hk) hbk
  have han : a < (resolvedObjects σ env spec.On).length := List.mem_range.mp h7
  rw [List.mem_map]
  refine ⟨a, ?_, by rw [hh a han, (hinv.2.2.2.1 a).1, h9, hidk]⟩
  rw [hrepos, mem_final_iff σ _ allowUnsupported _ st hinv a, h9]
  refine ⟨h6, Or.inl ?_⟩
  show supportedServiceType env (heapOf (resolvedObjects σ env spec.On) a).ServiceType = true
  rw [hsame _ (heapOf_lt _ a han) p hp (h9.trans hidk)]
  exact hs

/-- C11 at a concrete input: the repository X is resolved by the first and by the third
declaration and returned once. -/
theorem resolveRepositories_deduplicated_witness :
    (ResolveRepositories MapOrder.insertion envHosts true specThreeNames).map
        (fun r => r.repos.map (fun a => (r.heap a).ID)) = some ["X", "Y"] ∧
      ∃ r, ResolveRepositories MapOrder.insertion envHosts true specThreeNames = some r ∧
        ∀ p ∈ resolvedObjects MapOrder.insertion envHosts specThreeNames.On,
          envHosts.hasBranch p = true → supportedServiceType envHosts p.ServiceType = true →
          (r.repos.map (fun a => (r.heap a).ID)).count p.ID = 1 :=
  ⟨by decide,
    (resolveRepositories_deduplicated MapOrder.insertion envHosts true specThreeNames).2.1
      (by decide) (by decide)⟩

/-! ## C12: the commit and the branch of the last occurrence -/

/-- A returned repository is the first resolved object with a branch and its ID, and it
carries the `Commit` and `Branch` of the last such object. -/
theorem returned_object (σ : MapOrder) (env : Env) (allowUnsupported : Bool)
    (spec : CampaignSpec) (r : ResolveResult)
    (hr : ResolveRepositories σ env allowUnsupported spec = some r) (a : RepoRef)
    (ha : a ∈ r.repos) :
    firstSeen (resolvedEnv σ env spec) (List.range (resolvedObjects σ env spec.On).length)
        ((resolvedEnv σ env spec).heap a).ID = some a ∧
      ∃ last, lastSeen (resolvedEnv σ env spec)
          (List.range (resolvedObjects σ env spec.On).length)
          ((resolvedEnv σ env spec).heap a).ID = some last ∧
        last < (resolvedObjects σ env spec.On).length ∧
        env.hasBranch ((resolvedEnv σ env spec).heap last) = true ∧
        ((resolvedEnv σ env spec).heap last).ID = ((resolvedEnv σ env spec).heap a).ID ∧
        r.heap a =
          { (resolvedEnv σ env spec).heap a with
            Commit := ((resolvedEnv σ env spec).heap last).Commit,
            Branch := ((resolvedEnv σ env spec).heap last).Branch } := by
  rcases resolveRepositories_cases σ env allowUnsupported spec with
    h | ⟨_, err, heap, h⟩ | ⟨_, st, r1, h, hst, hinv, hrepos, _, hh⟩
  · rw [h] at hr
    cases hr
  · rw [h] at hr
    cases hr
    cases ha
  · rw [h] at hr
    cases hr
    have hheap := resolveHeapInv_foldl (resolvedEnv σ env spec) allowUnsupported []
      (List.range (resolvedObjects σ env spec.On).length) _
      (resolveInv_nil _ allowUnsupported) (resolveHeapInv_nil _)
      (by simpa using List.nodup_range _)
    rw [List.nil_append, ← hst] at hheap
    rw [hrepos] at ha
    have h1 := ((mem_final_iff σ _ allowUnsupported _ st hinv a).mp ha).1
    have han := firstSeen_range_lt _ _ _ a h1
    refine ⟨h1, ?_⟩
    obtain ⟨last, hl, hl1, hl2, hl3⟩ := lastSeen_of_firstSeen _ _ _ a h1
    refine ⟨last, hl, List.mem_range.mp hl1, hl2, hl3, ?_⟩
    rw [hh a han, hheap a, h1, hl]
    simp

/-- C12: every repository that `ResolveRepositories` returns is the first resolved object
with a branch and its ID, and it carries the `Commit` and `Branch` of the last resolved
object with a branch and that ID, in declaration order; all its other fields are as the
first object was resolved.  The object at address `k` of `resolvedEnv` is the `k`-th
resolved object. -/
theorem resolveRepositories_last_commit (σ : MapOrder) (env : Env) (allowUnsupported : Bool)
    (spec : CampaignSpec) (r : ResolveResult)
    (hr : ResolveRepositories σ env allowUnsupported spec = some r) (a : RepoRef)
    (ha : a ∈ r.repos) :
    firstSeen (resolvedEnv σ env spec) (List.range (resolvedObjects σ env spec.On).length)
        ((resolvedEnv σ env spec).heap a).ID = some a ∧
      ∃ last, lastSeen (resolvedEnv σ env spec)
          (List.range (resolvedObjects σ env spec.On).length)
          ((resolvedEnv σ env spec).heap a).ID = some last ∧
        r.heap a =
          { (resolvedEnv σ env spec).heap a with
            Commit := ((resolvedEnv σ env spec).heap last).Commit,
            Branch := ((resolvedEnv σ env spec).heap last).Branch } := by
  obtain ⟨h1, last, h2, _, _, _, h3⟩ := returned_object σ env allowUnsupported spec r hr a ha
  exact ⟨h1, last, h2, h3⟩

/-- C12 at a concrete input: the repository X is resolved with the commit `c0ffee` on `main`,
then by a search without a branch, then with the commit `beef` on `dev`; the first object
is returned with the commit and the branch of the third. -/
theorem resolveRepositories_last_commit_witness :
    (ResolveRepositories MapOrder.insertion envBranches false specNameQueryBranch).map
        (fun r => (r.repos, r.heap 0)) =
      some ([0],
        { mkRepository "X" "ab" "github" with
          Commit := ⟨"beef"⟩, Branch := ⟨"dev", ⟨"beef"⟩⟩ }) ∧
      ∀ r, ResolveRepositories MapOrder.insertion envBranches false specNameQueryBranch =
          some r →
        ∃ last, lastSeen (resolvedEnv MapOrder.insertion envBranches specNameQueryBranch)
            (List.range
              (resolvedObjects MapOrder.insertion envBranches specNameQueryBranch.On).length)
            ((resolvedEnv MapOrder.insertion envBranches specNameQueryBranch).heap 0).ID =
              some last ∧
          r.heap 0 =
            { (resolvedEnv MapOrder.insertion envBranches specNameQueryBranch).heap 0 with
              Commit :=
                ((resolvedEnv MapOrder.insertion envBranches specNameQueryBranch).heap
                  last).Commit,
              Branch :=
                ((resolvedEnv MapOrder.insertion envBranches specNameQueryBranch).heap
                  last).Branch } := by
  have hrun : (ResolveRepositories MapOrder.insertion envBranches false
      specNameQueryBranch).map (fun r => (r.repos, r.heap 0)) =
      some ([0],
        { mkRepository "X" "ab" "github" with
          Commit := ⟨"beef"⟩, Branch := ⟨"dev", ⟨"beef"⟩⟩ }) := by decide
  refine ⟨hrun, ?_⟩
  intro r hr
  have hmem : (0 : RepoRef) ∈ r.repos := by
    rw [hr] at hrun
    have := (Prod.mk.inj (Option.some.inj hrun)).1
    rw [this]
    exact List.mem_singleton_self 0
  exact (resolveRepositories_last_commit MapOrder.insertion envBranches false
    specNameQueryBranch r hr 0 hmem).2

/-! ## C13: repositories without a branch -/

theorem seeRepo_branchless (env : Env) (allowUnsupported : Bool) (st : ResolveState)
    (p : RepoRef) (h : env.hasBranch (st.heap p) = false) :
    seeRepo env allowUnsupported st p = st := by
  unfold seeRepo
  rw [h]
  rfl

/-- C13, as the code has it: every repository that `ResolveRepositories` returns had a branch
when it was resolved, and has one as it is returned when `HasBranch` is a function of the
fields `DefaultBranch`, `Commit` and `Branch` and the objects resolved for one ID report one
default branch.  The loop body leaves the variables and the memory as they are for a
repository without a branch: such a repository is not returned and is not in the set of
unsupported repositories; when every declaration resolves to repositories the call returns
without the error of a declaration, the object without a branch is as it was resolved, and
the `Commit` and `Branch` of a returned repository are those of a resolved object with a
branch and its ID.  The object at address `k` of `resolvedEnv` is the `k`-th resolved
object. -/
theorem resolveRepositories_drops_branchless (σ : MapOrder) (env : Env)
    (allowUnsupported : Bool) (spec : CampaignSpec) :
    (∀ r, ResolveRepositories σ env allowUnsupported spec = some r → ∀ a ∈ r.repos,
        a < (resolvedObjects σ env spec.On).length ∧
          env.hasBranch ((resolvedEnv σ env spec).heap a) = true) ∧
      ((∀ x y : Repository, x.DefaultBranch = y.DefaultBranch → x.Commit = y.Commit →
          x.Branch = y.Branch → env.hasBranch x = env.hasBranch y) →
        (∀ p ∈ resolvedObjects σ env spec.On, ∀ q ∈ resolvedObjects σ env spec.On,
          p.ID = q.ID → p.DefaultBranch = q.DefaultBranch) →
        ∀ r, ResolveRepositories σ env allowUnsupported spec = some r → ∀ a ∈ r.repos,
          env.hasBranch (r.heap a) = true) ∧
      (∀ st p, env.hasBranch (st.heap p) = false → seeRepo env allowUnsupported st p = st) ∧
      (∀ r, ResolveRepositories σ env allowUnsupported spec = some r →
        ∀ p, env.hasBranch ((resolvedEnv σ env spec).heap p) = false →
          p ∉ r.repos ∧
            ∀ set, r.err = some (ResolveError.unsupported set) → p ∉ GoMap.keys set) ∧
      ((∀ decl ∈ spec.On, (ResolveRepositoriesOn σ env decl).err = none ∧
          none ∉ (ResolveRepositoriesOn σ env decl).repos) →
        ∃ r, ResolveRepositories σ env allowUnsupported spec = some r ∧
          (∀ e, r.err ≠ some (ResolveError.resolving e)) ∧
          (∀ p, p < (resolvedObjects σ env spec.On).length →
            env.hasBranch ((resolvedEnv σ env spec).heap p) = false →
            r.heap p = (resolvedEnv σ env spec).heap p) ∧
          (∀ a ∈ r.repos, ∃ last, last < (resolvedObjects σ env spec.On).length ∧
            env.hasBranch ((resolvedEnv σ env spec).heap last) = true ∧
            ((resolvedEnv σ env spec).heap last).ID = ((resolvedEnv σ env spec).heap a).ID ∧
            (r.heap a).Commit = ((resolvedEnv σ env spec).heap last).Commit ∧
            (r.heap a).Branch = ((resolvedEnv σ env spec).heap last).Branch)) := by
  have hret : ∀ r, ResolveRepositories σ env allowUnsupported spec = some r → ∀ a ∈ r.repos,
      a < (resolvedObjects σ env spec.On).length ∧
        env.hasBranch ((resolvedEnv σ env spec).heap a) = true := by
    intro r hr a ha
    have h1 := (returned_object σ env allowUnsupported spec r hr a ha).1
    exact ⟨firstSeen_range_lt _ _ _ a h1, (firstSeen_some _ _ _ a h1).2.1⟩
  refine ⟨hret, ?_, seeRepo_branchless env allowUnsupported, ?_, ?_⟩
  · intro hdep hdef r hr a ha
    rcases resolveRepositories_cases σ env allowUnsupported spec with
      h | ⟨_, err, heap, h⟩ | ⟨_, st, r1, h, hst, hinv, hrepos, _, hh⟩
    · rw [h] at hr
      cases hr
    · rw [h] at hr
      cases hr
      cases ha
    · rw [h] at hr
      cases hr
      have hbi := branchInv_foldl (resolvedEnv σ env spec) allowUnsupported []
        (List.range (resolvedObjects σ env spec.On).length)
        ⟨[], [], (resolvedEnv σ env spec).heap⟩ (resolveInv_nil _ allowUnsupported)
        ⟨fun _ => rfl, fun id a h => by simp [GoMap.get?] at h⟩ hdep
        (by
          intro p hp q hq hid
          rw [List.nil_append] at hp hq
          exact hdef _ (heapOf_lt _ p (List.mem_range.mp hp)) _
            (heapOf_lt _ q (List.mem_range.mp hq)) hid)
      rw [← hst] at hbi
      have han := (hret _ h a ha).1
      rw [hrepos, List.mem_filter, List.mem_map] at ha
      obtain ⟨⟨e, he, hea⟩, _⟩ := ha
      have hm : e ∈ st.seen := ((σ.perm _ st.seen).mem_iff).mp he
      have hg := GoMap.get?_of_mem hinv.2.2.2.2.1 hm
      rw [hh a han, ← hea]
      exact hbi.2 _ _ hg
  · intro r hr p hp
    refine ⟨?_, ?_⟩
    · intro hm
      rw [(hret r hr p hm).2] at hp
      cases hp
    · intro set hset hm
      rcases resolveRepositories_cases σ env allowUnsupported spec with
        h | ⟨_, err, heap, h⟩ | ⟨_, st, r1, h, _, hinv, _, he, _⟩
      · rw [h] at hr
        cases hr
      · rw [h] at hr
        cases hr
        cases hset
      · rw [h] at hr
        cases hr
        rw [he] at hset
        by_cases hu : st.unsupported.hasUnsupported = true
        · simp only [hu, if_true, Option.some.injEq, ResolveError.unsupported.injEq] at hset
          subst hset
          have h9 := ((hinv.2.1 p).mp hm).2.2
          rw [hinv.1] at h9
          have hbp : env.hasBranch ((resolvedEnv σ env spec).heap p) = true :=
            (firstSeen_some _ _ _ p h9).2.1
          rw [hbp] at hp
          cases hp
        · simp [hu] at hset
  · intro hres
    obtain ⟨st, r, hr, _, hinv, _, he, hh⟩ :=
      resolveRepositories_ok σ env allowUnsupported spec hres
    refine ⟨r, hr, ?_, ?_, ?_⟩
    · intro e hc
      rw [he] at hc
      by_cases hu : st.unsupported.hasUnsupported = true
      · simp [hu] at hc
      · simp [hu] at hc
    · intro p hp hb
      rw [hh p hp]
      exact hinv.2.2.1 p (Or.inr hb)
    · intro a ha
      obtain ⟨_, last, _, h2, h3, h4, h5⟩ :=
        returned_object σ env allowUnsupported spec r hr a ha
      refine ⟨last, h2, h3, h4, ?_, ?_⟩
      · rw [h5]
      · rw [h5]

/-- C13 at a concrete input: the repository X is resolved with a branch, then by a search
without one, then with another branch; the call returns the first object without an error,
and the object without a branch, at address 1, is as it was resolved. -/
theorem resolveRepositories_drops_branchless_witness :
    (ResolveRepositories MapOrder.insertion envBranches false specNameQueryBranch).map
        (fun r => (r.repos, r.err, envBranches.hasBranch (r.heap 1))) =
      some ([0], none, false) ∧
      ∃ r, ResolveRepositories MapOrder.insertion envBranches false specNameQueryBranch =
          some r ∧
        (∀ e, r.err ≠ some (ResolveError.resolving e)) ∧
        (∀ p, p < (resolvedObjects MapOrder.insertion envBranches
              specNameQueryBranch.On).length →
          envBranches.hasBranch
            ((resolvedEnv MapOrder.insertion envBranches specNameQueryBranch).heap p) = false →
          r.heap p = (resolvedEnv MapOrder.insertion envBranches specNameQueryBranch).heap p) := by
  refine ⟨by decide, ?_⟩
  obtain ⟨r, hr, h1, h2, _⟩ := (resolveRepositories_drops_branchless MapOrder.insertion
    envBranches false specNameQueryBranch).2.2.2.2 (by decide)
  exact ⟨r, hr, h1, h2⟩

/-- C13 fails as stated: the name `ab` with the branch `dev` resolves to an object of the
repository X without a default branch, with the commit `beef`, and the name `ab` alone to
an object of X with a default branch and without a commit; both have a branch.  The first
object is returned with the `Commit` and `Branch` of the second, and has no branch. -/
theorem resolveRepositories_returns_branchless :
    (resolvedObjects MapOrder.insertion envDefaultBranch specBranchThenName.On).map
        (fun p => (p.ID, envDefaultBranch.hasBranch p)) = [("X", true), ("X", true)] ∧
      (ResolveRepositories MapOrder.insertion envDefaultBranch false specBranchThenName).map
          (fun r => (r.repos, r.err, envDefaultBranch.hasBranch (r.heap 0))) =
        some ([0], none, false) := by
  decide

/-! ## The rendering of plain text by `%q` -/

theorem escapeChar_plain (c : Char) (h : plainChar c = true) : escapeChar c = [c] := by
  unfold plainChar at h
  simp only [Bool.and_eq_true, decide_eq_true_eq, Bool.not_eq_true', decide_eq_false_iff_not]
    at h
  obtain ⟨⟨⟨h1, h2⟩, h3⟩, h4⟩ := h
  unfold escapeChar
  rw [if_neg (by omega), if_neg (by omega), if_neg (by omega), if_neg (by omega),
    if_neg (by omega), if_neg (by omega), if_neg (by omega), if_neg (by omega),
    if_neg (by omega)]

theorem quoteASCII_plain (s : String) (h : ∀ c ∈ s.toList, plainChar c = true) :
    quoteASCII s = "\"" ++ s ++ "\"" := by
  have hl : s.toList.flatMap escapeChar = s.toList := by
    generalize s.toList = l at h
    induction l with
    | nil => rfl
    | cons c l ih =>
      rw [List.flatMap_cons, escapeChar_plain c (h c (List.mem_cons_self _ _)),
        ih (fun d hd => h d (List.mem_cons_of_mem _ hd))]
      rfl
  unfold quoteASCII
  rw [hl]
  apply String.ext
  simp

/-! ## C16: the lines of the message of `duplicateBranchesErr` -/

/-- C16, as the code has it: for a `duplicateBranchesErr` whose keys are repositories (none is
nil), `Error` returns a message that, for every entry of the table (repository, branch, n),
contains the line made of a tab, `* `, the repository name, `: `, n in base 10, ` changeset
specs have the branch `, the `%q` rendering of the trimmed branch and a line feed; when the
trimmed branch is made of printable ASCII characters other than the double quote and the
backslash, which `%q` renders between double quotes as they are, the line ends with the
trimmed branch between double quotes.  The trimmed branch is the branch without a leading
`refs/heads/`, and the branch itself when it does not begin so; and the message ends with
the instruction about `changesetTemplate.branch`. -/
theorem duplicateBranchesErr_error_lines (σ : MapOrder) (env : Env) (e : duplicateBranchesErr)
    (hkeys : ∀ entry ∈ e.duplicates, entry.1 ≠ none)
    (hquote : ∀ s : String, (∀ c ∈ s.toList, plainChar c = true) →
      env.quote s = "\"" ++ s ++ "\"") :
    ∃ msg, e.Error σ env = some msg ∧
      (∀ r branches branch n, (some r, branches) ∈ e.duplicates → (branch, n) ∈ branches →
        (∃ pre post, msg = pre ++ ("\t* " ++ (env.heap r).Name ++ ": " ++ toString n ++
          " changeset specs have the branch " ++ env.quote (TrimPrefix branch "refs/heads/") ++
          "\n") ++ post) ∧
        ((∀ c ∈ (TrimPrefix branch "refs/heads/").toList, plainChar c = true) →
          ∃ pre post, msg = pre ++ ("\t* " ++ (env.heap r).Name ++ ": " ++ toString n ++
            " changeset specs have the branch \"" ++ TrimPrefix branch "refs/heads/" ++
            "\"\n") ++ post)) ∧
      (∀ b : String, TrimPrefix ("refs/heads/" ++ b) "refs/heads/" = b) ∧
      (∀ b : String, ¬ "refs/heads/".toList <+: b.toList → TrimPrefix b "refs/heads/" = b) ∧
      ∃ pre, msg = pre ++ "\nMake sure that the changesetTemplate.branch field in the campaign spec produces unique values for each changeset in a single repository and rerun this command." := by
  obtain ⟨added, h1, h2⟩ := writeDuplicates_some σ env (σ.range _ e.duplicates)
    "Multiple changeset specs have the same branch:\n\n"
    (fun entry he => hkeys entry (((σ.perm _ e.duplicates).mem_iff).mp he))
  have hline : ∀ r branches branch n, (some r, branches) ∈ e.duplicates →
      (branch, n) ∈ branches →
      ∃ pre post, "Multiple changeset specs have the same branch:\n\n" ++ added ++ "\nMake sure that the changesetTemplate.branch field in the campaign spec produces unique values for each changeset in a single repository and rerun this command." =
        pre ++ ("\t* " ++ (env.heap r).Name ++ ": " ++ toString n ++
          " changeset specs have the branch " ++ env.quote (TrimPrefix branch "refs/heads/") ++
          "\n") ++ post := by
    intro r branches branch n hm hb
    obtain ⟨pre, post, hp⟩ := h2 r branches (((σ.perm _ e.duplicates).mem_iff).mpr hm)
      (branch, n) hb
    refine ⟨"Multiple changeset specs have the same branch:\n\n" ++ pre,
      post ++ "\nMake sure that the changesetTemplate.branch field in the campaign spec produces unique values for each changeset in a single repository and rerun this command.", ?_⟩
    rw [hp]
    simp only [duplicateLine, String.append_assoc]
  refine ⟨_, by unfold duplicateBranchesErr.Error; rw [h1], ?_, ?_, ?_, ⟨_, rfl⟩⟩
  · intro r branches branch n hm hb
    refine ⟨hline r branches branch n hm hb, ?_⟩
    intro hplain
    obtain ⟨pre, post, hp⟩ := hline r branches branch n hm hb
    refine ⟨pre, post, ?_⟩
    have e1 : " changeset specs have the branch \"" =
        " changeset specs have the branch " ++ "\"" := by rfl
    have e2 : "\"\n" = "\"" ++ "\n" := by rfl
    rw [hp, hquote _ hplain, e1, e2]
    simp only [String.append_assoc]
  · intro b
    unfold TrimPrefix
    have : ("refs/heads/" ++ b).toList = "refs/heads/".toList ++ b.toList := by
      simp [String.toList]
    rw [this, stripChars_append]
    rfl
  · intro b hb
    unfold TrimPrefix
    rw [stripChars_eq_none _ _ hb]

/-- C16 at a concrete input, with `%q` as `strconv.Quote` has it on ASCII: the repository `ab`
has two changeset specs on the branch `refs/heads/a`. -/
theorem duplicateBranchesErr_error_lines_witness :
    duplicateBranchesErr.Error MapOrder.insertion envQuoting
        ⟨[(some 1, [("refs/heads/a", 2)])]⟩ =
      some "Multiple changeset specs have the same branch:\n\n\t* ab: 2 changeset specs have the branch \"a\"\n\nMake sure that the changesetTemplate.branch field in the campaign spec produces unique values for each changeset in a single repository and rerun this command." ∧
      ∃ msg, duplicateBranchesErr.Error MapOrder.insertion envQuoting
          ⟨[(some 1, [("refs/heads/a", 2)])]⟩ = some msg ∧
        ∃ pre, msg = pre ++ "\nMake sure that the changesetTemplate.branch field in the campaign spec produces unique values for each changeset in a single repository and rerun this command." :=
  ⟨by rfl,
    (duplicateBranchesErr_error_lines MapOrder.insertion envQuoting
      ⟨[(some 1, [("refs/heads/a", 2)])]⟩ (by decide) quoteASCII_plain).imp
      (fun _ h => ⟨h.1, h.2.2.2.2⟩)⟩

set_option maxRecDepth 100000 in
/-- C16 fails as stated: for two changeset specs of `ab` on the branch `refs/heads/fix"x`,
`%q` writes the double quote of the branch after a backslash, and the message does not
contain the line that ends with the branch between double quotes. -/
theorem duplicateBranchesErr_error_escapes_branch :
    duplicateBranchesErr.Error MapOrder.insertion envQuoting
        ⟨[(some 1, [("refs/heads/fix\"x", 2)])]⟩ =
      some "Multiple changeset specs have the same branch:\n\n\t* ab: 2 changeset specs have the branch \"fix\\\"x\"\n\nMake sure that the changesetTemplate.branch field in the campaign spec produces unique values for each changeset in a single repository and rerun this command." ∧
      TrimPrefix "refs/heads/fix\"x" "refs/heads/" = "fix\"x" ∧
      containsText
        "Multiple changeset specs have the same branch:\n\n\t* ab: 2 changeset specs have the branch \"fix\\\"x\"\n\nMake sure that the changesetTemplate.branch field in the campaign spec produces unique values for each changeset in a single repository and rerun this command."
        "\t* ab: 2 changeset specs have the branch \"fix\"x\"" = false := by
  refine ⟨by rfl, by rfl, by rfl⟩

/-! ## C19: the branch that is not found -/

/-- C19, as the code has it: when the API answers the request of
`resolveRepositoryNameAndBranch` with a repository, then, if the commit OID of that
repository is empty, the call returns no repository and the error
`no branch matching <branch> found for repository <name>`, whose message contains the
repository name and the `%q` rendering of the branch, and the branch itself when it is made
of printable ASCII characters other than the double quote and the backslash, which `%q`
renders between double quotes as they are; and if the OID is not empty, the call returns
that repository without an error, with `Branch.Name` set to the requested branch and
`Branch.Target` set to the commit, every other field and object being left as it was. -/
theorem resolveRepositoryNameAndBranch_branch (env : Env) (name branch : String)
    (repo : RepoRef)
    (hapi : env.repository name true branch = RepositoryResponse.ok (some repo))
    (hquote : ∀ s : String, (∀ c ∈ s.toList, plainChar c = true) →
      env.quote s = "\"" ++ s ++ "\"") :
    ((env.heap repo).Commit.OID = "" →
        ∃ msg, resolveRepositoryNameAndBranch env name branch =
            (none, some (Error.mk msg), env.heap) ∧
          msg = "no branch matching " ++ env.quote branch ++ " found for repository " ++ name ∧
          containsText msg name = true ∧ containsText msg (env.quote branch) = true ∧
          ((∀ c ∈ branch.toList, plainChar c = true) → containsText msg branch = true)) ∧
      ((env.heap repo).Commit.OID ≠ "" →
        (resolveRepositoryNameAndBranch env name branch).1 = some repo ∧
          (resolveRepositoryNameAndBranch env name branch).2.1 = none ∧
          (resolveRepositoryNameAndBranch env name branch).2.2 repo =
            { env.heap repo with Branch := ⟨branch, (env.heap repo).Commit⟩ } ∧
          ((resolveRepositoryNameAndBranch env name branch).2.2 repo).Branch.Name = branch ∧
          ((resolveRepositoryNameAndBranch env name branch).2.2 repo).Branch.Target =
            (env.heap repo).Commit ∧
          ∀ p, p ≠ repo → (resolveRepositoryNameAndBranch env name branch).2.2 p = env.heap p) := by
  constructor
  · intro hoid
    have hname : containsText
        ("no branch matching " ++ env.quote branch ++ " found for repository " ++ name)
        name = true := by
      have := containsText_append
        ("no branch matching " ++ env.quote branch ++ " found for repository ") name ""
      rw [String.append_empty] at this
      exact this
    have hq : containsText
        ("no branch matching " ++ env.quote branch ++ " found for repository " ++ name)
        (env.quote branch) = true := by
      rw [String.append_assoc]
      exact containsText_append _ _ _
    refine ⟨_, ?_, rfl, hname, hq, ?_⟩
    · unfold resolveRepositoryNameAndBranch
      rw [hapi]
      simp [hoid]
    · intro hplain
      apply containsText_trans _ _ _ hq
      rw [hquote branch hplain]
      exact containsText_append _ _ _
  · intro hoid
    unfold resolveRepositoryNameAndBranch
    rw [hapi]
    simp only [hoid, if_false, Function.update_same, true_and]
    intro p hp
    rw [Function.update_noteq hp]

/-- C19 at concrete inputs, with `%q` as `strconv.Quote` has it on ASCII: the branch `dev` of
`ab` when the API answers with a repository without a commit; the message contains `dev`. -/
theorem resolveRepositoryNameAndBranch_branch_witness :
    ∃ msg, resolveRepositoryNameAndBranch envQuoting "ab" "dev" =
        (none, some (Error.mk msg), envQuoting.heap) ∧
      msg = "no branch matching " ++ envQuoting.quote "dev" ++ " found for repository " ++ "ab" ∧
      containsText msg "ab" = true ∧ containsText msg (envQuoting.quote "dev") = true ∧
      ((∀ c ∈ "dev".toList, plainChar c = true) → containsText msg "dev" = true) :=
  (resolveRepositoryNameAndBranch_branch envQuoting "ab" "dev" 2 rfl quoteASCII_plain).1
    (by decide)

/-- C19 fails as stated: for the branch `de"v` of `ab`, when the API answers with a
repository without a commit, `%q` writes the double quote of the branch after a backslash,
and the message of the error contains the repository name but not the branch. -/
theorem resolveRepositoryNameAndBranch_escapes_branch :
    (envQuoting.heap 2).Commit.OID = "" ∧
      (resolveRepositoryNameAndBranch envQuoting "ab" "de\"v").1 = none ∧
      (resolveRepositoryNameAndBranch envQuoting "ab" "de\"v").2.1 =
        some (Error.mk "no branch matching \"de\\\"v\" found for repository ab") ∧
      containsText "no branch matching \"de\\\"v\" found for repository ab" "ab" = true ∧
      containsText "no branch matching \"de\\\"v\" found for repository ab" "de\"v" = false := by
  refine ⟨by rfl, by rfl, by rfl, by rfl, by rfl⟩

/-! ## C17: the message for a repository that matches several globs -/

/-- C17, as the code has it: when every `workspaces.in` pattern compiles and `p` is the first
repository of the input whose name matches two or more globs, `BuildTasks` returns no task
and the error whose message is `repository <name> matches multiple workspaces.in globs in
campaign spec. glob: <q>`, made of the name of `p` and of `q`, the `%q` rendering of the
second glob, in the order of `workspaces`, that matches the name; the message contains the
name and `q`. -/
theorem buildTasks_error_names_repository_and_glob (σ : MapOrder) (env : Env)
    (repos : List RepoRef) (spec : CampaignSpec)
    (hall : ∀ w ∈ spec.Workspaces, ∃ g, env.compile w.In = Except.ok g) (p : RepoRef)
    (hp : repos.find? (fun p =>
      decide (2 ≤ matchCount (compiledWorkspaces env spec.Workspaces) (env.heap p).Name)) =
        some p) :
    ∃ c,
      ((compiledWorkspaces env spec.Workspaces).filter
        (fun c => c.glob (env.heap p).Name)).get? 1 = some c ∧
      (BuildTasks σ env repos spec).err =
        some (Error.mk ("repository " ++ (env.heap p).Name ++
          " matches multiple workspaces.in globs in campaign spec. glob: " ++
          env.quote c.In)) ∧
      (BuildTasks σ env repos spec).tasks = [] ∧
      containsText ("repository " ++ (env.heap p).Name ++
          " matches multiple workspaces.in globs in campaign spec. glob: " ++
          env.quote c.In) (env.heap p).Name = true ∧
      containsText ("repository " ++ (env.heap p).Name ++
          " matches multiple workspaces.in globs in campaign spec. glob: " ++
          env.quote c.In) (env.quote c.In) = true := by
  have hc := compileWorkspaces_of_all env _ hall
  have hmem := List.mem_of_find?_eq_some hp
  have h2 := List.find?_some hp
  simp only [decide_eq_true_eq] at h2
  cases ha : assignRepos env (compiledWorkspaces env spec.Workspaces) repos [] [] with
  | ok res =>
    obtain ⟨root, m⟩ := res
    have h1 := (assignRepos_ok env _ repos [] [] root m ha).1 p hmem
    omega
  | error e =>
    obtain ⟨p1, c, h3, h4, h5⟩ := assignRepos_error env _ repos [] [] e ha
    rw [hp] at h3
    cases h3
    rw [buildTasks_of_assign_error σ env repos spec _ e hc ha]
    refine ⟨c, h4, by rw [h5]; rfl, rfl, ?_, ?_⟩
    · rw [String.append_assoc]
      exact containsText_append _ _ _
    · have := containsText_append ("repository " ++ (env.heap p).Name ++
        " matches multiple workspaces.in globs in campaign spec. glob: ") (env.quote c.In) ""
      rw [String.append_empty] at this
      exact this

/-- C17 at a concrete input: `zz` matches no glob, `ab` matches `a*` and `*b`, and the message
is made of `ab` and the rendering of `*b`. -/
theorem buildTasks_error_names_repository_and_glob_witness :
    (BuildTasks MapOrder.insertion (Env.basic heapAbCd) [3, 1] specTwoGlobs).err =
        some (Error.mk
          "repository ab matches multiple workspaces.in globs in campaign spec. glob: \"*b\"") ∧
      ∃ c,
        ((compiledWorkspaces (Env.basic heapAbCd) specTwoGlobs.Workspaces).filter
          (fun c => c.glob ((Env.basic heapAbCd).heap 1).Name)).get? 1 = some c ∧
        (BuildTasks MapOrder.insertion (Env.basic heapAbCd) [3, 1] specTwoGlobs).err =
          some (Error.mk ("repository " ++ ((Env.basic heapAbCd).heap 1).Name ++
            " matches multiple workspaces.in globs in campaign spec. glob: " ++
            (Env.basic heapAbCd).quote c.In)) :=
  ⟨by decide,
    (buildTasks_error_names_repository_and_glob MapOrder.insertion (Env.basic heapAbCd) [3, 1]
      specTwoGlobs (fun w _ => ⟨_, rfl⟩) 1 (by decide)).imp (fun _ h => ⟨h.1, h.2.1⟩)⟩

/-! ## The query names of `FindDirectoriesInRepos` -/

/-- The map `queryIDByRepo` holds, for a repository of the list, the query name of the last
index at which the repository occurs. -/
theorem get?_queryIDByRepo (repos : List RepoRef) (i : Nat) (m : GoMap RepoRef String)
    (repo : RepoRef) :
    (repo ∉ repos → GoMap.get? (queryIDByRepo repos i m) repo = GoMap.get? m repo) ∧
      (repo ∈ repos → ∃ j, repos.get? j = some repo ∧
        (∀ k, j < k → repos.get? k ≠ some repo) ∧
        GoMap.get? (queryIDByRepo repos i m) repo = some (queryIDOf (i + j))) := by
  induction repos generalizing i m with
  | nil =>
    refine ⟨fun _ => rfl, fun h => ?_⟩
    cases h
  | cons r rest ih =>
    obtain ⟨ih1, ih2⟩ := ih (i + 1) (GoMap.set m r (queryIDOf i))
    unfold queryIDByRepo
    by_cases hrest : repo ∈ rest
    · refine ⟨fun h => absurd (List.mem_cons_of_mem _ hrest) h, fun _ => ?_⟩
      obtain ⟨j, h1, h2, h3⟩ := ih2 hrest
      refine ⟨j + 1, by simpa using h1, ?_, by rw [h3]; congr 2; omega⟩
      intro k hk
      cases k with
      | zero => omega
      | succ k =>
        simpa using h2 k (by omega)
    · rw [ih1 hrest, GoMap.get?_set]
      refine ⟨fun h => ?_, fun h => ?_⟩
      · have hne : ¬ r = repo := fun e => h (e ▸ List.mem_cons_self _ _)
        rw [if_neg hne]
      · have hr : r = repo := by
          rcases List.mem_cons.mp h with h1 | h1
          · exact h1.symm
          · exact absurd h1 hrest
        refine ⟨0, by simp [hr], ?_, by rw [if_pos hr]; rfl⟩
        intro k hk
        cases k with
        | zero => omega
        | succ k =>
          intro hc
          have : rest.get? k = some repo := by simpa using hc
          exact hrest (List.get?_mem this)

theorem get?_queryIDByRepo_nodup (repos : List RepoRef) (hn : repos.Nodup) (j : Nat)
    (repo : RepoRef) (hj : repos.get? j = some repo) :
    GoMap.get? (queryIDByRepo repos 0 []) repo = some (queryIDOf j) := by
  obtain ⟨k, h1, _, h3⟩ := (get?_queryIDByRepo repos 0 [] repo).2 (List.get?_mem hj)
  have hjk : j = k := by
    have hj1 := List.get?_eq_some.mp hj
    have hk1 := List.get?_eq_some.mp h1
    obtain ⟨hjl, hje⟩ := hj1
    obtain ⟨hkl, hke⟩ := hk1
    have := (List.Nodup.get_inj_iff hn (i := ⟨j, hjl⟩) (j := ⟨k, hkl⟩)).mp (hje.trans hke.symm)
    exact Fin.mk.inj_iff.mp this
  rw [h3, hjk, Nat.zero_add]

theorem map_getD_range (repos : List RepoRef) :
    (List.range repos.length).map (fun i => repos.getD i 0) = repos := by
  apply List.ext_getElem
  · simp
  · intro i h1 h2
    simp only [List.getElem_map, List.getElem_range, List.getD_eq_getElem?_getD]
    rw [List.getElem?_eq_getElem h2]
    rfl

/-! ## C21: the batches and their sub-queries -/

/-- C21: when `FindDirectoriesInRepos` returns without an error (the context is not
cancelled and every request succeeds), the requests that it issued are, in order, those of
the batches `repos[50k : 50k + 50]` for `k` below `ceil(n / 50)`, `n` being the number of
repositories: their number is `ceil(n / 50)`, the batches put one after the other give the
input, every batch holds between 1 and 50 repositories and every batch but the last holds
50, and the request of a batch holds one sub-query for every repository of the batch, with
the file name, the name of that repository and, as its query name, `repo_j` where `j` is
the last index of the repository in the input: for pairwise different repositories the
sub-query of the repository at index `i` has the query name `repo_i`. -/
theorem findDirectoriesInRepos_batches (σ : MapOrder) (env : Env) (fileName : String)
    (repos : List RepoRef)
    (herr : (FindDirectoriesInRepos σ env fileName repos).err = none) :
    (FindDirectoriesInRepos σ env fileName repos).requests =
        (List.range ((repos.length + (batchSize - 1)) / batchSize)).map
          (fun k => ((repos.drop (batchSize * k)).take batchSize).map
            (fun repo =>
              ⟨(GoMap.get? (queryIDByRepo repos 0 []) repo).getD "", fileName,
                (env.heap repo).Name⟩)) ∧
      (FindDirectoriesInRepos σ env fileName repos).requests.length =
        (repos.length + 49) / 50 ∧
      (List.range ((repos.length + (batchSize - 1)) / batchSize)).flatMap
          (fun k => (repos.drop (batchSize * k)).take batchSize) = repos ∧
      (∀ k, k < (repos.length + (batchSize - 1)) / batchSize →
        1 ≤ ((repos.drop (batchSize * k)).take batchSize).length ∧
          ((repos.drop (batchSize * k)).take batchSize).length ≤ 50 ∧
          (k + 1 < (repos.length + (batchSize - 1)) / batchSize →
            ((repos.drop (batchSize * k)).take batchSize).length = 50)) ∧
      (∀ repo ∈ repos, ∃ j, repos.get? j = some repo ∧
        (∀ k, j < k → repos.get? k ≠ some repo) ∧
        GoMap.get? (queryIDByRepo repos 0 []) repo = some (queryIDOf j)) ∧
      (repos.Nodup →
        (FindDirectoriesInRepos σ env fileName repos).requests =
          (List.range ((repos.length + (batchSize - 1)) / batchSize)).map
            (fun k => (((List.range repos.length).drop (batchSize * k)).take batchSize).map
              (fun i => ⟨queryIDOf i, fileName, (env.heap (repos.getD i 0)).Name⟩))) := by
  have hreq : (FindDirectoriesInRepos σ env fileName repos).requests =
      (List.range ((repos.length + (batchSize - 1)) / batchSize)).map
        (fun k => ((repos.drop (batchSize * k)).take batchSize).map
          (fun repo =>
            ⟨(GoMap.get? (queryIDByRepo repos 0 []) repo).getD "", fileName,
              (env.heap repo).Name⟩)) := by
    unfold FindDirectoriesInRepos at herr ⊢
    rw [findBatches_requests σ env _ _ fileName repos _ _ _ _ herr
      (by simp only [batchSize]; omega)]
    simp [batchRequest]
  refine ⟨hreq, ?_, ?_, ?_, ?_, ?_⟩
  · rw [hreq]
    simp [batchSize]
  · apply flatMap_batches
    simp only [batchSize]
    omega
  · intro k hk
    simp only [batchSize] at hk
    simp only [List.length_take, List.length_drop, batchSize]
    omega
  · intro repo hrepo
    obtain ⟨j, h1, h2, h3⟩ := (get?_queryIDByRepo repos 0 [] repo).2 hrepo
    exact ⟨j, h1, h2, by rw [h3, Nat.zero_add]⟩
  · intro hn
    rw [hreq]
    apply List.map_congr_left
    intro k _
    have hmap : (repos.drop (batchSize * k)).take batchSize =
        (((List.range repos.length).drop (batchSize * k)).take batchSize).map
          (fun i => repos.getD i 0) := by
      rw [List.map_take, List.map_drop, map_getD_range]
    rw [hmap, List.map_map]
    apply List.map_congr_left
    intro i hi
    have hi1 : i < repos.length :=
      List.mem_range.mp (List.mem_of_mem_drop (List.mem_of_mem_take hi))
    have hget : repos.get? i = some (repos.getD i 0) := by
      rw [List.getD_eq_getElem?_getD, List.get?_eq_getElem?, List.getElem?_eq_getElem hi1]
      rfl
    simp only [Function.comp]
    rw [get?_queryIDByRepo_nodup repos hn i _ hget]
    rfl

/-- C21 at a concrete input: for 120 repositories the API answers three requests, of 50, 50
and 20 sub-queries, and the sub-query of the repository at index `i` has the query name
`repo_i`. -/
theorem findDirectoriesInRepos_batches_witness :
    ((FindDirectoriesInRepos MapOrder.insertion (Env.basic heapAbCd) "f"
        (List.range 120)).requests.map List.length) = [50, 50, 20] ∧
      (FindDirectoriesInRepos MapOrder.insertion (Env.basic heapAbCd) "f"
        (List.range 120)).requests.length = ((List.range 120).length + 49) / 50 ∧
      (FindDirectoriesInRepos MapOrder.insertion (Env.basic heapAbCd) "f"
          (List.range 120)).requests =
        (List.range (((List.range 120).length + (batchSize - 1)) / batchSize)).map
          (fun k => (((List.range (List.range 120).length).drop (batchSize * k)).take
            batchSize).map
            (fun i => ⟨queryIDOf i, "f",
              ((Env.basic heapAbCd).heap ((List.range 120).getD i 0)).Name⟩)) :=
  have h := findDirectoriesInRepos_batches MapOrder.insertion (Env.basic heapAbCd) "f"
    (List.range 120) (by rfl)
  ⟨by rw [h.1]; rfl, h.2.1, h.2.2.2.2.2 (List.nodup_range 120)⟩

/-! ## Rounding to `float64` -/

theorem roundHalfEven_bounds (x : ℚ) : ⌊x⌋ ≤ roundHalfEven x ∧ roundHalfEven x ≤ ⌊x⌋ + 1 := by
  unfold roundHalfEven
  split_ifs <;> constructor <;> omega

theorem roundHalfEven_mono (x y : ℚ) (h : x ≤ y) : roundHalfEven x ≤ roundHalfEven y := by
  have hf : ⌊x⌋ ≤ ⌊y⌋ := Int.floor_mono h
  rcases lt_or_eq_of_le hf with hlt | heq
  · have h1 := (roundHalfEven_bounds x).2
    have h2 := (roundHalfEven_bounds y).1
    omega
  · unfold roundHalfEven
    rw [← heq]
    have hxy : 2 * (x - ⌊x⌋) ≤ 2 * (y - ⌊x⌋) := by linarith
    split_ifs <;> first | omega | (exfalso; linarith)

theorem roundHalfEven_intCast (n : ℤ) : roundHalfEven (n : ℚ) = n := by
  unfold roundHalfEven
  simp

theorem scaled_bounds (x : ℚ) (hx : 0 < x) :
    (2 : ℚ) ^ (52 : ℤ) ≤ x * (2 : ℚ) ^ (52 - Int.log 2 x) ∧
      x * (2 : ℚ) ^ (52 - Int.log 2 x) < (2 : ℚ) ^ (53 : ℤ) := by
  have h2 : (0 : ℚ) < 2 := by norm_num
  have hlo := Int.zpow_log_le_self (b := 2) (by norm_num) hx
  have hhi := Int.lt_zpow_succ_log_self (b := 2) (by norm_num) x
  have hpos : (0 : ℚ) < (2 : ℚ) ^ (52 - Int.log 2 x) := zpow_pos h2 _
  simp only [Nat.cast_ofNat] at hlo hhi
  constructor
  · have : (2 : ℚ) ^ (52 : ℤ) = (2 : ℚ) ^ (Int.log 2 x) * (2 : ℚ) ^ (52 - Int.log 2 x) := by
      rw [← zpow_add₀ (by norm_num : (2 : ℚ) ≠ 0)]
      congr 1
      omega
    rw [this]
    exact mul_le_mul_of_nonneg_right hlo hpos.le
  · have : (2 : ℚ) ^ (53 : ℤ) = (2 : ℚ) ^ (Int.log 2 x + 1) * (2 : ℚ) ^ (52 - Int.log 2 x) := by
      rw [← zpow_add₀ (by norm_num : (2 : ℚ) ≠ 0)]
      congr 1
      omega
    rw [this]
    exact mul_lt_mul_of_pos_right hhi hpos

theorem rounded_bounds (x : ℚ) (hx : 0 < x) :
    (2 : ℤ) ^ 52 ≤ roundHalfEven (x * (2 : ℚ) ^ (52 - Int.log 2 x)) ∧
      roundHalfEven (x * (2 : ℚ) ^ (52 - Int.log 2 x)) ≤ (2 : ℤ) ^ 53 := by
  obtain ⟨h1, h2⟩ := scaled_bounds x hx
  constructor
  · have := roundHalfEven_mono _ _ h1
    have e : ((2 : ℚ) ^ (52 : ℤ)) = (((2 : ℤ) ^ 52 : ℤ) : ℚ) := by norm_num
    rw [e, roundHalfEven_intCast] at this
    exact this
  · have := roundHalfEven_mono _ _ h2.le
    have e : ((2 : ℚ) ^ (53 : ℤ)) = (((2 : ℤ) ^ 53 : ℤ) : ℚ) := by norm_num
    rw [e, roundHalfEven_intCast] at this
    exact this

theorem float64_bounds (x : ℚ) (hx : 0 < x) :
    (2 : ℚ) ^ (Int.log 2 x) ≤ float64 x ∧ float64 x ≤ (2 : ℚ) ^ (Int.log 2 x + 1) := by
  obtain ⟨h1, h2⟩ := rounded_bounds x hx
  have hpos : (0 : ℚ) < (2 : ℚ) ^ (52 - Int.log 2 x) := zpow_pos (by norm_num) _
  unfold float64
  rw [if_neg (not_le.mpr hx)]
  constructor
  · rw [le_div_iff₀ hpos, ← zpow_add₀ (by norm_num : (2 : ℚ) ≠ 0)]
    have e : Int.log 2 x + (52 - Int.log 2 x) = 52 := by omega
    rw [e]
    have : ((2 : ℚ) ^ (52 : ℤ)) = (((2 : ℤ) ^ 52 : ℤ) : ℚ) := by norm_num
    rw [this]
    exact_mod_cast h1
  · rw [div_le_iff₀ hpos, ← zpow_add₀ (by norm_num : (2 : ℚ) ≠ 0)]
    have e : Int.log 2 x + 1 + (52 - Int.log 2 x) = 53 := by omega
    rw [e]
    have : ((2 : ℚ) ^ (53 : ℤ)) = (((2 : ℤ) ^ 53 : ℤ) : ℚ) := by norm_num
    rw [this]
    exact_mod_cast h2

theorem float64_nonneg (x : ℚ) : 0 ≤ float64 x := by
  by_cases hx : x ≤ 0
  · unfold float64
    rw [if_pos hx]
  · exact le_trans (zpow_pos (by norm_num) _).le (float64_bounds x (not_le.mp hx)).1

theorem float64_mono (x y : ℚ) (h : x ≤ y) : float64 x ≤ float64 y := by
  by_cases hx : x ≤ 0
  · have : float64 x = 0 := by
      unfold float64
      rw [if_pos hx]
    rw [this]
    exact float64_nonneg y
  · have hx0 : 0 < x := not_le.mp hx
    have hy0 : 0 < y := lt_of_lt_of_le hx0 h
    have hlog : Int.log 2 x ≤ Int.log 2 y := Int.log_mono_right hx0 h
    rcases lt_or_eq_of_le hlog with hlt | heq
    · refine le_trans (float64_bounds x hx0).2 (le_trans ?_ (float64_bounds y hy0).1)
      exact zpow_le_zpow_right₀ (by norm_num) (by omega)
    · have hpos : (0 : ℚ) < (2 : ℚ) ^ (52 - Int.log 2 y) := zpow_pos (by norm_num) _
      unfold float64
      rw [if_neg hx, if_neg (not_le.mpr hy0), heq]
      apply div_le_div_of_nonneg_right _ hpos.le
      exact_mod_cast roundHalfEven_mono _ _ (mul_le_mul_of_nonneg_right h hpos.le)

theorem float64_zero : float64 0 = 0 := by
  unfold float64
  rw [if_pos (le_refl 0)]

theorem float64_one : float64 1 = 1 := by
  unfold float64
  rw [if_neg (by norm_num), Int.log_one_right]
  have e : (1 : ℚ) * (2 : ℚ) ^ ((52 : ℤ) - 0) = (((2 : ℤ) ^ 52 : ℤ) : ℚ) := by norm_num
  rw [e, roundHalfEven_intCast]
  norm_num

/-! ## The loop of `SetDockerImages` -/

theorem ensureSteps_ok (env : Env) (svc : Service) (total : Nat) (steps : List Step) (i : Nat)
    (progress : List ProgressArg) (ensured : List String)
    (h : ∀ s ∈ steps, svc.imageCache s.Container = none) :
    ensureSteps env svc total steps i progress ensured =
      ⟨none, progress ++ (List.range steps.length).map
          (fun j => ProgressArg.quotient (i + j) total),
        ensured ++ steps.map (fun s => s.Container)⟩ := by
  induction steps generalizing i progress ensured with
  | nil => simp [ensureSteps]
  | cons s steps ih =>
    unfold ensureSteps
    rw [h s (List.mem_cons_self _ _)]
    simp only
    rw [ih _ _ _ (fun x hx => h x (List.mem_cons_of_mem _ hx))]
    rw [List.length_cons, List.range_succ_eq_map, List.map_cons, List.map_map]
    simp only [List.append_assoc, List.singleton_append, List.map_cons, Nat.add_zero,
      ImagesResult.mk.injEq, true_and, List.append_cancel_left_eq, List.cons.injEq]
    refine ⟨?_, trivial⟩
    apply List.map_congr_left
    intro j _
    simp only [Function.comp]
    congr 1
    omega

theorem ensureSteps_fail (env : Env) (svc : Service) (total : Nat) (pre post : List Step)
    (s : Step) (e : Error) (i : Nat) (progress : List ProgressArg) (ensured : List String)
    (h : ∀ x ∈ pre, svc.imageCache x.Container = none)
    (hs : svc.imageCache s.Container = some e) :
    ensureSteps env svc total (pre ++ s :: post) i progress ensured =
      ⟨some (Error.wrapf e ("pulling image " ++ env.quote s.Container)),
        progress ++ (List.range pre.length).map (fun j => ProgressArg.quotient (i + j) total),
        ensured ++ pre.map (fun x => x.Container) ++ [s.Container]⟩ := by
  induction pre generalizing i progress ensured with
  | nil =>
    rw [List.nil_append]
    unfold ensureSteps
    rw [hs]
    simp
  | cons x pre ih =>
    rw [List.cons_append]
    unfold ensureSteps
    rw [h x (List.mem_cons_self _ _)]
    simp only
    rw [ih _ _ _ (fun y hy => h y (List.mem_cons_of_mem _ hy))]
    rw [List.length_cons, List.range_succ_eq_map, List.map_cons, List.map_map]
    simp only [List.append_assoc, List.singleton_append, List.map_cons, Nat.add_zero,
      ImagesResult.mk.injEq, true_and, List.append_cancel_left_eq, List.cons.injEq,
      List.cons_append, and_true]
    refine ⟨?_, by simp⟩
    rw [List.nil_append]
    apply List.map_congr_left
    intro j _
    simp only [Function.comp]
    congr 1
    omega

theorem steps_ok_or_fail (svc : Service) (steps : List Step) :
    (∀ s ∈ steps, svc.imageCache s.Container = none) ∨
      ∃ pre s post e, steps = pre ++ s :: post ∧
        (∀ x ∈ pre, svc.imageCache x.Container = none) ∧ svc.imageCache s.Container = some e := by
  induction steps with
  | nil => exact Or.inl (by simp)
  | cons s steps ih =>
    cases hs : svc.imageCache s.Container with
    | some e => exact Or.inr ⟨[], s, steps, e, rfl, by simp, hs⟩
    | none =>
      rcases ih with h | ⟨pre, x, post, e, h1, h2, h3⟩
      · left
        intro y hy
        rcases List.mem_cons.mp hy with h4 | h4
        · rw [h4]
          exact hs
        · exact h y h4
      · right
        refine ⟨s :: pre, x, post, e, by rw [h1]; rfl, ?_, h3⟩
        intro y hy
        rcases List.mem_cons.mp hy with h4 | h4
        · rw [h4]
          exact hs
        · exact h2 y h4

theorem quotients_zero (total k : Nat) :
    (List.range k).map (fun j => ProgressArg.quotient (0 + j) total) =
      (List.range k).map (fun j => ProgressArg.quotient j total) := by
  apply List.map_congr_left
  intro j _
  rw [Nat.zero_add]

/-- What `SetDockerImages` does, by the first image that cannot be ensured. -/
theorem setDockerImages_cases (env : Env) (svc : Service) (spec : CampaignSpec) :
    (∃ pre s post e, spec.Steps = pre ++ s :: post ∧
        (∀ x ∈ pre, svc.imageCache x.Container = none) ∧
        svc.imageCache s.Container = some e ∧
        SetDockerImages env svc spec =
          ⟨some (Error.wrapf e ("pulling image " ++ env.quote s.Container)),
            ProgressArg.zero :: (List.range pre.length).map
              (fun j => ProgressArg.quotient j (spec.Steps.length + 1)),
            pre.map (fun x => x.Container) ++ [s.Container]⟩) ∨
    ((∀ x ∈ spec.Steps, svc.imageCache x.Container = none) ∧
      ((∃ e, svc.workspaceCreatorType spec.Steps = workspaceCreatorType.workspaceCreatorVolume ∧
          svc.imageCache svc.dockerVolumeWorkspaceImage = some e ∧
          SetDockerImages env svc spec =
            ⟨some (Error.wrapf e ("pulling image " ++ env.quote svc.dockerVolumeWorkspaceImage)),
              ProgressArg.zero :: (List.range spec.Steps.length).map
                (fun j => ProgressArg.quotient j (spec.Steps.length + 1)),
              spec.Steps.map (fun x => x.Container) ++ [svc.dockerVolumeWorkspaceImage]⟩) ∨
        (svc.workspaceCreatorType spec.Steps = workspaceCreatorType.workspaceCreatorVolume ∧
          svc.imageCache svc.dockerVolumeWorkspaceImage = none ∧
          SetDockerImages env svc spec =
            ⟨none,
              ProgressArg.zero :: (List.range spec.Steps.length).map
                (fun j => ProgressArg.quotient j (spec.Steps.length + 1)) ++ [ProgressArg.one],
              spec.Steps.map (fun x => x.Container) ++ [svc.dockerVolumeWorkspaceImage]⟩) ∨
        (svc.workspaceCreatorType spec.Steps ≠ workspaceCreatorType.workspaceCreatorVolume ∧
          SetDockerImages env svc spec =
            ⟨none,
              ProgressArg.zero :: (List.range spec.Steps.length).map
                (fun j => ProgressArg.quotient j (spec.Steps.length + 1)) ++ [ProgressArg.one],
              spec.Steps.map (fun x => x.Container)⟩))) := by
  rcases steps_ok_or_fail svc spec.Steps with h | ⟨pre, s, post, e, h1, h2, h3⟩
  · right
    refine ⟨h, ?_⟩
    have hloop := ensureSteps_ok env svc (spec.Steps.length + 1) spec.Steps 0 [ProgressArg.zero] [] h
    rw [quotients_zero] at hloop
    by_cases hv : svc.workspaceCreatorType spec.Steps = workspaceCreatorType.workspaceCreatorVolume
    · cases hu : svc.imageCache svc.dockerVolumeWorkspaceImage with
      | some e =>
        left
        refine ⟨e, hv, rfl, ?_⟩
        unfold SetDockerImages
        simp only [hloop, hv, hu, if_true, List.nil_append, List.singleton_append]
      | none =>
        right
        left
        refine ⟨hv, rfl, ?_⟩
        unfold SetDockerImages
        simp only [hloop, hv, hu, if_true, List.nil_append, List.singleton_append,
          List.cons_append]
    · right
      right
      refine ⟨hv, ?_⟩
      unfold SetDockerImages
      simp only [hloop, hv, if_false, List.nil_append, List.singleton_append, List.cons_append]
  · left
    refine ⟨pre, s, post, e, h1, h2, h3, ?_⟩
    have hloop := ensureSteps_fail env svc (spec.Steps.length + 1) pre post s e 0 [ProgressArg.zero] [] h2 h3
    rw [quotients_zero, ← h1] at hloop
    unfold SetDockerImages
    simp only [hloop, List.nil_append, List.singleton_append]

/-! ## The values that `progress` receives -/

theorem float64_exact (x : ℚ) (hx : 0 < x) (m : ℤ)
    (hm : x * (2 : ℚ) ^ (52 - Int.log 2 x) = (m : ℚ)) : float64 x = x := by
  have hpos : (0 : ℚ) < (2 : ℚ) ^ (52 - Int.log 2 x) := zpow_pos (by norm_num) _
  unfold float64
  rw [if_neg (not_le.mpr hx), hm, roundHalfEven_intCast, ← hm]
  field_simp

theorem float64_natCast (n : ℕ) (hn : n ≤ 2 ^ 53) : float64 (n : ℚ) = n := by
  rcases Nat.eq_zero_or_pos n with h0 | hpos
  · rw [h0, Nat.cast_zero, float64_zero]
  · have hx : (0 : ℚ) < (n : ℚ) := by exact_mod_cast hpos
    have hlo : (0 : ℤ) ≤ Int.log 2 (n : ℚ) := by
      rw [← Int.zpow_le_iff_le_log (by norm_num) hx]
      simp only [Nat.cast_ofNat, zpow_zero]
      exact_mod_cast hpos
    have hhi : Int.log 2 (n : ℚ) < 54 := by
      rw [← Int.lt_zpow_iff_log_lt (by norm_num) hx]
      have : (n : ℚ) ≤ 2 ^ 53 := by exact_mod_cast hn
      norm_num
      linarith
    by_cases h53 : Int.log 2 (n : ℚ) = 53
    · have h1 := Int.zpow_log_le_self (b := 2) (by norm_num) hx
      rw [h53] at h1
      have h2 : ((2 : ℕ) : ℚ) ^ (53 : ℤ) = ((2 ^ 53 : ℕ) : ℚ) := by norm_num
      rw [h2] at h1
      have h3 : n = 2 ^ 53 := le_antisymm hn (by exact_mod_cast h1)
      apply float64_exact _ hx (2 ^ 52)
      rw [h53, h3]
      norm_num
    · obtain ⟨k, hk⟩ : ∃ k : ℕ, 52 - Int.log 2 (n : ℚ) = (k : ℤ) :=
        ⟨(52 - Int.log 2 (n : ℚ)).toNat, by omega⟩
      apply float64_exact _ hx ((n * 2 ^ k : ℕ) : ℤ)
      rw [hk, zpow_natCast]
      push_cast
      rfl

theorem float64_below_one : float64 (1 - 1 / 2 ^ 53) = 1 - 1 / 2 ^ 53 := by
  have hx : (0 : ℚ) < 1 - 1 / 2 ^ 53 := by norm_num
  have hlog : Int.log 2 ((1 : ℚ) - 1 / 2 ^ 53) = -1 := by
    apply le_antisymm
    · have : Int.log 2 ((1 : ℚ) - 1 / 2 ^ 53) < 0 := by
        rw [← Int.lt_zpow_iff_log_lt (by norm_num) hx]
        norm_num
      omega
    · rw [← Int.zpow_le_iff_le_log (by norm_num) hx]
      norm_num
  apply float64_exact _ hx (2 ^ 53 - 1)
  rw [hlog]
  norm_num

theorem one_le_float64 (t : ℕ) (ht : 1 ≤ t) : 1 ≤ float64 (t : ℚ) := by
  have := float64_mono 1 (t : ℚ) (by exact_mod_cast ht)
  rw [float64_one] at this
  exact this

theorem value_quotient_mono (i j t : ℕ) (hij : i ≤ j) (ht : 1 ≤ t) :
    (ProgressArg.quotient i t).value ≤ (ProgressArg.quotient j t).value := by
  show float64 (float64 (i : ℚ) / float64 (t : ℚ)) ≤
    float64 (float64 (j : ℚ) / float64 (t : ℚ))
  apply float64_mono
  have hpos : (0 : ℚ) < float64 (t : ℚ) := lt_of_lt_of_le zero_lt_one (one_le_float64 t ht)
  apply div_le_div_of_nonneg_right _ hpos.le
  exact float64_mono _ _ (by exact_mod_cast hij)

theorem value_quotient_bounds (i t : ℕ) (hit : i ≤ t) (ht : 1 ≤ t) :
    0 ≤ (ProgressArg.quotient i t).value ∧ (ProgressArg.quotient i t).value ≤ 1 := by
  refine ⟨float64_nonneg _, ?_⟩
  show float64 (float64 (i : ℚ) / float64 (t : ℚ)) ≤ 1
  rw [← float64_one]
  apply float64_mono
  have hpos : (0 : ℚ) < float64 (t : ℚ) := lt_of_lt_of_le zero_lt_one (one_le_float64 t ht)
  rw [div_le_one hpos]
  exact float64_mono _ _ (by exact_mod_cast hit)

theorem value_quotient_lt_one (i t : ℕ) (hit : i < t) (ht : t ≤ 2 ^ 53) :
    (ProgressArg.quotient i t).value < 1 := by
  have hi : i ≤ 2 ^ 53 := le_trans hit.le ht
  have htpos : (0 : ℚ) < (t : ℚ) := by exact_mod_cast (by omega : 0 < t)
  show float64 (float64 (i : ℚ) / float64 (t : ℚ)) < 1
  rw [float64_natCast i hi, float64_natCast t ht]
  have hle : (i : ℚ) / (t : ℚ) ≤ 1 - 1 / 2 ^ 53 := by
    rw [div_le_iff₀ htpos]
    have h1 : (i : ℚ) + 1 ≤ (t : ℚ) := by exact_mod_cast hit
    have h2 : (t : ℚ) ≤ 2 ^ 53 := by exact_mod_cast ht
    have h3 : (1 - 1 / 2 ^ 53 : ℚ) * (t : ℚ) = (t : ℚ) - (t : ℚ) / 2 ^ 53 := by ring
    rw [h3]
    have h4 : (t : ℚ) / 2 ^ 53 ≤ 1 := by
      rw [div_le_one (by norm_num)]
      exact h2
    linarith
  have := float64_mono _ _ hle
  rw [float64_below_one] at this
  have hlt : (1 : ℚ) - 1 / 2 ^ 53 < 1 := by norm_num
  exact lt_of_le_of_lt this hlt

/-- The values of a run that stops after `k` steps do not decrease and lie between 0 and
1. -/
theorem reported_until (total k : Nat) (hk : k ≤ total) (ht : 1 ≤ total) :
    ((ProgressArg.zero :: (List.range k).map
        (fun j => ProgressArg.quotient j total)).map ProgressArg.value).Pairwise
        (fun a b => a ≤ b) ∧
      (∀ v ∈ (ProgressArg.zero :: (List.range k).map
          (fun j => ProgressArg.quotient j total)).map ProgressArg.value, 0 ≤ v ∧ v ≤ 1) := by
  have hb : ∀ v ∈ ((List.range k).map (fun j => ProgressArg.quotient j total)).map
      ProgressArg.value, 0 ≤ v ∧ v ≤ 1 := by
    intro v hv
    rw [List.map_map] at hv
    obtain ⟨j, hj, rfl⟩ := List.mem_map.mp hv
    have hjk : j < k := List.mem_range.mp hj
    exact value_quotient_bounds j total (by omega) ht
  rw [List.map_cons]
  constructor
  · rw [List.pairwise_cons]
    refine ⟨fun v hv => (hb v hv).1, ?_⟩
    rw [List.map_map, List.pairwise_map]
    refine (List.pairwise_lt_range k).imp ?_
    intro a b hab
    exact value_quotient_mono a b total hab.le ht
  · intro v hv
    rcases List.mem_cons.mp hv with h | h
    · rw [h]
      exact ⟨le_refl _, zero_le_one⟩
    · exact hb v h

/-- The values of a run that reaches the end. -/
theorem reported_all (total k : Nat) (hk : k ≤ total) (ht : 1 ≤ total) :
    ((ProgressArg.zero :: (List.range k).map
          (fun j => ProgressArg.quotient j total) ++ [ProgressArg.one]).map
        ProgressArg.value).Pairwise (fun a b => a ≤ b) ∧
      (∀ v ∈ (ProgressArg.zero :: (List.range k).map
            (fun j => ProgressArg.quotient j total) ++ [ProgressArg.one]).map
          ProgressArg.value, 0 ≤ v ∧ v ≤ 1) := by
  have h := reported_until total k hk ht
  rw [List.map_append]
  constructor
  · rw [List.pairwise_append]
    refine ⟨h.1, List.pairwise_singleton _ _, ?_⟩
    intro a ha b hb
    rw [List.map_singleton, List.mem_singleton] at hb
    rw [hb]
    exact (h.2 a ha).2
  · intro v hv
    rcases List.mem_append.mp hv with h1 | h1
    · exact h.2 v h1
    · rw [List.map_singleton, List.mem_singleton] at h1
      rw [h1]
      exact ⟨zero_le_one, le_refl _⟩

/-! ## C23: the progress that `SetDockerImages` reports -/

/-- C23: the `float64` values that `SetDockerImages` passes to the progress function do not
decrease, every value lies in `[0, 1]`, the first argument is the constant `0`, and when
the call returns nil the arguments are `0`, then `float64(i) / float64(n + 1)` for
`i = 0 .. n - 1`, then `1`, so that the last value is `1`; `n` is the number of steps. -/
theorem setDockerImages_progress (env : Env) (svc : Service) (spec : CampaignSpec) :
    ((SetDockerImages env svc spec).progress.map ProgressArg.value).Pairwise
        (fun a b => a ≤ b) ∧
      (∀ v ∈ (SetDockerImages env svc spec).progress.map ProgressArg.value, 0 ≤ v ∧ v ≤ 1) ∧
      (SetDockerImages env svc spec).progress.head? = some ProgressArg.zero ∧
      ((SetDockerImages env svc spec).progress.map ProgressArg.value).head? = some 0 ∧
      ((SetDockerImages env svc spec).err = none →
        (SetDockerImages env svc spec).progress =
            ProgressArg.zero :: (List.range spec.Steps.length).map
              (fun i => ProgressArg.quotient i (spec.Steps.length + 1)) ++
              [ProgressArg.one] ∧
          ((SetDockerImages env svc spec).progress.map ProgressArg.value).getLast? =
            some 1) := by
  have hall := reported_all (spec.Steps.length + 1) spec.Steps.length (Nat.le_succ _)
    (Nat.le_add_left _ _)
  rcases setDockerImages_cases env svc spec with
    ⟨pre, s, post, e, h1, _, _, hr⟩ | ⟨_, ⟨e, _, _, hr⟩ | ⟨_, _, hr⟩ | ⟨_, hr⟩⟩
  · have hk : pre.length ≤ spec.Steps.length + 1 := by
      rw [h1, List.length_append, List.length_cons]
      omega
    have hpre := reported_until (spec.Steps.length + 1) pre.length hk (Nat.le_add_left _ _)
    rw [hr]
    refine ⟨hpre.1, hpre.2, rfl, rfl, ?_⟩
    intro h
    cases h
  · have hpre := reported_until (spec.Steps.length + 1) spec.Steps.length (Nat.le_succ _)
      (Nat.le_add_left _ _)
    rw [hr]
    refine ⟨hpre.1, hpre.2, rfl, rfl, ?_⟩
    intro h
    cases h
  · rw [hr]
    refine ⟨hall.1, hall.2, rfl, rfl, fun _ => ⟨rfl, ?_⟩⟩
    rw [List.map_append, List.getLast?_append]
    rfl
  · rw [hr]
    refine ⟨hall.1, hall.2, rfl, rfl, fun _ => ⟨rfl, ?_⟩⟩
    rw [List.map_append, List.getLast?_append]
    rfl

/-- With the steps `alpine` and `golang` and the volume workspace the call returns nil and
passes `0`, `float64(0) / float64(3)`, `float64(1) / float64(3)` and `1`. -/
theorem setDockerImages_progress_witness :
    (SetDockerImages (Env.basic heapAbCd) serviceVolume specTwoSteps).err = none ∧
      (SetDockerImages (Env.basic heapAbCd) serviceVolume specTwoSteps).progress =
          ProgressArg.zero :: (List.range specTwoSteps.Steps.length).map
            (fun i => ProgressArg.quotient i (specTwoSteps.Steps.length + 1)) ++
            [ProgressArg.one] ∧
      ((SetDockerImages (Env.basic heapAbCd) serviceVolume specTwoSteps).progress.map
        ProgressArg.value).getLast? = some 1 :=
  ⟨by rfl,
    (setDockerImages_progress (Env.basic heapAbCd) serviceVolume specTwoSteps).2.2.2.2
      (by rfl)⟩

/-- The arguments of a run that stops after `k` of `n` steps. -/
theorem stopped_progress (n k : Nat) (hk : k ≤ n) :
    ProgressArg.one ∉ ProgressArg.zero :: (List.range k).map
        (fun j => ProgressArg.quotient j (n + 1)) ∧
      (∀ v ∈ ProgressArg.zero :: (List.range k).map
          (fun j => ProgressArg.quotient j (n + 1)),
        v = ProgressArg.zero ∨ ∃ i, i < n ∧ v = ProgressArg.quotient i (n + 1)) ∧
      (n + 1 ≤ 2 ^ 53 →
        (1 : ℚ) ∉ (ProgressArg.zero :: (List.range k).map
          (fun j => ProgressArg.quotient j (n + 1))).map ProgressArg.value) := by
  have hform : ∀ v ∈ ProgressArg.zero :: (List.range k).map
      (fun j => ProgressArg.quotient j (n + 1)),
      v = ProgressArg.zero ∨ ∃ i, i < n ∧ v = ProgressArg.quotient i (n + 1) := by
    intro v hv
    rcases List.mem_cons.mp hv with h | h
    · exact Or.inl h
    · obtain ⟨j, hj, rfl⟩ := List.mem_map.mp h
      exact Or.inr ⟨j, by have := List.mem_range.mp hj; omega, rfl⟩
  refine ⟨?_, hform, ?_⟩
  · intro h
    rcases hform _ h with h1 | ⟨i, _, h1⟩
    · cases h1
    · cases h1
  · intro hn h
    obtain ⟨v, hv, hv1⟩ := List.mem_map.mp h
    rcases hform v hv with h1 | ⟨i, hi, h1⟩
    · rw [h1] at hv1
      exact zero_ne_one hv1
    · rw [h1] at hv1
      have := value_quotient_lt_one i (n + 1) (by omega) hn
      rw [hv1] at this
      exact lt_irrefl 1 this

/-! ## C24: a failing image -/

/-- C24: if the image of a step cannot be ensured, and the images of the steps before it
can, `SetDockerImages` returns the failure wrapped in `pulling image` with the quoted name
of the container, calls `Ensure` on the images up to the failing one and on no other, and
does not report `1`; the same holds for the utility image of the volume workspace after
all steps; when the call returns an error it never passes the constant `1`, every argument
that it passes is the constant `0` or a quotient `float64(i) / float64(n + 1)` with `i`
below the number `n` of steps, and for at most `2 ^ 53 - 1` steps no `float64` value that
it passes is 1; and the call returns nil exactly when the image of every step, and the
utility image when the volume workspace is used, was ensured. -/
theorem setDockerImages_failure (env : Env) (svc : Service) (spec : CampaignSpec) :
    (∀ pre s post e, spec.Steps = pre ++ s :: post →
        (∀ x ∈ pre, svc.imageCache x.Container = none) →
        svc.imageCache s.Container = some e →
        (SetDockerImages env svc spec).err =
            some (Error.wrapf e ("pulling image " ++ env.quote s.Container)) ∧
          (SetDockerImages env svc spec).ensured =
            pre.map (fun x => x.Container) ++ [s.Container] ∧
          ProgressArg.one ∉ (SetDockerImages env svc spec).progress) ∧
      (∀ e, (∀ x ∈ spec.Steps, svc.imageCache x.Container = none) →
        svc.workspaceCreatorType spec.Steps = workspaceCreatorType.workspaceCreatorVolume →
        svc.imageCache svc.dockerVolumeWorkspaceImage = some e →
        (SetDockerImages env svc spec).err =
            some (Error.wrapf e
              ("pulling image " ++ env.quote svc.dockerVolumeWorkspaceImage)) ∧
          (SetDockerImages env svc spec).ensured =
            spec.Steps.map (fun x => x.Container) ++ [svc.dockerVolumeWorkspaceImage] ∧
          ProgressArg.one ∉ (SetDockerImages env svc spec).progress) ∧
      ((SetDockerImages env svc spec).err ≠ none →
        ProgressArg.one ∉ (SetDockerImages env svc spec).progress ∧
          (∀ v ∈ (SetDockerImages env svc spec).progress, v = ProgressArg.zero ∨
            ∃ i, i < spec.Steps.length ∧
              v = ProgressArg.quotient i (spec.Steps.length + 1)) ∧
          (spec.Steps.length + 1 ≤ 2 ^ 53 →
            (1 : ℚ) ∉ (SetDockerImages env svc spec).progress.map ProgressArg.value)) ∧
      ((SetDockerImages env svc spec).err = none ↔
        (∀ x ∈ spec.Steps, svc.imageCache x.Container = none) ∧
          (svc.workspaceCreatorType spec.Steps = workspaceCreatorType.workspaceCreatorVolume →
            svc.imageCache svc.dockerVolumeWorkspaceImage = none)) := by
  have hno := stopped_progress spec.Steps.length
  have hfirst : ∀ pre s post pre1 s1 post1 e1, spec.Steps = pre ++ s :: post →
      (∀ x ∈ pre, svc.imageCache x.Container = none) → svc.imageCache s.Container ≠ none →
      spec.Steps = pre1 ++ s1 :: post1 →
      (∀ x ∈ pre1, svc.imageCache x.Container = none) →
      svc.imageCache s1.Container = some e1 →
      pre = pre1 ∧ s = s1 := by
    intro pre s post pre1 s1 post1 e1 h1 h2 h3 h4 h5 h6
    rw [h1] at h4
    clear h1
    induction pre generalizing pre1 with
    | nil =>
      cases pre1 with
      | nil =>
        simp only [List.nil_append, List.cons.injEq] at h4
        exact ⟨rfl, h4.1⟩
      | cons y pre1 =>
        simp only [List.nil_append, List.cons_append, List.cons.injEq] at h4
        exact absurd (h5 y (List.mem_cons_self _ _)) (h4.1 ▸ h3)
    | cons x pre ih =>
      cases pre1 with
      | nil =>
        simp only [List.nil_append, List.cons_append, List.cons.injEq] at h4
        have hx := h2 x (List.mem_cons_self _ _)
        rw [h4.1, h6] at hx
        cases hx
      | cons y pre1 =>
        simp only [List.cons_append, List.cons.injEq] at h4
        have := ih pre1 (fun z hz => h2 z (List.mem_cons_of_mem _ hz)) h4.2
          (fun z hz => h5 z (List.mem_cons_of_mem _ hz))
        exact ⟨by rw [h4.1, this.1], this.2⟩
  rcases setDockerImages_cases env svc spec with
    ⟨pre, s, post, e, h1, h2, h3, hr⟩ | ⟨hok, ⟨e, hv, hu, hr⟩ | ⟨hv, hu, hr⟩ | ⟨hv, hr⟩⟩
  · have hk : pre.length ≤ spec.Steps.length := by
      rw [h1, List.length_append, List.length_cons]
      omega
    have hbad : ¬ ∀ x ∈ spec.Steps, svc.imageCache x.Container = none := by
      intro h
      have := h s (by rw [h1]; simp)
      rw [h3] at this
      cases this
    refine ⟨?_, fun _ h => absurd h hbad, ?_, ?_⟩
    · intro pre1 s1 post1 e1 g1 g2 g3
      have hsame := hfirst pre s post pre1 s1 post1 e1 h1 h2 (by rw [h3]; simp) g1 g2 g3
      have he : e = e1 := by
        have := h3
        rw [hsame.2, g3] at this
        exact (Option.some.inj this).symm
      rw [hr, ← hsame.1, ← hsame.2, he]
      exact ⟨rfl, rfl, (hno pre.length hk).1⟩
    · intro _
      rw [hr]
      exact hno pre.length hk
    · rw [hr]
      constructor
      · intro h
        cases h
      · intro h
        exact absurd h.1 hbad
  · have hstep : ∀ pre s post e, spec.Steps = pre ++ s :: post →
        svc.imageCache s.Container = some e → False := by
      intro pre s post e1 g1 g3
      have := hok s (by rw [g1]; simp)
      rw [g3] at this
      cases this
    refine ⟨fun pre s post e1 g1 _ g3 => (hstep pre s post e1 g1 g3).elim, ?_, ?_, ?_⟩
    · intro e1 _ _ g3
      have he : e = e1 := by
        rw [hu] at g3
        exact Option.some.inj g3
      rw [hr, he]
      exact ⟨rfl, rfl, (hno _ (le_refl _)).1⟩
    · intro _
      rw [hr]
      exact hno _ (le_refl _)
    · rw [hr]
      constructor
      · intro h
        cases h
      · intro h
        have := h.2 hv
        rw [hu] at this
        cases this
  · have hstep : ∀ pre s post e, spec.Steps = pre ++ s :: post →
        svc.imageCache s.Container = some e → False := by
      intro pre s post e1 g1 g3
      have := hok s (by rw [g1]; simp)
      rw [g3] at this
      cases this
    refine ⟨fun pre s post e1 g1 _ g3 => (hstep pre s post e1 g1 g3).elim, ?_, ?_, ?_⟩
    · intro e1 _ _ g3
      rw [hu] at g3
      cases g3
    · intro h
      rw [hr] at h
      exact absurd rfl h
    · rw [hr]
      exact ⟨fun _ => ⟨hok, fun _ => hu⟩, fun _ => rfl⟩
  · have hstep : ∀ pre s post e, spec.Steps = pre ++ s :: post →
        svc.imageCache s.Container = some e → False := by
      intro pre s post e1 g1 g3
      have := hok s (by rw [g1]; simp)
      rw [g3] at this
      cases this
    refine ⟨fun pre s post e1 g1 _ g3 => (hstep pre s post e1 g1 g3).elim, ?_, ?_, ?_⟩
    · intro e1 _ g2 _
      exact absurd g2 hv
    · intro h
      rw [hr] at h
      exact absurd rfl h
    · rw [hr]
      exact ⟨fun _ => ⟨hok, fun h => absurd h hv⟩, fun _ => rfl⟩

/-- With the steps `alpine`, `broken` and `golang` the call returns the wrapped failure of
`broken`, ensures `alpine` and `broken` only, and does not report `1`. -/
theorem setDockerImages_failure_witness :
    (SetDockerImages (Env.basic heapAbCd) serviceVolume specBrokenStep).err =
        some (Error.wrapf (Error.mk "pull failed") "pulling image \"broken\"") ∧
      (SetDockerImages (Env.basic heapAbCd) serviceVolume specBrokenStep).ensured =
        ["alpine", "broken"] ∧
      ProgressArg.one ∉
        (SetDockerImages (Env.basic heapAbCd) serviceVolume specBrokenStep).progress :=
  (setDockerImages_failure (Env.basic heapAbCd) serviceVolume specBrokenStep).1
    [⟨"alpine"⟩] ⟨"broken"⟩ [⟨"golang"⟩] (Error.mk "pull failed") rfl
    (by decide) (by rfl)

end Campaigns
